import Mathlib

/-!
# MapReduce framework (Ex3/MapReduceFramework.cpp): shallow embedding

The embedding follows the source function by function.

* A `std::vector` is a `List` in index order: `back()` is `getLast?`,
  `pop_back()` is `dropLast`, `push_back x` is `l ++ [x]`.
* `std::atomic<uint64_t>` is a `Nat` kept below `2 ^ 64`; `std::atomic<int>` and `int`
  are an `Int` kept in the two's complement range by `toInt32`.
* The worker threads are interleaved at the granularity of their accesses to shared
  state: `stepThread i` performs the next atomic action of worker `i`.
* The percentage, a `float` in the source, is the exact rational it rounds.
-/

namespace MapReduce

/-! ## Constants and machine integers -/

/-- Source line 9: `constexpr uint64_t STAGE_SHIFT = 62`. -/
def STAGE_SHIFT : Nat := 62

/-- Source line 10: `constexpr uint64_t PROGRESS_MASK = 0x7FFFFFFF`. -/
def PROGRESS_MASK : Nat := 0x7FFFFFFF

/-- Source line 11: `constexpr uint64_t TOTAL_SHIFT = 31`. -/
def TOTAL_SHIFT : Nat := 31

/-- Modelled from the spec: the enumerator `UNDEFINED_STAGE` of `stage_t`, declared in
MapReduceFramework.h; the spec lists the phases Undefined (Idle), Map, Shuffle, Reduce. -/
def UNDEFINED_STAGE : Nat := 0

/-- Modelled from the spec: the enumerator `MAP_STAGE` of `stage_t` (second phase). -/
def MAP_STAGE : Nat := 1

/-- Modelled from the spec: the enumerator `SHUFFLE_STAGE` of `stage_t` (third phase). -/
def SHUFFLE_STAGE : Nat := 2

/-- Modelled from the spec: the enumerator `REDUCE_STAGE` of `stage_t` (fourth phase). -/
def REDUCE_STAGE : Nat := 3

/-- Conversion of an integer value to the 32-bit `int` (two's complement wrap). -/
def toInt32 (x : Int) : Int := (x + 2 ^ 31) % 2 ^ 32 - 2 ^ 31

/-- Conversion of an integer value to `uint64_t` (value modulo `2 ^ 64`). -/
def toUInt64 (x : Int) : Nat := (x % 2 ^ 64).toNat

/-- The `++` of `std::atomic<uint64_t>`. -/
def incr64 (w : Nat) : Nat := (w + 1) % 2 ^ 64

/-! ## Data model -/

/-- The client: `map` gives the pairs one map call hands to `emit2`, in order; `reduce`
gives the pairs one reduce call hands to `emit3`, in order; `lt` is `K2::operator<`. -/
structure MapReduceClient (I K V O : Type) where
  map : I → List (K × V)
  reduce : List (K × V) → List O
  lt : K → K → Bool

/-- A read-only `InputVec`: its `size()` and the element `at(i)` for `i < size`. -/
structure InputVec (I : Type) where
  size : Nat
  elem : Nat → I

/-- Reasons for which the process stops making progress. -/
inductive Fault
  | outOfRange
  | backOfEmpty
  | badIndex
  | outOfFuel
  | joinFailed
  deriving DecidableEq

/-- Control location of one worker inside `runSingleThread`. -/
inductive Pc (O : Type)
  | start
  | fetch
  | mapped (num : Nat)
  | barrier1
  | barrier2
  | reduceLoop
  | emitting (pending : List O)
  | done
  | stuck
  deriving DecidableEq

/-- The source's `struct Thread`: the buffer and the id, plus the control location. -/
structure Thread (K V O : Type) where
  intermediateVec : List (K × V)
  threadId : Nat
  pc : Pc O

/-- The source's `struct JobContext`. The fields after `waitFlag` are not in the source:
`stdSort` is the library's `std::sort` at `comparePairs`, the others record what
happened (every value the progress word held, every map call as (worker, index), every
reduce call as (worker, group), every join, and a fault that stopped the process). -/
structure JobContext (I K V O : Type) where
  client : MapReduceClient I K V O
  threadsArray : List (Thread K V O)
  inputVector : InputVec I
  intermediateVectors : List (List (K × V))
  outputVector : List O
  stateCounter : Nat
  inputCounter : Int
  intermediateCounter : Int
  outputCounter : Int
  threadsNumber : Nat
  waitFlag : Bool
  stdSort : List (K × V) → List (K × V)
  history : List Nat
  mapLog : List (Nat × Nat)
  reduceLog : List (Nat × List (K × V))
  joinLog : List Nat
  fault : Option Fault

/-- The source's `JobState`: the stage and the percentage. -/
structure JobState where
  stage : Nat
  percentage : ℚ
  deriving DecidableEq

variable {I K V O : Type}

/-! ## Progress word -/

/-- Writes `w` to `stateCounter` and records it. -/
def JobContext.storeState (job : JobContext I K V O) (w : Nat) : JobContext I K V O :=
  { job with stateCounter := w, history := job.history ++ [w] }

/-- Source lines 126-138, on the loaded word: stage, completed, total, percentage. -/
def decodeState (value : Nat) : JobState :=
  let stage := value >>> STAGE_SHIFT
  let stateProgress := value &&& PROGRESS_MASK
  let totalProgress := (value >>> TOTAL_SHIFT) &&& PROGRESS_MASK
  if totalProgress != 0 then
    { stage := stage, percentage := (stateProgress : ℚ) / (totalProgress : ℚ) * 100 }
  else
    { stage := stage, percentage := 0 }

/-- Source lines 126-138: `getJobState` loads the word and decodes it. -/
def getJobState (job : JobContext I K V O) : JobState :=
  decodeState job.stateCounter

/-- The completed field of a word, `value & PROGRESS_MASK`. -/
def stateProgress (value : Nat) : Nat := value &&& PROGRESS_MASK

/-- The total field of a word, `(value >> TOTAL_SHIFT) & PROGRESS_MASK`. -/
def totalProgress (value : Nat) : Nat := (value >>> TOTAL_SHIFT) &&& PROGRESS_MASK

/-- The stage field of a word, `value >> STAGE_SHIFT`. -/
def stageOf (value : Nat) : Nat := value >>> STAGE_SHIFT

/-- Source line 54: `(long)inputVec.size()<<31`, stored in the `uint64_t` word. -/
def initialWord (size : Nat) : Nat := toUInt64 ((size : Int) * 2 ^ 31)

/-- Source lines 263-264: `intermediateCounter->load()<<31 | ((uint64_t) SHUFFLE_STAGE<<62)`.
The left operand is an `int` shifted as an `int`, then converted to `uint64_t`. -/
def shuffleWord (intermediateCounter : Int) : Nat :=
  toUInt64 (toInt32 (intermediateCounter * 2 ^ 31)) ||| (SHUFFLE_STAGE <<< 62)

/-- Source lines 266-267: `intermediateVectors->size()<<31 | (uint64_t) REDUCE_STAGE<<62`.
The left operand is a `size_t`. -/
def reduceWord (groups : Nat) : Nat :=
  ((groups <<< 31) % 2 ^ 64) ||| (REDUCE_STAGE <<< 62)

/-- Source line 192: `stateCounter |= ((long)MAP_STAGE << 62)`. -/
def mapWord (w : Nat) : Nat := w ||| (MAP_STAGE <<< 62)

/-! ## Access to the worker array -/

/-- The element `job->threadsArray[i]`. -/
def JobContext.thread (job : JobContext I K V O) (i : Nat) : Thread K V O :=
  job.threadsArray.getD i { intermediateVec := [], threadId := i, pc := Pc.done }

/-- Assignment to `job->threadsArray[i]`. -/
def JobContext.setThread (job : JobContext I K V O) (i : Nat) (t : Thread K V O) :
    JobContext I K V O :=
  { job with threadsArray := job.threadsArray.set i t }

/-- The buffer `*job->threadsArray[i].intermediateVec`. -/
def JobContext.vec (job : JobContext I K V O) (i : Nat) : List (K × V) :=
  (job.thread i).intermediateVec

/-- Replaces the buffer of worker `i`. -/
def JobContext.setVec (job : JobContext I K V O) (i : Nat) (v : List (K × V)) :
    JobContext I K V O :=
  job.setThread i { job.thread i with intermediateVec := v }

/-- Moves worker `i` to another control location. -/
def JobContext.setPc (job : JobContext I K V O) (i : Nat) (pc : Pc O) : JobContext I K V O :=
  job.setThread i { job.thread i with pc := pc }

/-- Records a fault: the process makes no further step. -/
def JobContext.fail (job : JobContext I K V O) (f : Fault) : JobContext I K V O :=
  { job with fault := some f }

/-! ## Emission and comparison -/

/-- Source lines 164-168: `emit2` appends to the calling worker's buffer and counts. -/
def emit2 (kv : K × V) (i : Nat) (job : JobContext I K V O) : JobContext I K V O :=
  { job.setVec i (job.vec i ++ [kv]) with
    intermediateCounter := toInt32 (job.intermediateCounter + 1) }

/-- Source lines 170-179: `emit3` appends to the output vector and counts. -/
def emit3 (o : O) (job : JobContext I K V O) : JobContext I K V O :=
  { job with outputVector := job.outputVector ++ [o],
             outputCounter := toInt32 (job.outputCounter + 1) }

/-- Source lines 181-183: `comparePairs` compares the keys. -/
def comparePairs (client : MapReduceClient I K V O) (lhs rhs : K × V) : Bool :=
  client.lt lhs.1 rhs.1

/-! ## Shuffle -/

/-- Source lines 203-209: `updateIntermediates` appends the indices of the non-empty
buffers to `hasData`. -/
def updateIntermediates (job : JobContext I K V O) (hasData : List Nat) : List Nat :=
  (List.range job.threadsNumber).foldl
    (fun hd i => if !(job.vec i).isEmpty then hd ++ [i] else hd) hasData

/-- The `for` loop of `getMaxKey` (source lines 213-217). -/
def getMaxKeyLoop (job : JobContext I K V O) : List Nat → K → Except Fault K
  | [], maxKey => Except.ok maxKey
  | i :: rest, maxKey =>
    match (job.vec i).getLast? with
    | none => Except.error Fault.backOfEmpty
    | some p => getMaxKeyLoop job rest (if job.client.lt maxKey p.1 then p.1 else maxKey)

/-- Source lines 211-219: `getMaxKey`. -/
def getMaxKey (job : JobContext I K V O) (hasData : List Nat) : Except Fault K :=
  match hasData[0]? with
  | none => Except.error Fault.badIndex
  | some i0 =>
    match (job.vec i0).getLast? with
    | none => Except.error Fault.backOfEmpty
    | some p0 => getMaxKeyLoop job hasData p0.1

/-- The locals of `updatePairs` next to the job: the group being filled (the caller's
`intermediateVectors`) and `indicesToRemove`. -/
structure MergeState (I K V O : Type) where
  job : JobContext I K V O
  intermediateVectors : List (K × V)
  indicesToRemove : List Nat

/-- The `while` loop of `updatePairs` for worker `i` (source lines 225-233). -/
def updatePairsWhile (optional : K) (i : Nat) :
    Nat → MergeState I K V O → MergeState I K V O
  | 0, m => { m with job := m.job.fail Fault.outOfFuel }
  | fuel + 1, m =>
    match (m.job.vec i).getLast? with
    | none => { m with job := m.job.fail Fault.backOfEmpty }
    | some p =>
      if !(m.job.client.lt p.1 optional) then
        let job1 := (m.job.setVec i (m.job.vec i).dropLast).storeState
          (incr64 m.job.stateCounter)
        let m1 : MergeState I K V O :=
          { job := job1, intermediateVectors := m.intermediateVectors ++ [p],
            indicesToRemove := m.indicesToRemove }
        if (job1.vec i).isEmpty then
          { m1 with indicesToRemove := m1.indicesToRemove ++ [i] }
        else updatePairsWhile optional i fuel m1
      else m

/-- The first `for` loop of `updatePairs` (source lines 224-234). -/
def updatePairsFor (optional : K) : List Nat → MergeState I K V O → MergeState I K V O
  | [], m => m
  | i :: rest, m =>
    let m1 := updatePairsWhile optional i ((m.job.vec i).length + 1) m
    if m1.job.fault.isSome then m1 else updatePairsFor optional rest m1

/-- The second `for` loop of `updatePairs` (source lines 236-241): `std::find` and
`erase` of the first occurrence. -/
def eraseIndices : List Nat → List Nat → List Nat
  | [], hasData => hasData
  | i :: rest, hasData => eraseIndices rest (hasData.erase i)

/-- Source lines 221-242: `updatePairs`; the result holds the job, the group and, in
`indicesToRemove`, the updated `hasData`. -/
def updatePairs (job : JobContext I K V O) (optional : K) (hasData : List Nat)
    (intermediateVectors : List (K × V)) : MergeState I K V O :=
  let m := updatePairsFor optional hasData
    { job := job, intermediateVectors := intermediateVectors, indicesToRemove := [] }
  { m with indicesToRemove := eraseIndices m.indicesToRemove hasData }

/-- The `while` loop of `shuffle` (source lines 250-255). -/
def shuffleLoop : Nat → JobContext I K V O → List Nat → JobContext I K V O
  | 0, job, hasData => if hasData.isEmpty then job else job.fail Fault.outOfFuel
  | fuel + 1, job, hasData =>
    if hasData.isEmpty then job
    else
      match getMaxKey job hasData with
      | Except.error f => job.fail f
      | Except.ok optional =>
        let m := updatePairs job optional hasData []
        if m.job.fault.isSome then m.job
        else
          shuffleLoop fuel
            { m.job with
              intermediateVectors := m.job.intermediateVectors ++ [m.intermediateVectors] }
            m.indicesToRemove

/-- Source lines 244-256: `shuffle`. -/
def shuffle (fuel : Nat) (job : JobContext I K V O) : JobContext I K V O :=
  shuffleLoop fuel job (updateIntermediates job [])

/-! ## Job creation -/

/-- Source lines 83-88: `initializeThreadData`, with the worker at the start of
`runSingleThread`. -/
def initializeThreadData (threadId : Nat) : Thread K V O :=
  { intermediateVec := [], threadId := threadId, pc := Pc.start }

/-- Source lines 41-60: `createJobContext`. `stdSort` is the library sort the job will
use; the worker array gets its `multiThreadLevel` entries as in `createThreads`. -/
def createJobContext (client : MapReduceClient I K V O) (inputVec : InputVec I)
    (outputVec : List O) (multiThreadLevel : Nat)
    (stdSort : List (K × V) → List (K × V)) : JobContext I K V O :=
  { client := client
    threadsArray := (List.range multiThreadLevel).map initializeThreadData
    inputVector := inputVec
    intermediateVectors := []
    outputVector := outputVec
    stateCounter := initialWord inputVec.size
    inputCounter := 0
    intermediateCounter := 0
    outputCounter := 0
    threadsNumber := multiThreadLevel
    waitFlag := false
    stdSort := stdSort
    history := [initialWord inputVec.size]
    mapLog := []
    reduceLog := []
    joinLog := []
    fault := none }

/-- Source lines 102-109: `startMapReduceJob`; every worker is created and has not run. -/
def startMapReduceJob (client : MapReduceClient I K V O) (inputVec : InputVec I)
    (outputVec : List O) (multiThreadLevel : Nat)
    (stdSort : List (K × V) → List (K × V)) : JobContext I K V O :=
  createJobContext client inputVec outputVec multiThreadLevel stdSort

/-! ## The worker routine, one atomic action at a time -/

/-- The worker has called the first `barrier()`. -/
def Pc.arrived1 : Pc O → Bool
  | Pc.start => false
  | Pc.fetch => false
  | Pc.mapped _ => false
  | _ => true

/-- The worker has called the second `barrier()`. -/
def Pc.arrived2 : Pc O → Bool
  | Pc.barrier2 => true
  | Pc.reduceLoop => true
  | Pc.emitting _ => true
  | Pc.done => true
  | _ => false

/-- Modelled from the spec: `Barrier::barrier` (Barrier.h), first use: the call returns
once all participants have arrived. -/
def barrier1Open (job : JobContext I K V O) : Bool :=
  job.threadsArray.all (fun t => t.pc.arrived1)

/-- Modelled from the spec: `Barrier::barrier` (Barrier.h), second use of the same
barrier. -/
def barrier2Open (job : JobContext I K V O) : Bool :=
  job.threadsArray.all (fun t => t.pc.arrived2)

/-- Number of pairs in the workers' buffers. -/
def pendingPairs (job : JobContext I K V O) : Nat :=
  (job.threadsArray.map (fun t => t.intermediateVec.length)).sum

/-- Source line 196: one call of `client->map`, every emitted pair going through `emit2`
of worker `i`. -/
def callMap (i num : Nat) (job : JobContext I K V O) : JobContext I K V O :=
  let job1 := (job.client.map (job.inputVector.elem num)).foldl
    (fun j kv => emit2 kv i j) job
  { job1 with mapLog := job1.mapLog ++ [(i, num)] }

/-- Source lines 193-200: `num = inputCounter++`, the loop test, `inputVector.at(num)`
(which throws when `num`, converted to `size_t`, is not below the size) and, when the
loop ends, `std::sort`. -/
def fetchStep (i : Nat) (job : JobContext I K V O) : JobContext I K V O :=
  let num := job.inputCounter
  let job1 := { job with inputCounter := toInt32 (job.inputCounter + 1) }
  if num < toInt32 (job.inputVector.size : Int) then
    if toUInt64 num < job.inputVector.size then job1.setPc i (Pc.mapped (toUInt64 num))
    else job1.fail Fault.outOfRange
  else (job1.setVec i (job1.stdSort (job1.vec i))).setPc i Pc.barrier1

/-- Source lines 262-268: after the first barrier worker 0 stores the Shuffle word, runs
`shuffle` and stores the Reduce word; the other workers go on to the second barrier. -/
def shuffleStep (i : Nat) (job : JobContext I K V O) : JobContext I K V O :=
  if (job.thread i).threadId == 0 then
    let job1 := job.storeState (shuffleWord job.intermediateCounter)
    let job2 := shuffle (pendingPairs job1 + 1) job1
    if job2.fault.isSome then job2.setPc i Pc.stuck
    else (job2.storeState (reduceWord job2.intermediateVectors.length)).setPc i Pc.barrier2
  else job.setPc i Pc.barrier2

/-- Source lines 271-279: the locked check-and-pop of the Reduce loop, and the call of
`client->reduce` whose emissions are then pending. -/
def popStep (i : Nat) (job : JobContext I K V O) : JobContext I K V O :=
  match job.intermediateVectors.getLast? with
  | none => job.setPc i Pc.done
  | some intermediateVector =>
    { job with intermediateVectors := job.intermediateVectors.dropLast,
               reduceLog := job.reduceLog ++ [(i, intermediateVector)] }.setPc i
      (Pc.emitting (job.client.reduce intermediateVector))

/-- Source lines 258-285: the next atomic action of worker `i` in `runSingleThread`
(with `mapAndSort`, lines 185-201). A blocked or finished worker, a worker that does not
exist and a process that has stopped do nothing. -/
def stepThread (i : Nat) (job : JobContext I K V O) : JobContext I K V O :=
  if job.fault.isSome || decide (job.threadsArray.length ≤ i) then job
  else
    match (job.thread i).pc with
    | Pc.start => (job.storeState (mapWord job.stateCounter)).setPc i Pc.fetch
    | Pc.fetch => fetchStep i job
    | Pc.mapped num =>
      let job1 := callMap i num job
      (job1.storeState (incr64 job1.stateCounter)).setPc i Pc.fetch
    | Pc.barrier1 => if barrier1Open job then shuffleStep i job else job
    | Pc.barrier2 => if barrier2Open job then job.setPc i Pc.reduceLoop else job
    | Pc.reduceLoop => popStep i job
    | Pc.emitting [] => (job.storeState (incr64 job.stateCounter)).setPc i Pc.reduceLoop
    | Pc.emitting (o :: rest) => (emit3 o job).setPc i (Pc.emitting rest)
    | Pc.done => job
    | Pc.stuck => job

/-- Runs the workers in the order given by the schedule. -/
def runSchedule (schedule : List Nat) (job : JobContext I K V O) : JobContext I K V O :=
  schedule.foldl (fun j i => stepThread i j) job

/-- The worker has returned from `runSingleThread`. -/
def Pc.isDone : Pc O → Bool
  | Pc.done => true
  | _ => false

/-- Every worker has returned from `runSingleThread`. -/
def allDone (job : JobContext I K V O) : Bool :=
  job.threadsArray.all (fun t => t.pc.isDone)

/-! ## Waiting -/

/-- The loop of `waitForJob` (source lines 116-122): `joinOk i` tells whether
`pthread_join` of worker `i` returns 0; a failing join ends the process. -/
def joinLoop (joinOk : Nat → Bool) : List Nat → JobContext I K V O → JobContext I K V O
  | [], job => job
  | i :: rest, job =>
    let job1 := { job with joinLog := job.joinLog ++ [i] }
    if joinOk i then joinLoop joinOk rest job1 else job1.fail Fault.joinFailed

/-- Source lines 111-124: `waitForJob`. -/
def waitForJob (joinOk : Nat → Bool) (job : JobContext I K V O) : JobContext I K V O :=
  if job.fault.isSome then job
  else if job.waitFlag then job
  else
    let job1 := joinLoop joinOk (List.range job.threadsNumber) job
    if job1.fault.isSome then job1 else { job1 with waitFlag := true }

/-! ## Example job: the spec's scenario -/

/-- The scenario's client: the identity map, a reduce that counts the pairs of a group,
keys compared as numbers. -/
def countClient : MapReduceClient (Nat × Char) Nat Char (Nat × Nat) :=
  { map := fun p => [(p.1, p.2)]
    reduce := fun g =>
      match g with
      | [] => []
      | p :: _ => [(p.1, g.length)]
    lt := fun a b => decide (a < b) }

/-- The scenario's input `[(1,"a"),(2,"b"),(3,"c")]`. -/
def abcInput : InputVec (Nat × Char) :=
  { size := 3, elem := fun i => [(1, 'a'), (2, 'b'), (3, 'c')].getD i (0, ' ') }

/-- A sort satisfying the contract of `std::sort` at `comparePairs` for numeric keys. -/
def sortByKey (l : List (Nat × Char)) : List (Nat × Char) :=
  l.insertionSort (fun a b => a.1 ≤ b.1)

/-- The scenario's job with three workers, as `startMapReduceJob` returns it. -/
def abcJob : JobContext (Nat × Char) Nat Char (Nat × Nat) :=
  startMapReduceJob countClient abcInput [] 3 sortByKey

/-! ## Notions used to state the properties of shuffle -/

/-- The test of the inner `while` of `updatePairs`: the key of `p` is not less than
`optional`. -/
def notLess (client : MapReduceClient I K V O) (optional : K) (p : K × V) : Bool :=
  !(client.lt p.1 optional)

/-- Two keys are equivalent: neither is less than the other. -/
def equivKeys (lt : K → K → Bool) (a b : K) : Bool := !(lt a b) && !(lt b a)

/-- The key order is a strict weak order, as `std::sort` requires: irreflexive,
transitive, with a transitive equivalence. -/
structure StrictWeakOrder (lt : K → K → Bool) : Prop where
  irrefl : ∀ a, lt a a = false
  trans : ∀ a b c, lt a b = true → lt b c = true → lt a c = true
  equiv_trans : ∀ a b c, equivKeys lt a b = true → equivKeys lt b c = true →
    equivKeys lt a c = true

/-- The postcondition of `std::sort` at `comparePairs`: no pair is less than an earlier
pair (the buffer is ascending by key). -/
def SortedAsc (lt : K → K → Bool) (l : List (K × V)) : Prop :=
  l.Pairwise (fun a b => lt b.1 a.1 = false)

instance (lt : K → K → Bool) (l : List (K × V)) : Decidable (SortedAsc lt l) := by
  unfold SortedAsc
  infer_instance

/-- The workers whose buffer is not empty, in increasing order. -/
def hasDataOf (job : JobContext I K V O) : List Nat :=
  (List.range job.threadsArray.length).filter (fun i => !(job.vec i).isEmpty)

/-- The job after one iteration of the `while` loop of `shuffle` with maximum key
`optional` (source lines 252-254). -/
def afterIteration (job : JobContext I K V O) (optional : K) : JobContext I K V O :=
  let m := updatePairs job optional (hasDataOf job) []
  { m.job with intermediateVectors := m.job.intermediateVectors ++ [m.intermediateVectors] }

/-- All pairs held in the workers' buffers, worker after worker. -/
def bufferedPairs (job : JobContext I K V O) : List (K × V) :=
  ((List.range job.threadsArray.length).map (fun i => job.vec i)).flatten

/-- The group that one iteration with maximum key `optional` builds. -/
def groupOf (job : JobContext I K V O) (optional : K) : List (K × V) :=
  ((List.range job.threadsArray.length).map (fun i =>
    ((job.vec i).rtakeWhile (notLess job.client optional)).reverse)).flatten

/-- A queue of key groups in descending key order: every group is non-empty and holds
equivalent keys only, and every key of a later group is less than every key of an
earlier group. -/
def DescGroups (lt : K → K → Bool) (queue : List (List (K × V))) : Prop :=
  (∀ g ∈ queue, g ≠ []) ∧
  (∀ g ∈ queue, ∀ p ∈ g, ∀ q ∈ g, equivKeys lt p.1 q.1 = true) ∧
  queue.Pairwise (fun g h => ∀ p ∈ g, ∀ q ∈ h, lt q.1 p.1 = true)

/-- The state of the grouping while `shuffle` runs: the buffers are ascending, the queue
is a descending queue of key groups, and every key still buffered is less than every key
of the queue. -/
def GroupsInv (lt : K → K → Bool) (job : JobContext I K V O) : Prop :=
  (∀ i, SortedAsc lt (job.vec i)) ∧
  DescGroups lt job.intermediateVectors ∧
  (∀ g ∈ job.intermediateVectors, ∀ q ∈ g, ∀ i, ∀ p ∈ job.vec i, lt p.1 q.1 = true)

/-- The scenario's job when every worker has mapped one input and sorted its buffer
(worker `i` took input `i`) and waits at the first barrier. -/
def abcMapped : JobContext (Nat × Char) Nat Char (Nat × Nat) :=
  { abcJob with
    threadsArray :=
      [ { intermediateVec := [(1, 'a')], threadId := 0, pc := Pc.barrier1 },
        { intermediateVec := [(2, 'b')], threadId := 1, pc := Pc.barrier1 },
        { intermediateVec := [(3, 'c')], threadId := 2, pc := Pc.barrier1 } ]
    inputCounter := 6
    intermediateCounter := 3
    stateCounter := 2 ^ 62 + 3 * 2 ^ 31 + 3 }

/-- The part of the job that `shuffle` never writes: everything but the buffers, the
queue, the progress word with its history, and the fault. -/
def JobContext.outsideShuffle (job : JobContext I K V O) : JobContext I K V O :=
  { job with
    threadsArray := job.threadsArray.map (fun t => { t with intermediateVec := [] })
    intermediateVectors := []
    stateCounter := 0
    history := []
    fault := none }

/-- The words that `k` increments of the progress word `w` store, in order. -/
def countUp (w : Nat) (k : Nat) : List Nat :=
  (List.range k).map (fun j => incr64^[j + 1] w)

/-! ## Notions used to state the properties of a run -/

/-- The control locations of the workers, in worker order. -/
def pcs (job : JobContext I K V O) : List (Pc O) :=
  job.threadsArray.map (fun t => t.pc)

/-- The input index a worker has fetched and not yet mapped. -/
def Pc.pendingNum : Pc O → Option Nat
  | Pc.mapped num => some num
  | _ => none

/-- The pairs a worker's current reduce call has still to emit. -/
def Pc.pendingOut : Pc O → List O
  | Pc.emitting pending => pending
  | _ => []

/-- The input indices fetched and not yet mapped, over all workers. -/
def pendingNums (job : JobContext I K V O) : List Nat :=
  (pcs job).filterMap Pc.pendingNum

/-- The number of workers that have left the Map loop. -/
def arrivedCount (job : JobContext I K V O) : Nat :=
  (pcs job).countP Pc.arrived1

/-- The number of input indices claimed so far: mapped, or fetched and about to be. -/
def claimedCount (job : JobContext I K V O) : Nat :=
  job.mapLog.length + (pendingNums job).length

/-- The number of inputs the Map loop handles: `static_cast<int>(inputVector.size())`
when that is positive, none otherwise. -/
def mappedBound (size : Nat) : Nat := (toInt32 (size : Int)).toNat

/-- What holds of the input counter and of the map calls at every point of a run with
`N` workers on the input `input`. -/
structure LogInv (input : InputVec I) (N : Nat) (job : JobContext I K V O) : Prop where
  length_eq : job.threadsArray.length = N
  number_eq : job.threadsNumber = N
  ids : ∀ i, i < N → (job.thread i).threadId = i
  input_eq : job.inputVector = input
  claimed : (job.mapLog.map Prod.snd ++ pendingNums job).Perm
    (List.range (claimedCount job))
  bound : claimedCount job ≤ mappedBound input.size
  full : 0 < arrivedCount job → claimedCount job = mappedBound input.size
  counter : job.fault = none →
    job.inputCounter = toInt32 ((claimedCount job : Int) + (arrivedCount job : Int))
  order : ∀ i num, i < N → (job.thread i).pc = Pc.mapped num →
    ∀ e ∈ job.mapLog, e.1 = i → e.2 < num
  sortedLog : ∀ w, ((job.mapLog.filter (fun e => e.1 == w)).map Prod.snd).Pairwise (· < ·)
  workers : ∀ e ∈ job.mapLog, e.1 < N

/-- The part of the job that `emit2` never writes: everything but the buffers and the
pair counter. -/
def JobContext.outsideEmit (job : JobContext I K V O) : JobContext I K V O :=
  { job with
    threadsArray := job.threadsArray.map (fun t => { t with intermediateVec := [] })
    intermediateCounter := 0 }

/-- A bound on the number of steps worker `w` still takes inside the Map loop of a job
with `n` inputs: twice the number of inputs not yet mapped, plus what is left of the
current iteration. -/
def mapPotential (n : Nat) (job : JobContext I K V O) (w : Nat) : Nat :=
  match (job.thread w).pc with
  | Pc.start => 2 * (n - job.mapLog.length) + 3
  | Pc.fetch => 2 * (n - job.mapLog.length) + 2
  | Pc.mapped _ => 2 * (n - job.mapLog.length) + 1
  | _ => 0

/-- An input vector of `2 ^ 31` equal items. -/
def hugeInput : InputVec (Nat × Char) :=
  { size := 2 ^ 31, elem := fun _ => (0, 'a') }

/-- A schedule that lets workers 0, 1, 2 take turns, ten times each. -/
def roundRobin3 : List Nat :=
  [0, 1, 2, 0, 1, 2, 0, 1, 2, 0, 1, 2, 0, 1, 2, 0, 1, 2, 0, 1, 2, 0, 1, 2, 0, 1, 2, 0, 1, 2]

/-- What holds during the Reduce phase of a job with `N` workers that entered it with the
queue `queue0`: nothing has failed, every worker is at or past the second barrier, the
groups popped so far are, last first, the tail of `queue0`, and a worker has returned
only after seeing the queue empty. -/
structure ReduceInv (queue0 : List (List (K × V))) (N : Nat) (job : JobContext I K V O) :
    Prop where
  length_eq : job.threadsArray.length = N
  fault_none : job.fault = none
  arrived : ∀ j, j < N → (job.thread j).pc.arrived2 = true
  popped : queue0 = job.intermediateVectors ++ (job.reduceLog.map Prod.snd).reverse
  workers : ∀ e ∈ job.reduceLog, e.1 < N
  done_empty : ∀ j, j < N → (job.thread j).pc = Pc.done → job.intermediateVectors = []

/-- The scenario's job when worker 0 has shuffled and every worker stands at the second
barrier: the queue holds the three groups in descending key order. -/
def abcShuffled : JobContext (Nat × Char) Nat Char (Nat × Nat) :=
  { abcJob with
    threadsArray :=
      [ { intermediateVec := [], threadId := 0, pc := Pc.barrier2 },
        { intermediateVec := [], threadId := 1, pc := Pc.barrier2 },
        { intermediateVec := [], threadId := 2, pc := Pc.barrier2 } ]
    intermediateVectors := [[(3, 'c')], [(2, 'b')], [(1, 'a')]]
    inputCounter := 6
    intermediateCounter := 3
    stateCounter := 3 * 2 ^ 62 + 3 * 2 ^ 31 }

/-- The contract of `std::sort` at `comparePairs`: the result is a permutation of the
buffer, ascending by key. -/
def SortContract (lt : K → K → Bool) (stdSort : List (K × V) → List (K × V)) : Prop :=
  ∀ l, (stdSort l).Perm l ∧ SortedAsc lt (stdSort l)

/-- The pairs emitted by the map calls of a map log. -/
def emittedBy (client : MapReduceClient I K V O) (input : InputVec I)
    (log : List (Nat × Nat)) : List (K × V) :=
  (log.map (fun e => client.map (input.elem e.2))).flatten

/-- The output pairs emitted by the reduce calls of a reduce log. -/
def reducedOut (client : MapReduceClient I K V O) (log : List (Nat × List (K × V))) :
    List O :=
  (log.map (fun e => client.reduce e.2)).flatten

/-- The output pairs that the reduce calls in progress have still to emit. -/
def pendingOuts (job : JobContext I K V O) : List O :=
  ((pcs job).map Pc.pendingOut).flatten

/-- The worker is in the Map loop, at the first barrier or at the second barrier. -/
def Pc.beforeReduce : Pc O → Bool
  | Pc.start => true
  | Pc.fetch => true
  | Pc.mapped _ => true
  | Pc.barrier1 => true
  | Pc.barrier2 => true
  | _ => false

/-- What holds before worker 0 has shuffled: nothing has failed, no worker is past the
second barrier and worker 0 has not reached it, the queue, the reduce log and the output
are untouched, the buffers hold the pairs emitted by the map calls so far, the library
sort keeps its contract, and the buffer of a worker that has left the Map loop is
ascending. -/
structure MapPhaseInv (client : MapReduceClient I K V O) (input : InputVec I)
    (out0 : List O) (N : Nat) (job : JobContext I K V O) : Prop where
  client_eq : job.client = client
  sort_ok : SortContract client.lt job.stdSort
  fault_none : job.fault = none
  queue_nil : job.intermediateVectors = []
  rlog_nil : job.reduceLog = []
  out_eq : job.outputVector = out0
  pcs_pre : ∀ j, j < N → (job.thread j).pc.beforeReduce = true
  zero_pre : (job.thread 0).pc.arrived2 = false
  bufs : (bufferedPairs job).Perm (emittedBy client input job.mapLog)
  sorted : ∀ j, j < N → (job.thread j).pc.arrived1 = true → SortedAsc client.lt (job.vec j)
  icount : job.intermediateCounter = toInt32 ((bufferedPairs job).length : Int)

/-- What holds once worker 0 has shuffled without a fault: every worker has left the Map
loop and worker 0 is at or past the second barrier; the groups still queued followed by
the groups popped, last first, form a descending queue of key groups holding the pairs
emitted by Map; the output and the pairs still to be emitted are the initial output and
the pairs of the reduce calls made; a worker has returned only after seeing the queue
empty. -/
structure ReducePhaseInv (client : MapReduceClient I K V O) (input : InputVec I)
    (out0 : List O) (N : Nat) (job : JobContext I K V O) : Prop where
  client_eq : job.client = client
  fault_none : job.fault = none
  pcs_post : ∀ j, j < N → (job.thread j).pc.arrived1 = true ∧ (job.thread j).pc ≠ Pc.stuck
  zero_post : (job.thread 0).pc.arrived2 = true
  groups : DescGroups client.lt
    (job.intermediateVectors ++ (job.reduceLog.map Prod.snd).reverse)
  groups_perm : ((job.intermediateVectors ++
    (job.reduceLog.map Prod.snd).reverse).flatten).Perm (emittedBy client input job.mapLog)
  output : (job.outputVector ++ pendingOuts job).Perm (out0 ++ reducedOut client job.reduceLog)
  done_empty : ∀ j, j < N → (job.thread j).pc = Pc.done → job.intermediateVectors = []

/-- The three situations of a run: before the shuffle, stopped by a fault (with a worker
that will never return), after the shuffle. -/
def RunInv (client : MapReduceClient I K V O) (input : InputVec I)
    (out0 : List O) (N : Nat) (job : JobContext I K V O) : Prop :=
  MapPhaseInv client input out0 N job ∨
  (job.fault ≠ none ∧ ∃ j, j < N ∧ (job.thread j).pc.isDone = false) ∨
  ReducePhaseInv client input out0 N job

/-- The pair `x` has a greatest key among the pairs of `l`: its key is less than none of
theirs. -/
def isTop (lt : K → K → Bool) (l : List (K × V)) (x : K × V) : Bool :=
  l.all (fun y => !(lt x.1 y.1))

/-- A client whose reduce emits the first pair of its group: its output depends on the
order of the pairs inside the group. -/
def firstClient : MapReduceClient (Nat × Char) Nat Char (Nat × Char) :=
  { map := fun p => [p]
    reduce := fun g => g.take 1
    lt := fun a b => decide (a < b) }

/-- Two input pairs with the same key. -/
def twinInput : InputVec (Nat × Char) :=
  { size := 2, elem := fun i => [(1, 'a'), (1, 'b')].getD i (0, ' ') }

/-- A schedule for a single worker, long enough for the job on `twinInput`. -/
def soloSchedule : List Nat := [0, 0, 0, 0, 0, 0, 0, 0, 0, 0, 0, 0, 0, 0]

/-- A schedule that lets workers 0 and 1 take turns, ten times each. -/
def duoSchedule : List Nat := [0, 1, 0, 1, 0, 1, 0, 1, 0, 1, 0, 1, 0, 1, 0, 1, 0, 1, 0, 1]

/-- The output of reduce on a key group does not depend, as a multiset, on the order of
the pairs inside the group. -/
def OrderInsensitive (client : MapReduceClient I K V O) : Prop :=
  ∀ g g', g.Perm g' → (∀ p ∈ g, ∀ q ∈ g, equivKeys client.lt p.1 q.1 = true) →
    (client.reduce g).Perm (client.reduce g')

/-- The worker is inside a reduce call that has not finished emitting. -/
def Pc.isEmitting : Pc O → Bool
  | Pc.emitting _ => true
  | _ => false

/-- The number of reduce calls in progress. -/
def emittingCount (job : JobContext I K V O) : Nat :=
  (pcs job).countP Pc.isEmitting

/-- The number of intermediate pairs that map emits over the whole input. -/
def totalPairs (client : MapReduceClient I K V O) (input : InputVec I) : Nat :=
  ((List.range input.size).map (fun i => (client.map (input.elem i)).length)).sum

/-- The words stored so far and the current word: the completed field of a stored word
exceeds its total only when the total is 0, the stages of the stored words never
decrease, no stored word has a later stage than the current word, and the current word is
among the stored ones. -/
def WordsOk (history : List Nat) (word : Nat) : Prop :=
  (∀ w ∈ history, totalProgress w = 0 ∨ stateProgress w ≤ totalProgress w) ∧
  (history.map stageOf).Pairwise (· ≤ ·) ∧
  (∀ w ∈ history, stageOf w ≤ stageOf word) ∧
  word ∈ history

/-- What holds of the progress word at every point of a run on `n` inputs: the stored
words are in order; before worker 0 has shuffled the word holds the total `n` and counts
the map calls, afterwards it holds the stage Reduce, the number of key groups as the
total, and counts the reduce calls that have returned. -/
structure WordInv (n : Nat) (job : JobContext I K V O) : Prop where
  words : WordsOk job.history job.stateCounter
  map_shape : job.fault = none → (job.thread 0).pc.arrived2 = false →
    ∃ b, b ≤ 1 ∧ job.stateCounter = b * 2 ^ 62 + n * 2 ^ 31 + job.mapLog.length
  reduce_shape : job.fault = none → (job.thread 0).pc.arrived2 = true →
    ∃ c, c + emittingCount job = job.reduceLog.length ∧
      job.stateCounter = 3 * 2 ^ 62 +
        (job.intermediateVectors.length + job.reduceLog.length) * 2 ^ 31 + c

/-- An input vector of `2 ^ 32` equal items. -/
def wideInput : InputVec (Nat × Char) :=
  { size := 2 ^ 32, elem := fun _ => (0, 'a') }

/-- What holds at every point of a run in which no map call emits a pair: the buffers,
the queue and the reduce log are empty, the output is untouched, no reduce call is in
progress, an input index fetched is within the input, a fault leaves a worker that never
returns, worker 0 passes the first barrier only after every worker has left the Map loop,
and from then on the progress word is the Reduce word for zero groups. -/
structure EmptyInv (client : MapReduceClient I K V O) (input : InputVec I)
    (out0 : List O) (N : Nat) (job : JobContext I K V O) : Prop where
  length_eq : job.threadsArray.length = N
  number_eq : job.threadsNumber = N
  ids : ∀ j, j < N → (job.thread j).threadId = j
  client_eq : job.client = client
  input_eq : job.inputVector = input
  sort_nil : job.stdSort [] = []
  vecs : ∀ j, job.vec j = []
  queue : job.intermediateVectors = []
  rlog : job.reduceLog = []
  out : job.outputVector = out0
  noemit : ∀ j, j < N → (job.thread j).pc.isEmitting = false
  fetched : ∀ j num, j < N → (job.thread j).pc = Pc.mapped num → num < input.size
  failed : job.fault ≠ none → ∃ j, j < N ∧ (job.thread j).pc.isDone = false
  after : (job.thread 0).pc.arrived2 = true → ∀ j, j < N → (job.thread j).pc.arrived1 = true
  word : job.fault = none → (job.thread 0).pc.arrived2 = true →
    job.stateCounter = 3 * 2 ^ 62

/-- The empty input vector. -/
def emptyInput : InputVec (Nat × Char) :=
  { size := 0, elem := fun _ => (0, ' ') }

/-- A schedule that lets workers 0 and 1 take turns, five times each. -/
def duoShort : List Nat := [0, 1, 0, 1, 0, 1, 0, 1, 0, 1]

/-- The comparison of the elements at two positions of the array; outside the array it is
false, which ends every scan at the bounds of the array. -/
def compAt {α : Type} (comp : α → α → Bool) (a : List α) (i j : Nat) : Bool :=
  match a[i]?, a[j]? with
  | some x, some y => comp x y
  | _, _ => false

/-- The library's `std::iter_swap` of two positions of the array. -/
def iterSwap {α : Type} (a : List α) (i j : Nat) : List α :=
  match a[i]?, a[j]? with
  | some x, some y => (a.set i y).set j x
  | _, _ => a

/-- The library's `__move_median_to_first` (bits/stl_algo.h, lines 82-100). -/
def moveMedianToFirst {α : Type} (comp : α → α → Bool) (a : List α)
    (result x y z : Nat) : List α :=
  if compAt comp a x y then
    if compAt comp a y z then iterSwap a result y
    else if compAt comp a x z then iterSwap a result z
    else iterSwap a result x
  else if compAt comp a x z then iterSwap a result x
  else if compAt comp a y z then iterSwap a result z
  else iterSwap a result y

/-- The scan `while (comp(first, pivot)) ++first` of `__unguarded_partition`. -/
def scanUp {α : Type} (comp : α → α → Bool) (a : List α) (pivot : Nat) : Nat → Nat → Nat
  | 0, first => first
  | fuel + 1, first =>
    if compAt comp a first pivot then scanUp comp a pivot fuel (first + 1) else first

/-- The scan `while (comp(pivot, last)) --last` of `__unguarded_partition`. -/
def scanDown {α : Type} (comp : α → α → Bool) (a : List α) (pivot : Nat) : Nat → Nat
  | 0 => 0
  | last + 1 =>
    if compAt comp a pivot (last + 1) then scanDown comp a pivot last else last + 1

/-- The library's `__unguarded_partition` (lines 1861-1878); the first argument bounds
the number of iterations, each of which lowers `last`. -/
def unguardedPartition {α : Type} (comp : α → α → Bool) (pivot : Nat) :
    Nat → List α → Nat → Nat → Nat × List α
  | 0, a, first, _ => (scanUp comp a pivot a.length first, a)
  | fuel + 1, a, first, last =>
    let first1 := scanUp comp a pivot a.length first
    let last1 := scanDown comp a pivot (last - 1)
    if first1 < last1 then
      unguardedPartition comp pivot fuel (iterSwap a first1 last1) (first1 + 1) last1
    else (first1, a)

/-- The library's `__unguarded_partition_pivot` (lines 1883-1890). -/
def unguardedPartitionPivot {α : Type} (comp : α → α → Bool) (a : List α)
    (first last : Nat) : Nat × List α :=
  let mid := first + (last - first) / 2
  let a1 := moveMedianToFirst comp a first (first + 1) mid (last - 1)
  unguardedPartition comp first last a1 (first + 1) last

/-- The library's `__push_heap` (bits/stl_heap.h, lines 135-147). The value travels with
the hole: each move of a parent into the hole is a swap of the two positions. -/
def pushHeap {α : Type} (comp : α → α → Bool) (first topIndex : Nat) :
    Nat → List α → Nat → List α
  | 0, a, _ => a
  | fuel + 1, a, holeIndex =>
    let parent := (holeIndex - 1) / 2
    if holeIndex > topIndex ∧ compAt comp a (first + parent) (first + holeIndex) = true then
      pushHeap comp first topIndex fuel (iterSwap a (first + parent) (first + holeIndex)) parent
    else a

/-- The first loop of `__adjust_heap` (lines 229-237): the hole goes down to the larger
child. -/
def siftDown {α : Type} (comp : α → α → Bool) (first len : Nat) :
    Nat → List α → Nat → Nat × List α
  | 0, a, holeIndex => (holeIndex, a)
  | fuel + 1, a, holeIndex =>
    if holeIndex < (len - 1) / 2 then
      let secondChild := 2 * (holeIndex + 1)
      let child := if compAt comp a (first + secondChild) (first + (secondChild - 1))
        then secondChild - 1 else secondChild
      siftDown comp first len fuel (iterSwap a (first + holeIndex) (first + child)) child
    else (holeIndex, a)

/-- The library's `__adjust_heap` (lines 224-249), the value being at the hole. -/
def adjustHeap {α : Type} (comp : α → α → Bool) (a : List α) (first holeIndex len : Nat) :
    List α :=
  let r := siftDown comp first len len a holeIndex
  let r1 : Nat × List α :=
    if len % 2 = 0 ∧ r.1 = (len - 2) / 2 then
      (2 * (r.1 + 1) - 1, iterSwap r.2 (first + r.1) (first + (2 * (r.1 + 1) - 1)))
    else r
  pushHeap comp first holeIndex len r1.2 r1.1

/-- The library's `__pop_heap` (lines 254-267). -/
def popHeap {α : Type} (comp : α → α → Bool) (a : List α) (first last result : Nat) :
    List α :=
  adjustHeap comp (iterSwap a first result) first 0 (last - first)

/-- The loop of `__make_heap` (lines 352-361), from `parent` down to 0. -/
def makeHeapFrom {α : Type} (comp : α → α → Bool) (first len : Nat) :
    Nat → List α → List α
  | 0, a => adjustHeap comp a first 0 len
  | parent + 1, a => makeHeapFrom comp first len parent (adjustHeap comp a first (parent + 1) len)

/-- The library's `__make_heap` (lines 340-362). -/
def makeHeap {α : Type} (comp : α → α → Bool) (a : List α) (first last : Nat) : List α :=
  if last - first < 2 then a
  else makeHeapFrom comp first (last - first) ((last - first - 2) / 2) a

/-- The library's `__sort_heap` (lines 419-427), on the number of elements left. -/
def sortHeap {α : Type} (comp : α → α → Bool) (first : Nat) : Nat → List α → List α
  | 0, a => a
  | n + 1, a =>
    if n + 1 > 1 then sortHeap comp first n (popHeap comp a first (first + n) (first + n))
    else a

/-- The library's `__partial_sort` (bits/stl_algo.h, lines 1895-1902) as `__introsort_loop`
calls it, with `middle = last`: the loop of `__heap_select` is then empty. -/
def partialSort {α : Type} (comp : α → α → Bool) (a : List α) (first last : Nat) : List α :=
  sortHeap comp first (last - first) (makeHeap comp a first last)

/-- The library's `__introsort_loop` (lines 1908-1925), by recursion on the depth
limit. -/
def introsortLoop {α : Type} (comp : α → α → Bool) : Nat → List α → Nat → Nat → List α
  | 0, a, first, last =>
    if last - first > 16 then partialSort comp a first last else a
  | depthLimit + 1, a, first, last =>
    if last - first > 16 then
      let r := unguardedPartitionPivot comp a first last
      let a1 := introsortLoop comp depthLimit r.2 r.1 last
      introsortLoop comp depthLimit a1 first r.1
    else a

/-- The library's `__unguarded_linear_insert` (lines 1782-1797), the value travelling
with the hole. The scan ends at the first position of the array at the latest. -/
def unguardedLinearInsert {α : Type} (comp : α → α → Bool) : Nat → List α → List α
  | 0, a => a
  | next + 1, a =>
    if compAt comp a (next + 1) next then
      unguardedLinearInsert comp next (iterSwap a next (next + 1))
    else a

/-- The move of the value at `i` to `first`, the positions between moving one up
(lines 1810-1812 of `__insertion_sort`). -/
def moveToFirst {α : Type} (first : Nat) : Nat → List α → List α
  | 0, a => a
  | i + 1, a => if first < i + 1 then moveToFirst first i (iterSwap a i (i + 1)) else a

/-- The library's `__insertion_sort` (lines 1802-1820). -/
def insertionSort {α : Type} (comp : α → α → Bool) (a : List α) (first last : Nat) : List α :=
  if first = last then a
  else (List.range' (first + 1) (last - (first + 1))).foldl
    (fun a i => if compAt comp a i first then moveToFirst first i a
      else unguardedLinearInsert comp i a) a

/-- The library's `__unguarded_insertion_sort` (lines 1826-1832). -/
def unguardedInsertionSort {α : Type} (comp : α → α → Bool) (a : List α)
    (first last : Nat) : List α :=
  (List.range' first (last - first)).foldl (fun a i => unguardedLinearInsert comp i a) a

/-- The library's `__final_insertion_sort` (lines 1844-1855). -/
def finalInsertionSort {α : Type} (comp : α → α → Bool) (a : List α) (first last : Nat) :
    List α :=
  if last - first > 16 then
    unguardedInsertionSort comp (insertionSort comp a first (first + 16)) (first + 16) last
  else insertionSort comp a first last

/-- The halvings of `n` that leave a positive number, at most `fuel` of them. -/
def lgLoop : Nat → Nat → Nat
  | 0, _ => 0
  | fuel + 1, n => if n < 2 then 0 else lgLoop fuel (n / 2) + 1

/-- The library's `std::__lg`: the position of the highest bit set in `n`. -/
def lg (n : Nat) : Nat := lgLoop n n

/-- The library's `std::sort` (`__sort`, lines 1932-1942) on the whole array. -/
def stlSort {α : Type} (comp : α → α → Bool) (a : List α) : List α :=
  if a.length = 0 then a
  else finalInsertionSort comp
    (introsortLoop comp (lg a.length * 2) a 0 a.length) 0 a.length

/-- The steps a worker at this control location takes before it is back at the test of
the Reduce loop, plus one: the step through the second barrier, the steps that emit the
pending pairs and increment the progress word, and the test itself. -/
def Pc.reduceCost : Pc O → Nat
  | Pc.barrier2 => 2
  | Pc.reduceLoop => 1
  | Pc.emitting pending => pending.length + 2
  | _ => 0

/-- The steps of the iterations of the Reduce loop on the groups of a queue: for each
group the pop with the call of reduce, one step for each pair the call emits, and the
increment of the progress word. -/
def queueCost (client : MapReduceClient I K V O) (queue : List (List (K × V))) : Nat :=
  (queue.map (fun g => (client.reduce g).length + 2)).sum

/-- A bound on the number of steps worker `w` still takes before it returns from the
Reduce loop. -/
def reducePotential (job : JobContext I K V O) (w : Nat) : Nat :=
  (job.thread w).pc.reduceCost + queueCost job.client job.intermediateVectors

/-- A schedule that lets workers 0, 1, 2 take turns, eleven times each. -/
def roundRobin3Long : List Nat := (List.replicate 11 [0, 1, 2]).flatten

end MapReduce

/-!
# Virtual memory (Ex4/VirtualMemory.cpp): shallow embedding

The constants of `MemoryConstants.h` are parameters. `word_t` and `int` are `Int`,
`uint64_t` is `Nat`; a conversion between them is written where the source makes one.
-/

namespace VirtualMemory

open MapReduce (toInt32 toUInt64)

/-! ## Constants and physical memory -/

/-- The constants of `MemoryConstants.h`, which is not part of the sources: they are
parameters of the embedding. -/
structure MemoryConstants where
  OFFSET_WIDTH : Nat
  PAGE_SIZE : Nat
  TABLES_DEPTH : Nat
  NUM_FRAMES : Nat
  NUM_PAGES : Nat
  VIRTUAL_MEMORY_SIZE : Nat

/-- Modelled from the spec: the physical memory behind `PhysicalMemory.h`, which is not
part of the sources: the words of the frames by physical address, and a swap store
holding the saved content of a page under its page number. -/
structure PhysicalMemory where
  ram : Nat → Int
  swap : Nat → Option (Nat → Int)

/-- Modelled from the spec: `PMread` of `PhysicalMemory.h` returns the word at a physical
address. -/
def PMread (m : PhysicalMemory) (physicalAddress : Nat) : Int :=
  m.ram physicalAddress

/-- Modelled from the spec: `PMwrite` of `PhysicalMemory.h` stores a word at a physical
address. -/
def PMwrite (m : PhysicalMemory) (physicalAddress : Nat) (value : Int) : PhysicalMemory :=
  { m with ram := fun a => if a = physicalAddress then value else m.ram a }

/-- Modelled from the spec: `PMevict` of `PhysicalMemory.h` saves the content of a frame
in the swap store under a page number. -/
def PMevict (c : MemoryConstants) (m : PhysicalMemory) (frameIndex evictedPageIndex : Nat) :
    PhysicalMemory :=
  { m with swap := fun p =>
      if p = evictedPageIndex then some (fun i => m.ram (frameIndex * c.PAGE_SIZE + i))
      else m.swap p }

/-- Modelled from the spec: `PMrestore` of `PhysicalMemory.h` loads a saved page back
into a frame and removes it from the swap store; a page that was never saved leaves the
frame as it is. -/
def PMrestore (c : MemoryConstants) (m : PhysicalMemory) (frameIndex restoredPageIndex : Nat) :
    PhysicalMemory :=
  match m.swap restoredPageIndex with
  | none => m
  | some page =>
    { ram := fun a =>
        if frameIndex * c.PAGE_SIZE ≤ a ∧ a < frameIndex * c.PAGE_SIZE + c.PAGE_SIZE
        then page (a - frameIndex * c.PAGE_SIZE) else m.ram a
      swap := fun p => if p = restoredPageIndex then none else m.swap p }

/-! ## The page-table walk of `selectFrameForPage` -/

/-- Source lines 3-7. -/
structure FrameInfo where
  frame : Int
  parentFrame : Int
  offset : Int
  deriving DecidableEq, Repr

/-- Source lines 9-15. -/
structure MaxPageInfo where
  frame : Int
  distance : Int
  pageNumber : Int
  parentFrame : Int
  offset : Int
  deriving DecidableEq, Repr

/-- The three objects that `addPageToTree` updates through references. -/
structure Walk where
  frameInfo : FrameInfo
  frameIndex : Int
  maxPageInfo : MaxPageInfo
  deriving DecidableEq, Repr

/-- Source lines 23-29. -/
def absolute (value : Int) : Int := if value < 0 then value * -1 else value

/-- Source lines 31-37. -/
def min (x y : Int) : Int := if x < y then x else y

/-- The physical address `frame * PAGE_SIZE + i`, converted to `uint64_t` as the
parameter of `PMread` and `PMwrite` requires. -/
def cell (c : MemoryConstants) (frame i : Int) : Nat :=
  toUInt64 (frame * c.PAGE_SIZE + i)

/-- Source lines 118-122: `initializeFrame`. -/
def initializeFrame (c : MemoryConstants) (m : PhysicalMemory) (frameNumber : Int) :
    PhysicalMemory :=
  (List.range c.PAGE_SIZE).foldl (fun m (i : Nat) => PMwrite m (cell c frameNumber i) 0) m

/-- Source lines 39-41: `VMinitialize`. -/
def VMinitialize (c : MemoryConstants) (m : PhysicalMemory) : PhysicalMemory :=
  initializeFrame c m 0

/-- Source lines 71-74: `calculateOffset`. -/
def calculateOffset (c : MemoryConstants) (virtualAddress : Nat) (depth : Nat) : Nat :=
  let offsetMask := (1 <<< c.OFFSET_WIDTH) - 1
  (virtualAddress >>> ((c.TABLES_DEPTH - depth) * c.OFFSET_WIDTH)) &&& offsetMask

/-- The cyclic distance of source line 125, with its cast `(int)NUM_PAGES`. -/
def distance (c : MemoryConstants) (replacedPage pageIndex : Int) : Int :=
  min (toInt32 (c.NUM_PAGES : Int) - absolute (replacedPage - pageIndex))
    (absolute (replacedPage - pageIndex))

/-- Source lines 124-133: `updateMaxPageInfo`. -/
def updateMaxPageInfo (c : MemoryConstants) (replacedPage pageIndex currentFrame ancestor
    offset : Int) (maxPageInfo : MaxPageInfo) : MaxPageInfo :=
  if distance c replacedPage pageIndex > maxPageInfo.distance then
    { frame := currentFrame, distance := distance c replacedPage pageIndex,
      pageNumber := pageIndex, parentFrame := ancestor, offset := offset }
  else maxPageInfo

/-- Source lines 135-171: `addPageToTree`. The recursion is on the number of levels left,
`TABLES_DEPTH - depth`: none left is the test `depth == TABLES_DEPTH`. The `while` over
the entries of the frame carries `isEmptyFrame` and the three references. -/
def addPageToTree (c : MemoryConstants) (m : PhysicalMemory) (pageTable : Nat → Int)
    (replacedPage : Int) :
    Nat → (pageIndex currentFrame ancestor offset : Int) → Walk → Walk
  | 0, pageIndex, currentFrame, ancestor, offset, w =>
    { w with
      frameIndex := w.frameIndex + 1
      maxPageInfo := updateMaxPageInfo c replacedPage pageIndex currentFrame ancestor offset
        w.maxPageInfo }
  | levels + 1, pageIndex, currentFrame, ancestor, offset, w =>
    let w1 : Walk := { w with frameIndex := w.frameIndex + 1 }
    let r := (List.range c.PAGE_SIZE).foldl
      (fun (acc : Bool × Walk) (i : Nat) =>
        let address := PMread m (cell c currentFrame i)
        if address ≠ 0 then
          (false, addPageToTree c m pageTable replacedPage levels
            (pageIndex * 2 ^ c.OFFSET_WIDTH + i) address currentFrame i acc.2)
        else acc)
      (true, w1)
    if r.1 then
      if (List.range c.TABLES_DEPTH).any (fun i => pageTable i == currentFrame) then r.2
      else { r.2 with
             frameInfo := { frame := currentFrame, parentFrame := ancestor, offset := offset } }
    else r.2

/-- Source lines 173-179. -/
def initializeFrameInfo : FrameInfo := { frame := 0, parentFrame := 0, offset := 0 }

/-- Source lines 181-189. -/
def initializeMaxPageInfo : MaxPageInfo :=
  { frame := 0, distance := -1, pageNumber := 0, parentFrame := 0, offset := 0 }

/-- Source lines 191-193: `clearFrame`. -/
def clearFrame (c : MemoryConstants) (m : PhysicalMemory) (frameInfo : FrameInfo) :
    PhysicalMemory :=
  PMwrite m (cell c frameInfo.parentFrame frameInfo.offset) 0

/-- Source lines 195-197: `clearMaxPageFrame`. -/
def clearMaxPageFrame (c : MemoryConstants) (m : PhysicalMemory) (maxPageInfo : MaxPageInfo) :
    PhysicalMemory :=
  PMwrite m (cell c maxPageInfo.parentFrame maxPageInfo.offset) 0

/-- The walk of the whole tree with which `selectFrameForPage` starts (source lines
200-204). -/
def walkTree (c : MemoryConstants) (m : PhysicalMemory) (pageTable : Nat → Int)
    (replacedPage : Int) : Walk :=
  addPageToTree c m pageTable replacedPage c.TABLES_DEPTH 0 0 0 0
    { frameInfo := initializeFrameInfo, frameIndex := 0, maxPageInfo := initializeMaxPageInfo }

/-- Source lines 199-222: `selectFrameForPage`; the result is the frame, or -1, and the
memory. -/
def selectFrameForPage (c : MemoryConstants) (m : PhysicalMemory) (pageTable : Nat → Int)
    (replacedPage : Int) : Int × PhysicalMemory :=
  let w := walkTree c m pageTable replacedPage
  if w.frameInfo.frame ≠ 0 then (w.frameInfo.frame, clearFrame c m w.frameInfo)
  else if w.frameIndex < c.NUM_FRAMES then (w.frameIndex, m)
  else if w.maxPageInfo.frame ≠ 0 then
    (w.maxPageInfo.frame,
      clearMaxPageFrame c
        (PMevict c m (toUInt64 w.maxPageInfo.frame) (toUInt64 w.maxPageInfo.pageNumber))
        w.maxPageInfo)
  else (-1, m)

/-! ## Address translation -/

/-- Source lines 67-69: `updatePageTableAddresses`. -/
def updatePageTableAddresses (pageTableAddresses : Nat → Int) (depth : Nat)
    (tempAddress : Int) : Nat → Int :=
  fun i => if i = depth + 1 then tempAddress else pageTableAddresses i

/-- Source lines 76-88: `handleEmptyAddress`. -/
def handleEmptyAddress (c : MemoryConstants) (m : PhysicalMemory)
    (physicalAddress offset virtualAddress : Nat) (depth : Nat)
    (pageTableAddresses : Nat → Int) : Int × PhysicalMemory :=
  let r := selectFrameForPage c m pageTableAddresses
    (toInt32 (virtualAddress >>> c.OFFSET_WIDTH))
  let tempAddress := r.1
  if tempAddress = -1 then (-1, r.2)
  else
    let m1 := PMwrite r.2 ((physicalAddress * c.PAGE_SIZE + offset) % 2 ^ 64) tempAddress
    if depth + 1 = c.TABLES_DEPTH then
      (tempAddress, PMrestore c m1 (toUInt64 tempAddress) (virtualAddress >>> c.OFFSET_WIDTH))
    else (tempAddress, initializeFrame c m1 tempAddress)

/-- The frame is among the first `TABLES_DEPTH` entries of `pageTable`, the frames of the
translation in progress. -/
def onPath (c : MemoryConstants) (pageTable : Nat → Int) (frame : Int) : Bool :=
  (List.range c.TABLES_DEPTH).any (fun i => pageTable i == frame)

/-- The result of a translation: the frame reached, or `(uint64_t)-1`, and the memory;
`selected` is a ghost record of the calls of `selectFrameForPage` that the translation
made, each with the frame returned and whether that frame was on the translation path. -/
structure Translation where
  physicalAddress : Nat
  memory : PhysicalMemory
  selected : List (Int × Bool)

/-- The `while` loop of `traverseVirtualAddress` (source lines 100-114), on the number of
levels left, `TABLES_DEPTH - depth`. -/
def traverseLoop (c : MemoryConstants) (virtualAddress : Nat) :
    Nat → (physicalAddress : Nat) → (pageTableAddresses : Nat → Int) → PhysicalMemory →
      Translation
  | 0, physicalAddress, _, m => { physicalAddress := physicalAddress, memory := m, selected := [] }
  | levels + 1, physicalAddress, pageTableAddresses, m =>
    let depth := c.TABLES_DEPTH - (levels + 1)
    let offset := calculateOffset c virtualAddress depth
    let optional := PMread m ((physicalAddress * c.PAGE_SIZE + offset) % 2 ^ 64)
    let pageTable1 := updatePageTableAddresses pageTableAddresses depth optional
    if optional = 0 then
      let r := handleEmptyAddress c m physicalAddress offset virtualAddress depth pageTable1
      let s := (r.1, onPath c pageTable1 r.1)
      if r.1 = -1 then { physicalAddress := toUInt64 (-1), memory := r.2, selected := [s] }
      else
        let t := traverseLoop c virtualAddress levels (toUInt64 r.1)
          (updatePageTableAddresses pageTable1 depth r.1) r.2
        { t with selected := s :: t.selected }
    else
      traverseLoop c virtualAddress levels (toUInt64 optional)
        (updatePageTableAddresses pageTable1 depth optional) m

/-- Source lines 90-116: `traverseVirtualAddress`. -/
def traverseVirtualAddress (c : MemoryConstants) (m : PhysicalMemory) (virtualAddress : Nat) :
    Translation :=
  traverseLoop c virtualAddress c.TABLES_DEPTH 0 (fun _ => 0) m

/-- Source lines 43-53: `VMread`; the result is the return value, the word read when
there is one, and the memory. -/
def VMread (c : MemoryConstants) (m : PhysicalMemory) (virtualAddress : Nat) :
    Int × Option Int × PhysicalMemory :=
  if virtualAddress < c.VIRTUAL_MEMORY_SIZE then
    let r := traverseVirtualAddress c m virtualAddress
    if toInt32 r.physicalAddress ≠ -1 then
      let offset := virtualAddress % (1 <<< c.OFFSET_WIDTH)
      (1, some (PMread r.memory ((r.physicalAddress * c.PAGE_SIZE + offset) % 2 ^ 64)),
        r.memory)
    else (0, none, r.memory)
  else (0, none, m)

/-- Source lines 55-65: `VMwrite`; the result is the return value and the memory. -/
def VMwrite (c : MemoryConstants) (m : PhysicalMemory) (virtualAddress : Nat) (value : Int) :
    Int × PhysicalMemory :=
  if virtualAddress < c.VIRTUAL_MEMORY_SIZE then
    let r := traverseVirtualAddress c m virtualAddress
    if toInt32 r.physicalAddress ≠ -1 then
      let offset := virtualAddress % (1 <<< c.OFFSET_WIDTH)
      (1, PMwrite r.memory ((r.physicalAddress * c.PAGE_SIZE + offset) % 2 ^ 64) value)
    else (0, r.memory)
  else (0, m)

/-- A call of the library: `VMread` of an address, or `VMwrite` of a value to an
address. -/
inductive Access where
  | read (virtualAddress : Nat)
  | write (virtualAddress : Nat) (value : Int)
  deriving DecidableEq, Repr

/-- The memory after a call. -/
def Access.apply (c : MemoryConstants) (m : PhysicalMemory) : Access → PhysicalMemory
  | Access.read virtualAddress => (VMread c m virtualAddress).2.2
  | Access.write virtualAddress value => (VMwrite c m virtualAddress value).2

/-- The memory after a sequence of calls, the first of the list first. -/
def runAccesses (c : MemoryConstants) (m : PhysicalMemory) (l : List Access) : PhysicalMemory :=
  l.foldl (Access.apply c) m

/-- The value of the most recent `VMwrite` to the address among the calls, if there is
one. -/
def lastWrite (virtualAddress : Nat) : List Access → Option Int
  | [] => none
  | Access.read _ :: rest => lastWrite virtualAddress rest
  | Access.write a value :: rest =>
    match lastWrite virtualAddress rest with
    | some v => some v
    | none => if a = virtualAddress then some value else none

/-- A small configuration: pages of 2 words, 8 pages, three levels of tables, 5 frames. -/
def tiny : MemoryConstants :=
  { OFFSET_WIDTH := 1, PAGE_SIZE := 2, TABLES_DEPTH := 3, NUM_FRAMES := 5, NUM_PAGES := 8,
    VIRTUAL_MEMORY_SIZE := 16 }

/-- A memory holding 7 everywhere and nothing in the swap store. -/
def blank : PhysicalMemory := { ram := fun _ => 7, swap := fun _ => none }

/-! ## Notions used to state the properties of the walk -/

/-- A frame met by the walk of `addPageToTree`: the frame, its parent frame and the
offset of its entry there, the page index accumulated on the way, and the number of
levels below it (none for a page). -/
structure Node where
  frame : Int
  parent : Int
  offset : Int
  pageIndex : Int
  levels : Nat
  deriving DecidableEq, Repr

/-- The frames that the walk from `frame` meets, in the order in which it meets them:
the frame itself, then, entry by entry, the frames below each non-zero entry. -/
def nodes (c : MemoryConstants) (m : PhysicalMemory) :
    Nat → (pageIndex frame parent offset : Int) → List Node
  | 0, pageIndex, frame, parent, offset =>
    [{ frame := frame, parent := parent, offset := offset, pageIndex := pageIndex, levels := 0 }]
  | levels + 1, pageIndex, frame, parent, offset =>
    { frame := frame, parent := parent, offset := offset, pageIndex := pageIndex,
      levels := levels + 1 } ::
    (List.range c.PAGE_SIZE).flatMap (fun (i : Nat) =>
      if PMread m (cell c frame i) ≠ 0 then
        nodes c m levels (pageIndex * 2 ^ c.OFFSET_WIDTH + i) (PMread m (cell c frame i)) frame i
      else [])

/-- The frames of the page-table tree rooted at frame 0. -/
def treeNodes (c : MemoryConstants) (m : PhysicalMemory) : List Node :=
  nodes c m c.TABLES_DEPTH 0 0 0 0

/-- The node is a page, not a table. -/
def Node.isPage (n : Node) : Bool := n.levels == 0

/-- The node is a table all of whose entries are zero. -/
def emptyTable (c : MemoryConstants) (m : PhysicalMemory) (n : Node) : Bool :=
  !n.isPage && (List.range c.PAGE_SIZE).all (fun (i : Nat) => PMread m (cell c n.frame i) == 0)

/-- The candidate for eviction after the walk has met the pages `pages` in this order. -/
def maxOver (c : MemoryConstants) (replacedPage : Int) (pages : List Node)
    (maxPageInfo : MaxPageInfo) : MaxPageInfo :=
  pages.foldl (fun mp n => updateMaxPageInfo c replacedPage n.pageIndex n.frame n.parent
    n.offset mp) maxPageInfo

/-- The relations between the constants that `MemoryConstants.h` ensures, with more
frames than levels, and with the numbers of pages, of frames and of words of a page in the
range of the `int` variables that hold page numbers, frame numbers and offsets. -/
structure Sized (c : MemoryConstants) : Prop where
  page_size : c.PAGE_SIZE = 2 ^ c.OFFSET_WIDTH
  depth_pos : 1 ≤ c.TABLES_DEPTH
  vm_size : c.VIRTUAL_MEMORY_SIZE = c.NUM_PAGES * c.PAGE_SIZE
  pages_fit : c.NUM_PAGES ≤ c.PAGE_SIZE ^ c.TABLES_DEPTH
  frames : c.TABLES_DEPTH < c.NUM_FRAMES
  pages_int : c.NUM_PAGES < 2 ^ 31
  frames_int : c.NUM_FRAMES < 2 ^ 31
  words_int : c.PAGE_SIZE < 2 ^ 31

/-- The frames that the walk meets below entry `i` of the table `frame`. -/
def kidsAt (c : MemoryConstants) (m : PhysicalMemory) (levels : Nat)
    (pageIndex frame : Int) (i : Nat) : List Node :=
  if PMread m (cell c frame i) ≠ 0 then
    nodes c m levels (pageIndex * 2 ^ c.OFFSET_WIDTH + i) (PMread m (cell c frame i)) frame i
  else []

/-- The page-table tree is well formed: no frame occurs twice in it, no two of its frames
stand at the same level for the same page index, its frames are indices below their
number, which is at most `NUM_FRAMES`, and its pages have page numbers below
`NUM_PAGES`. -/
structure TreeInv (c : MemoryConstants) (m : PhysicalMemory) : Prop where
  nodup : ((treeNodes c m).map Node.frame).Nodup
  keys : ((treeNodes c m).map (fun n => (n.levels, n.pageIndex))).Nodup
  range : ∀ n ∈ treeNodes c m, 0 ≤ n.frame ∧ n.frame < ((treeNodes c m).length : Int)
  bound : (treeNodes c m).length ≤ c.NUM_FRAMES
  pages : ∀ n ∈ treeNodes c m, n.isPage = true →
    0 ≤ n.pageIndex ∧ n.pageIndex < c.NUM_PAGES

/-- The tree is well formed and the frame `t` is free: it is not in the tree, and the
tree with one more frame, `t`, would meet the bounds of a well-formed tree. -/
structure FreeFrame (c : MemoryConstants) (m : PhysicalMemory) (t : Int) : Prop where
  nodup : ((treeNodes c m).map Node.frame).Nodup
  keys : ((treeNodes c m).map (fun n => (n.levels, n.pageIndex))).Nodup
  range : ∀ n ∈ treeNodes c m, 0 ≤ n.frame ∧ n.frame < ((treeNodes c m).length : Int) + 1
  bound : (treeNodes c m).length + 1 ≤ c.NUM_FRAMES
  pages : ∀ n ∈ treeNodes c m, n.isPage = true →
    0 ≤ n.pageIndex ∧ n.pageIndex < c.NUM_PAGES
  fresh : ∀ n ∈ treeNodes c m, n.frame ≠ t
  inside : 0 < t ∧ t < ((treeNodes c m).length : Int) + 1

/-- The page index of the table or page that the translation of `virtualAddress` reaches
at depth `depth`: the digits of the page number above that depth. -/
def pathIndex (c : MemoryConstants) (virtualAddress : Nat) (depth : Nat) : Int :=
  (((virtualAddress >>> c.OFFSET_WIDTH) >>> ((c.TABLES_DEPTH - depth) * c.OFFSET_WIDTH) : Nat) :
    Int)

/-- The frame that the translation of `virtualAddress` has reached at depth `depth`, as a
frame of the tree, `pageTable` holding the frames of the translation. -/
def pathNode (c : MemoryConstants) (virtualAddress : Nat) (pageTable : Nat → Int)
    (depth : Nat) : Node :=
  { frame := pageTable depth
    parent := if depth = 0 then 0 else pageTable (depth - 1)
    offset := if depth = 0 then 0 else calculateOffset c virtualAddress (depth - 1)
    pageIndex := pathIndex c virtualAddress depth
    levels := c.TABLES_DEPTH - depth }

/-- The state of the loop of `traverseVirtualAddress` at depth `depth`: frames of the
translation up to that depth are in the tree, one below the other from the root, and the
entries of `pageTable` beyond them are zero. -/
structure PathInv (c : MemoryConstants) (virtualAddress : Nat) (m : PhysicalMemory)
    (pageTable : Nat → Int) (depth : Nat) : Prop where
  root : pageTable 0 = 0
  zeros : ∀ j : Nat, depth < j → pageTable j = 0
  onTree : ∀ j : Nat, j ≤ depth → pathNode c virtualAddress pageTable j ∈ treeNodes c m

/-- The word `word` of the page `page` holds `value`: in the frame of the page when the
page is in the tree, and otherwise in the copy of the page in the swap store. -/
def Holds (c : MemoryConstants) (m : PhysicalMemory) (page word : Nat) (value : Int) : Prop :=
  (∃ n ∈ treeNodes c m, n.isPage = true ∧ n.pageIndex = (page : Int) ∧
    PMread m (cell c n.frame word) = value) ∨
  ((∀ n ∈ treeNodes c m, n.isPage = true → n.pageIndex ≠ (page : Int)) ∧
    ∃ saved, m.swap page = some saved ∧ saved word = value)

/-- The number of tables with frame `frame` among the nodes. -/
def tableCount (frame : Int) (l : List Node) : Nat :=
  l.countP (fun n => !n.isPage && n.frame == frame)

/-- Two writes in the configuration `tiny`, to address 3 of page 1 and to address 12 of
page 6: the five frames do not hold both translations, and the second write evicts
page 1. -/
def sampleAccesses : List Access := [Access.write 3 5, Access.write 12 9]

/-- A configuration with 2^32 pages of 16 words, eight levels of tables and nine frames:
the constants are related as `MemoryConstants.h` relates them, and there are more frames
than levels, but `NUM_PAGES` is beyond the range of `int`. -/
def wide : MemoryConstants :=
  { OFFSET_WIDTH := 4, PAGE_SIZE := 16, TABLES_DEPTH := 8, NUM_FRAMES := 9,
    NUM_PAGES := 2 ^ 32, VIRTUAL_MEMORY_SIZE := 2 ^ 36 }

/-- A write to address 0, of page 0, and a write to address 2^32, of page 2^28. -/
def wideAccesses : List Access := [Access.write 0 5, Access.write (2 ^ 32) 22]

end VirtualMemory

/-! # Theorems -/

namespace MapReduce

variable {I K V O : Type}


/-! ## The progress word -/

theorem stageOf_eq (w : Nat) : stageOf w = w / 2 ^ 62 := by
  simp [stageOf, STAGE_SHIFT, Nat.shiftRight_eq_div_pow]

theorem stateProgress_eq (w : Nat) : stateProgress w = w % 2 ^ 31 := by
  have h := Nat.and_pow_two_sub_one_eq_mod w 31
  simpa [stateProgress, PROGRESS_MASK] using h

theorem totalProgress_eq (w : Nat) : totalProgress w = w / 2 ^ 31 % 2 ^ 31 := by
  have h := Nat.and_pow_two_sub_one_eq_mod (w / 2 ^ 31) 31
  simpa [totalProgress, PROGRESS_MASK, TOTAL_SHIFT, Nat.shiftRight_eq_div_pow] using h

theorem decodeState_eq (w : Nat) :
    decodeState w = { stage := stageOf w, percentage := if totalProgress w = 0 then 0 else (stateProgress w : ℚ) / (totalProgress w : ℚ) * 100 } := by
  unfold decodeState stageOf totalProgress stateProgress
  by_cases h : (w >>> TOTAL_SHIFT) &&& PROGRESS_MASK = 0
  · simp [h]
  · simp [h]

theorem toInt32_shift (c : Int) : toInt32 (c * 2 ^ 31) = 0 ∨ toInt32 (c * 2 ^ 31) = -2 ^ 31 := by
  unfold toInt32
  norm_num
  omega

theorem shuffleWord_cases (c : Int) : shuffleWord c = 2 ^ 63 ∨ shuffleWord c = 2 ^ 64 - 2 ^ 31 := by
  unfold shuffleWord
  rcases toInt32_shift c with h | h
  · left; rw [h]; decide
  · right; rw [h]; decide


theorem decodeState_stage (w : Nat) : (decodeState w).stage = stageOf w := by
  rw [decodeState_eq]

theorem decodeState_percentage (w : Nat) :
    (decodeState w).percentage =
      if totalProgress w = 0 then 0
      else (stateProgress w : ℚ) / (totalProgress w : ℚ) * 100 := by
  rw [decodeState_eq]

theorem fields_pack (s t c : Nat) (ht : t < 2 ^ 31) (hc : c < 2 ^ 31) :
    stageOf (s * 2 ^ 62 + t * 2 ^ 31 + c) = s ∧
    totalProgress (s * 2 ^ 62 + t * 2 ^ 31 + c) = t ∧
    stateProgress (s * 2 ^ 62 + t * 2 ^ 31 + c) = c := by
  rw [stageOf_eq, totalProgress_eq, stateProgress_eq]
  norm_num at ht hc ⊢
  omega

/-- C7: getJobState decodes the packed word exactly. -/
theorem getJobState_decodes :
    (∀ job : JobContext I K V O,
      (getJobState job).stage = job.stateCounter >>> 62 ∧
      (getJobState job).percentage =
        if (job.stateCounter >>> 31) &&& 0x7FFFFFFF = 0 then (0 : ℚ)
        else ((job.stateCounter &&& 0x7FFFFFFF : Nat) : ℚ) /
          (((job.stateCounter >>> 31) &&& 0x7FFFFFFF : Nat) : ℚ) * 100) ∧
    (∀ s t c : Nat, s < 4 → t < 2 ^ 31 → c < 2 ^ 31 →
      decodeState (s * 2 ^ 62 + t * 2 ^ 31 + c) =
        { stage := s, percentage := if t = 0 then 0 else (c : ℚ) / (t : ℚ) * 100 }) ∧
    (∀ s t c : Nat, s < 4 → t < 2 ^ 31 → c + 1 < 2 ^ 31 →
      incr64 (s * 2 ^ 62 + t * 2 ^ 31 + c) = s * 2 ^ 62 + t * 2 ^ 31 + (c + 1) ∧
      stageOf (incr64 (s * 2 ^ 62 + t * 2 ^ 31 + c)) = s ∧
      totalProgress (incr64 (s * 2 ^ 62 + t * 2 ^ 31 + c)) = t ∧
      stateProgress (incr64 (s * 2 ^ 62 + t * 2 ^ 31 + c)) = c + 1) := by
  refine ⟨?_, ?_, ?_⟩
  · intro job
    refine ⟨?_, ?_⟩
    · simp [getJobState, decodeState_stage, stageOf, STAGE_SHIFT]
    · simp [getJobState, decodeState_percentage, totalProgress, stateProgress,
        TOTAL_SHIFT, PROGRESS_MASK]
  · intro s t c _ ht hc
    obtain ⟨h1, h2, h3⟩ := fields_pack s t c ht hc
    rw [decodeState_eq, h1, h2, h3]
  · intro s t c hs ht hc
    have hw : incr64 (s * 2 ^ 62 + t * 2 ^ 31 + c) = s * 2 ^ 62 + t * 2 ^ 31 + (c + 1) := by
      unfold incr64
      norm_num at hs ht hc ⊢
      omega
    rw [hw]
    exact ⟨rfl, fields_pack s t (c + 1) ht hc⟩

/-- C7 at a concrete word: stage Map, total 4, completed 1 is 25 percent, and the
increment gives completed 2. -/
theorem getJobState_decodes_witness :
    decodeState (1 * 2 ^ 62 + 4 * 2 ^ 31 + 1) = { stage := 1, percentage := 25 } ∧
    stateProgress (incr64 (1 * 2 ^ 62 + 4 * 2 ^ 31 + 1)) = 2 := by
  have h := (getJobState_decodes (I := Nat) (K := Nat) (V := Nat) (O := Nat)).2
  refine ⟨?_, ?_⟩
  · rw [h.1 1 4 1 (by norm_num) (by norm_num) (by norm_num)]
    norm_num
  · exact (h.2 1 4 1 (by norm_num) (by norm_num) (by norm_num)).2.2.2

/-- C6: with one intermediate pair the word stored after the first barrier decodes to
stage 3 (Reduce) with total `2 ^ 31 - 1`, not to stage Shuffle with total 1. -/
theorem shuffleWord_one_pair :
    shuffleWord 1 = 2 ^ 64 - 2 ^ 31 ∧
    stageOf (shuffleWord 1) = REDUCE_STAGE ∧
    totalProgress (shuffleWord 1) = 2147483647 ∧
    stateProgress (shuffleWord 1) = 0 ∧
    ¬ ((decodeState (shuffleWord 1)).stage = SHUFFLE_STAGE ∧ totalProgress (shuffleWord 1) = 1) := by
  refine ⟨by decide, by decide, by decide, by decide, ?_⟩
  rw [decodeState_stage]
  decide

/-! ## Waiting -/

theorem joinLoop_ok (joinOk : Nat → Bool) (l : List Nat) (job : JobContext I K V O)
    (h : ∀ i ∈ l, joinOk i = true) :
    joinLoop joinOk l job = { job with joinLog := job.joinLog ++ l } := by
  induction l generalizing job with
  | nil => simp [joinLoop]
  | cons i rest ih =>
    have hi : joinOk i = true := h i (by simp)
    have hr : ∀ j ∈ rest, joinOk j = true := fun j hj => h j (by simp [hj])
    simp [joinLoop, hi, ih _ hr]

theorem joinLoop_stateCounter (joinOk : Nat → Bool) (l : List Nat) (job : JobContext I K V O) :
    (joinLoop joinOk l job).stateCounter = job.stateCounter := by
  induction l generalizing job with
  | nil => rfl
  | cons i rest ih =>
    simp only [joinLoop]
    split
    · rw [ih]
    · rfl

theorem waitForJob_stateCounter (joinOk : Nat → Bool) (job : JobContext I K V O) :
    (waitForJob joinOk job).stateCounter = job.stateCounter := by
  unfold waitForJob
  split
  · rfl
  · split
    · rfl
    · simp only []
      split
      · exact joinLoop_stateCounter _ _ _
      · exact joinLoop_stateCounter _ _ _

theorem waitForJob_twice (joinOk : Nat → Bool) (job : JobContext I K V O) :
    waitForJob joinOk (waitForJob joinOk job) = waitForJob joinOk job := by
  by_cases hf : job.fault.isSome = true
  · simp [waitForJob, hf]
  · by_cases hw : job.waitFlag = true
    · simp [waitForJob, hf, hw]
    · by_cases h1 : (joinLoop joinOk (List.range job.threadsNumber) job).fault.isSome = true
      · have e : waitForJob joinOk job = joinLoop joinOk (List.range job.threadsNumber) job := by
          simp [waitForJob, hf, hw, h1]
        rw [e]
        simp [waitForJob, h1]
      · have e : waitForJob joinOk job =
            { joinLoop joinOk (List.range job.threadsNumber) job with waitFlag := true } := by
          simp [waitForJob, hf, hw, h1]
        rw [e]
        simp only [waitForJob]
        simp [h1]

/-- C10: waitForJob is idempotent. With the flag set it joins nobody and changes nothing;
with the flag clear (and every pthread_join returning 0) it joins workers
0, ..., threadsNumber - 1 once each and sets the flag; calling it twice is calling it
once; and the state that getJobState reports is the same after any number of calls. -/
theorem waitForJob_idempotent (joinOk : Nat → Bool) (job : JobContext I K V O) :
    (job.waitFlag = true → waitForJob joinOk job = job) ∧
    (job.fault = none → job.waitFlag = false →
      (∀ i, i < job.threadsNumber → joinOk i = true) →
      waitForJob joinOk job =
        { job with joinLog := job.joinLog ++ List.range job.threadsNumber,
                   waitFlag := true } ∧
      ∀ i, i < job.threadsNumber → (List.range job.threadsNumber).count i = 1) ∧
    waitForJob joinOk (waitForJob joinOk job) = waitForJob joinOk job ∧
    (∀ k : Nat, getJobState ((waitForJob joinOk)^[k] job) = getJobState job) := by
  refine ⟨?_, ?_, waitForJob_twice joinOk job, ?_⟩
  · intro hw
    simp [waitForJob, hw]
  · intro hf hw hj
    refine ⟨?_, ?_⟩
    · have hl := joinLoop_ok joinOk (List.range job.threadsNumber) job
        (fun i hi => hj i (List.mem_range.mp hi))
      simp [waitForJob, hf, hw, hl]
    · intro i hi
      exact List.count_eq_one_of_mem (List.nodup_range _) (List.mem_range.mpr hi)
  · intro k
    induction k with
    | zero => rfl
    | succ k ih =>
      rw [Function.iterate_succ_apply']
      unfold getJobState at ih ⊢
      rw [waitForJob_stateCounter, ih]

/-- C10 on the scenario's job: the first wait joins workers 0, 1, 2 and sets the flag,
the second wait changes nothing. -/
theorem waitForJob_idempotent_witness :
    (waitForJob (fun _ => true) abcJob).joinLog = [0, 1, 2] ∧
    (waitForJob (fun _ => true) abcJob).waitFlag = true ∧
    waitForJob (fun _ => true) (waitForJob (fun _ => true) abcJob) =
      waitForJob (fun _ => true) abcJob := by
  have h := waitForJob_idempotent (fun _ => true) abcJob
  have h2 := (h.2.1 rfl rfl (fun _ _ => rfl)).1
  refine ⟨?_, ?_, h.2.2.1⟩
  · rw [h2]; rfl
  · rw [h2]

/-! ## Access lemmas -/

theorem thread_setThread (job : JobContext I K V O) (i j : Nat) (t : Thread K V O) :
    (job.setThread i t).thread j =
      if i = j ∧ i < job.threadsArray.length then t else job.thread j := by
  unfold JobContext.thread JobContext.setThread
  simp only [List.getD_eq_getElem?_getD, List.getElem?_set]
  by_cases h : i = j
  · subst h
    by_cases h2 : i < job.threadsArray.length
    · simp [h2]
    · simp [h2, List.getElem?_eq_none (Nat.le_of_not_lt h2)]
  · simp [h]

@[simp] theorem length_setThread (job : JobContext I K V O) (i : Nat) (t : Thread K V O) :
    (job.setThread i t).threadsArray.length = job.threadsArray.length := by
  simp [JobContext.setThread]

theorem vec_setVec (job : JobContext I K V O) (i j : Nat) (v : List (K × V)) :
    (job.setVec i v).vec j = if i = j ∧ i < job.threadsArray.length then v else job.vec j := by
  unfold JobContext.vec JobContext.setVec
  rw [thread_setThread]
  split <;> rfl

theorem vec_setPc (job : JobContext I K V O) (i j : Nat) (pc : Pc O) :
    (job.setPc i pc).vec j = job.vec j := by
  unfold JobContext.vec JobContext.setPc
  rw [thread_setThread]
  split
  · rename_i h; rw [h.1]
  · rfl

@[simp] theorem vec_storeState (job : JobContext I K V O) (w : Nat) (j : Nat) :
    (job.storeState w).vec j = job.vec j := rfl

theorem vec_of_length_le (job : JobContext I K V O) (i : Nat)
    (h : job.threadsArray.length ≤ i) : job.vec i = [] := by
  unfold JobContext.vec JobContext.thread
  simp [List.getD_eq_getElem?_getD, List.getElem?_eq_none h]

/-! ## The inner loop of updatePairs -/

theorem rdropWhile_append_rtakeWhile {α : Type} (p : α → Bool) (l : List α) :
    l.rdropWhile p ++ l.rtakeWhile p = l := by
  unfold List.rdropWhile List.rtakeWhile
  rw [← List.reverse_append, List.takeWhile_append_dropWhile, List.reverse_reverse]

/-- What the inner `while` does to worker `i`: the longest tail of pairs whose key is
not less than `optional` moves, back first, to the group. -/
theorem updatePairsWhile_spec (optional : K) (i : Nat) (fuel : Nat)
    (m : MergeState I K V O) (hi : i < m.job.threadsArray.length)
    (hne : m.job.vec i ≠ []) (hfuel : (m.job.vec i).length ≤ fuel) :
    (updatePairsWhile optional i fuel m).job.fault = m.job.fault ∧
    (updatePairsWhile optional i fuel m).job.client = m.job.client ∧
    (updatePairsWhile optional i fuel m).job.threadsArray.length =
      m.job.threadsArray.length ∧
    (updatePairsWhile optional i fuel m).job.intermediateVectors =
      m.job.intermediateVectors ∧
    (∀ j, (updatePairsWhile optional i fuel m).job.vec j =
      if j = i then (m.job.vec i).rdropWhile (notLess m.job.client optional)
      else m.job.vec j) ∧
    (updatePairsWhile optional i fuel m).intermediateVectors =
      m.intermediateVectors ++
        ((m.job.vec i).rtakeWhile (notLess m.job.client optional)).reverse ∧
    (updatePairsWhile optional i fuel m).indicesToRemove =
      m.indicesToRemove ++
        (if ((m.job.vec i).rdropWhile (notLess m.job.client optional)).isEmpty
          then [i] else []) := by
  induction fuel generalizing m with
  | zero =>
    exfalso
    exact hne (List.length_eq_zero.mp (Nat.le_zero.mp hfuel))
  | succ fuel ih =>
    obtain ⟨p, hp⟩ : ∃ p, (m.job.vec i).getLast? = some p := by
      cases h : (m.job.vec i).getLast? with
      | none => exact absurd (List.getLast?_eq_none_iff.mp h) hne
      | some p => exact ⟨p, rfl⟩
    obtain ⟨init, hinit⟩ := List.getLast?_eq_some_iff.mp hp
    rw [updatePairsWhile]
    simp only [hp]
    by_cases hP : m.job.client.lt p.1 optional = true
    · -- the tail is less than the maximum: nothing moves
      simp only [hP, Bool.not_true, Bool.false_eq_true, if_false]
      have hPn : ¬ (notLess m.job.client optional p = true) := by
        simp [notLess, hP]
      rw [hinit, List.rdropWhile_concat_neg _ _ _ hPn, List.rtakeWhile_concat_neg _ _ _ hPn]
      refine ⟨trivial, trivial, trivial, trivial, ?_, by simp, by simp⟩
      intro j
      by_cases hj : j = i
      · simp [hj, hinit]
      · simp [hj]
    · have hPp : notLess m.job.client optional p = true := by
        simp [notLess, hP]
      simp only [hP, Bool.not_false, if_true]
      have hvec1 : ∀ j, ((m.job.setVec i (m.job.vec i).dropLast).storeState
          (incr64 m.job.stateCounter)).vec j = if j = i then init else m.job.vec j := by
        intro j
        rw [vec_storeState, vec_setVec]
        by_cases hj : j = i
        · subst hj
          simp [hi, hinit]
        · have : ¬ (i = j) := fun h => hj h.symm
          simp [hj, this]
      rw [hinit, List.rdropWhile_concat_pos _ _ _ hPp, List.rtakeWhile_concat_pos _ _ _ hPp]
      rw [hinit] at hvec1
      have hvi := hvec1 i
      simp only [if_true] at hvi
      by_cases hempty : init = []
      · subst hempty
        simp only [hvi, List.isEmpty_nil, if_true]
        refine ⟨rfl, rfl, by simp [JobContext.storeState, JobContext.setVec], rfl, ?_, by simp,
          by simp⟩
        intro j
        rw [hvec1 j]
        by_cases hj : j = i <;> simp [hj]
      · have hne1 : init.isEmpty = false := by
          cases init with
          | nil => exact absurd rfl hempty
          | cons a l => rfl
        simp only [hvi, hne1, Bool.false_eq_true, if_false]
        have hlen : init.length ≤ fuel := by
          rw [hinit] at hfuel
          simp at hfuel
          omega
        have := ih
          { job := (m.job.setVec i (init ++ [p]).dropLast).storeState (incr64 m.job.stateCounter),
            intermediateVectors := m.intermediateVectors ++ [p],
            indicesToRemove := m.indicesToRemove }
          (by simp [JobContext.storeState, JobContext.setVec]; exact hi)
          (by simp only [hvi]; exact hempty)
          (by simp only [hvi]; exact hlen)
        simp only [hvi] at this
        obtain ⟨h1, h2, h3, h4, h5, h6, h7⟩ := this
        have hcl : ((m.job.setVec i (init ++ [p]).dropLast).storeState
            (incr64 m.job.stateCounter)).client = m.job.client := rfl
        rw [hcl] at h5 h6 h7
        refine ⟨h1, h2, ?_, h4, ?_, ?_, h7⟩
        · rw [h3]; simp [JobContext.storeState, JobContext.setVec]
        · intro j
          rw [h5 j, hvec1 j]
          by_cases hj : j = i <;> simp [hj]
        · rw [h6]; simp

/-- What the first `for` loop of `updatePairs` does over distinct workers with non-empty
buffers. -/
theorem updatePairsFor_spec (optional : K) (l : List Nat) (m : MergeState I K V O)
    (hf : m.job.fault = none) (hnd : l.Nodup)
    (hl : ∀ i ∈ l, i < m.job.threadsArray.length ∧ m.job.vec i ≠ []) :
    (updatePairsFor optional l m).job.fault = none ∧
    (updatePairsFor optional l m).job.client = m.job.client ∧
    (updatePairsFor optional l m).job.threadsArray.length = m.job.threadsArray.length ∧
    (updatePairsFor optional l m).job.intermediateVectors = m.job.intermediateVectors ∧
    (∀ j, (updatePairsFor optional l m).job.vec j =
      if j ∈ l then (m.job.vec j).rdropWhile (notLess m.job.client optional)
      else m.job.vec j) ∧
    (updatePairsFor optional l m).intermediateVectors =
      m.intermediateVectors ++
        (l.map (fun i =>
          ((m.job.vec i).rtakeWhile (notLess m.job.client optional)).reverse)).flatten ∧
    (updatePairsFor optional l m).indicesToRemove =
      m.indicesToRemove ++
        l.filter (fun i =>
          ((m.job.vec i).rdropWhile (notLess m.job.client optional)).isEmpty) := by
  induction l generalizing m with
  | nil => simp [updatePairsFor, hf]
  | cons i rest ih =>
    obtain ⟨hi, hne⟩ := hl i (by simp)
    obtain ⟨w1, w2, w3, w4, w5, w6, w7⟩ :=
      updatePairsWhile_spec optional i ((m.job.vec i).length + 1) m hi hne (Nat.le_succ _)
    have hfault : (updatePairsWhile optional i ((m.job.vec i).length + 1) m).job.fault = none := by
      rw [w1, hf]
    have hnotin : i ∉ rest := (List.nodup_cons.mp hnd).1
    have hrest : ∀ j ∈ rest,
        (updatePairsWhile optional i ((m.job.vec i).length + 1) m).job.vec j = m.job.vec j := by
      intro j hj
      have : j ≠ i := fun h => hnotin (h ▸ hj)
      rw [w5 j]; simp [this]
    obtain ⟨r1, r2, r3, r4, r5, r6, r7⟩ :=
      ih (updatePairsWhile optional i ((m.job.vec i).length + 1) m) hfault
        (List.nodup_cons.mp hnd).2
        (fun j hj => by
          obtain ⟨a, b⟩ := hl j (by simp [hj])
          rw [w3, hrest j hj]
          exact ⟨a, b⟩)
    rw [updatePairsFor]
    simp only [hfault, Option.isSome_none, Bool.false_eq_true, if_false]
    rw [w2] at r5 r6 r7
    refine ⟨r1, r2.trans w2, r3.trans w3, r4.trans w4, ?_, ?_, ?_⟩
    · intro j
      rw [r5 j]
      by_cases hj : j ∈ rest
      · have hji : j ≠ i := fun h => hnotin (h ▸ hj)
        simp [hj, hrest j hj]
      · by_cases hji : j = i
        · subst hji
          simp [hj, w5 j]
        · simp [hj, hji, w5 j]
    · rw [r6, w6]
      have : rest.map (fun k => ((updatePairsWhile optional i ((m.job.vec i).length + 1) m).job.vec k
            |>.rtakeWhile (notLess m.job.client optional)).reverse) =
          rest.map (fun k => ((m.job.vec k).rtakeWhile (notLess m.job.client optional)).reverse) :=
        List.map_congr_left (fun k hk => by rw [hrest k hk])
      rw [this]
      simp
    · rw [r7, w7]
      have : rest.filter (fun k => ((updatePairsWhile optional i ((m.job.vec i).length + 1) m).job.vec k
            |>.rdropWhile (notLess m.job.client optional)).isEmpty) =
          rest.filter (fun k => ((m.job.vec k).rdropWhile (notLess m.job.client optional)).isEmpty) :=
        List.filter_congr (fun k hk => by rw [hrest k hk])
      rw [this]
      by_cases he : ((m.job.vec i).rdropWhile (notLess m.job.client optional)).isEmpty = true
      · simp [he, List.filter_cons]
      · simp [he, List.filter_cons]

theorem eraseIndices_eq_filter (l hasData : List Nat) (hnd : hasData.Nodup) :
    eraseIndices l hasData = hasData.filter (fun x => !(l.contains x)) := by
  induction l generalizing hasData with
  | nil => simp [eraseIndices]
  | cons i rest ih =>
    rw [eraseIndices, ih _ (hnd.erase i), hnd.erase_eq_filter, List.filter_filter]
    apply List.filter_congr
    intro x _
    by_cases hx : x = i
    · simp [hx]
    · have : ¬ (i = x) := fun h => hx h.symm
      simp [hx, List.contains_cons, this]

theorem flatten_map_filter {α β : Type} (l : List α) (q : α → Bool) (f : α → List β)
    (h : ∀ a ∈ l, q a = false → f a = []) :
    ((l.filter q).map f).flatten = (l.map f).flatten := by
  induction l with
  | nil => rfl
  | cons a l ih =>
    have ih' := ih (fun b hb => h b (by simp [hb]))
    by_cases hq : q a = true
    · simp [List.filter_cons, hq, ih']
    · have hq' : q a = false := by simpa using hq
      simp [List.filter_cons, hq', ih', h a (by simp) hq']

/-- The list of workers with data, as `updateIntermediates` builds it. -/
theorem updateIntermediates_eq (job : JobContext I K V O) (hasData : List Nat) :
    updateIntermediates job hasData =
      hasData ++ (List.range job.threadsNumber).filter (fun i => !(job.vec i).isEmpty) := by
  unfold updateIntermediates
  generalize List.range job.threadsNumber = l
  induction l generalizing hasData with
  | nil => simp
  | cons i rest ih =>
    rw [List.foldl_cons, ih]
    by_cases h : (job.vec i).isEmpty = true
    · simp [h, List.filter_cons]
    · simp [h, List.filter_cons]

/-- What one call of `updatePairs` does when `hasData` lists the workers with data. -/
theorem updatePairs_spec (job : JobContext I K V O) (optional : K) (hasData : List Nat)
    (hf : job.fault = none)
    (hd : hasData = (List.range job.threadsArray.length).filter
      (fun i => !(job.vec i).isEmpty)) :
    (updatePairs job optional hasData []).job.fault = none ∧
    (updatePairs job optional hasData []).job.client = job.client ∧
    (updatePairs job optional hasData []).job.threadsArray.length = job.threadsArray.length ∧
    (updatePairs job optional hasData []).job.intermediateVectors = job.intermediateVectors ∧
    (∀ j, (updatePairs job optional hasData []).job.vec j =
      (job.vec j).rdropWhile (notLess job.client optional)) ∧
    (updatePairs job optional hasData []).intermediateVectors =
      ((List.range job.threadsArray.length).map (fun i =>
          ((job.vec i).rtakeWhile (notLess job.client optional)).reverse)).flatten ∧
    (updatePairs job optional hasData []).indicesToRemove =
      (List.range job.threadsArray.length).filter
        (fun i => !((updatePairs job optional hasData []).job.vec i).isEmpty) := by
  have hnd : hasData.Nodup := by
    rw [hd]; exact (List.nodup_range _).filter _
  have hmem : ∀ i, i ∈ hasData ↔ i < job.threadsArray.length ∧ job.vec i ≠ [] := by
    intro i
    rw [hd]
    simp [List.mem_filter, List.mem_range]
  obtain ⟨r1, r2, r3, r4, r5, r6, r7⟩ := updatePairsFor_spec optional hasData
    { job := job, intermediateVectors := [], indicesToRemove := [] } hf hnd
    (fun i hi => (hmem i).mp hi)
  have hvec : ∀ j, (updatePairs job optional hasData []).job.vec j =
      (job.vec j).rdropWhile (notLess job.client optional) := by
    intro j
    show (updatePairsFor optional hasData _).job.vec j = _
    rw [r5 j]
    by_cases hj : j ∈ hasData
    · simp [hj]
    · have : job.vec j = [] := by
        by_contra hne
        by_cases hlt : j < job.threadsArray.length
        · exact hj ((hmem j).mpr ⟨hlt, hne⟩)
        · exact hne (vec_of_length_le job j (Nat.le_of_not_lt hlt))
      simp [hj, this]
  refine ⟨r1, r2, r3, r4, hvec, ?_, ?_⟩
  · show (updatePairsFor optional hasData _).intermediateVectors = _
    rw [r6, hd]
    simp only [List.nil_append]
    apply flatten_map_filter
    intro a _ ha
    have : job.vec a = [] := by
      simpa using ha
    simp [this]
  · show eraseIndices (updatePairsFor optional hasData _).indicesToRemove hasData = _
    rw [eraseIndices_eq_filter _ _ hnd, r7]
    simp only [List.nil_append]
    conv_lhs => rw [hd]
    rw [List.filter_filter]
    apply List.filter_congr
    intro x hx
    rw [hvec x]
    have hxm : x ∈ hasData ↔ job.vec x ≠ [] := by
      rw [hmem x]
      simp [List.mem_range.mp hx]
    have hcont : (List.filter (fun i =>
          (List.rdropWhile (notLess job.client optional) (job.vec i)).isEmpty) hasData).contains x =
        (decide (x ∈ hasData) &&
          (List.rdropWhile (notLess job.client optional) (job.vec x)).isEmpty) := by
      rw [Bool.eq_iff_iff]
      simp [List.mem_filter]
    show (!(List.contains _ x) && !(job.vec x).isEmpty) = _
    rw [hd] at hcont hxm
    rw [hcont]
    by_cases he : job.vec x = []
    · simp [he]
    · have hxin := hxm.mpr he
      have hne : (job.vec x).isEmpty = false := by
        cases hv : job.vec x with
        | nil => exact absurd hv he
        | cons a l => rfl
      rw [hne, decide_eq_true hxin]
      simp

/-! ## getMaxKey -/

theorem getMaxKeyLoop_spec (job : JobContext I K V O) (l : List Nat) (m0 : K)
    (hl : ∀ i ∈ l, job.vec i ≠ []) :
    ∃ k, getMaxKeyLoop job l m0 = Except.ok k ∧
      (k = m0 ∨ ∃ i ∈ l, ∃ p, (job.vec i).getLast? = some p ∧ k = p.1) := by
  induction l generalizing m0 with
  | nil => exact ⟨m0, rfl, Or.inl rfl⟩
  | cons i rest ih =>
    obtain ⟨p, hp⟩ : ∃ p, (job.vec i).getLast? = some p := by
      cases h : (job.vec i).getLast? with
      | none => exact absurd (List.getLast?_eq_none_iff.mp h) (hl i (by simp))
      | some p => exact ⟨p, rfl⟩
    obtain ⟨k, hk, hor⟩ := ih (if job.client.lt m0 p.1 then p.1 else m0)
      (fun j hj => hl j (by simp [hj]))
    refine ⟨k, ?_, ?_⟩
    · rw [getMaxKeyLoop]; simp only [hp]; exact hk
    · rcases hor with h | ⟨j, hj, q, hq, hkq⟩
      · by_cases hlt : job.client.lt m0 p.1 = true
        · right
          exact ⟨i, by simp, p, hp, by simpa [hlt] using h⟩
        · left
          simpa [hlt] using h
      · right
        exact ⟨j, by simp [hj], q, hq, hkq⟩

theorem getMaxKeyLoop_max (job : JobContext I K V O) (l : List Nat) (m0 k : K)
    (hirr : ∀ a, job.client.lt a a = false)
    (htr : ∀ a b c, job.client.lt a b = true → job.client.lt b c = true →
      job.client.lt a c = true)
    (S : K → Prop) (hS : ∀ q, S q → job.client.lt m0 q = false)
    (hk : getMaxKeyLoop job l m0 = Except.ok k) :
    (∀ q, S q → job.client.lt k q = false) ∧
    (∀ i ∈ l, ∀ p, (job.vec i).getLast? = some p → job.client.lt k p.1 = false) := by
  induction l generalizing m0 S with
  | nil =>
    simp only [getMaxKeyLoop, Except.ok.injEq] at hk
    subst hk
    exact ⟨hS, by simp⟩
  | cons i rest ih =>
    rw [getMaxKeyLoop] at hk
    cases hp : (job.vec i).getLast? with
    | none => simp [hp] at hk
    | some p =>
      simp only [hp] at hk
      have hS' : ∀ q, (S q ∨ q = p.1) →
          job.client.lt (if job.client.lt m0 p.1 then p.1 else m0) q = false := by
        intro q hq
        by_cases hlt : job.client.lt m0 p.1 = true
        · simp only [hlt, if_true]
          rcases hq with hq | hq
          · by_contra hc
            have hc' : job.client.lt p.1 q = true := by simpa using hc
            have := htr _ _ _ hlt hc'
            rw [hS q hq] at this
            exact Bool.false_ne_true this
          · rw [hq]; exact hirr _
        · simp only [hlt, Bool.false_eq_true, if_false]
          rcases hq with hq | hq
          · exact hS q hq
          · rw [hq]; simpa using hlt
      obtain ⟨h1, h2⟩ := ih _ (fun q => S q ∨ q = p.1) hS' hk
      refine ⟨fun q hq => h1 q (Or.inl hq), ?_⟩
      intro j hj q hq
      rcases List.mem_cons.mp hj with hji | hj
      · subst hji
        rw [hp] at hq
        cases hq
        exact h1 _ (Or.inr rfl)
      · exact h2 j hj q hq

/-- When every listed worker has data, `getMaxKey` returns the key at the back of one of
the listed buffers. -/
theorem getMaxKey_isBack (job : JobContext I K V O) (hasData : List Nat)
    (hne : hasData ≠ []) (hl : ∀ i ∈ hasData, job.vec i ≠ []) :
    ∃ k, getMaxKey job hasData = Except.ok k ∧
      ∃ i ∈ hasData, ∃ p, (job.vec i).getLast? = some p ∧ k = p.1 := by
  cases hasData with
  | nil => exact absurd rfl hne
  | cons i0 rest =>
    obtain ⟨p0, hp0⟩ : ∃ p, (job.vec i0).getLast? = some p := by
      cases h : (job.vec i0).getLast? with
      | none => exact absurd (List.getLast?_eq_none_iff.mp h) (hl i0 (by simp))
      | some p => exact ⟨p, rfl⟩
    obtain ⟨k, hk, hor⟩ := getMaxKeyLoop_spec job (i0 :: rest) p0.1 hl
    refine ⟨k, ?_, ?_⟩
    · simp only [getMaxKey, List.getElem?_cons_zero, hp0]
      exact hk
    · rcases hor with h | h
      · exact ⟨i0, by simp, p0, hp0, h⟩
      · exact h

/-- Under an irreflexive and transitive key order no back key is greater than the key
`getMaxKey` returns. -/
theorem getMaxKey_max (job : JobContext I K V O) (hasData : List Nat) (k : K)
    (hirr : ∀ a, job.client.lt a a = false)
    (htr : ∀ a b c, job.client.lt a b = true → job.client.lt b c = true →
      job.client.lt a c = true)
    (hk : getMaxKey job hasData = Except.ok k) :
    ∀ i ∈ hasData, ∀ p, (job.vec i).getLast? = some p → job.client.lt k p.1 = false := by
  unfold getMaxKey at hk
  cases h0 : hasData[0]? with
  | none => simp [h0] at hk
  | some i0 =>
    simp only [h0] at hk
    cases hp0 : (job.vec i0).getLast? with
    | none => simp [hp0] at hk
    | some p0 =>
      simp only [hp0] at hk
      exact (getMaxKeyLoop_max job hasData p0.1 k hirr htr (fun _ => False)
        (fun _ h => h.elim) hk).2

/-! ## One iteration of the loop of shuffle -/

theorem threadsArray_map_vec (job : JobContext I K V O) :
    job.threadsArray.map (fun t => t.intermediateVec) =
      (List.range job.threadsArray.length).map (fun i => job.vec i) := by
  apply List.ext_getElem
  · simp
  · intro n h1 h2
    simp only [List.getElem_map, List.getElem_range]
    unfold JobContext.vec JobContext.thread
    rw [List.getD_eq_getElem?_getD, List.getElem?_eq_getElem (by simpa using h1)]
    rfl

theorem pendingPairs_eq (job : JobContext I K V O) :
    pendingPairs job = (bufferedPairs job).length := by
  unfold pendingPairs bufferedPairs
  rw [← threadsArray_map_vec, List.length_flatten, List.map_map]
  rfl

theorem flatten_map_append_perm {α β : Type} (l : List α) (f g : α → List β) :
    ((l.map (fun i => f i ++ g i)).flatten).Perm ((l.map f).flatten ++ (l.map g).flatten) := by
  induction l with
  | nil => simp
  | cons a l ih =>
    simp only [List.map_cons, List.flatten_cons, List.append_assoc]
    refine List.Perm.append_left _ ?_
    refine (List.Perm.append_left _ ih).trans ?_
    rw [← List.append_assoc, ← List.append_assoc]
    exact List.Perm.append_right _ List.perm_append_comm

theorem flatten_map_perm {α β : Type} (l : List α) (f g : α → List β)
    (h : ∀ i ∈ l, (f i).Perm (g i)) :
    ((l.map f).flatten).Perm ((l.map g).flatten) := by
  induction l with
  | nil => simp
  | cons a l ih =>
    simp only [List.map_cons, List.flatten_cons]
    exact (h a (by simp)).append (ih (fun i hi => h i (by simp [hi])))

/-- The effect of one iteration on the buffers, the queue and the list of workers with
data. -/
theorem afterIteration_spec (job : JobContext I K V O) (optional : K)
    (hf : job.fault = none) :
    (afterIteration job optional).fault = none ∧
    (afterIteration job optional).client = job.client ∧
    (afterIteration job optional).threadsArray.length = job.threadsArray.length ∧
    (∀ j, (afterIteration job optional).vec j =
      (job.vec j).rdropWhile (notLess job.client optional)) ∧
    (afterIteration job optional).intermediateVectors =
      job.intermediateVectors ++ [groupOf job optional] ∧
    (updatePairs job optional (hasDataOf job) []).indicesToRemove =
      hasDataOf (afterIteration job optional) := by
  obtain ⟨r1, r2, r3, r4, r5, r6, r7⟩ := updatePairs_spec job optional (hasDataOf job) hf rfl
  refine ⟨r1, r2, r3, r5, ?_, ?_⟩
  · show (updatePairs job optional (hasDataOf job) []).job.intermediateVectors ++
      [(updatePairs job optional (hasDataOf job) []).intermediateVectors] = _
    rw [r4, r6]; rfl
  · rw [r7]
    show _ = List.filter _ (List.range (updatePairs job optional (hasDataOf job) []).job.threadsArray.length)
    rw [r3]
    rfl

/-- The pairs of the new group and the pairs left in the buffers are together the pairs
that were in the buffers. -/
theorem afterIteration_perm (job : JobContext I K V O) (optional : K)
    (hf : job.fault = none) :
    (bufferedPairs (afterIteration job optional) ++ groupOf job optional).Perm
      (bufferedPairs job) := by
  obtain ⟨_, _, h3, h4, _, _⟩ := afterIteration_spec job optional hf
  unfold bufferedPairs groupOf
  rw [h3]
  have e : (List.range job.threadsArray.length).map (fun i => (afterIteration job optional).vec i) =
      (List.range job.threadsArray.length).map
        (fun i => (job.vec i).rdropWhile (notLess job.client optional)) :=
    List.map_congr_left (fun i _ => h4 i)
  rw [e]
  refine ((flatten_map_append_perm _ _ _).symm).trans ?_
  apply flatten_map_perm
  intro i _
  have := rdropWhile_append_rtakeWhile (notLess job.client optional) (job.vec i)
  conv_rhs => rw [← this]
  exact List.Perm.append_left _ (List.reverse_perm _)

theorem mem_hasDataOf (job : JobContext I K V O) (i : Nat) :
    i ∈ hasDataOf job ↔ i < job.threadsArray.length ∧ job.vec i ≠ [] := by
  simp [hasDataOf, List.mem_filter, List.mem_range]

theorem hasDataOf_eq_nil (job : JobContext I K V O) :
    hasDataOf job = [] ↔ ∀ i, job.vec i = [] := by
  constructor
  · intro h i
    by_contra hne
    by_cases hlt : i < job.threadsArray.length
    · have : i ∈ hasDataOf job := (mem_hasDataOf job i).mpr ⟨hlt, hne⟩
      rw [h] at this
      exact absurd this (List.not_mem_nil _)
    · exact hne (vec_of_length_le job i (Nat.le_of_not_lt hlt))
  · intro h
    apply List.eq_nil_iff_forall_not_mem.mpr
    intro i hi
    exact ((mem_hasDataOf job i).mp hi).2 (h i)

/-- With data left, the loop finds its maximum at the back of a buffer and goes on from
the job after the iteration. -/
theorem shuffleLoop_step (job : JobContext I K V O) (hf : job.fault = none)
    (hne : hasDataOf job ≠ []) :
    ∃ k, getMaxKey job (hasDataOf job) = Except.ok k ∧
      (∃ i ∈ hasDataOf job, ∃ p, (job.vec i).getLast? = some p ∧ k = p.1) ∧
      ∀ fuel, shuffleLoop (fuel + 1) job (hasDataOf job) =
        shuffleLoop fuel (afterIteration job k) (hasDataOf (afterIteration job k)) := by
  obtain ⟨k, hk, hback⟩ := getMaxKey_isBack job (hasDataOf job) hne
    (fun i hi => ((mem_hasDataOf job i).mp hi).2)
  refine ⟨k, hk, hback, ?_⟩
  intro fuel
  obtain ⟨a1, _, _, _, _, a6⟩ := afterIteration_spec job k hf
  have hemp : (hasDataOf job).isEmpty = false := by
    cases h : hasDataOf job with
    | nil => exact absurd h hne
    | cons a l => rfl
  have hfa : (updatePairs job k (hasDataOf job) []).job.fault = none := a1
  rw [shuffleLoop, if_neg (by simp [hemp])]
  simp only [hk]
  rw [if_neg (by simp [hfa]), a6]
  rfl

theorem shuffleLoop_done (job : JobContext I K V O) (fuel : Nat)
    (h : hasDataOf job = []) : shuffleLoop fuel job (hasDataOf job) = job := by
  cases fuel <;> simp [shuffleLoop, h]

/-! ## The loop of shuffle -/

theorem mem_groupOf (job : JobContext I K V O) (optional : K) (e : K × V) :
    e ∈ groupOf job optional ↔
      ∃ i, i < job.threadsArray.length ∧
        e ∈ (job.vec i).rtakeWhile (notLess job.client optional) := by
  simp [groupOf, List.mem_flatten, List.mem_map, List.mem_range]

theorem mem_bufferedPairs (job : JobContext I K V O) (e : K × V) :
    e ∈ bufferedPairs job ↔ ∃ i, e ∈ job.vec i := by
  unfold bufferedPairs
  simp only [List.mem_flatten, List.mem_map, List.mem_range]
  constructor
  · rintro ⟨l, ⟨i, _, rfl⟩, he⟩
    exact ⟨i, he⟩
  · rintro ⟨i, he⟩
    refine ⟨job.vec i, ⟨i, ?_, rfl⟩, he⟩
    by_contra hlt
    rw [vec_of_length_le job i (Nat.le_of_not_lt hlt)] at he
    exact absurd he (List.not_mem_nil _)

/-- Under an irreflexive key order the group of an iteration whose maximum is a back key
is not empty. -/
theorem groupOf_ne_nil (job : JobContext I K V O) (k : K)
    (hirr : ∀ a, job.client.lt a a = false)
    (hback : ∃ i ∈ hasDataOf job, ∃ p, (job.vec i).getLast? = some p ∧ k = p.1) :
    groupOf job k ≠ [] := by
  obtain ⟨i, hi, p, hp, hk⟩ := hback
  obtain ⟨init, hinit⟩ := List.getLast?_eq_some_iff.mp hp
  have hP : notLess job.client k p = true := by
    simp [notLess, hk, hirr]
  have hmem : p ∈ groupOf job k := by
    rw [mem_groupOf]
    refine ⟨i, ((mem_hasDataOf job i).mp hi).1, ?_⟩
    rw [hinit, List.rtakeWhile_concat_pos _ _ _ hP]
    simp
  exact List.ne_nil_of_mem hmem

theorem pendingPairs_afterIteration (job : JobContext I K V O) (k : K)
    (hf : job.fault = none) (hirr : ∀ a, job.client.lt a a = false)
    (hback : ∃ i ∈ hasDataOf job, ∃ p, (job.vec i).getLast? = some p ∧ k = p.1) :
    pendingPairs (afterIteration job k) < pendingPairs job := by
  have hperm := (afterIteration_perm job k hf).length_eq
  have hne := groupOf_ne_nil job k hirr hback
  have hpos : 0 < (groupOf job k).length := List.length_pos.mpr hne
  rw [pendingPairs_eq, pendingPairs_eq]
  rw [List.length_append] at hperm
  omega

/-- Invariant rule for the loop of `shuffle` under an irreflexive key order: with more
fuel than buffered pairs the loop ends without a fault, with every buffer empty, and any
property kept by each iteration holds at the end. -/
theorem shuffleLoop_invariant (Inv : JobContext I K V O → Prop)
    (client : MapReduceClient I K V O) (hirr : ∀ a, client.lt a a = false)
    (hstep : ∀ (job : JobContext I K V O) (k : K), job.fault = none → job.client = client →
      Inv job → getMaxKey job (hasDataOf job) = Except.ok k →
      (∃ i ∈ hasDataOf job, ∃ p, (job.vec i).getLast? = some p ∧ k = p.1) →
      Inv (afterIteration job k)) :
    ∀ (fuel : Nat) (job : JobContext I K V O), job.fault = none → job.client = client →
      Inv job → pendingPairs job < fuel →
      (shuffleLoop fuel job (hasDataOf job)).fault = none ∧
      Inv (shuffleLoop fuel job (hasDataOf job)) ∧
      ∀ i, (shuffleLoop fuel job (hasDataOf job)).vec i = [] := by
  intro fuel
  induction fuel with
  | zero => intro job _ _ _ h; exact absurd h (Nat.not_lt_zero _)
  | succ fuel ih =>
    intro job hf hc hinv hfuel
    by_cases hne : hasDataOf job = []
    · rw [shuffleLoop_done job _ hne]
      exact ⟨hf, hinv, (hasDataOf_eq_nil job).mp hne⟩
    · obtain ⟨k, hk, hback, hloop⟩ := shuffleLoop_step job hf hne
      rw [hloop fuel]
      obtain ⟨a1, a2, _, _, _, _⟩ := afterIteration_spec job k hf
      have hdec := pendingPairs_afterIteration job k hf (by rw [hc]; exact hirr) hback
      exact ih (afterIteration job k) a1 (a2.trans hc) (hstep job k hf hc hinv hk hback)
        (by omega)

theorem shuffle_eq_loop (fuel : Nat) (job : JobContext I K V O)
    (hN : job.threadsNumber = job.threadsArray.length) :
    shuffle fuel job = shuffleLoop fuel job (hasDataOf job) := by
  unfold shuffle hasDataOf
  rw [updateIntermediates_eq, hN]
  rfl

/-! ## Strict weak orders -/

theorem StrictWeakOrder.negTrans {lt : K → K → Bool} (h : StrictWeakOrder lt) (a b c : K)
    (hac : lt a c = true) : lt a b = true ∨ lt b c = true := by
  by_contra hcon
  push_neg at hcon
  obtain ⟨hab, hbc⟩ := hcon
  have hab' : lt a b = false := by simpa using hab
  have hbc' : lt b c = false := by simpa using hbc
  have hba : lt b a = false := by
    by_contra hx
    have hx' : lt b a = true := by simpa using hx
    have := h.trans _ _ _ hx' hac
    rw [hbc'] at this
    exact Bool.false_ne_true this
  have hcb : lt c b = false := by
    by_contra hx
    have hx' : lt c b = true := by simpa using hx
    have := h.trans _ _ _ hac hx'
    rw [hab'] at this
    exact Bool.false_ne_true this
  have e1 : equivKeys lt a b = true := by simp [equivKeys, hab', hba]
  have e2 : equivKeys lt b c = true := by simp [equivKeys, hbc', hcb]
  have e3 := h.equiv_trans _ _ _ e1 e2
  simp [equivKeys, hac] at e3

theorem equivKeys_symm (lt : K → K → Bool) (a b : K) :
    equivKeys lt a b = equivKeys lt b a := by
  unfold equivKeys
  exact Bool.and_comm _ _

theorem StrictWeakOrder.notLt_trans {lt : K → K → Bool} (h : StrictWeakOrder lt) (a b c : K)
    (hab : lt a b = false) (hbc : lt b c = false) : lt a c = false := by
  by_contra hx
  have hx' : lt a c = true := by simpa using hx
  rcases h.negTrans a b c hx' with h1 | h1
  · rw [hab] at h1; exact Bool.false_ne_true h1
  · rw [hbc] at h1; exact Bool.false_ne_true h1

/-! ## Grouping -/

theorem sortedAsc_last (lt : K → K → Bool) (init : List (K × V)) (p e : K × V)
    (hs : SortedAsc lt (init ++ [p])) (he : e ∈ init) : lt p.1 e.1 = false := by
  unfold SortedAsc at hs
  rw [List.pairwise_append] at hs
  exact hs.2.2 e he p (by simp)

/-- The key `getMaxKey` returns is not less than any buffered key when the buffers are
ascending. -/
theorem maxKey_ge_all (job : JobContext I K V O) (k : K)
    (hswo : StrictWeakOrder job.client.lt)
    (hsorted : ∀ i, SortedAsc job.client.lt (job.vec i))
    (hk : getMaxKey job (hasDataOf job) = Except.ok k) :
    ∀ i, ∀ e ∈ job.vec i, job.client.lt k e.1 = false := by
  intro i e he
  have hne : job.vec i ≠ [] := List.ne_nil_of_mem he
  have hi : i ∈ hasDataOf job := by
    rw [mem_hasDataOf]
    refine ⟨?_, hne⟩
    by_contra hlt
    exact hne (vec_of_length_le job i (Nat.le_of_not_lt hlt))
  obtain ⟨p, hp⟩ : ∃ p, (job.vec i).getLast? = some p := by
    cases h : (job.vec i).getLast? with
    | none => exact absurd (List.getLast?_eq_none_iff.mp h) hne
    | some p => exact ⟨p, rfl⟩
  obtain ⟨init, hinit⟩ := List.getLast?_eq_some_iff.mp hp
  have hkp := getMaxKey_max job (hasDataOf job) k hswo.irrefl hswo.trans hk i hi p hp
  rw [hinit] at he
  rcases List.mem_append.mp he with h | h
  · have hs := hsorted i
    rw [hinit] at hs
    exact hswo.notLt_trans _ _ _ hkp (sortedAsc_last _ init p e hs h)
  · have : e = p := by simpa using h
    rw [this]; exact hkp

/-- What stays in an ascending buffer after the inner loop is less than the maximum. -/
theorem kept_lt_max (client : MapReduceClient I K V O) (k : K)
    (hswo : StrictWeakOrder client.lt) (v : List (K × V))
    (hs : SortedAsc client.lt v) :
    ∀ e ∈ v.rdropWhile (notLess client k), client.lt e.1 k = true := by
  intro e he
  have hne : v.rdropWhile (notLess client k) ≠ [] := List.ne_nil_of_mem he
  have hlast := List.rdropWhile_last_not (notLess client k) v hne
  have hlt : client.lt ((v.rdropWhile (notLess client k)).getLast hne).1 k = true := by
    simpa [notLess] using hlast
  have hsk : SortedAsc client.lt (v.rdropWhile (notLess client k)) :=
    List.Pairwise.sublist (List.rdropWhile_prefix _ v).sublist hs
  have hsplit := List.dropLast_append_getLast hne
  rw [← hsplit] at he hsk
  rcases List.mem_append.mp he with h | h
  · have h1 := sortedAsc_last _ _ _ e hsk h
    rcases hswo.negTrans _ e.1 _ hlt with h2 | h2
    · rw [h1] at h2; exact absurd h2 Bool.false_ne_true
    · exact h2
  · have : e = (v.rdropWhile (notLess client k)).getLast hne := by simpa using h
    rw [this]; exact hlt

theorem groupsInv_step (job : JobContext I K V O) (k : K)
    (hswo : StrictWeakOrder job.client.lt) (hf : job.fault = none)
    (hinv : GroupsInv job.client.lt job)
    (hk : getMaxKey job (hasDataOf job) = Except.ok k)
    (hback : ∃ i ∈ hasDataOf job, ∃ p, (job.vec i).getLast? = some p ∧ k = p.1) :
    GroupsInv job.client.lt (afterIteration job k) := by
  obtain ⟨hsorted, ⟨hnonempty, hequiv, hpair⟩, hbelow⟩ := hinv
  obtain ⟨_, _, _, hvec, hqueue, _⟩ := afterIteration_spec job k hf
  have hmax := maxKey_ge_all job k hswo hsorted hk
  have hkeep : ∀ i, ∀ e ∈ (afterIteration job k).vec i, job.client.lt e.1 k = true := by
    intro i e he
    rw [hvec i] at he
    exact kept_lt_max job.client k hswo (job.vec i) (hsorted i) e he
  have hsub : ∀ i, ∀ e ∈ (afterIteration job k).vec i, e ∈ job.vec i := by
    intro i e he
    rw [hvec i] at he
    exact (List.rdropWhile_prefix _ _).subset he
  have hgroup : ∀ e ∈ groupOf job k,
      (∃ i, e ∈ job.vec i) ∧ equivKeys job.client.lt e.1 k = true := by
    intro e he
    obtain ⟨i, _, hi⟩ := (mem_groupOf job k e).mp he
    have hmem : e ∈ job.vec i := (List.rtakeWhile_suffix _ _).subset hi
    have hP := List.mem_rtakeWhile_imp hi
    have h1 : job.client.lt e.1 k = false := by simpa [notLess] using hP
    exact ⟨⟨i, hmem⟩, by simp [equivKeys, h1, hmax i e hmem]⟩
  refine ⟨?_, ⟨?_, ?_, ?_⟩, ?_⟩
  · intro i
    rw [hvec i]
    exact List.Pairwise.sublist (List.rdropWhile_prefix _ _).sublist (hsorted i)
  · intro g hg
    rw [hqueue] at hg
    rcases List.mem_append.mp hg with h | h
    · exact hnonempty g h
    · have : g = groupOf job k := by simpa using h
      rw [this]
      exact groupOf_ne_nil job k hswo.irrefl hback
  · intro g hg p hp q hq
    rw [hqueue] at hg
    rcases List.mem_append.mp hg with h | h
    · exact hequiv g h p hp q hq
    · have : g = groupOf job k := by simpa using h
      subst this
      have e1 := (hgroup p hp).2
      have e2 := (hgroup q hq).2
      rw [equivKeys_symm] at e2
      exact hswo.equiv_trans _ _ _ e1 e2
  · rw [hqueue, List.pairwise_append]
    refine ⟨hpair, by simp, ?_⟩
    intro h hh g hg p hp q hq
    have : g = groupOf job k := by simpa using hg
    subst this
    obtain ⟨⟨i, hi⟩, _⟩ := hgroup q hq
    exact hbelow h hh p hp i q hi
  · intro g hg q hq i p hp
    rw [hqueue] at hg
    rcases List.mem_append.mp hg with h | h
    · exact hbelow g h q hq i p (hsub i p hp)
    · have : g = groupOf job k := by simpa using h
      subst this
      have e2 := (hgroup q hq).2
      have hqk : job.client.lt q.1 k = false := by
        simp [equivKeys] at e2
        exact e2.1
      rcases hswo.negTrans _ q.1 _ (hkeep i p hp) with h2 | h2
      · exact h2
      · rw [hqk] at h2; exact absurd h2 Bool.false_ne_true

/-- Everything `shuffle` guarantees on ascending buffers under a strict weak order, when
it starts with more fuel than buffered pairs. -/
theorem shuffle_spec (job : JobContext I K V O) (fuel : Nat)
    (hswo : StrictWeakOrder job.client.lt)
    (hN : job.threadsNumber = job.threadsArray.length) (hf : job.fault = none)
    (hinv : GroupsInv job.client.lt job) (hfuel : pendingPairs job < fuel) :
    (shuffle fuel job).fault = none ∧
    GroupsInv job.client.lt (shuffle fuel job) ∧
    (∀ i, (shuffle fuel job).vec i = []) ∧
    ((shuffle fuel job).intermediateVectors.flatten).Perm
      (job.intermediateVectors.flatten ++ bufferedPairs job) := by
  rw [shuffle_eq_loop fuel job hN]
  have h := shuffleLoop_invariant
    (fun j => GroupsInv job.client.lt j ∧
      (j.intermediateVectors.flatten ++ bufferedPairs j).Perm
        (job.intermediateVectors.flatten ++ bufferedPairs job))
    job.client hswo.irrefl
    (by
      intro j k hjf hjc ⟨hg, hp⟩ hk hback
      obtain ⟨_, _, _, _, hqueue, _⟩ := afterIteration_spec j k hjf
      refine ⟨?_, ?_⟩
      · have := groupsInv_step j k (by rw [hjc]; exact hswo) hjf (by rw [hjc]; exact hg) hk hback
        rw [hjc] at this
        exact this
      · rw [hqueue, List.flatten_append]
        simp only [List.flatten_cons, List.flatten_nil, List.append_nil, List.append_assoc]
        refine (List.Perm.append_left _ ?_).trans hp
        exact List.perm_append_comm.trans (afterIteration_perm j k hjf))
    fuel job hf rfl ⟨hinv, List.Perm.refl _⟩ hfuel
  obtain ⟨h1, ⟨h2, h3⟩, h4⟩ := h
  refine ⟨h1, h2, h4, ?_⟩
  have hempty : bufferedPairs (shuffleLoop fuel job (hasDataOf job)) = [] := by
    apply List.eq_nil_iff_forall_not_mem.mpr
    intro e he
    obtain ⟨i, hi⟩ := (mem_bufferedPairs _ e).mp he
    rw [h4 i] at hi
    exact absurd hi (List.not_mem_nil _)
  rw [hempty, List.append_nil] at h3
  exact h3

theorem groupsInv_initial (job : JobContext I K V O)
    (hq : job.intermediateVectors = [])
    (hsorted : ∀ i, SortedAsc job.client.lt (job.vec i)) :
    GroupsInv job.client.lt job := by
  refine ⟨hsorted, ⟨?_, ?_, ?_⟩, ?_⟩ <;> simp [hq]

/-- C1: grouping correctness of shuffle. On buffers that are ascending under a strict
weak key order, shuffle (started with an empty queue and more fuel than buffered pairs)
ends without a fault and leaves a queue in which every group is non-empty, holds only
equivalent keys, and shares no equivalent key with another group; every buffered pair is
in a group, and that group is the only one holding a key equivalent to its key. -/
theorem shuffle_groups (job : JobContext I K V O) (fuel : Nat)
    (hswo : StrictWeakOrder job.client.lt)
    (hN : job.threadsNumber = job.threadsArray.length) (hf : job.fault = none)
    (hq : job.intermediateVectors = [])
    (hsorted : ∀ i, SortedAsc job.client.lt (job.vec i))
    (hfuel : pendingPairs job < fuel) :
    (shuffle fuel job).fault = none ∧
    (∀ g ∈ (shuffle fuel job).intermediateVectors, g ≠ []) ∧
    (∀ g ∈ (shuffle fuel job).intermediateVectors, ∀ p ∈ g, ∀ q ∈ g,
      equivKeys job.client.lt p.1 q.1 = true) ∧
    (shuffle fuel job).intermediateVectors.Pairwise
      (fun g h => ∀ p ∈ g, ∀ q ∈ h, equivKeys job.client.lt p.1 q.1 = false) ∧
    (∀ i, ∀ p ∈ job.vec i, ∃ g ∈ (shuffle fuel job).intermediateVectors, p ∈ g ∧
      ∀ h ∈ (shuffle fuel job).intermediateVectors,
        (∃ q ∈ h, equivKeys job.client.lt p.1 q.1 = true) → h = g) := by
  obtain ⟨h1, ⟨_, ⟨h3, h4, hdesc⟩, _⟩, _, h7⟩ :=
    shuffle_spec job fuel hswo hN hf (groupsInv_initial job hq hsorted) hfuel
  have h5 : (shuffle fuel job).intermediateVectors.Pairwise
      (fun g h => ∀ p ∈ g, ∀ q ∈ h, equivKeys job.client.lt p.1 q.1 = false) :=
    hdesc.imp (fun hgh p hp q hq => by simp [equivKeys, hgh p hp q hq])
  refine ⟨h1, h3, h4, h5, ?_⟩
  intro i p hp
  have hmem : p ∈ (shuffle fuel job).intermediateVectors.flatten := by
    apply h7.symm.subset
    rw [hq]
    simpa using (mem_bufferedPairs job p).mpr ⟨i, hp⟩
  obtain ⟨g, hg, hpg⟩ := List.mem_flatten.mp hmem
  refine ⟨g, hg, hpg, ?_⟩
  intro h hh ⟨q, hqh, hpq⟩
  by_contra hne
  have hsymm : Symmetric (fun g h : List (K × V) =>
      ∀ p ∈ g, ∀ q ∈ h, equivKeys job.client.lt p.1 q.1 = false) := by
    intro a b hab x hx y hy
    rw [equivKeys_symm]
    exact hab y hy x hx
  have := List.Pairwise.forall hsymm h5 hg hh (fun e => hne e.symm) p hpg q hqh
  rw [this] at hpq
  exact Bool.false_ne_true hpq

theorem natLt_strictWeakOrder : StrictWeakOrder (fun a b : Nat => decide (a < b)) where
  irrefl := by simp
  trans := by
    intro a b c h1 h2
    simp only [decide_eq_true_eq] at h1 h2 ⊢
    omega
  equiv_trans := by
    intro a b c h1 h2
    simp only [equivKeys, Bool.and_eq_true, Bool.not_eq_true', decide_eq_false_iff_not] at h1 h2 ⊢
    omega

theorem abcMapped_sorted : ∀ i, SortedAsc countClient.lt (abcMapped.vec i) := by
  intro i
  rcases i with _ | _ | _ | i
  · decide
  · decide
  · decide
  · rw [vec_of_length_le abcMapped (i + 3) (by simp [abcMapped])]
    exact List.Pairwise.nil

/-- C1 on the scenario: keys 1, 2, 3 on three workers give three singleton groups. -/
theorem shuffle_groups_witness :
    (shuffle 4 abcMapped).intermediateVectors = [[(3, 'c')], [(2, 'b')], [(1, 'a')]] ∧
    (∀ g ∈ (shuffle 4 abcMapped).intermediateVectors, g ≠ []) ∧
    (shuffle 4 abcMapped).intermediateVectors.Pairwise
      (fun g h => ∀ p ∈ g, ∀ q ∈ h, equivKeys countClient.lt p.1 q.1 = false) := by
  have h := shuffle_groups abcMapped 4 natLt_strictWeakOrder rfl rfl rfl abcMapped_sorted
    (by decide)
  exact ⟨by decide, h.2.1, h.2.2.2.1⟩

/-! ## Conservation of the pairs -/

/-- C3: shuffle loses and duplicates nothing. Under an irreflexive key order (so in
particular on ascending buffers under a strict weak order), with more fuel than buffered
pairs, shuffle ends without a fault, every worker buffer is empty, and the groups it
appended to the queue, concatenated, are a permutation of the concatenation of the
original buffers. -/
theorem shuffle_permutation (job : JobContext I K V O) (fuel : Nat)
    (hirr : ∀ a, job.client.lt a a = false)
    (hN : job.threadsNumber = job.threadsArray.length) (hf : job.fault = none)
    (hfuel : pendingPairs job < fuel) :
    (shuffle fuel job).fault = none ∧
    (∀ t ∈ (shuffle fuel job).threadsArray, t.intermediateVec = []) ∧
    ∃ groups, (shuffle fuel job).intermediateVectors = job.intermediateVectors ++ groups ∧
      (groups.flatten).Perm ((job.threadsArray.map (fun t => t.intermediateVec)).flatten) := by
  rw [shuffle_eq_loop fuel job hN]
  have h := shuffleLoop_invariant
    (fun j => ∃ groups, j.intermediateVectors = job.intermediateVectors ++ groups ∧
      (groups.flatten ++ bufferedPairs j).Perm (bufferedPairs job))
    job.client hirr
    (by
      intro j k hjf _ ⟨groups, hg, hp⟩ _ _
      obtain ⟨_, _, _, _, hqueue, _⟩ := afterIteration_spec j k hjf
      refine ⟨groups ++ [groupOf j k], ?_, ?_⟩
      · rw [hqueue, hg, List.append_assoc]
      · rw [List.flatten_append]
        simp only [List.flatten_cons, List.flatten_nil, List.append_nil, List.append_assoc]
        refine (List.Perm.append_left _ ?_).trans hp
        exact List.perm_append_comm.trans (afterIteration_perm j k hjf))
    fuel job hf rfl ⟨[], by simp, by simp⟩ hfuel
  obtain ⟨h1, ⟨groups, hg, hp⟩, h4⟩ := h
  refine ⟨h1, ?_, groups, hg, ?_⟩
  · intro t ht
    have hmap := threadsArray_map_vec (shuffleLoop fuel job (hasDataOf job))
    have : t.intermediateVec ∈
        (shuffleLoop fuel job (hasDataOf job)).threadsArray.map (fun t => t.intermediateVec) :=
      List.mem_map_of_mem _ ht
    rw [hmap] at this
    obtain ⟨i, _, hi⟩ := List.mem_map.mp this
    rw [← hi]
    exact h4 i
  · have hempty : bufferedPairs (shuffleLoop fuel job (hasDataOf job)) = [] := by
      apply List.eq_nil_iff_forall_not_mem.mpr
      intro e he
      obtain ⟨i, hi⟩ := (mem_bufferedPairs _ e).mp he
      rw [h4 i] at hi
      exact absurd hi (List.not_mem_nil _)
    rw [hempty, List.append_nil] at hp
    rw [threadsArray_map_vec]
    exact hp

/-- C3 on the scenario: the three buffers end empty and the three groups hold the three
pairs. -/
theorem shuffle_permutation_witness :
    (∀ t ∈ (shuffle 4 abcMapped).threadsArray, t.intermediateVec = []) ∧
    ∃ groups, (shuffle 4 abcMapped).intermediateVectors = [] ++ groups ∧
      (groups.flatten).Perm [(1, 'a'), (2, 'b'), (3, 'c')] :=
  (shuffle_permutation abcMapped 4 (fun a => decide_eq_false (Nat.lt_irrefl a)) rfl rfl (by decide)).2

/-! ## What shuffle leaves alone, and what it does to the progress word -/

theorem outsideShuffle_setVec (job : JobContext I K V O) (i : Nat) (v : List (K × V)) :
    (job.setVec i v).outsideShuffle = job.outsideShuffle := by
  unfold JobContext.outsideShuffle JobContext.setVec JobContext.setThread
  simp only [JobContext.mk.injEq, and_true, true_and]
  apply List.ext_getElem?
  intro n
  simp only [List.getElem?_map, List.getElem?_set]
  by_cases h : i = n
  · subst h
    by_cases h2 : i < job.threadsArray.length
    · simp [h2, JobContext.thread, List.getD_eq_getElem?_getD, List.getElem?_eq_getElem h2]
    · simp [h2, List.getElem?_eq_none (Nat.le_of_not_lt h2)]
  · simp [h]

@[simp] theorem outsideShuffle_storeState (job : JobContext I K V O) (w : Nat) :
    (job.storeState w).outsideShuffle = job.outsideShuffle := rfl

@[simp] theorem outsideShuffle_fail (job : JobContext I K V O) (f : Fault) :
    (job.fail f).outsideShuffle = job.outsideShuffle := rfl

theorem pendingPairs_eq_sum (job : JobContext I K V O) :
    pendingPairs job =
      ((List.range job.threadsArray.length).map (fun i => (job.vec i).length)).sum := by
  unfold pendingPairs
  have := congrArg (List.map List.length) (threadsArray_map_vec job)
  simp only [List.map_map] at this
  exact congrArg List.sum this

theorem sum_range_dec (f g : Nat → Nat) (n i : Nat) (hi : i < n) (hgi : g i + 1 = f i)
    (hg : ∀ j, j ≠ i → g j = f j) :
    ((List.range n).map g).sum + 1 = ((List.range n).map f).sum := by
  induction n with
  | zero => exact absurd hi (Nat.not_lt_zero _)
  | succ n ih =>
    rw [List.range_succ, List.map_append, List.map_append, List.sum_append, List.sum_append]
    simp only [List.map_cons, List.map_nil, List.sum_cons, List.sum_nil, Nat.add_zero]
    by_cases h : i = n
    · subst h
      have : (List.range i).map g = (List.range i).map f :=
        List.map_congr_left (fun j hj => hg j (Nat.ne_of_lt (List.mem_range.mp hj)))
      rw [this]
      omega
    · have := ih (by omega)
      have hn : g n = f n := hg n (fun e => h e.symm)
      omega

theorem pendingPairs_setVec_dropLast (job : JobContext I K V O) (i : Nat) (p : K × V)
    (hp : (job.vec i).getLast? = some p) :
    pendingPairs (job.setVec i (job.vec i).dropLast) + 1 = pendingPairs job := by
  obtain ⟨init, hinit⟩ := List.getLast?_eq_some_iff.mp hp
  have hi : i < job.threadsArray.length := by
    by_contra h
    rw [vec_of_length_le job i (Nat.le_of_not_lt h)] at hinit
    simp at hinit
  rw [pendingPairs_eq_sum, pendingPairs_eq_sum]
  have hlen : (job.setVec i (job.vec i).dropLast).threadsArray.length =
      job.threadsArray.length := by
    simp [JobContext.setVec]
  rw [hlen]
  apply sum_range_dec _ _ _ i hi
  · rw [vec_setVec]
    simp [hi, hinit]
  · intro j hj
    rw [vec_setVec]
    have : ¬ (i = j) := fun e => hj e.symm
    simp [this]

/-- Whatever happens in the inner loop, it writes only the buffers and the progress
word, and it stores one incremented word per pair it pops. -/
theorem updatePairsWhile_frame (optional : K) (i : Nat) (fuel : Nat)
    (m : MergeState I K V O) :
    (updatePairsWhile optional i fuel m).job.outsideShuffle = m.job.outsideShuffle ∧
    (updatePairsWhile optional i fuel m).job.intermediateVectors =
      m.job.intermediateVectors ∧
    ∃ k, k + pendingPairs (updatePairsWhile optional i fuel m).job = pendingPairs m.job ∧
      (updatePairsWhile optional i fuel m).job.history =
        m.job.history ++ countUp m.job.stateCounter k ∧
      (updatePairsWhile optional i fuel m).job.stateCounter = incr64^[k] m.job.stateCounter := by
  induction fuel generalizing m with
  | zero =>
    refine ⟨rfl, rfl, 0, ?_, ?_, rfl⟩
    · simp [updatePairsWhile, JobContext.fail, pendingPairs]
    · simp [updatePairsWhile, JobContext.fail, countUp]
  | succ fuel ih =>
    rw [updatePairsWhile]
    cases hp : (m.job.vec i).getLast? with
    | none =>
      refine ⟨rfl, rfl, 0, ?_, ?_, rfl⟩
      · simp [JobContext.fail, pendingPairs]
      · simp [JobContext.fail, countUp]
    | some p =>
      simp only
      by_cases hP : m.job.client.lt p.1 optional = true
      · simp only [hP, Bool.not_true, Bool.false_eq_true, if_false]
        refine ⟨?_, ?_, 0, ?_, ?_, ?_⟩ <;> simp [countUp]
      · simp only [hP, Bool.not_false, if_true]
        have hpend := pendingPairs_setVec_dropLast m.job i p hp
        have hout : ((m.job.setVec i (m.job.vec i).dropLast).storeState
            (incr64 m.job.stateCounter)).outsideShuffle = m.job.outsideShuffle := by
          rw [outsideShuffle_storeState, outsideShuffle_setVec]
        have hq : ((m.job.setVec i (m.job.vec i).dropLast).storeState
            (incr64 m.job.stateCounter)).intermediateVectors = m.job.intermediateVectors := rfl
        have hpend' : pendingPairs ((m.job.setVec i (m.job.vec i).dropLast).storeState
            (incr64 m.job.stateCounter)) + 1 = pendingPairs m.job := hpend
        split
        · refine ⟨hout, hq, 1, ?_, ?_, rfl⟩
          · show 1 + pendingPairs ((m.job.setVec i (m.job.vec i).dropLast).storeState
              (incr64 m.job.stateCounter)) = pendingPairs m.job
            omega
          · simp [JobContext.storeState, JobContext.setVec, JobContext.setThread, countUp]
        · obtain ⟨h1, h2, k, hk1, hk2, hk3⟩ := ih
            { job := (m.job.setVec i (m.job.vec i).dropLast).storeState
                (incr64 m.job.stateCounter),
              intermediateVectors := m.intermediateVectors ++ [p],
              indicesToRemove := m.indicesToRemove }
          refine ⟨h1.trans hout, h2.trans hq, k + 1, ?_, ?_, ?_⟩
          · simp only at hk1; omega
          · rw [hk2]
            simp only [JobContext.storeState, JobContext.setVec, JobContext.setThread, countUp,
              List.append_assoc]
            congr 1
            rw [List.range_succ_eq_map]
            simp [Function.iterate_succ_apply, List.map_map, Function.comp_def]
          · rw [hk3]
            simp [JobContext.storeState, JobContext.setVec, JobContext.setThread,
              Function.iterate_succ_apply]

theorem countUp_add (w a b : Nat) :
    countUp w (a + b) = countUp w a ++ countUp (incr64^[a] w) b := by
  unfold countUp
  rw [List.range_add, List.map_append, List.map_map]
  congr 1
  apply List.map_congr_left
  intro j _
  simp only [Function.comp_apply]
  rw [← Function.iterate_add_apply]
  congr 1
  omega

/-- A step that writes only what `shuffle` may write, storing one incremented word per
pair it takes from the buffers. -/
theorem shuffleWrites_trans {a b c : JobContext I K V O}
    (hab : b.outsideShuffle = a.outsideShuffle ∧
      ∃ k, k + pendingPairs b = pendingPairs a ∧
        b.history = a.history ++ countUp a.stateCounter k ∧
        b.stateCounter = incr64^[k] a.stateCounter)
    (hbc : c.outsideShuffle = b.outsideShuffle ∧
      ∃ k, k + pendingPairs c = pendingPairs b ∧
        c.history = b.history ++ countUp b.stateCounter k ∧
        c.stateCounter = incr64^[k] b.stateCounter) :
    c.outsideShuffle = a.outsideShuffle ∧
      ∃ k, k + pendingPairs c = pendingPairs a ∧
        c.history = a.history ++ countUp a.stateCounter k ∧
        c.stateCounter = incr64^[k] a.stateCounter := by
  obtain ⟨h1, k1, p1, q1, r1⟩ := hab
  obtain ⟨h2, k2, p2, q2, r2⟩ := hbc
  refine ⟨h2.trans h1, k1 + k2, by omega, ?_, ?_⟩
  · rw [q2, q1, r1, countUp_add, List.append_assoc]
  · rw [r2, r1, ← Function.iterate_add_apply, Nat.add_comm]

theorem updatePairsFor_frame (optional : K) (l : List Nat) (m : MergeState I K V O) :
    (updatePairsFor optional l m).job.intermediateVectors = m.job.intermediateVectors ∧
    (updatePairsFor optional l m).job.outsideShuffle = m.job.outsideShuffle ∧
    ∃ k, k + pendingPairs (updatePairsFor optional l m).job = pendingPairs m.job ∧
      (updatePairsFor optional l m).job.history =
        m.job.history ++ countUp m.job.stateCounter k ∧
      (updatePairsFor optional l m).job.stateCounter = incr64^[k] m.job.stateCounter := by
  induction l generalizing m with
  | nil => exact ⟨rfl, rfl, 0, by simp [updatePairsFor], by simp [updatePairsFor, countUp], rfl⟩
  | cons i rest ih =>
    obtain ⟨w1, w2, w3⟩ := updatePairsWhile_frame optional i ((m.job.vec i).length + 1) m
    rw [updatePairsFor]
    split
    · exact ⟨w2, w1, w3⟩
    · obtain ⟨r1, r2, r3⟩ := ih (updatePairsWhile optional i ((m.job.vec i).length + 1) m)
      exact ⟨r1.trans w2, shuffleWrites_trans ⟨w1, w3⟩ ⟨r2, r3⟩⟩

theorem shuffleLoop_frame (fuel : Nat) (job : JobContext I K V O) (hasData : List Nat) :
    (shuffleLoop fuel job hasData).outsideShuffle = job.outsideShuffle ∧
    ∃ k, k + pendingPairs (shuffleLoop fuel job hasData) = pendingPairs job ∧
      (shuffleLoop fuel job hasData).history = job.history ++ countUp job.stateCounter k ∧
      (shuffleLoop fuel job hasData).stateCounter = incr64^[k] job.stateCounter := by
  have hrefl : ∀ j : JobContext I K V O, j.outsideShuffle = j.outsideShuffle ∧
      ∃ k, k + pendingPairs j = pendingPairs j ∧
        j.history = j.history ++ countUp j.stateCounter k ∧
        j.stateCounter = incr64^[k] j.stateCounter :=
    fun j => ⟨rfl, 0, by simp, by simp [countUp], rfl⟩
  induction fuel generalizing job hasData with
  | zero =>
    rw [shuffleLoop]
    split
    · exact hrefl job
    · exact hrefl job
  | succ fuel ih =>
    rw [shuffleLoop]
    split
    · exact hrefl job
    · split
      · exact hrefl job
      · rename_i optional _
        obtain ⟨_, u1, u2⟩ := updatePairsFor_frame optional hasData
          { job := job, intermediateVectors := [], indicesToRemove := [] }
        have hu : (updatePairs job optional hasData []).job.outsideShuffle = job.outsideShuffle ∧
            ∃ k, k + pendingPairs (updatePairs job optional hasData []).job = pendingPairs job ∧
              (updatePairs job optional hasData []).job.history =
                job.history ++ countUp job.stateCounter k ∧
              (updatePairs job optional hasData []).job.stateCounter =
                incr64^[k] job.stateCounter := ⟨u1, u2⟩
        simp only
        split
        · exact hu
        · exact shuffleWrites_trans hu (ih _ _)

/-- What `shuffle` leaves alone and what it stores: only the buffers, the queue and the
progress word change; the history grows by one incremented word per pair taken. -/
theorem shuffle_frame (fuel : Nat) (job : JobContext I K V O) :
    (shuffle fuel job).outsideShuffle = job.outsideShuffle ∧
    ∃ k, k + pendingPairs (shuffle fuel job) = pendingPairs job ∧
      (shuffle fuel job).history = job.history ++ countUp job.stateCounter k ∧
      (shuffle fuel job).stateCounter = incr64^[k] job.stateCounter :=
  shuffleLoop_frame fuel job _

/-! ## Control locations under the operations of a step -/

theorem thread_eq_getElem (job : JobContext I K V O) (i : Nat)
    (hi : i < job.threadsArray.length) : job.thread i = job.threadsArray[i] := by
  unfold JobContext.thread
  rw [List.getD_eq_getElem?_getD, List.getElem?_eq_getElem hi]
  rfl

theorem pcs_getElem? (job : JobContext I K V O) (i : Nat)
    (hi : i < job.threadsArray.length) : (pcs job)[i]? = some (job.thread i).pc := by
  unfold pcs
  rw [List.getElem?_map, List.getElem?_eq_getElem hi, thread_eq_getElem job i hi]
  rfl

@[simp] theorem length_pcs (job : JobContext I K V O) :
    (pcs job).length = job.threadsArray.length := by
  simp [pcs]

theorem pcs_setThread (job : JobContext I K V O) (i : Nat) (t : Thread K V O) :
    pcs (job.setThread i t) = (pcs job).set i t.pc := by
  simp [pcs, JobContext.setThread, List.map_set]

theorem pcs_setPc (job : JobContext I K V O) (i : Nat) (pc : Pc O) :
    pcs (job.setPc i pc) = (pcs job).set i pc := by
  unfold JobContext.setPc
  rw [pcs_setThread]

theorem set_self_of_getElem? {α : Type} (l : List α) (i : Nat) (x : α)
    (h : l[i]? = some x) : l.set i x = l := by
  apply List.ext_getElem?
  intro n
  rw [List.getElem?_set]
  by_cases hn : i = n
  · subst hn
    have hlt : i < l.length := by
      by_contra hc
      rw [List.getElem?_eq_none (Nat.le_of_not_lt hc)] at h
      exact Option.noConfusion h
    simp [hlt, h]
  · simp [hn]

theorem pcs_setVec (job : JobContext I K V O) (i : Nat) (v : List (K × V)) :
    pcs (job.setVec i v) = pcs job := by
  unfold JobContext.setVec
  rw [pcs_setThread]
  by_cases hi : i < job.threadsArray.length
  · exact set_self_of_getElem? _ _ _ (pcs_getElem? job i hi)
  · apply List.set_eq_of_length_le
    simp only [length_pcs]
    omega

@[simp] theorem pcs_storeState (job : JobContext I K V O) (w : Nat) :
    pcs (job.storeState w) = pcs job := rfl

@[simp] theorem pcs_fail (job : JobContext I K V O) (f : Fault) :
    pcs (job.fail f) = pcs job := rfl

/-- Splitting the list of control locations at worker `i`. -/
theorem pcs_split (job : JobContext I K V O) (i : Nat)
    (hi : i < job.threadsArray.length) :
    ∃ a b, pcs job = a ++ (job.thread i).pc :: b ∧ a.length = i ∧
      ∀ l : List (Pc O), l = pcs job → ∀ pc, l.set i pc = a ++ pc :: b := by
  have hlen : i < (pcs job).length := by simpa using hi
  have hget : (pcs job)[i] = (job.thread i).pc := by
    have := pcs_getElem? job i hi
    rw [List.getElem?_eq_getElem hlen] at this
    exact Option.some.inj this
  refine ⟨(pcs job).take i, (pcs job).drop (i + 1), ?_, ?_, ?_⟩
  · rw [← hget, List.getElem_cons_drop, List.take_append_drop]
  · simp [List.length_take]; omega
  · intro l hl pc
    rw [hl, List.set_eq_take_cons_drop pc hlen]

theorem threadId_setPc (job : JobContext I K V O) (i j : Nat) (pc : Pc O) :
    ((job.setPc i pc).thread j).threadId = (job.thread j).threadId := by
  unfold JobContext.setPc
  rw [thread_setThread]
  split
  · rename_i h; rw [h.1]
  · rfl

theorem threadId_setVec (job : JobContext I K V O) (i j : Nat) (v : List (K × V)) :
    ((job.setVec i v).thread j).threadId = (job.thread j).threadId := by
  unfold JobContext.setVec
  rw [thread_setThread]
  split
  · rename_i h; rw [h.1]
  · rfl

theorem pc_setPc (job : JobContext I K V O) (i j : Nat) (pc : Pc O) :
    ((job.setPc i pc).thread j).pc =
      if i = j ∧ i < job.threadsArray.length then pc else (job.thread j).pc := by
  unfold JobContext.setPc
  rw [thread_setThread]
  split <;> rfl

theorem pc_setVec (job : JobContext I K V O) (i j : Nat) (v : List (K × V)) :
    ((job.setVec i v).thread j).pc = (job.thread j).pc := by
  unfold JobContext.setVec
  rw [thread_setThread]
  split
  · rename_i h; rw [h.1]
  · rfl

theorem thread_outsideShuffle (job : JobContext I K V O) (i : Nat) :
    job.outsideShuffle.thread i = { job.thread i with intermediateVec := [] } := by
  unfold JobContext.thread JobContext.outsideShuffle
  simp only [List.getD_eq_getElem?_getD, List.getElem?_map]
  cases job.threadsArray[i]? <;> rfl

/-- Two jobs that agree outside what `shuffle` writes have the same workers up to their
buffers. -/
theorem thread_of_outsideShuffle_eq {a b : JobContext I K V O}
    (h : a.outsideShuffle = b.outsideShuffle) (i : Nat) :
    (a.thread i).pc = (b.thread i).pc ∧ (a.thread i).threadId = (b.thread i).threadId := by
  have h1 := thread_outsideShuffle a i
  have h2 := thread_outsideShuffle b i
  rw [h] at h1
  have h3 : ({ a.thread i with intermediateVec := [] } : Thread K V O) =
      { b.thread i with intermediateVec := [] } := h1.symm.trans h2
  have hp := congrArg Thread.pc h3
  have ht := congrArg Thread.threadId h3
  exact ⟨hp, ht⟩

theorem pcs_of_outsideShuffle_eq {a b : JobContext I K V O}
    (h : a.outsideShuffle = b.outsideShuffle) : pcs a = pcs b := by
  have e : ∀ j : JobContext I K V O, pcs j = pcs j.outsideShuffle := by
    intro j
    simp [pcs, JobContext.outsideShuffle, List.map_map, Function.comp_def]
  rw [e a, e b, h]

theorem length_of_outsideShuffle_eq {a b : JobContext I K V O}
    (h : a.outsideShuffle = b.outsideShuffle) :
    a.threadsArray.length = b.threadsArray.length := by
  have := congrArg List.length (pcs_of_outsideShuffle_eq h)
  simpa using this

/-! ## The input counter and the map calls along a run -/

theorem logInv_transport (input : InputVec I) (N : Nat) (job job' : JobContext I K V O)
    (h1 : job'.threadsArray.length = job.threadsArray.length)
    (h2 : job'.threadsNumber = job.threadsNumber)
    (h3 : ∀ j, (job'.thread j).threadId = (job.thread j).threadId)
    (h4 : job'.inputVector = job.inputVector)
    (h5 : job'.mapLog = job.mapLog)
    (h6 : pendingNums job' = pendingNums job)
    (h7 : arrivedCount job' = arrivedCount job)
    (h8 : ∀ j num, (job'.thread j).pc = Pc.mapped num → (job.thread j).pc = Pc.mapped num)
    (h9 : job'.fault = none → job.fault = none ∧ job'.inputCounter = job.inputCounter)
    (inv : LogInv input N job) : LogInv input N job' := by
  have hc : claimedCount job' = claimedCount job := by
    unfold claimedCount; rw [h5, h6]
  constructor
  · rw [h1]; exact inv.length_eq
  · rw [h2]; exact inv.number_eq
  · intro i hi; rw [h3]; exact inv.ids i hi
  · rw [h4]; exact inv.input_eq
  · rw [h5, h6, hc]; exact inv.claimed
  · rw [hc]; exact inv.bound
  · rw [h7, hc]; exact inv.full
  · intro hf
    obtain ⟨hf0, hic⟩ := h9 hf
    rw [hic, hc, h7]
    exact inv.counter hf0
  · intro i num hi hpc e he
    rw [h5] at he
    exact inv.order i num hi (h8 i num hpc) e he
  · rw [h5]; exact inv.sortedLog
  · rw [h5]; exact inv.workers

/-- Replacing the control location of worker `i` by one with the same fetched index and
the same side of the first barrier changes neither the fetched indices nor the number of
workers past the Map loop. -/
theorem pcs_set_same (job job' : JobContext I K V O) (i : Nat) (pc : Pc O)
    (hi : i < job.threadsArray.length)
    (hpcs : pcs job' = (pcs job).set i pc)
    (hpn : pc.pendingNum = (job.thread i).pc.pendingNum)
    (har : pc.arrived1 = (job.thread i).pc.arrived1) :
    pendingNums job' = pendingNums job ∧ arrivedCount job' = arrivedCount job := by
  obtain ⟨a, b, hab, _, hset⟩ := pcs_split job i hi
  rw [hset _ rfl pc] at hpcs
  unfold pendingNums arrivedCount
  rw [hpcs, hab]
  constructor
  · simp only [List.filterMap_append, List.filterMap_cons, hpn]
  · simp only [List.countP_append, List.countP_cons, har]

theorem logInv_setPc_same (input : InputVec I) (N : Nat) (job : JobContext I K V O)
    (i : Nat) (pc : Pc O) (hi : i < job.threadsArray.length)
    (hpn : pc.pendingNum = none) (hold : (job.thread i).pc.pendingNum = none)
    (har : pc.arrived1 = (job.thread i).pc.arrived1)
    (inv : LogInv input N job) : LogInv input N (job.setPc i pc) := by
  obtain ⟨e1, e2⟩ := pcs_set_same job (job.setPc i pc) i pc hi (pcs_setPc job i pc)
    (by rw [hpn, hold]) har
  refine logInv_transport input N job _ (by simp [JobContext.setPc]) rfl
    (fun j => threadId_setPc job i j pc) rfl rfl e1 e2 ?_ (fun hf => ⟨hf, rfl⟩) inv
  intro j num hpc
  rw [pc_setPc] at hpc
  split at hpc
  · rw [hpc] at hpn
    exact Option.noConfusion hpn
  · exact hpc

theorem pcs_createJobContext (client : MapReduceClient I K V O) (inputVec : InputVec I)
    (outputVec : List O) (N : Nat) (stdSort : List (K × V) → List (K × V)) :
    pcs (createJobContext client inputVec outputVec N stdSort) = List.replicate N Pc.start := by
  unfold pcs createJobContext
  simp only [List.map_map]
  apply List.ext_getElem
  · simp
  · intro n h1 h2
    simp [initializeThreadData]

theorem thread_createJobContext (client : MapReduceClient I K V O) (inputVec : InputVec I)
    (outputVec : List O) (N : Nat) (stdSort : List (K × V) → List (K × V)) (i : Nat)
    (hi : i < N) :
    (createJobContext client inputVec outputVec N stdSort).thread i =
      initializeThreadData i := by
  rw [thread_eq_getElem _ _ (by simp [createJobContext]; exact hi)]
  simp [createJobContext]

theorem logInv_start (client : MapReduceClient I K V O) (inputVec : InputVec I)
    (outputVec : List O) (N : Nat) (stdSort : List (K × V) → List (K × V)) :
    LogInv inputVec N (startMapReduceJob client inputVec outputVec N stdSort) := by
  have hp : pendingNums (createJobContext client inputVec outputVec N stdSort) = [] := by
    unfold pendingNums
    rw [pcs_createJobContext]
    apply List.filterMap_eq_nil_iff.mpr
    intro a ha
    rw [List.eq_of_mem_replicate ha]
    rfl
  have ha : arrivedCount (createJobContext client inputVec outputVec N stdSort) = 0 := by
    unfold arrivedCount
    rw [pcs_createJobContext]
    apply List.countP_eq_zero.mpr
    intro a ha
    rw [List.eq_of_mem_replicate ha]
    simp [Pc.arrived1]
  have hc : claimedCount (createJobContext client inputVec outputVec N stdSort) = 0 := by
    unfold claimedCount
    rw [hp]
    rfl
  unfold startMapReduceJob
  constructor
  · simp [createJobContext]
  · rfl
  · intro i hi
    rw [thread_createJobContext _ _ _ _ _ _ hi]
    rfl
  · rfl
  · rw [hp, hc]
    exact List.Perm.refl _
  · rw [hc]; exact Nat.zero_le _
  · rw [ha]; intro h; exact absurd h (Nat.lt_irrefl 0)
  · intro _
    rw [hc, ha]
    rfl
  · intro i num hi hpc
    rw [thread_createJobContext _ _ _ _ _ _ hi] at hpc
    exact Pc.noConfusion hpc
  · intro w
    exact List.Pairwise.nil
  · intro e he
    exact absurd he (List.not_mem_nil _)

theorem fetch_arith (size N C A : Nat) (hN : N ≤ 2 ^ 31) (hsize : size < 2 ^ 64)
    (hA : A + 1 ≤ N) (hC : C ≤ mappedBound size) (hfull : 0 < A → C = mappedBound size) :
    (toInt32 ((C : Int) + (A : Int)) < toInt32 (size : Int) →
      toUInt64 (toInt32 ((C : Int) + (A : Int))) < size →
      A = 0 ∧ toUInt64 (toInt32 ((C : Int) + (A : Int))) = C ∧ C + 1 ≤ mappedBound size) ∧
    (¬ toInt32 ((C : Int) + (A : Int)) < toInt32 (size : Int) → C = mappedBound size) ∧
    toInt32 (toInt32 ((C : Int) + (A : Int)) + 1) = toInt32 ((C : Int) + (A : Int) + 1) := by
  unfold mappedBound at hC hfull ⊢
  unfold toInt32 toUInt64 at *
  norm_num at *
  refine ⟨?_, ?_, ?_⟩
  · intro h1 h2
    omega
  · intro h1
    omega
  · omega

theorem arrivedCount_lt (job : JobContext I K V O) (i : Nat)
    (hi : i < job.threadsArray.length) (hpc : (job.thread i).pc.arrived1 = false) :
    arrivedCount job + 1 ≤ job.threadsArray.length := by
  obtain ⟨a, b, hab, _, _⟩ := pcs_split job i hi
  have hlen : (pcs job).length = job.threadsArray.length := length_pcs job
  unfold arrivedCount
  rw [hab] at hlen ⊢
  simp only [List.countP_append, List.countP_cons, hpc, List.length_append,
    List.length_cons] at hlen ⊢
  have h1 := List.countP_le_length (Pc.arrived1 (O := O)) (l := a)
  have h2 := List.countP_le_length (Pc.arrived1 (O := O)) (l := b)
  simp only [Bool.false_eq_true, if_false]
  omega

theorem mem_mapLog_lt (input : InputVec I) (N : Nat) (job : JobContext I K V O)
    (inv : LogInv input N job) : ∀ e ∈ job.mapLog, e.2 < claimedCount job := by
  intro e he
  have : e.2 ∈ job.mapLog.map Prod.snd ++ pendingNums job :=
    List.mem_append_left _ (List.mem_map_of_mem _ he)
  exact List.mem_range.mp (inv.claimed.subset this)

/-- Worker `i` fetches the next index, which is in range. -/
theorem logInv_claim (input : InputVec I) (N : Nat) (job job' : JobContext I K V O) (i : Nat)
    (hil : i < job.threadsArray.length) (hpc : (job.thread i).pc = Pc.fetch)
    (h1 : job'.threadsArray.length = job.threadsArray.length)
    (h2 : job'.threadsNumber = job.threadsNumber)
    (h3 : ∀ j, (job'.thread j).threadId = (job.thread j).threadId)
    (h4 : job'.inputVector = job.inputVector)
    (h5 : job'.mapLog = job.mapLog)
    (hpcs : pcs job' = (pcs job).set i (Pc.mapped (claimedCount job)))
    (hthr : ∀ j, (job'.thread j).pc =
      if i = j then Pc.mapped (claimedCount job) else (job.thread j).pc)
    (hA0 : arrivedCount job = 0) (hC1 : claimedCount job + 1 ≤ mappedBound input.size)
    (hcnt : job'.inputCounter = toInt32 ((claimedCount job : Int) + 1))
    (inv : LogInv input N job) : LogInv input N job' := by
  obtain ⟨a, b, hab, _, hset⟩ := pcs_split job i hil
  rw [hpc] at hab
  rw [hset _ rfl] at hpcs
  have hpend : pendingNums job' =
      a.filterMap Pc.pendingNum ++ claimedCount job :: b.filterMap Pc.pendingNum := by
    unfold pendingNums
    rw [hpcs]
    simp [List.filterMap_append, List.filterMap_cons, Pc.pendingNum]
  have hpend0 : pendingNums job =
      a.filterMap Pc.pendingNum ++ b.filterMap Pc.pendingNum := by
    unfold pendingNums
    rw [hab]
    simp [List.filterMap_append, List.filterMap_cons, Pc.pendingNum]
  have harr : arrivedCount job' = arrivedCount job := by
    unfold arrivedCount
    rw [hpcs, hab]
    simp [List.countP_append, List.countP_cons, Pc.arrived1]
  have hcc : claimedCount job' = claimedCount job + 1 := by
    have e1 : claimedCount job' = job'.mapLog.length + (pendingNums job').length := rfl
    have e2 : claimedCount job = job.mapLog.length + (pendingNums job).length := rfl
    rw [e1, e2, hpend, hpend0, h5]
    simp only [List.length_append, List.length_cons]
    omega
  constructor
  · rw [h1]; exact inv.length_eq
  · rw [h2]; exact inv.number_eq
  · intro j hj; rw [h3]; exact inv.ids j hj
  · rw [h4]; exact inv.input_eq
  · rw [hcc, hpend, h5, List.range_succ]
    have h0 := inv.claimed
    rw [hpend0, ← List.append_assoc] at h0
    rw [← List.append_assoc]
    refine List.Perm.trans ?_ (List.Perm.append_right _ h0)
    rw [List.append_assoc (job.mapLog.map Prod.snd ++ a.filterMap Pc.pendingNum)]
    exact List.Perm.append_left _ (List.perm_append_singleton _ _).symm
  · rw [hcc]; exact hC1
  · rw [harr, hA0]
    intro h; exact absurd h (Nat.lt_irrefl 0)
  · intro _
    rw [hcc, harr, hA0, hcnt]
    congr 1
  · intro j num hj hpcj e he hej
    rw [hthr] at hpcj
    rw [h5] at he
    split at hpcj
    · have : num = claimedCount job := by
        injection hpcj with h
        exact h.symm
      rw [this]
      exact mem_mapLog_lt input N job inv e he
    · exact inv.order j num hj hpcj e he hej
  · rw [h5]; exact inv.sortedLog
  · rw [h5]; exact inv.workers

/-- Worker `i` fetches an index that is out of bounds and leaves the Map loop. -/
theorem logInv_arrive (input : InputVec I) (N : Nat) (job job' : JobContext I K V O) (i : Nat)
    (hil : i < job.threadsArray.length) (hpc : (job.thread i).pc = Pc.fetch)
    (h1 : job'.threadsArray.length = job.threadsArray.length)
    (h2 : job'.threadsNumber = job.threadsNumber)
    (h3 : ∀ j, (job'.thread j).threadId = (job.thread j).threadId)
    (h4 : job'.inputVector = job.inputVector)
    (h5 : job'.mapLog = job.mapLog)
    (hpcs : pcs job' = (pcs job).set i Pc.barrier1)
    (hthr : ∀ j, (job'.thread j).pc = if i = j then Pc.barrier1 else (job.thread j).pc)
    (hCB : claimedCount job = mappedBound input.size)
    (hcnt : job'.inputCounter =
      toInt32 ((claimedCount job : Int) + (arrivedCount job : Int) + 1))
    (inv : LogInv input N job) : LogInv input N job' := by
  obtain ⟨a, b, hab, _, hset⟩ := pcs_split job i hil
  rw [hpc] at hab
  rw [hset _ rfl] at hpcs
  have hpend : pendingNums job' = pendingNums job := by
    unfold pendingNums
    rw [hpcs, hab]
    simp [List.filterMap_append, List.filterMap_cons, Pc.pendingNum]
  have harr : arrivedCount job' = arrivedCount job + 1 := by
    unfold arrivedCount
    rw [hpcs, hab]
    simp [List.countP_append, List.countP_cons, Pc.arrived1]
    omega
  have hcc : claimedCount job' = claimedCount job := by
    have e1 : claimedCount job' = job'.mapLog.length + (pendingNums job').length := rfl
    have e2 : claimedCount job = job.mapLog.length + (pendingNums job).length := rfl
    rw [e1, e2, hpend, h5]
  constructor
  · rw [h1]; exact inv.length_eq
  · rw [h2]; exact inv.number_eq
  · intro j hj; rw [h3]; exact inv.ids j hj
  · rw [h4]; exact inv.input_eq
  · rw [hcc, hpend, h5]; exact inv.claimed
  · rw [hcc]; exact inv.bound
  · intro _; rw [hcc]; exact hCB
  · intro _
    rw [hcc, harr, hcnt]
    congr 1
  · intro j num hj hpcj e he hej
    rw [hthr] at hpcj
    rw [h5] at he
    split at hpcj
    · exact Pc.noConfusion hpcj
    · exact inv.order j num hj hpcj e he hej
  · rw [h5]; exact inv.sortedLog
  · rw [h5]; exact inv.workers

theorem logInv_fetchStep (input : InputVec I) (N : Nat) (job : JobContext I K V O) (i : Nat)
    (hN : N ≤ 2 ^ 31) (hsize : input.size < 2 ^ 64) (hi : i < N)
    (hpc : (job.thread i).pc = Pc.fetch) (hf : job.fault = none)
    (inv : LogInv input N job) : LogInv input N (fetchStep i job) := by
  have hil : i < job.threadsArray.length := by rw [inv.length_eq]; exact hi
  have hA : arrivedCount job + 1 ≤ N := by
    rw [← inv.length_eq]
    exact arrivedCount_lt job i hil (by rw [hpc]; rfl)
  obtain ⟨ar1, ar2, ar3⟩ := fetch_arith input.size N (claimedCount job) (arrivedCount job)
    hN hsize hA inv.bound inv.full
  have hcnt := inv.counter hf
  have hsz : job.inputVector.size = input.size := by rw [inv.input_eq]
  obtain ⟨c', hc'⟩ : ∃ c', c' = toInt32 (job.inputCounter + 1) := ⟨_, rfl⟩
  have hc'' : c' = toInt32 ((claimedCount job : Int) + (arrivedCount job : Int) + 1) := by
    rw [hc', hcnt, ar3]
  unfold fetchStep
  simp only [hsz]
  rw [← hc']
  by_cases hc1 : job.inputCounter < toInt32 (input.size : Int)
  · rw [if_pos hc1]
    by_cases hc2 : toUInt64 job.inputCounter < input.size
    · rw [if_pos hc2]
      rw [hcnt] at hc1 hc2
      obtain ⟨hA0, hnum, hC1⟩ := ar1 hc1 hc2
      rw [hcnt, hnum]
      refine logInv_claim input N job _ i hil hpc (by simp [JobContext.setPc]) rfl
        (fun j => threadId_setPc _ i j _) rfl rfl (pcs_setPc _ i _) ?_ hA0 hC1 ?_ inv
      · intro j
        rw [pc_setPc]
        by_cases hij : i = j
        · rw [if_pos ⟨hij, hil⟩, if_pos hij]
        · rw [if_neg (fun h => hij h.1), if_neg hij]
          rfl
      · show c' = _
        rw [hc'', hA0]
        congr 1
    · rw [if_neg hc2]
      refine logInv_transport input N job _ rfl rfl (fun _ => rfl) rfl rfl rfl rfl
        (fun _ _ h => h) ?_ inv
      intro h
      exact absurd h (by simp [JobContext.fail])
  · rw [if_neg hc1]
    rw [hcnt] at hc1
    refine logInv_arrive input N job _ i hil hpc (by simp [JobContext.setPc, JobContext.setVec])
      rfl (fun j => by rw [threadId_setPc, threadId_setVec]; rfl) rfl rfl ?_ ?_ (ar2 hc1) ?_ inv
    · rw [pcs_setPc, pcs_setVec]
      rfl
    · intro j
      rw [pc_setPc]
      by_cases hij : i = j
      · rw [if_pos ⟨hij, by simp [JobContext.setVec]; exact hil⟩, if_pos hij]
      · rw [if_neg (fun h => hij h.1), if_neg hij, pc_setVec]
        rfl
    · exact hc''

/-- Worker `i` has mapped the index it had fetched. -/
theorem logInv_mapped (input : InputVec I) (N : Nat) (job job' : JobContext I K V O)
    (i num : Nat) (hi : i < N)
    (hil : i < job.threadsArray.length) (hpc : (job.thread i).pc = Pc.mapped num)
    (h1 : job'.threadsArray.length = job.threadsArray.length)
    (h2 : job'.threadsNumber = job.threadsNumber)
    (h3 : ∀ j, (job'.thread j).threadId = (job.thread j).threadId)
    (h4 : job'.inputVector = job.inputVector)
    (h5 : job'.mapLog = job.mapLog ++ [(i, num)])
    (hpcs : pcs job' = (pcs job).set i Pc.fetch)
    (hthr : ∀ j, (job'.thread j).pc = if i = j then Pc.fetch else (job.thread j).pc)
    (hcnt : job'.inputCounter = job.inputCounter) (hfault : job'.fault = job.fault)
    (inv : LogInv input N job) : LogInv input N job' := by
  obtain ⟨a, b, hab, _, hset⟩ := pcs_split job i hil
  rw [hpc] at hab
  rw [hset _ rfl] at hpcs
  have hpend : pendingNums job' =
      a.filterMap Pc.pendingNum ++ b.filterMap Pc.pendingNum := by
    unfold pendingNums
    rw [hpcs]
    simp [List.filterMap_append, List.filterMap_cons, Pc.pendingNum]
  have hpend0 : pendingNums job =
      a.filterMap Pc.pendingNum ++ num :: b.filterMap Pc.pendingNum := by
    unfold pendingNums
    rw [hab]
    simp [List.filterMap_append, List.filterMap_cons, Pc.pendingNum]
  have harr : arrivedCount job' = arrivedCount job := by
    unfold arrivedCount
    rw [hpcs, hab]
    simp [List.countP_append, List.countP_cons, Pc.arrived1]
  have hcc : claimedCount job' = claimedCount job := by
    have e1 : claimedCount job' = job'.mapLog.length + (pendingNums job').length := rfl
    have e2 : claimedCount job = job.mapLog.length + (pendingNums job).length := rfl
    rw [e1, e2, hpend, hpend0, h5]
    simp only [List.length_append, List.length_cons, List.length_nil]
    omega
  constructor
  · rw [h1]; exact inv.length_eq
  · rw [h2]; exact inv.number_eq
  · intro j hj; rw [h3]; exact inv.ids j hj
  · rw [h4]; exact inv.input_eq
  · rw [hcc, hpend, h5]
    have h0 := inv.claimed
    rw [hpend0] at h0
    refine List.Perm.trans ?_ h0
    simp only [List.map_append, List.map_cons, List.map_nil, List.append_assoc]
    refine List.Perm.append_left _ ?_
    simp only [List.singleton_append]
    exact List.perm_middle.symm
  · rw [hcc]; exact inv.bound
  · rw [harr, hcc]; exact inv.full
  · intro hf
    rw [hcc, harr, hcnt]
    exact inv.counter (hfault ▸ hf)
  · intro j num' hj hpcj e he hej
    rw [hthr] at hpcj
    rw [h5] at he
    split at hpcj
    · exact Pc.noConfusion hpcj
    · rename_i hij
      rcases List.mem_append.mp he with h | h
      · exact inv.order j num' hj hpcj e h hej
      · have : e = (i, num) := by simpa using h
        rw [this] at hej
        exact absurd hej hij
  · intro w
    rw [h5, List.filter_append, List.map_append, List.pairwise_append]
    refine ⟨inv.sortedLog w, ?_, ?_⟩
    · by_cases hw : i = w
      · simp [List.filter_cons, hw]
      · simp [List.filter_cons, hw]
    · intro x hx y hy
      by_cases hw : i = w
      · have hy' : y = num := by simpa [List.filter_cons, hw] using hy
        rw [hy']
        obtain ⟨e, he, hex⟩ := List.mem_map.mp hx
        have he' := List.mem_filter.mp he
        rw [← hex]
        exact inv.order i num hi hpc e he'.1 (by
          have := he'.2
          simp only [beq_iff_eq] at this
          rw [this, hw])
      · simp [List.filter_cons, hw] at hy
  · intro e he
    rw [h5] at he
    rcases List.mem_append.mp he with h | h
    · exact inv.workers e h
    · have : e = (i, num) := by simpa using h
      rw [this]; exact hi

theorem threadsArray_erase_setVec (job : JobContext I K V O) (i : Nat) (v : List (K × V)) :
    (job.setVec i v).threadsArray.map
        (fun t : Thread K V O => ({ t with intermediateVec := [] } : Thread K V O)) =
      job.threadsArray.map
        (fun t : Thread K V O => ({ t with intermediateVec := [] } : Thread K V O)) := by
  have := congrArg JobContext.threadsArray (outsideShuffle_setVec job i v)
  exact this

theorem toInt32_add_toInt32 (x y : Int) : toInt32 (toInt32 x + y) = toInt32 (x + y) := by
  unfold toInt32
  omega

/-- What the `emit2` calls of one map call change: the buffer of the calling worker and
the pair counter. -/
theorem emits_frame (i : Nat) (l : List (K × V)) (job : JobContext I K V O) :
    (l.foldl (fun j kv => emit2 kv i j) job).outsideEmit = job.outsideEmit ∧
    (∀ j, (l.foldl (fun j kv => emit2 kv i j) job).vec j =
      if i = j ∧ i < job.threadsArray.length then job.vec j ++ l else job.vec j) ∧
    (∀ X : Int, job.intermediateCounter = toInt32 X →
      (l.foldl (fun j kv => emit2 kv i j) job).intermediateCounter =
        toInt32 (X + l.length)) := by
  induction l generalizing job with
  | nil =>
    refine ⟨rfl, ?_, ?_⟩
    · intro j; simp
    · intro X hX; simpa using hX
  | cons kv rest ih =>
    rw [List.foldl_cons]
    obtain ⟨r1, r2, r3⟩ := ih (emit2 kv i job)
    have hlen : (emit2 kv i job).threadsArray.length = job.threadsArray.length := by
      simp [emit2, JobContext.setVec]
    refine ⟨?_, ?_, ?_⟩
    · rw [r1]
      unfold JobContext.outsideEmit emit2
      simp only [threadsArray_erase_setVec]
      rfl
    · intro j
      rw [r2 j, hlen]
      have hv : (emit2 kv i job).vec j = (job.setVec i (job.vec i ++ [kv])).vec j := rfl
      rw [hv, vec_setVec]
      by_cases h : i = j ∧ i < job.threadsArray.length
      · simp only [if_pos h]
        rw [← h.1]
        simp
      · simp only [if_neg h]
    · intro X hX
      have : (emit2 kv i job).intermediateCounter = toInt32 (X + 1) := by
        show toInt32 (job.intermediateCounter + 1) = _
        rw [hX, toInt32_add_toInt32]
      rw [r3 (X + 1) this]
      congr 1
      simp only [List.length_cons]
      push_cast
      ring

theorem thread_outsideEmit (job : JobContext I K V O) (i : Nat) :
    job.outsideEmit.thread i = { job.thread i with intermediateVec := [] } := by
  unfold JobContext.thread JobContext.outsideEmit
  simp only [List.getD_eq_getElem?_getD, List.getElem?_map]
  cases job.threadsArray[i]? <;> rfl

theorem thread_of_outsideEmit_eq {a b : JobContext I K V O}
    (h : a.outsideEmit = b.outsideEmit) (i : Nat) :
    (a.thread i).pc = (b.thread i).pc ∧ (a.thread i).threadId = (b.thread i).threadId := by
  have h1 := thread_outsideEmit a i
  have h2 := thread_outsideEmit b i
  rw [h] at h1
  have h3 : ({ a.thread i with intermediateVec := [] } : Thread K V O) =
      { b.thread i with intermediateVec := [] } := h1.symm.trans h2
  have hp := congrArg Thread.pc h3
  have ht := congrArg Thread.threadId h3
  exact ⟨hp, ht⟩

theorem pcs_of_outsideEmit_eq {a b : JobContext I K V O}
    (h : a.outsideEmit = b.outsideEmit) : pcs a = pcs b := by
  have e : ∀ j : JobContext I K V O, pcs j = pcs j.outsideEmit := by
    intro j
    simp [pcs, JobContext.outsideEmit, List.map_map, Function.comp_def]
  rw [e a, e b, h]

/-- Two jobs that agree outside what `emit2` writes agree on every other field. -/
theorem fields_of_outsideEmit_eq {a b : JobContext I K V O}
    (h : a.outsideEmit = b.outsideEmit) :
    a.client = b.client ∧ a.inputVector = b.inputVector ∧
    a.intermediateVectors = b.intermediateVectors ∧ a.outputVector = b.outputVector ∧
    a.stateCounter = b.stateCounter ∧ a.inputCounter = b.inputCounter ∧
    a.outputCounter = b.outputCounter ∧ a.threadsNumber = b.threadsNumber ∧
    a.stdSort = b.stdSort ∧ a.history = b.history ∧ a.mapLog = b.mapLog ∧
    a.reduceLog = b.reduceLog ∧ a.fault = b.fault := by
  have h1 := congrArg JobContext.client h
  have h2 := congrArg JobContext.inputVector h
  have h3 := congrArg JobContext.intermediateVectors h
  have h4 := congrArg JobContext.outputVector h
  have h5 := congrArg JobContext.stateCounter h
  have h6 := congrArg JobContext.inputCounter h
  have h7 := congrArg JobContext.outputCounter h
  have h8 := congrArg JobContext.threadsNumber h
  have h9 := congrArg JobContext.stdSort h
  have h10 := congrArg JobContext.history h
  have h11 := congrArg JobContext.mapLog h
  have h12 := congrArg JobContext.reduceLog h
  have h13 := congrArg JobContext.fault h
  exact ⟨h1, h2, h3, h4, h5, h6, h7, h8, h9, h10, h11, h12, h13⟩

/-- Two jobs that agree outside what `shuffle` writes agree on every other field. -/
theorem fields_of_outsideShuffle_eq {a b : JobContext I K V O}
    (h : a.outsideShuffle = b.outsideShuffle) :
    a.client = b.client ∧ a.inputVector = b.inputVector ∧
    a.outputVector = b.outputVector ∧ a.inputCounter = b.inputCounter ∧
    a.intermediateCounter = b.intermediateCounter ∧
    a.outputCounter = b.outputCounter ∧ a.threadsNumber = b.threadsNumber ∧
    a.stdSort = b.stdSort ∧ a.mapLog = b.mapLog ∧ a.reduceLog = b.reduceLog := by
  have h1 := congrArg JobContext.client h
  have h2 := congrArg JobContext.inputVector h
  have h4 := congrArg JobContext.outputVector h
  have h6 := congrArg JobContext.inputCounter h
  have h6' := congrArg JobContext.intermediateCounter h
  have h7 := congrArg JobContext.outputCounter h
  have h8 := congrArg JobContext.threadsNumber h
  have h9 := congrArg JobContext.stdSort h
  have h11 := congrArg JobContext.mapLog h
  have h12 := congrArg JobContext.reduceLog h
  exact ⟨h1, h2, h4, h6, h6', h7, h8, h9, h11, h12⟩

theorem logInv_mappedStep (input : InputVec I) (N : Nat) (job : JobContext I K V O)
    (i num : Nat) (hi : i < N) (hpc : (job.thread i).pc = Pc.mapped num)
    (inv : LogInv input N job) :
    LogInv input N (((callMap i num job).storeState
      (incr64 (callMap i num job).stateCounter)).setPc i Pc.fetch) := by
  have hil : i < job.threadsArray.length := by rw [inv.length_eq]; exact hi
  obtain ⟨e1, _, _⟩ := emits_frame i (job.client.map (job.inputVector.elem num)) job
  have hpcs := pcs_of_outsideEmit_eq e1
  obtain ⟨_, g2, _, _, _, g6, _, g8, _, _, g11, _, g13⟩ := fields_of_outsideEmit_eq e1
  have hlen : ((job.client.map (job.inputVector.elem num)).foldl
      (fun j kv => emit2 kv i j) job).threadsArray.length = job.threadsArray.length := by
    have := congrArg List.length hpcs
    simpa using this
  refine logInv_mapped input N job _ i num hi hil hpc ?_ ?_ ?_ ?_ ?_ ?_ ?_ ?_ ?_ inv
  · simp only [JobContext.setPc, length_setThread]
    exact hlen
  · exact g8
  · intro j
    rw [threadId_setPc]
    exact (thread_of_outsideEmit_eq e1 j).2
  · exact g2
  · show (List.foldl _ job _).mapLog ++ [(i, num)] = _
    rw [g11]
  · rw [pcs_setPc]
    show (pcs (List.foldl _ job _)).set i Pc.fetch = _
    rw [hpcs]
  · intro j
    rw [pc_setPc]
    by_cases hij : i = j
    · rw [if_pos hij, if_pos]
      exact ⟨hij, by show i < (List.foldl _ job _).threadsArray.length; rw [hlen]; exact hil⟩
    · rw [if_neg hij, if_neg (fun h => hij h.1)]
      exact (thread_of_outsideEmit_eq e1 j).1
  · exact g6
  · exact g13

theorem logInv_shuffle (input : InputVec I) (N : Nat) (job : JobContext I K V O) (fuel : Nat)
    (hf : job.fault = none) (inv : LogInv input N job) :
    LogInv input N (shuffle fuel job) := by
  obtain ⟨e, _⟩ := shuffle_frame fuel job
  have hp := pcs_of_outsideShuffle_eq e
  obtain ⟨_, g2, _, g4, _, _, g7, _, g9, _⟩ := fields_of_outsideShuffle_eq e
  refine logInv_transport input N job _ (length_of_outsideShuffle_eq e)
    g7 (fun j => (thread_of_outsideShuffle_eq e j).2) g2 g9 ?_ ?_ ?_ ?_ inv
  · unfold pendingNums; rw [hp]
  · unfold arrivedCount; rw [hp]
  · intro j num h
    rw [(thread_of_outsideShuffle_eq e j).1] at h
    exact h
  · intro _
    exact ⟨hf, g4⟩

theorem logInv_popStep (input : InputVec I) (N : Nat) (job : JobContext I K V O) (i : Nat)
    (hi : i < N) (hpc : (job.thread i).pc = Pc.reduceLoop)
    (inv : LogInv input N job) : LogInv input N (popStep i job) := by
  have hil : i < job.threadsArray.length := by rw [inv.length_eq]; exact hi
  unfold popStep
  split
  · exact logInv_setPc_same input N _ i Pc.done hil rfl (by rw [hpc]; rfl)
      (by rw [hpc]; rfl) inv
  · refine logInv_setPc_same input N _ i _ hil rfl ?_ ?_ ?_
    · show (job.thread i).pc.pendingNum = none
      rw [hpc]; rfl
    · show _ = (job.thread i).pc.arrived1
      rw [hpc]; rfl
    · exact logInv_transport input N job _ rfl rfl (fun _ => rfl) rfl rfl rfl rfl
        (fun _ _ h => h) (fun h => ⟨h, rfl⟩) inv

theorem logInv_shuffleStep (input : InputVec I) (N : Nat) (job : JobContext I K V O) (i : Nat)
    (hi : i < N) (hpc : (job.thread i).pc = Pc.barrier1) (hf : job.fault = none)
    (inv : LogInv input N job) : LogInv input N (shuffleStep i job) := by
  have hil : i < job.threadsArray.length := by rw [inv.length_eq]; exact hi
  unfold shuffleStep
  split
  · simp only
    have inv1 : LogInv input N (job.storeState (shuffleWord job.intermediateCounter)) :=
      logInv_transport input N job _ rfl rfl (fun _ => rfl) rfl rfl rfl rfl
        (fun _ _ h => h) (fun h => ⟨h, rfl⟩) inv
    have hf1 : (job.storeState (shuffleWord job.intermediateCounter)).fault = none := hf
    have hpc1 : ((job.storeState (shuffleWord job.intermediateCounter)).thread i).pc =
        Pc.barrier1 := hpc
    have hil1 : i < (job.storeState (shuffleWord job.intermediateCounter)).threadsArray.length :=
      hil
    generalize job.storeState (shuffleWord job.intermediateCounter) = job1 at inv1 hf1 hpc1 hil1 ⊢
    have inv2 := logInv_shuffle input N job1 (pendingPairs job1 + 1) hf1 inv1
    obtain ⟨e, _⟩ := shuffle_frame (pendingPairs job1 + 1) job1
    have hpc2 : ((shuffle (pendingPairs job1 + 1) job1).thread i).pc = Pc.barrier1 := by
      rw [(thread_of_outsideShuffle_eq e i).1]; exact hpc1
    have hil2 : i < (shuffle (pendingPairs job1 + 1) job1).threadsArray.length := by
      rw [length_of_outsideShuffle_eq e]; exact hil1
    generalize shuffle (pendingPairs job1 + 1) job1 = job2 at inv2 hpc2 hil2 ⊢
    split
    · exact logInv_setPc_same input N job2 i Pc.stuck hil2 rfl
        (by rw [hpc2]; rfl) (by rw [hpc2]; rfl) inv2
    · refine logInv_setPc_same input N _ i Pc.barrier2 hil2 rfl
        (by show (job2.thread i).pc.pendingNum = none; rw [hpc2]; rfl)
        (by show _ = (job2.thread i).pc.arrived1; rw [hpc2]; rfl) ?_
      exact logInv_transport input N job2 _ rfl rfl (fun _ => rfl) rfl rfl rfl rfl
        (fun _ _ h => h) (fun h => ⟨h, rfl⟩) inv2
  · exact logInv_setPc_same input N _ i Pc.barrier2 hil rfl (by rw [hpc]; rfl)
      (by rw [hpc]; rfl) inv

/-- The facts about the input counter and the map calls are kept by every step. -/
theorem logInv_stepThread (input : InputVec I) (N : Nat) (job : JobContext I K V O) (i : Nat)
    (hN : N ≤ 2 ^ 31) (hsize : input.size < 2 ^ 64)
    (inv : LogInv input N job) : LogInv input N (stepThread i job) := by
  unfold stepThread
  split
  · exact inv
  · rename_i hcond
    simp only [Bool.or_eq_true, decide_eq_true_eq, not_or, not_le] at hcond
    obtain ⟨hf, hil⟩ := hcond
    have hf : job.fault = none := by
      cases h : job.fault with
      | none => rfl
      | some f => rw [h] at hf; exact absurd rfl hf
    have hi : i < N := by rw [← inv.length_eq]; exact hil
    split
    · rename_i hpc
      refine logInv_setPc_same input N _ i Pc.fetch hil rfl ?_ ?_ ?_
      · show (job.thread i).pc.pendingNum = none
        rw [hpc]; rfl
      · show _ = (job.thread i).pc.arrived1
        rw [hpc]; rfl
      · exact logInv_transport input N job _ rfl rfl (fun _ => rfl) rfl rfl rfl rfl
          (fun _ _ h => h) (fun h => ⟨h, rfl⟩) inv
    · rename_i hpc
      exact logInv_fetchStep input N job i hN hsize hi hpc hf inv
    · rename_i num hpc
      exact logInv_mappedStep input N job i num hi hpc inv
    · rename_i hpc
      split
      · exact logInv_shuffleStep input N job i hi hpc hf inv
      · exact inv
    · rename_i hpc
      split
      · exact logInv_setPc_same input N _ i Pc.reduceLoop hil rfl (by rw [hpc]; rfl)
          (by rw [hpc]; rfl) inv
      · exact inv
    · rename_i hpc
      exact logInv_popStep input N job i hi hpc inv
    · rename_i hpc
      refine logInv_setPc_same input N _ i Pc.reduceLoop hil rfl ?_ ?_ ?_
      · show (job.thread i).pc.pendingNum = none
        rw [hpc]; rfl
      · show _ = (job.thread i).pc.arrived1
        rw [hpc]; rfl
      · exact logInv_transport input N job _ rfl rfl (fun _ => rfl) rfl rfl rfl rfl
          (fun _ _ h => h) (fun h => ⟨h, rfl⟩) inv
    · rename_i o rest hpc
      refine logInv_setPc_same input N _ i _ hil rfl ?_ ?_ ?_
      · show (job.thread i).pc.pendingNum = none
        rw [hpc]; rfl
      · show _ = (job.thread i).pc.arrived1
        rw [hpc]; rfl
      · exact logInv_transport input N job _ rfl rfl (fun _ => rfl) rfl rfl rfl rfl
          (fun _ _ h => h) (fun h => ⟨h, rfl⟩) inv
    · exact inv
    · exact inv

theorem logInv_runSchedule (input : InputVec I) (N : Nat) (schedule : List Nat)
    (job : JobContext I K V O) (hN : N ≤ 2 ^ 31) (hsize : input.size < 2 ^ 64)
    (inv : LogInv input N job) : LogInv input N (runSchedule schedule job) := by
  induction schedule generalizing job with
  | nil => exact inv
  | cons i rest ih =>
    exact ih _ (logInv_stepThread input N job i hN hsize inv)

/-! ## The step of a worker, by control location -/
theorem stepThread_idle (job : JobContext I K V O) (i : Nat)
    (h : job.fault ≠ none ∨ job.threadsArray.length ≤ i) : stepThread i job = job := by
  unfold stepThread
  rw [if_pos]
  rcases h with h | h
  · cases hf : job.fault with
    | none => exact absurd hf h
    | some f => simp
  · simp [h]
theorem stepThread_active (job : JobContext I K V O) (i : Nat)
    (hf : job.fault = none) (hil : i < job.threadsArray.length) :
    stepThread i job =
      match (job.thread i).pc with
      | Pc.start => (job.storeState (mapWord job.stateCounter)).setPc i Pc.fetch
      | Pc.fetch => fetchStep i job
      | Pc.mapped num =>
        ((callMap i num job).storeState (incr64 (callMap i num job).stateCounter)).setPc i
          Pc.fetch
      | Pc.barrier1 => if barrier1Open job then shuffleStep i job else job
      | Pc.barrier2 => if barrier2Open job then job.setPc i Pc.reduceLoop else job
      | Pc.reduceLoop => popStep i job
      | Pc.emitting [] => (job.storeState (incr64 job.stateCounter)).setPc i Pc.reduceLoop
      | Pc.emitting (o :: rest) => (emit3 o job).setPc i (Pc.emitting rest)
      | Pc.done => job
      | Pc.stuck => job := by
  unfold stepThread
  rw [if_neg]
  simp [hf]
  omega

/-- Case rule for a step of a live worker: a property holds of the job after the step as
soon as it holds after each of the atomic actions the worker can perform at its control
location. -/
theorem stepThread_cases (job : JobContext I K V O) (i : Nat) (P : JobContext I K V O → Prop)
    (hf : job.fault = none) (hil : i < job.threadsArray.length)
    (h_start : (job.thread i).pc = Pc.start →
      P ((job.storeState (mapWord job.stateCounter)).setPc i Pc.fetch))
    (h_claim : (job.thread i).pc = Pc.fetch →
      job.inputCounter < toInt32 (job.inputVector.size : Int) →
      toUInt64 job.inputCounter < job.inputVector.size →
      ∀ job1 : JobContext I K V O,
      job1 = { job with inputCounter := toInt32 (job.inputCounter + 1) } →
      P (job1.setPc i (Pc.mapped (toUInt64 job.inputCounter))))
    (h_throw : (job.thread i).pc = Pc.fetch →
      job.inputCounter < toInt32 (job.inputVector.size : Int) →
      ¬ toUInt64 job.inputCounter < job.inputVector.size →
      ∀ job1 : JobContext I K V O,
      job1 = { job with inputCounter := toInt32 (job.inputCounter + 1) } →
      P (job1.fail Fault.outOfRange))
    (h_arrive : (job.thread i).pc = Pc.fetch →
      ¬ job.inputCounter < toInt32 (job.inputVector.size : Int) →
      ∀ job1 : JobContext I K V O,
      job1 = { job with inputCounter := toInt32 (job.inputCounter + 1) } →
      P ((job1.setVec i (job.stdSort (job.vec i))).setPc i Pc.barrier1))
    (h_map : ∀ num, (job.thread i).pc = Pc.mapped num →
      ∀ job1 : JobContext I K V O, job1 = callMap i num job →
      P ((job1.storeState (incr64 job1.stateCounter)).setPc i Pc.fetch))
    (h_wait1 : (job.thread i).pc = Pc.barrier1 → barrier1Open job = false → P job)
    (h_pass1 : (job.thread i).pc = Pc.barrier1 → barrier1Open job = true →
      ((job.thread i).threadId == 0) = false → P (job.setPc i Pc.barrier2))
    (h_shuffled : (job.thread i).pc = Pc.barrier1 → barrier1Open job = true →
      ((job.thread i).threadId == 0) = true →
      ∀ job1 job2 : JobContext I K V O,
      job1 = job.storeState (shuffleWord job.intermediateCounter) →
      job2 = shuffle (pendingPairs job1 + 1) job1 → job2.fault = none →
      P ((job2.storeState (reduceWord job2.intermediateVectors.length)).setPc i Pc.barrier2))
    (h_stuck : (job.thread i).pc = Pc.barrier1 → barrier1Open job = true →
      ((job.thread i).threadId == 0) = true →
      ∀ job1 job2 : JobContext I K V O,
      job1 = job.storeState (shuffleWord job.intermediateCounter) →
      job2 = shuffle (pendingPairs job1 + 1) job1 → job2.fault ≠ none →
      P (job2.setPc i Pc.stuck))
    (h_wait2 : (job.thread i).pc = Pc.barrier2 → barrier2Open job = false → P job)
    (h_pass2 : (job.thread i).pc = Pc.barrier2 → barrier2Open job = true →
      P (job.setPc i Pc.reduceLoop))
    (h_finish : (job.thread i).pc = Pc.reduceLoop → job.intermediateVectors = [] →
      P (job.setPc i Pc.done))
    (h_pop : (job.thread i).pc = Pc.reduceLoop →
      ∀ (rest : List (List (K × V))) (g : List (K × V)),
      job.intermediateVectors = rest ++ [g] →
      ∀ job1 : JobContext I K V O,
      job1 = { job with intermediateVectors := rest,
                        reduceLog := job.reduceLog ++ [(i, g)] } →
      P (job1.setPc i (Pc.emitting (job.client.reduce g))))
    (h_reduced : (job.thread i).pc = Pc.emitting [] →
      P ((job.storeState (incr64 job.stateCounter)).setPc i Pc.reduceLoop))
    (h_emit : ∀ o rest, (job.thread i).pc = Pc.emitting (o :: rest) →
      P ((emit3 o job).setPc i (Pc.emitting rest)))
    (h_rest : ((job.thread i).pc = Pc.done ∨ (job.thread i).pc = Pc.stuck) → P job) :
    P (stepThread i job) := by
  rw [stepThread_active job i hf hil]
  cases hpc : (job.thread i).pc with
  | start => exact h_start hpc
  | fetch =>
    show P (fetchStep i job)
    unfold fetchStep
    simp only
    by_cases h1 : job.inputCounter < toInt32 (job.inputVector.size : Int)
    · rw [if_pos h1]
      by_cases h2 : toUInt64 job.inputCounter < job.inputVector.size
      · rw [if_pos h2]
        exact h_claim hpc h1 h2 _ rfl
      · rw [if_neg h2]
        exact h_throw hpc h1 h2 _ rfl
    · rw [if_neg h1]
      exact h_arrive hpc h1 _ rfl
  | mapped num => exact h_map num hpc _ rfl
  | barrier1 =>
    show P (if barrier1Open job then shuffleStep i job else job)
    by_cases ho : barrier1Open job = true
    · rw [if_pos ho]
      unfold shuffleStep
      by_cases hid : ((job.thread i).threadId == 0) = true
      · rw [if_pos hid]
        simp only
        by_cases hf2 : (shuffle (pendingPairs (job.storeState
            (shuffleWord job.intermediateCounter)) + 1)
            (job.storeState (shuffleWord job.intermediateCounter))).fault = none
        · rw [if_neg (by rw [hf2]; simp)]
          exact h_shuffled hpc ho hid _ _ rfl rfl hf2
        · rw [if_pos (by
            cases hx : (shuffle (pendingPairs (job.storeState
              (shuffleWord job.intermediateCounter)) + 1)
              (job.storeState (shuffleWord job.intermediateCounter))).fault with
            | none => exact absurd hx hf2
            | some f => rfl)]
          exact h_stuck hpc ho hid _ _ rfl rfl hf2
      · rw [if_neg hid]
        exact h_pass1 hpc ho (by simpa using hid)
    · rw [if_neg ho]
      exact h_wait1 hpc (by simpa using ho)
  | barrier2 =>
    show P (if barrier2Open job then job.setPc i Pc.reduceLoop else job)
    by_cases ho : barrier2Open job = true
    · rw [if_pos ho]; exact h_pass2 hpc ho
    · rw [if_neg ho]; exact h_wait2 hpc (by simpa using ho)
  | reduceLoop =>
    show P (popStep i job)
    unfold popStep
    cases hq : job.intermediateVectors.getLast? with
    | none =>
      simp only
      exact h_finish hpc (List.getLast?_eq_none_iff.mp hq)
    | some g =>
      simp only
      obtain ⟨rest, hrest⟩ := List.getLast?_eq_some_iff.mp hq
      have := h_pop hpc rest g hrest _ rfl
      rw [hrest, List.dropLast_concat]
      exact this
  | emitting p =>
    cases p with
    | nil => exact h_reduced hpc
    | cons o rest => exact h_emit o rest hpc
  | done => exact h_rest (Or.inl hpc)
  | stuck => exact h_rest (Or.inr hpc)

/-- What one map call changes: the buffer of the calling worker, the pair counter and
the map log. -/
theorem callMap_frame (i num : Nat) (job : JobContext I K V O) :
    (callMap i num job).outsideEmit =
      ({ job with mapLog := job.mapLog ++ [(i, num)] } : JobContext I K V O).outsideEmit ∧
    (∀ j, (callMap i num job).vec j =
      if i = j ∧ i < job.threadsArray.length
      then job.vec j ++ job.client.map (job.inputVector.elem num) else job.vec j) ∧
    (∀ X : Int, job.intermediateCounter = toInt32 X →
      (callMap i num job).intermediateCounter =
        toInt32 (X + (job.client.map (job.inputVector.elem num)).length)) := by
  obtain ⟨e1, e2, e3⟩ := emits_frame i (job.client.map (job.inputVector.elem num)) job
  refine ⟨?_, e2, e3⟩
  obtain ⟨g1, g2, g3, g4, g5, g6, g7, g8, g9, g10, g11, g12, g13⟩ :=
    fields_of_outsideEmit_eq e1
  have ht := congrArg JobContext.threadsArray e1
  have hw := congrArg JobContext.waitFlag e1
  have hj := congrArg JobContext.joinLog e1
  unfold callMap
  simp only [JobContext.outsideEmit] at ht hw hj ⊢
  rw [ht, g1, g2, g3, g4, g5, g6, g7, g8, g9, g10, g11, g12, g13, hw, hj]

/-- The facts about a job and a later job that every step keeps for the workers other
than the stepping one. -/
theorem stepThread_others (job : JobContext I K V O) (i : Nat) :
    (stepThread i job).threadsArray.length = job.threadsArray.length ∧
    (∀ j, j ≠ i → ((stepThread i job).thread j).pc = (job.thread j).pc) ∧
    job.mapLog.length ≤ (stepThread i job).mapLog.length := by
  by_cases hidle : job.fault ≠ none ∨ job.threadsArray.length ≤ i
  · rw [stepThread_idle job i hidle]
    exact ⟨rfl, fun _ _ => rfl, Nat.le_refl _⟩
  · push_neg at hidle
    obtain ⟨hf, hil⟩ := hidle
    have hset : ∀ (j' : JobContext I K V O) (pc : Pc O),
        j'.threadsArray.length = job.threadsArray.length →
        (∀ j, (j'.thread j).pc = (job.thread j).pc) →
        job.mapLog.length ≤ j'.mapLog.length →
        (j'.setPc i pc).threadsArray.length = job.threadsArray.length ∧
        (∀ j, j ≠ i → ((j'.setPc i pc).thread j).pc = (job.thread j).pc) ∧
        job.mapLog.length ≤ (j'.setPc i pc).mapLog.length := by
      intro j' pc h1 h2 h3
      refine ⟨by simp [JobContext.setPc, h1], ?_, h3⟩
      intro j hj
      rw [pc_setPc, if_neg (fun h => hj h.1.symm)]
      exact h2 j
    have hrefl : job.threadsArray.length = job.threadsArray.length ∧
        (∀ j, j ≠ i → (job.thread j).pc = (job.thread j).pc) ∧
        job.mapLog.length ≤ job.mapLog.length := ⟨rfl, fun _ _ => rfl, Nat.le_refl _⟩
    refine stepThread_cases job i (fun j' =>
      j'.threadsArray.length = job.threadsArray.length ∧
      (∀ j, j ≠ i → (j'.thread j).pc = (job.thread j).pc) ∧
      job.mapLog.length ≤ j'.mapLog.length) hf hil ?_ ?_ ?_ ?_ ?_ ?_ ?_ ?_ ?_ ?_ ?_ ?_ ?_ ?_ ?_ ?_
    · intro _
      exact hset _ _ rfl (fun _ => rfl) (Nat.le_refl _)
    · intro _ _ _ job1 h1
      subst h1
      exact hset _ _ rfl (fun _ => rfl) (Nat.le_refl _)
    · intro _ _ _ job1 h1
      subst h1
      exact hrefl
    · intro _ _ job1 h1
      subst h1
      exact hset _ _ (by simp [JobContext.setVec]) (fun j => pc_setVec _ i j _) (Nat.le_refl _)
    · intro num _ job1 h1
      subst h1
      obtain ⟨e1, _, _⟩ := callMap_frame i num job
      refine hset _ _ ?_ ?_ ?_
      · have := congrArg List.length (pcs_of_outsideEmit_eq e1)
        simpa [pcs] using this
      · intro j
        exact (thread_of_outsideEmit_eq e1 j).1
      · have := (fields_of_outsideEmit_eq e1).2.2.2.2.2.2.2.2.2.2.1
        show _ ≤ (callMap i num job).mapLog.length
        rw [this]
        simp
    · intro _ _
      exact hrefl
    · intro _ _ _
      exact hset _ _ rfl (fun _ => rfl) (Nat.le_refl _)
    · intro _ _ _ job1 job2 h1 h2 _
      subst h1
      subst h2
      obtain ⟨e, _⟩ := shuffle_frame
        (pendingPairs (job.storeState (shuffleWord job.intermediateCounter)) + 1)
        (job.storeState (shuffleWord job.intermediateCounter))
      exact hset _ _ (length_of_outsideShuffle_eq e)
        (fun j => (thread_of_outsideShuffle_eq e j).1)
        (by
          show _ ≤ (shuffle _ _).mapLog.length
          rw [(fields_of_outsideShuffle_eq e).2.2.2.2.2.2.2.2.1]
          exact Nat.le_refl _)
    · intro _ _ _ job1 job2 h1 h2 _
      subst h1
      subst h2
      obtain ⟨e, _⟩ := shuffle_frame
        (pendingPairs (job.storeState (shuffleWord job.intermediateCounter)) + 1)
        (job.storeState (shuffleWord job.intermediateCounter))
      exact hset _ _ (length_of_outsideShuffle_eq e)
        (fun j => (thread_of_outsideShuffle_eq e j).1)
        (by
          rw [(fields_of_outsideShuffle_eq e).2.2.2.2.2.2.2.2.1]
          exact Nat.le_refl _)
    · intro _ _
      exact hrefl
    · intro _ _
      exact hset _ _ rfl (fun _ => rfl) (Nat.le_refl _)
    · intro _ _
      exact hset _ _ rfl (fun _ => rfl) (Nat.le_refl _)
    · intro _ rest g _ job1 h1
      subst h1
      exact hset _ _ rfl (fun _ => rfl) (Nat.le_refl _)
    · intro _
      exact hset _ _ rfl (fun _ => rfl) (Nat.le_refl _)
    · intro o rest _
      exact hset _ _ rfl (fun _ => rfl) (Nat.le_refl _)
    · intro _
      exact hrefl

theorem fetch_no_overflow (size N C A : Nat) (h : size + N ≤ 2 ^ 31) (hA : A + 1 ≤ N)
    (hC : C ≤ mappedBound size) :
    mappedBound size = size ∧
    (toInt32 ((C : Int) + (A : Int)) < toInt32 (size : Int) →
      toUInt64 (toInt32 ((C : Int) + (A : Int))) < size) := by
  unfold mappedBound at hC ⊢
  unfold toInt32 toUInt64 at *
  norm_num at *
  refine ⟨?_, ?_⟩
  · omega
  · intro h1
    omega
theorem barrier1Open_iff (job : JobContext I K V O) :
    barrier1Open job = true ↔
      ∀ j, j < job.threadsArray.length → (job.thread j).pc.arrived1 = true := by
  unfold barrier1Open
  rw [List.all_eq_true]
  constructor
  · intro h j hj
    rw [thread_eq_getElem job j hj]
    exact h _ (List.getElem_mem hj)
  · intro h t ht
    obtain ⟨j, hj, rfl⟩ := List.getElem_of_mem ht
    rw [← thread_eq_getElem job j hj]
    exact h j hj
theorem barrier2Open_iff (job : JobContext I K V O) :
    barrier2Open job = true ↔
      ∀ j, j < job.threadsArray.length → (job.thread j).pc.arrived2 = true := by
  unfold barrier2Open
  rw [List.all_eq_true]
  constructor
  · intro h j hj
    rw [thread_eq_getElem job j hj]
    exact h _ (List.getElem_mem hj)
  · intro h t ht
    obtain ⟨j, hj, rfl⟩ := List.getElem_of_mem ht
    rw [← thread_eq_getElem job j hj]
    exact h j hj

/-- A step can only raise a fault in two places: the `at` of the Map loop, and the
shuffle that worker 0 runs once the first barrier is open. -/
theorem stepThread_fault (job : JobContext I K V O) (i : Nat) (hf : job.fault = none)
    (hne : (stepThread i job).fault ≠ none) :
    ((job.thread i).pc = Pc.fetch ∧ (stepThread i job).fault = some Fault.outOfRange ∧
      job.inputCounter < toInt32 (job.inputVector.size : Int) ∧
      ¬ toUInt64 job.inputCounter < job.inputVector.size) ∨
    ((job.thread i).pc = Pc.barrier1 ∧ barrier1Open job = true ∧
      ((job.thread i).threadId == 0) = true) := by
  by_cases hil : i < job.threadsArray.length
  · revert hne
    refine stepThread_cases job i (fun j' => j'.fault ≠ none →
      ((job.thread i).pc = Pc.fetch ∧ j'.fault = some Fault.outOfRange ∧
        job.inputCounter < toInt32 (job.inputVector.size : Int) ∧
        ¬ toUInt64 job.inputCounter < job.inputVector.size) ∨
      ((job.thread i).pc = Pc.barrier1 ∧ barrier1Open job = true ∧
        ((job.thread i).threadId == 0) = true)) hf hil
      ?_ ?_ ?_ ?_ ?_ ?_ ?_ ?_ ?_ ?_ ?_ ?_ ?_ ?_ ?_ ?_
    · intro _ h; exact absurd hf h
    · intro _ _ _ job1 h1 h; subst h1; exact absurd hf h
    · intro hpc c1 c2 job1 h1 _; subst h1; exact Or.inl ⟨hpc, rfl, c1, c2⟩
    · intro _ _ job1 h1 h; subst h1; exact absurd hf h
    · intro num _ job1 h1 h
      subst h1
      obtain ⟨e1, _, _⟩ := callMap_frame i num job
      have := (fields_of_outsideEmit_eq e1).2.2.2.2.2.2.2.2.2.2.2.2
      exact absurd (this.trans hf) h
    · intro _ _ h; exact absurd hf h
    · intro _ _ _ h; exact absurd hf h
    · intro hpc ho hid _ _ _ _ _ _; exact Or.inr ⟨hpc, ho, hid⟩
    · intro hpc ho hid _ _ _ _ _ _; exact Or.inr ⟨hpc, ho, hid⟩
    · intro _ _ h; exact absurd hf h
    · intro _ _ h; exact absurd hf h
    · intro _ _ h; exact absurd hf h
    · intro _ _ _ _ job1 h1 h; subst h1; exact absurd hf h
    · intro _ h; exact absurd hf h
    · intro _ _ _ h; exact absurd hf h
    · intro _ h; exact absurd hf h
  · rw [stepThread_idle job i (Or.inr (Nat.le_of_not_lt hil))] at hne
    exact (hne hf).elim

/-- The control location of the stepping worker: where it can be after the step. -/
theorem stepThread_self (job : JobContext I K V O) (i : Nat) (hf : job.fault = none)
    (hil : i < job.threadsArray.length) :
    ((job.thread i).pc = Pc.start →
      ((stepThread i job).thread i).pc = Pc.fetch ∧
      (stepThread i job).mapLog = job.mapLog) ∧
    ((job.thread i).pc = Pc.fetch →
      (stepThread i job).mapLog = job.mapLog ∧
      ((stepThread i job).fault = none →
        (∃ num, ((stepThread i job).thread i).pc = Pc.mapped num) ∨
        ((stepThread i job).thread i).pc = Pc.barrier1)) ∧
    (∀ num, (job.thread i).pc = Pc.mapped num →
      ((stepThread i job).thread i).pc = Pc.fetch ∧
      (stepThread i job).mapLog = job.mapLog ++ [(i, num)]) ∧
    ((job.thread i).pc.arrived1 = true → ((stepThread i job).thread i).pc.arrived1 = true) := by
  have hself : ∀ (j' : JobContext I K V O) (pc : Pc O),
      j'.threadsArray.length = job.threadsArray.length → ((j'.setPc i pc).thread i).pc = pc := by
    intro j' pc h1
    rw [pc_setPc, if_pos ⟨rfl, by rw [h1]; exact hil⟩]
  refine stepThread_cases job i (fun j' =>
    ((job.thread i).pc = Pc.start → (j'.thread i).pc = Pc.fetch ∧ j'.mapLog = job.mapLog) ∧
    ((job.thread i).pc = Pc.fetch → j'.mapLog = job.mapLog ∧
      (j'.fault = none → (∃ num, (j'.thread i).pc = Pc.mapped num) ∨
        (j'.thread i).pc = Pc.barrier1)) ∧
    (∀ num, (job.thread i).pc = Pc.mapped num →
      (j'.thread i).pc = Pc.fetch ∧ j'.mapLog = job.mapLog ++ [(i, num)]) ∧
    ((job.thread i).pc.arrived1 = true → (j'.thread i).pc.arrived1 = true)) hf hil
    ?_ ?_ ?_ ?_ ?_ ?_ ?_ ?_ ?_ ?_ ?_ ?_ ?_ ?_ ?_ ?_
  · intro hpc
    refine ⟨fun _ => ⟨hself _ _ rfl, rfl⟩, ?_, ?_, ?_⟩
    · intro h; rw [hpc] at h; exact Pc.noConfusion h
    · intro num h; rw [hpc] at h; exact Pc.noConfusion h
    · intro h; rw [hpc] at h; exact absurd h (by simp [Pc.arrived1])
  · intro hpc _ _ job1 h1
    subst h1
    refine ⟨?_, fun _ => ⟨rfl, fun _ => Or.inl ⟨_, hself _ _ rfl⟩⟩, ?_, ?_⟩
    · intro h; rw [hpc] at h; exact Pc.noConfusion h
    · intro num h; rw [hpc] at h; exact Pc.noConfusion h
    · intro h; rw [hpc] at h; exact absurd h (by simp [Pc.arrived1])
  · intro hpc _ _ job1 h1
    subst h1
    refine ⟨?_, fun _ => ⟨rfl, fun h => ?_⟩, ?_, ?_⟩
    · intro h; rw [hpc] at h; exact Pc.noConfusion h
    · exact absurd h (by simp [JobContext.fail])
    · intro num h; rw [hpc] at h; exact Pc.noConfusion h
    · intro h; rw [hpc] at h; exact absurd h (by simp [Pc.arrived1])
  · intro hpc _ job1 h1
    subst h1
    refine ⟨?_, fun _ => ⟨rfl, fun _ => Or.inr (hself _ _ (by simp [JobContext.setVec]))⟩,
      ?_, ?_⟩
    · intro h; rw [hpc] at h; exact Pc.noConfusion h
    · intro num h; rw [hpc] at h; exact Pc.noConfusion h
    · intro h; rw [hpc] at h; exact absurd h (by simp [Pc.arrived1])
  · intro num hpc job1 h1
    subst h1
    obtain ⟨e1, _, _⟩ := callMap_frame i num job
    have hlen : (callMap i num job).threadsArray.length = job.threadsArray.length := by
      have := congrArg List.length (pcs_of_outsideEmit_eq e1)
      simpa [pcs] using this
    have hlog : (callMap i num job).mapLog = job.mapLog ++ [(i, num)] :=
      (fields_of_outsideEmit_eq e1).2.2.2.2.2.2.2.2.2.2.1
    refine ⟨?_, ?_, ?_, ?_⟩
    · intro h; rw [hpc] at h; exact Pc.noConfusion h
    · intro h; rw [hpc] at h; exact Pc.noConfusion h
    · intro num' h
      rw [hpc] at h
      injection h with h'
      subst h'
      exact ⟨hself _ _ hlen, hlog⟩
    · intro h; rw [hpc] at h; exact absurd h (by simp [Pc.arrived1])
  · intro hpc _
    refine ⟨?_, ?_, ?_, fun h => h⟩
    · intro h; rw [hpc] at h; exact Pc.noConfusion h
    · intro h; rw [hpc] at h; exact Pc.noConfusion h
    · intro num h; rw [hpc] at h; exact Pc.noConfusion h
  · intro hpc _ _
    refine ⟨?_, ?_, ?_, fun _ => by rw [pc_setPc, if_pos ⟨rfl, hil⟩]; rfl⟩
    · intro h; rw [hpc] at h; exact Pc.noConfusion h
    · intro h; rw [hpc] at h; exact Pc.noConfusion h
    · intro num h; rw [hpc] at h; exact Pc.noConfusion h
  · intro hpc _ _ job1 job2 h1 h2 _
    subst h1
    subst h2
    obtain ⟨e, _⟩ := shuffle_frame
      (pendingPairs (job.storeState (shuffleWord job.intermediateCounter)) + 1)
      (job.storeState (shuffleWord job.intermediateCounter))
    have hil2 : i < (shuffle
        (pendingPairs (job.storeState (shuffleWord job.intermediateCounter)) + 1)
        (job.storeState (shuffleWord job.intermediateCounter))).threadsArray.length := by
      rw [length_of_outsideShuffle_eq e]; exact hil
    refine ⟨?_, ?_, ?_, fun _ => by rw [pc_setPc, if_pos ⟨rfl, hil2⟩]; rfl⟩
    · intro h; rw [hpc] at h; exact Pc.noConfusion h
    · intro h; rw [hpc] at h; exact Pc.noConfusion h
    · intro num h; rw [hpc] at h; exact Pc.noConfusion h
  · intro hpc _ _ job1 job2 h1 h2 _
    subst h1
    subst h2
    obtain ⟨e, _⟩ := shuffle_frame
      (pendingPairs (job.storeState (shuffleWord job.intermediateCounter)) + 1)
      (job.storeState (shuffleWord job.intermediateCounter))
    have hil2 : i < (shuffle
        (pendingPairs (job.storeState (shuffleWord job.intermediateCounter)) + 1)
        (job.storeState (shuffleWord job.intermediateCounter))).threadsArray.length := by
      rw [length_of_outsideShuffle_eq e]; exact hil
    refine ⟨?_, ?_, ?_, fun _ => by rw [pc_setPc, if_pos ⟨rfl, hil2⟩]; rfl⟩
    · intro h; rw [hpc] at h; exact Pc.noConfusion h
    · intro h; rw [hpc] at h; exact Pc.noConfusion h
    · intro num h; rw [hpc] at h; exact Pc.noConfusion h
  · intro hpc _
    refine ⟨?_, ?_, ?_, fun h => h⟩
    · intro h; rw [hpc] at h; exact Pc.noConfusion h
    · intro h; rw [hpc] at h; exact Pc.noConfusion h
    · intro num h; rw [hpc] at h; exact Pc.noConfusion h
  · intro hpc _
    refine ⟨?_, ?_, ?_, fun _ => by rw [pc_setPc, if_pos ⟨rfl, hil⟩]; rfl⟩
    · intro h; rw [hpc] at h; exact Pc.noConfusion h
    · intro h; rw [hpc] at h; exact Pc.noConfusion h
    · intro num h; rw [hpc] at h; exact Pc.noConfusion h
  · intro hpc _
    refine ⟨?_, ?_, ?_, fun _ => by rw [pc_setPc, if_pos ⟨rfl, hil⟩]; rfl⟩
    · intro h; rw [hpc] at h; exact Pc.noConfusion h
    · intro h; rw [hpc] at h; exact Pc.noConfusion h
    · intro num h; rw [hpc] at h; exact Pc.noConfusion h
  · intro hpc rest g _ job1 h1
    subst h1
    refine ⟨?_, ?_, ?_, fun _ => by rw [pc_setPc, if_pos ⟨rfl, hil⟩]; rfl⟩
    · intro h; rw [hpc] at h; exact Pc.noConfusion h
    · intro h; rw [hpc] at h; exact Pc.noConfusion h
    · intro num h; rw [hpc] at h; exact Pc.noConfusion h
  · intro hpc
    refine ⟨?_, ?_, ?_, fun _ => by rw [pc_setPc, if_pos ⟨rfl, hil⟩]; rfl⟩
    · intro h; rw [hpc] at h; exact Pc.noConfusion h
    · intro h; rw [hpc] at h; exact Pc.noConfusion h
    · intro num h; rw [hpc] at h; exact Pc.noConfusion h
  · intro o rest hpc
    refine ⟨?_, ?_, ?_, fun _ => by rw [pc_setPc, if_pos ⟨rfl, hil⟩]; rfl⟩
    · intro h; rw [hpc] at h; exact Pc.noConfusion h
    · intro h; rw [hpc] at h; exact Pc.noConfusion h
    · intro num h; rw [hpc] at h; exact Pc.noConfusion h
  · intro hpc
    refine ⟨?_, ?_, ?_, fun h => h⟩
    · intro h; rcases hpc with hpc | hpc <;> (rw [hpc] at h; exact Pc.noConfusion h)
    · intro h; rcases hpc with hpc | hpc <;> (rw [hpc] at h; exact Pc.noConfusion h)
    · intro num h; rcases hpc with hpc | hpc <;> (rw [hpc] at h; exact Pc.noConfusion h)

/-! ## The Map loop ends -/
theorem arrived1_mono_step (job : JobContext I K V O) (i j : Nat)
    (h : (job.thread j).pc.arrived1 = true) :
    ((stepThread i job).thread j).pc.arrived1 = true := by
  by_cases hidle : job.fault ≠ none ∨ job.threadsArray.length ≤ i
  · rw [stepThread_idle job i hidle]; exact h
  · push_neg at hidle
    by_cases hji : j = i
    · subst hji
      exact (stepThread_self job j hidle.1 hidle.2).2.2.2 h
    · rw [(stepThread_others job i).2.1 j hji]; exact h
theorem arrived1_mono_run (schedule : List Nat) (job : JobContext I K V O) (j : Nat)
    (h : (job.thread j).pc.arrived1 = true) :
    ((runSchedule schedule job).thread j).pc.arrived1 = true := by
  induction schedule generalizing job with
  | nil => exact h
  | cons i rest ih => exact ih _ (arrived1_mono_step job i j h)

/-- Without overflow of the input counter, no fault occurs while a worker is still in
the Map loop. -/
theorem mapLive_step (input : InputVec I) (N : Nat) (job : JobContext I K V O) (i : Nat)
    (hno : input.size + N ≤ 2 ^ 31) (inv : LogInv input N job)
    (live : ∀ j, j < N → (job.thread j).pc.arrived1 = false → job.fault = none) :
    ∀ j, j < N → ((stepThread i job).thread j).pc.arrived1 = false →
      (stepThread i job).fault = none := by
  intro j hj hnot
  have hold : (job.thread j).pc.arrived1 = false := by
    by_contra h
    have h' : (job.thread j).pc.arrived1 = true := by simpa using h
    rw [arrived1_mono_step job i j h'] at hnot
    exact Bool.noConfusion hnot
  have hf := live j hj hold
  by_contra hne
  rcases stepThread_fault job i hf hne with ⟨hpc, _, c1, c2⟩ | ⟨_, hopen, _⟩
  · have hil : i < job.threadsArray.length := by
      by_contra h
      have : job.thread i = { intermediateVec := [], threadId := i, pc := Pc.done } := by
        unfold JobContext.thread
        rw [List.getD_eq_getElem?_getD, List.getElem?_eq_none (Nat.le_of_not_lt h)]
        rfl
      rw [this] at hpc
      exact Pc.noConfusion hpc
    have hA : arrivedCount job + 1 ≤ N := by
      rw [← inv.length_eq]
      exact arrivedCount_lt job i hil (by rw [hpc]; rfl)
    obtain ⟨_, ar⟩ := fetch_no_overflow input.size N (claimedCount job) (arrivedCount job)
      hno hA inv.bound
    rw [inv.counter hf, inv.input_eq] at c1 c2
    exact c2 (ar c1)
  · have := (barrier1Open_iff job).mp hopen j (by rw [inv.length_eq]; exact hj)
    rw [hold] at this
    exact Bool.noConfusion this

theorem pendingNums_pos (job : JobContext I K V O) (w num : Nat)
    (hw : w < job.threadsArray.length) (hpc : (job.thread w).pc = Pc.mapped num) :
    0 < (pendingNums job).length := by
  obtain ⟨a, b, hab, _, _⟩ := pcs_split job w hw
  rw [hpc] at hab
  unfold pendingNums
  rw [hab]
  simp [List.filterMap_append, List.filterMap_cons, Pc.pendingNum]

/-- Each step of worker `w` inside the Map loop uses up one unit of its potential, and
no step of another worker adds to it. -/
theorem mapPotential_step (input : InputVec I) (N : Nat) (job : JobContext I K V O)
    (i w : Nat) (hno : input.size + N ≤ 2 ^ 31) (hw : w < N) (inv : LogInv input N job)
    (live : ∀ j, j < N → (job.thread j).pc.arrived1 = false → job.fault = none)
    (hnot : ((stepThread i job).thread w).pc.arrived1 = false) :
    mapPotential input.size (stepThread i job) w + (if i = w then 1 else 0) ≤
      mapPotential input.size job w := by
  have hold : (job.thread w).pc.arrived1 = false := by
    by_contra h
    have h' : (job.thread w).pc.arrived1 = true := by simpa using h
    rw [arrived1_mono_step job i w h'] at hnot
    exact Bool.noConfusion hnot
  have hf := live w hw hold
  have hwl : w < job.threadsArray.length := by rw [inv.length_eq]; exact hw
  by_cases hiw : i = w
  · subst hiw
    rw [if_pos rfl]
    obtain ⟨s1, s2, s3, _⟩ := stepThread_self job i hf hwl
    have hf' := mapLive_step input N job i hno inv live i hw hnot
    unfold mapPotential
    cases hpc : (job.thread i).pc with
    | start =>
      obtain ⟨p1, p2⟩ := s1 hpc
      rw [p1, p2]
    | fetch =>
      obtain ⟨p1, p2⟩ := s2 hpc
      rcases p2 hf' with ⟨num, p3⟩ | p3
      · rw [p3, p1]
      · rw [p3] at hnot
        exact absurd hnot (by simp [Pc.arrived1])
    | mapped num =>
      obtain ⟨p1, p2⟩ := s3 num hpc
      rw [p1, p2]
      have hpos := pendingNums_pos job i num hwl hpc
      have hb := inv.bound
      have hB := (fetch_no_overflow input.size N 0 0 hno (by omega) (Nat.zero_le _)).1
      unfold claimedCount at hb
      simp only [List.length_append, List.length_cons, List.length_nil]
      omega
    | barrier1 => rw [hpc] at hold; exact absurd hold (by simp [Pc.arrived1])
    | barrier2 => rw [hpc] at hold; exact absurd hold (by simp [Pc.arrived1])
    | reduceLoop => rw [hpc] at hold; exact absurd hold (by simp [Pc.arrived1])
    | emitting p => rw [hpc] at hold; exact absurd hold (by simp [Pc.arrived1])
    | done => rw [hpc] at hold; exact absurd hold (by simp [Pc.arrived1])
    | stuck => rw [hpc] at hold; exact absurd hold (by simp [Pc.arrived1])
  · rw [if_neg hiw]
    obtain ⟨_, o2, o3⟩ := stepThread_others job i
    unfold mapPotential
    rw [o2 w (fun h => hiw h.symm)]
    cases (job.thread w).pc <;> simp only [] <;> omega

/-- A worker that is still in the Map loop after a schedule has taken fewer steps in it
than its potential allowed. -/
theorem mapPotential_run (input : InputVec I) (N : Nat) (schedule : List Nat)
    (job : JobContext I K V O) (w : Nat)
    (hno : input.size + N ≤ 2 ^ 31) (hw : w < N) (inv : LogInv input N job)
    (live : ∀ j, j < N → (job.thread j).pc.arrived1 = false → job.fault = none)
    (hnot : ((runSchedule schedule job).thread w).pc.arrived1 = false) :
    mapPotential input.size (runSchedule schedule job) w + schedule.count w ≤
      mapPotential input.size job w := by
  induction schedule generalizing job with
  | nil => simp [runSchedule]
  | cons i rest ih =>
    have hN : N ≤ 2 ^ 31 := by omega
    have hsize : input.size < 2 ^ 64 := by
      have : (2 : Nat) ^ 31 < 2 ^ 64 := by norm_num
      omega
    have inv' := logInv_stepThread input N job i hN hsize inv
    have live' := mapLive_step input N job i hno inv live
    have h1 := ih (stepThread i job) inv' live' hnot
    have hnot1 : ((stepThread i job).thread w).pc.arrived1 = false := by
      by_contra h
      have h' : ((stepThread i job).thread w).pc.arrived1 = true := by simpa using h
      have := arrived1_mono_run rest (stepThread i job) w h'
      rw [show runSchedule (i :: rest) job = runSchedule rest (stepThread i job) from rfl]
        at hnot
      rw [this] at hnot
      exact Bool.noConfusion hnot
    have h2 := mapPotential_step input N job i w hno hw inv live hnot1
    have hcount : (i :: rest).count w = rest.count w + (if i = w then 1 else 0) := by
      rw [List.count_cons]
      by_cases h : i = w <;> simp [h]
    rw [hcount]
    show mapPotential input.size (runSchedule rest (stepThread i job)) w + _ ≤ _
    omega

/-! ## Map is invoked once per input -/

theorem barrier1Open_pcs (job : JobContext I K V O) :
    barrier1Open job = (pcs job).all Pc.arrived1 := by
  unfold barrier1Open pcs
  induction job.threadsArray with
  | nil => rfl
  | cons t l ih => simp [List.all_cons, ih]

theorem pendingNums_of_open (job : JobContext I K V O) (h : barrier1Open job = true) :
    pendingNums job = [] ∧ arrivedCount job = job.threadsArray.length := by
  rw [barrier1Open_pcs, List.all_eq_true] at h
  constructor
  · unfold pendingNums
    apply List.filterMap_eq_nil_iff.mpr
    intro pc hpc
    have := h pc hpc
    cases pc <;> simp_all [Pc.pendingNum, Pc.arrived1]
  · unfold arrivedCount
    rw [← length_pcs]
    exact List.countP_eq_length.mpr h

/-- C8, amended: when the input size plus the worker count does not exceed `2 ^ 31`,
then at every point of every run no index is mapped twice, every map call is made by a
worker on an index below the input size, each worker maps its indices in increasing
order, once every worker has left the Map loop the mapped indices are exactly
0, ..., size - 1, and a worker that was scheduled `2 * size + 3` times has left the
loop. -/
theorem map_once_per_input (client : MapReduceClient I K V O) (input : InputVec I)
    (out : List O) (N : Nat) (stdSort : List (K × V) → List (K × V)) (schedule : List Nat)
    (hN1 : 1 ≤ N) (hno : input.size + N ≤ 2 ^ 31) :
    ((runSchedule schedule (startMapReduceJob client input out N stdSort)).mapLog.map
      Prod.snd).Nodup ∧
    (∀ e ∈ (runSchedule schedule (startMapReduceJob client input out N stdSort)).mapLog,
      e.1 < N ∧ e.2 < input.size) ∧
    (∀ w, (((runSchedule schedule (startMapReduceJob client input out N stdSort)).mapLog.filter
      (fun e => e.1 == w)).map Prod.snd).Pairwise (· < ·)) ∧
    (barrier1Open (runSchedule schedule (startMapReduceJob client input out N stdSort)) = true →
      ((runSchedule schedule (startMapReduceJob client input out N stdSort)).mapLog.map
        Prod.snd).Perm (List.range input.size)) ∧
    (∀ w, w < N → 2 * input.size + 3 ≤ schedule.count w →
      ((runSchedule schedule (startMapReduceJob client input out N stdSort)).thread w
        ).pc.arrived1 = true) := by
  have hN : N ≤ 2 ^ 31 := by omega
  have hsize : input.size < 2 ^ 64 := by
    have : (2 : Nat) ^ 31 < 2 ^ 64 := by norm_num
    omega
  have inv0 := logInv_start client input out N stdSort
  have inv := logInv_runSchedule input N schedule _ hN hsize inv0
  have hB := (fetch_no_overflow input.size N 0 0 hno (by omega) (Nat.zero_le _)).1
  refine ⟨?_, ?_, inv.sortedLog, ?_, ?_⟩
  · exact (List.nodup_append.mp ((inv.claimed.nodup_iff).mpr (List.nodup_range _))).1
  · intro e he
    refine ⟨inv.workers e he, ?_⟩
    have h1 := mem_mapLog_lt input N _ inv e he
    have h2 := inv.bound
    omega
  · intro hopen
    obtain ⟨hp, ha⟩ := pendingNums_of_open _ hopen
    have hfull := inv.full (by rw [ha, inv.length_eq]; omega)
    have hc := inv.claimed
    rw [hp, List.append_nil, hfull, hB] at hc
    exact hc
  · intro w hw hcount
    by_contra hnot
    have hnot' : ((runSchedule schedule (startMapReduceJob client input out N stdSort)).thread w
        ).pc.arrived1 = false := by simpa using hnot
    have hlive : ∀ j, j < N →
        ((startMapReduceJob client input out N stdSort).thread j).pc.arrived1 = false →
        (startMapReduceJob client input out N stdSort).fault = none := fun _ _ _ => rfl
    have hpot := mapPotential_run input N schedule _ w hno hw inv0 hlive hnot'
    have hinit : mapPotential input.size (startMapReduceJob client input out N stdSort) w =
        2 * input.size + 3 := by
      unfold mapPotential startMapReduceJob
      rw [thread_createJobContext _ _ _ _ _ _ hw]
      rfl
    have hpos : 0 < mapPotential input.size
        (runSchedule schedule (startMapReduceJob client input out N stdSort)) w := by
      unfold mapPotential
      cases hpc : ((runSchedule schedule
          (startMapReduceJob client input out N stdSort)).thread w).pc <;>
        first
        | (simp only []; omega)
        | (rw [hpc] at hnot'; exact absurd hnot' (by simp [Pc.arrived1]))
    omega

/-- C8, counterexample: on an input of `2 ^ 31` items the single worker leaves the Map
loop at its first fetch, so index 0 is never passed to map. -/
theorem mapAndSort_skips_large_input :
    ((runSchedule [0, 0] (startMapReduceJob countClient hugeInput [] 1 sortByKey)).thread 0).pc
      = Pc.barrier1 ∧
    barrier1Open (runSchedule [0, 0] (startMapReduceJob countClient hugeInput [] 1 sortByKey))
      = true ∧
    (runSchedule [0, 0] (startMapReduceJob countClient hugeInput [] 1 sortByKey)).mapLog = [] ∧
    ¬ (∀ idx, idx < hugeInput.size → ∃ w, (w, idx) ∈
      (runSchedule [0, 0] (startMapReduceJob countClient hugeInput [] 1 sortByKey)).mapLog) := by
  have h3 : (runSchedule [0, 0]
      (startMapReduceJob countClient hugeInput [] 1 sortByKey)).mapLog = [] := by decide
  refine ⟨by decide, by decide, h3, ?_⟩
  intro h
  obtain ⟨w, hw⟩ := h 0 (by decide)
  rw [h3] at hw
  exact absurd hw (List.not_mem_nil _)

set_option maxRecDepth 20000 in
/-- C8 on the scenario: three workers taking turns map indices 0, 1, 2 once each and all
leave the Map loop. -/
theorem map_once_per_input_witness :
    (runSchedule roundRobin3 abcJob).mapLog = [(0, 0), (1, 1), (2, 2)] ∧
    ((runSchedule roundRobin3 abcJob).mapLog.map Prod.snd).Nodup ∧
    (∀ w, w < 3 → 2 * abcInput.size + 3 ≤ roundRobin3.count w →
      ((runSchedule roundRobin3 abcJob).thread w).pc.arrived1 = true) := by
  have h := map_once_per_input countClient abcInput [] 3 sortByKey roundRobin3 (by decide)
    (by decide)
  exact ⟨by decide, h.1, h.2.2.2.2⟩

/-! ## Reduce is invoked once per key group -/

theorem reduceInv_stepThread (queue0 : List (List (K × V))) (N : Nat)
    (job : JobContext I K V O) (i : Nat) (inv : ReduceInv queue0 N job) :
    ReduceInv queue0 N (stepThread i job) := by
  by_cases hil : i < job.threadsArray.length
  · have hi : i < N := by rw [← inv.length_eq]; exact hil
    have hpci := inv.arrived i hi
    have hset : ∀ (j' : JobContext I K V O) (pc : Pc O),
        j'.threadsArray.length = N → j'.fault = none →
        (∀ j, (j'.thread j).pc = (job.thread j).pc) → pc.arrived2 = true →
        queue0 = j'.intermediateVectors ++ (j'.reduceLog.map Prod.snd).reverse →
        (∀ e ∈ j'.reduceLog, e.1 < N) →
        (pc = Pc.done → j'.intermediateVectors = []) →
        (∀ j, j < N → (job.thread j).pc = Pc.done → j'.intermediateVectors = []) →
        ReduceInv queue0 N (j'.setPc i pc) := by
      intro j' pc h1 h2 h3 h4 h5 h6 h7 h8
      constructor
      · simp [JobContext.setPc, h1]
      · exact h2
      · intro j hj
        rw [pc_setPc]
        split
        · exact h4
        · rw [h3]; exact inv.arrived j hj
      · exact h5
      · exact h6
      · intro j hj hd
        rw [pc_setPc] at hd
        split at hd
        · exact h7 hd
        · rw [h3] at hd
          exact h8 j hj hd
    have habs : ∀ {p : Pc O} {R : Prop}, (job.thread i).pc = p → p.arrived2 = false → R := by
      intro p R h1 h2
      rw [h1, h2] at hpci
      exact absurd hpci Bool.false_ne_true
    refine stepThread_cases job i (ReduceInv queue0 N) inv.fault_none hil
      ?_ ?_ ?_ ?_ ?_ ?_ ?_ ?_ ?_ ?_ ?_ ?_ ?_ ?_ ?_ ?_
    · intro h; exact habs h rfl
    · intro h; exact habs h rfl
    · intro h; exact habs h rfl
    · intro h; exact habs h rfl
    · intro num h; exact habs h rfl
    · intro h; exact habs h rfl
    · intro h; exact habs h rfl
    · intro h; exact habs h rfl
    · intro h; exact habs h rfl
    · intro _ _; exact inv
    · intro _ _
      exact hset job _ inv.length_eq inv.fault_none (fun _ => rfl) rfl inv.popped inv.workers
        (fun h => Pc.noConfusion h) inv.done_empty
    · intro _ hq
      exact hset job _ inv.length_eq inv.fault_none (fun _ => rfl) rfl inv.popped inv.workers
        (fun _ => hq) inv.done_empty
    · intro _ rest g hq job1 h1
      subst h1
      refine hset _ _ inv.length_eq inv.fault_none (fun _ => rfl) rfl ?_ ?_
        (fun h => Pc.noConfusion h) ?_
      · show queue0 = rest ++ ((job.reduceLog ++ [(i, g)]).map Prod.snd).reverse
        rw [inv.popped, hq]
        simp
      · intro e he
        rcases List.mem_append.mp he with h | h
        · exact inv.workers e h
        · have : e = (i, g) := by simpa using h
          rw [this]; exact hi
      · intro j hj hd
        have := inv.done_empty j hj hd
        rw [hq] at this
        simp at this
    · intro _
      exact hset _ _ inv.length_eq inv.fault_none (fun _ => rfl) rfl inv.popped inv.workers
        (fun h => Pc.noConfusion h) inv.done_empty
    · intro o rest _
      exact hset _ _ inv.length_eq inv.fault_none (fun _ => rfl) rfl inv.popped inv.workers
        (fun h => Pc.noConfusion h) inv.done_empty
    · intro _; exact inv
  · rw [stepThread_idle job i (Or.inr (Nat.le_of_not_lt hil))]
    exact inv

theorem reduceInv_runSchedule (queue0 : List (List (K × V))) (N : Nat) (schedule : List Nat)
    (job : JobContext I K V O) (inv : ReduceInv queue0 N job) :
    ReduceInv queue0 N (runSchedule schedule job) := by
  induction schedule generalizing job with
  | nil => exact inv
  | cons i rest ih => exact ih _ (reduceInv_stepThread queue0 N job i inv)

theorem allDone_iff (job : JobContext I K V O) :
    allDone job = true ↔
      ∀ j, j < job.threadsArray.length → (job.thread j).pc = Pc.done := by
  unfold allDone
  rw [List.all_eq_true]
  have hd : ∀ pc : Pc O, pc.isDone = true ↔ pc = Pc.done := by
    intro pc
    cases pc <;> simp [Pc.isDone]
  constructor
  · intro h j hj
    rw [thread_eq_getElem job j hj]
    exact (hd _).mp (h _ (List.getElem_mem hj))
  · intro h t ht
    obtain ⟨j, hj, rfl⟩ := List.getElem_of_mem ht
    rw [← thread_eq_getElem job j hj]
    exact (hd _).mpr (h j hj)

/-! ## Buffers, pending output and logs under the operations of a step -/

theorem bufferedPairs_congr (a b : JobContext I K V O)
    (hlen : b.threadsArray.length = a.threadsArray.length)
    (hvec : ∀ j, b.vec j = a.vec j) : bufferedPairs b = bufferedPairs a := by
  unfold bufferedPairs
  rw [hlen]
  congr 1
  apply List.map_congr_left
  intro j _
  exact hvec j

theorem flatten_map_update {α β : Type} (l : List α) (f g : α → List β) (i : α)
    (hnd : l.Nodup) (hi : i ∈ l) (h : ∀ j, j ≠ i → g j = f j) :
    ((l.map g).flatten ++ f i).Perm ((l.map f).flatten ++ g i) := by
  induction l with
  | nil => exact absurd hi (List.not_mem_nil _)
  | cons x xs ih =>
    rw [List.nodup_cons] at hnd
    by_cases hx : x = i
    · subst hx
      have hxs : xs.map g = xs.map f := by
        apply List.map_congr_left
        intro j hj
        exact h j (fun e => hnd.1 (e ▸ hj))
      simp only [List.map_cons, List.flatten_cons, hxs]
      rw [← Multiset.coe_eq_coe]
      simp only [← Multiset.coe_add]
      abel
    · have hi' : i ∈ xs := by
        rcases List.mem_cons.mp hi with e | e
        · exact absurd e.symm hx
        · exact e
      have := ih hnd.2 hi'
      simp only [List.map_cons, List.flatten_cons, h x hx]
      rw [← Multiset.coe_eq_coe] at this ⊢
      simp only [← Multiset.coe_add] at this ⊢
      rw [add_assoc, this]
      abel

theorem bufferedPairs_update (a b : JobContext I K V O) (i : Nat)
    (hlen : b.threadsArray.length = a.threadsArray.length)
    (hi : i < a.threadsArray.length)
    (hvec : ∀ j, j ≠ i → b.vec j = a.vec j) :
    (bufferedPairs b ++ a.vec i).Perm (bufferedPairs a ++ b.vec i) := by
  unfold bufferedPairs
  rw [hlen]
  exact flatten_map_update _ _ _ i (List.nodup_range _) (List.mem_range.mpr hi) hvec

theorem pendingOuts_setPc (job j' : JobContext I K V O) (i : Nat) (pc : Pc O)
    (hi : i < job.threadsArray.length) (hpcs : pcs j' = pcs job) :
    ∃ A B, pendingOuts job = A ++ (job.thread i).pc.pendingOut ++ B ∧
      pendingOuts (j'.setPc i pc) = A ++ pc.pendingOut ++ B := by
  obtain ⟨a, b, h1, _, h3⟩ := pcs_split job i hi
  refine ⟨(a.map Pc.pendingOut).flatten, (b.map Pc.pendingOut).flatten, ?_, ?_⟩
  · unfold pendingOuts
    rw [h1]
    simp
  · unfold pendingOuts
    rw [pcs_setPc, h3 _ hpcs pc]
    simp

theorem length_le_flatten {α : Type} (q : List (List α)) (h : ∀ g ∈ q, g ≠ []) :
    q.length ≤ q.flatten.length := by
  induction q with
  | nil => simp
  | cons g gs ih =>
    have hg : 0 < g.length := List.length_pos.mpr (h g (List.mem_cons_self _ _))
    have := ih (fun x hx => h x (List.mem_cons_of_mem _ hx))
    simp only [List.flatten_cons, List.length_append, List.length_cons]
    omega

theorem sum_map_le_range (l : List Nat) (n : Nat) (f : Nat → Nat) (hnd : l.Nodup)
    (hlt : ∀ x ∈ l, x < n) : (l.map f).sum ≤ ((List.range n).map f).sum := by
  have hsub : l.Subperm (List.range n) :=
    List.subperm_of_subset hnd (fun x hx => List.mem_range.mpr (hlt x hx))
  obtain ⟨l', hp, hs⟩ := hsub
  have h1 : (l.map f).sum = (l'.map f).sum := (hp.map f).sum_eq.symm
  rw [h1]
  exact (hs.map f).sum_le_sum (fun _ _ => Nat.zero_le _)

theorem length_emittedBy (client : MapReduceClient I K V O) (input : InputVec I)
    (log : List (Nat × Nat)) :
    (emittedBy client input log).length =
      ((log.map Prod.snd).map (fun i => (client.map (input.elem i)).length)).sum := by
  unfold emittedBy
  rw [List.length_flatten]
  simp [List.map_map, Function.comp_def]

theorem emittedBy_perm (client : MapReduceClient I K V O) (input : InputVec I)
    (log : List (Nat × Nat)) (l : List Nat) (h : (log.map Prod.snd).Perm l) :
    (emittedBy client input log).Perm
      ((l.map (fun i => client.map (input.elem i))).flatten) := by
  have : emittedBy client input log =
      ((log.map Prod.snd).map (fun i => client.map (input.elem i))).flatten := by
    unfold emittedBy
    simp [List.map_map, Function.comp_def]
  rw [this]
  exact (h.map _).flatten

theorem mapPhaseInv_setPc (client : MapReduceClient I K V O) (input : InputVec I)
    (out0 : List O) (N : Nat) (job j' : JobContext I K V O) (i : Nat) (pc : Pc O)
    (hc : j'.client = client) (hs : SortContract client.lt j'.stdSort)
    (hf : j'.fault = none) (hq : j'.intermediateVectors = []) (hr : j'.reduceLog = [])
    (ho : j'.outputVector = out0)
    (hlen : j'.threadsArray.length = job.threadsArray.length)
    (hpc : ∀ j, (j'.thread j).pc = (job.thread j).pc)
    (hN : job.threadsArray.length = N)
    (hpre : ∀ j, j < N → (job.thread j).pc.beforeReduce = true)
    (hz : (job.thread 0).pc.arrived2 = false)
    (hpc1 : pc.beforeReduce = true) (hpc2 : i = 0 → pc.arrived2 = false)
    (hb : (bufferedPairs j').Perm (emittedBy client input j'.mapLog))
    (hsorted : ∀ j, j < N → j ≠ i → (job.thread j).pc.arrived1 = true →
      SortedAsc client.lt (j'.vec j))
    (hsi : pc.arrived1 = true → SortedAsc client.lt (j'.vec i))
    (hic : j'.intermediateCounter = toInt32 ((bufferedPairs j').length : Int)) :
    MapPhaseInv client input out0 N (j'.setPc i pc) := by
  have hbp : bufferedPairs (j'.setPc i pc) = bufferedPairs j' :=
    bufferedPairs_congr j' (j'.setPc i pc) (by simp [JobContext.setPc, JobContext.setThread])
      (fun j => vec_setPc j' i j pc)
  constructor
  · exact hc
  · exact hs
  · exact hf
  · exact hq
  · exact hr
  · exact ho
  · intro j hj
    rw [pc_setPc]
    split
    · exact hpc1
    · rw [hpc]; exact hpre j hj
  · rw [pc_setPc]
    split
    · rename_i h; exact hpc2 h.1
    · rw [hpc]; exact hz
  · rw [hbp]; exact hb
  · intro j hj ha
    rw [vec_setPc]
    rw [pc_setPc] at ha
    by_cases hji : j = i
    · subst hji
      rw [if_pos ⟨rfl, by rw [hlen, hN]; exact hj⟩] at ha
      exact hsi ha
    · rw [if_neg (fun h => hji h.1.symm), hpc] at ha
      exact hsorted j hj hji ha
  · rw [hbp]; exact hic

theorem reducePhaseInv_setPc (client : MapReduceClient I K V O) (input : InputVec I)
    (out0 : List O) (N : Nat) (job j' : JobContext I K V O) (i : Nat) (pc : Pc O)
    (hi : i < job.threadsArray.length)
    (hc : j'.client = client) (hf : j'.fault = none)
    (hlen : j'.threadsArray.length = job.threadsArray.length)
    (hpcs : pcs j' = pcs job)
    (hpc : ∀ j, (j'.thread j).pc = (job.thread j).pc)
    (hN : job.threadsArray.length = N)
    (hpost : ∀ j, j < N → j ≠ i →
      (job.thread j).pc.arrived1 = true ∧ (job.thread j).pc ≠ Pc.stuck)
    (hz : i ≠ 0 → (job.thread 0).pc.arrived2 = true)
    (hpc1 : pc.arrived1 = true ∧ pc ≠ Pc.stuck) (hpc2 : i = 0 → pc.arrived2 = true)
    (hg : DescGroups client.lt
      (j'.intermediateVectors ++ (j'.reduceLog.map Prod.snd).reverse))
    (hgp : ((j'.intermediateVectors ++ (j'.reduceLog.map Prod.snd).reverse).flatten).Perm
      (emittedBy client input j'.mapLog))
    (hout : ∀ A B, pendingOuts job = A ++ (job.thread i).pc.pendingOut ++ B →
      (j'.outputVector ++ (A ++ pc.pendingOut ++ B)).Perm
        (out0 ++ reducedOut client j'.reduceLog))
    (hd1 : pc = Pc.done → j'.intermediateVectors = [])
    (hd2 : ∀ j, j < N → j ≠ i → (job.thread j).pc = Pc.done → j'.intermediateVectors = []) :
    ReducePhaseInv client input out0 N (j'.setPc i pc) := by
  constructor
  · exact hc
  · exact hf
  · intro j hj
    rw [pc_setPc]
    by_cases hji : j = i
    · subst hji
      rw [if_pos ⟨rfl, by rw [hlen, hN]; exact hj⟩]
      exact hpc1
    · rw [if_neg (fun h => hji h.1.symm), hpc]
      exact hpost j hj hji
  · rw [pc_setPc]
    by_cases h0 : i = 0
    · rw [if_pos ⟨h0, by rw [hlen]; exact hi⟩]
      exact hpc2 h0
    · rw [if_neg (fun h => h0 h.1), hpc]
      exact hz h0
  · exact hg
  · exact hgp
  · obtain ⟨A, B, h1, h2⟩ := pendingOuts_setPc job j' i pc hi hpcs
    rw [h2]
    exact hout A B h1
  · intro j hj hd
    rw [pc_setPc] at hd
    by_cases hji : j = i
    · subst hji
      rw [if_pos ⟨rfl, by rw [hlen, hN]; exact hj⟩] at hd
      exact hd1 hd
    · rw [if_neg (fun h => hji h.1.symm), hpc] at hd
      exact hd2 j hj hji hd

theorem pendingOut_of_beforeReduce (pc : Pc O) (h : pc.beforeReduce = true) :
    pc.pendingOut = [] := by
  cases pc <;> first | rfl | exact absurd h Bool.false_ne_true

theorem pendingOuts_of_mapPhase (job : JobContext I K V O)
    (h : ∀ j, j < job.threadsArray.length → (job.thread j).pc.beforeReduce = true) :
    pendingOuts job = [] := by
  unfold pendingOuts
  rw [List.flatten_eq_nil_iff]
  intro l hl
  obtain ⟨pc, hpc, rfl⟩ := List.mem_map.mp hl
  obtain ⟨j, hj, rfl⟩ := List.getElem_of_mem hpc
  have hj' : j < job.threadsArray.length := by simpa [pcs] using hj
  have h1 := pcs_getElem? job j hj'
  rw [List.getElem?_eq_getElem hj] at h1
  rw [Option.some.inj h1]
  exact pendingOut_of_beforeReduce _ (h j hj')

theorem mapPhase_stepThread (client : MapReduceClient I K V O) (input : InputVec I)
    (out0 : List O) (N : Nat) (job : JobContext I K V O) (i : Nat)
    (hswo : StrictWeakOrder client.lt) (hlog : LogInv input N job)
    (hil : i < job.threadsArray.length)
    (inv : MapPhaseInv client input out0 N job) :
    RunInv client input out0 N (stepThread i job) := by
  have hi : i < N := by rw [← hlog.length_eq]; exact hil
  have hpci := inv.pcs_pre i hi
  have habs : ∀ {p : Pc O} {R : Prop}, (job.thread i).pc = p → p.beforeReduce = false → R := by
    intro p R h1 h2
    rw [h1, h2] at hpci
    exact absurd hpci Bool.false_ne_true
  have hset := mapPhaseInv_setPc client input out0 N job
  refine stepThread_cases job i (RunInv client input out0 N) inv.fault_none hil
    ?_ ?_ ?_ ?_ ?_ ?_ ?_ ?_ ?_ ?_ ?_ ?_ ?_ ?_ ?_ ?_
  · intro _
    exact Or.inl (hset (job.storeState (mapWord job.stateCounter)) i Pc.fetch inv.client_eq
      inv.sort_ok inv.fault_none inv.queue_nil inv.rlog_nil inv.out_eq rfl (fun _ => rfl)
      hlog.length_eq inv.pcs_pre inv.zero_pre rfl (fun _ => rfl) inv.bufs
      (fun j hj _ ha => inv.sorted j hj ha) (fun h => absurd h Bool.false_ne_true) inv.icount)
  · intro _ _ _ job1 h1
    subst h1
    exact Or.inl (hset _ i _ inv.client_eq
      inv.sort_ok inv.fault_none inv.queue_nil inv.rlog_nil inv.out_eq rfl (fun _ => rfl)
      hlog.length_eq inv.pcs_pre inv.zero_pre rfl (fun _ => rfl) inv.bufs
      (fun j hj _ ha => inv.sorted j hj ha) (fun h => absurd h Bool.false_ne_true) inv.icount)
  · intro hpc _ _ job1 h1
    subst h1
    refine Or.inr (Or.inl ⟨?_, i, hi, ?_⟩)
    · simp [JobContext.fail]
    · show (job.thread i).pc.isDone = false
      rw [hpc]; rfl
  · intro _ _ job1 h1
    subst h1
    have hv : ∀ j, (JobContext.setVec
        ({ job with inputCounter := toInt32 (job.inputCounter + 1) } : JobContext I K V O) i
        (job.stdSort (job.vec i))).vec j =
        if i = j ∧ i < job.threadsArray.length then job.stdSort (job.vec i)
        else job.vec j := fun j => vec_setVec _ i j _
    have hl : (JobContext.setVec
        ({ job with inputCounter := toInt32 (job.inputCounter + 1) } : JobContext I K V O) i
        (job.stdSort (job.vec i))).threadsArray.length = job.threadsArray.length := by
      simp [JobContext.setVec, JobContext.setThread]
    have hup := bufferedPairs_update job _ i hl hil
      (fun j hj => by rw [hv j, if_neg (fun h => hj h.1.symm)])
    rw [hv i, if_pos ⟨rfl, hil⟩] at hup
    have hsp := (inv.sort_ok (job.vec i)).1
    have hbp : (bufferedPairs (JobContext.setVec
        ({ job with inputCounter := toInt32 (job.inputCounter + 1) } : JobContext I K V O) i
        (job.stdSort (job.vec i)))).Perm (bufferedPairs job) := by
      rw [← Multiset.coe_eq_coe] at hup hsp ⊢
      simp only [← Multiset.coe_add] at hup
      rw [hsp] at hup
      exact add_right_cancel hup
    refine Or.inl (hset _ i _ inv.client_eq
      inv.sort_ok inv.fault_none inv.queue_nil inv.rlog_nil inv.out_eq hl
      (fun j => pc_setVec _ i j _)
      hlog.length_eq inv.pcs_pre inv.zero_pre rfl (fun _ => rfl) (hbp.trans inv.bufs)
      ?_ ?_ ?_)
    · intro j hj hji ha
      rw [hv j, if_neg (fun h => hji h.1.symm)]
      exact inv.sorted j hj ha
    · intro _
      rw [hv i, if_pos ⟨rfl, hil⟩]
      exact (inv.sort_ok (job.vec i)).2
    · rw [hbp.length_eq]
      exact inv.icount
  · intro num _ job1 h1
    subst h1
    obtain ⟨e1, e2, e3⟩ := callMap_frame i num job
    obtain ⟨g1, g2, g3, g4, g5, g6, g7, g8, g9, g10, g11, g12, g13⟩ :=
      fields_of_outsideEmit_eq e1
    have hl : (callMap i num job).threadsArray.length = job.threadsArray.length := by
      have := congrArg List.length (pcs_of_outsideEmit_eq e1)
      simpa [pcs] using this
    have hup := bufferedPairs_update job (callMap i num job) i hl hil
      (fun j hj => by rw [e2 j, if_neg (fun h => hj h.1.symm)])
    rw [e2 i, if_pos ⟨rfl, hil⟩] at hup
    have hbp : (bufferedPairs (callMap i num job)).Perm
        (bufferedPairs job ++ job.client.map (job.inputVector.elem num)) := by
      rw [← Multiset.coe_eq_coe] at hup ⊢
      simp only [← Multiset.coe_add] at hup ⊢
      rw [← add_assoc, add_right_comm] at hup
      exact add_right_cancel hup
    have hml : (callMap i num job).mapLog = job.mapLog ++ [(i, num)] := g11
    refine Or.inl (hset ((callMap i num job).storeState
      (incr64 (callMap i num job).stateCounter)) i Pc.fetch (g1.trans inv.client_eq)
      ?_ (g13.trans inv.fault_none) (g3.trans inv.queue_nil) (g12.trans inv.rlog_nil)
      (g4.trans inv.out_eq) hl (fun j => (thread_of_outsideEmit_eq e1 j).1)
      hlog.length_eq inv.pcs_pre inv.zero_pre rfl (fun _ => rfl) ?_ ?_
      (fun h => absurd h Bool.false_ne_true) ?_)
    · show SortContract client.lt (callMap i num job).stdSort
      rw [g9]; exact inv.sort_ok
    · show (bufferedPairs (callMap i num job)).Perm
        (emittedBy client input (callMap i num job).mapLog)
      rw [hml]
      have : emittedBy client input (job.mapLog ++ [(i, num)]) =
          emittedBy client input job.mapLog ++ job.client.map (job.inputVector.elem num) := by
        rw [inv.client_eq, hlog.input_eq]
        simp [emittedBy]
      rw [this]
      exact hbp.trans (List.Perm.append_right _ inv.bufs)
    · intro j hj hji ha
      show SortedAsc client.lt ((callMap i num job).vec j)
      rw [e2 j, if_neg (fun h => hji h.1.symm)]
      exact inv.sorted j hj ha
    · show (callMap i num job).intermediateCounter =
        toInt32 ((bufferedPairs (callMap i num job)).length : Int)
      rw [e3 _ inv.icount, hbp.length_eq]
      simp
  · intro _ _
    exact Or.inl inv
  · intro hpc _ hid
    have hi0 : i ≠ 0 := by
      intro h0
      have := hlog.ids i hi
      rw [this, h0] at hid
      simp at hid
    exact Or.inl (hset job i Pc.barrier2 inv.client_eq
      inv.sort_ok inv.fault_none inv.queue_nil inv.rlog_nil inv.out_eq rfl (fun _ => rfl)
      hlog.length_eq inv.pcs_pre inv.zero_pre rfl (fun h => absurd h hi0) inv.bufs
      (fun j hj _ ha => inv.sorted j hj ha)
      (fun _ => inv.sorted i hi (by rw [hpc]; rfl)) inv.icount)
  · intro hpc ho hid job1 job2 h1 h2 hf2
    have hi0 : i = 0 := by
      have := hlog.ids i hi
      rw [this] at hid
      simpa using hid
    have hc1 : job1.client = client := by rw [h1]; exact inv.client_eq
    have hopen := (barrier1Open_iff job).mp ho
    have hsorted : ∀ j, SortedAsc job1.client.lt (job1.vec j) := by
      intro j
      rw [hc1, h1]
      show SortedAsc client.lt (job.vec j)
      by_cases hj : j < job.threadsArray.length
      · exact inv.sorted j (by rw [← hlog.length_eq]; exact hj) (hopen j hj)
      · rw [vec_of_length_le job j (Nat.le_of_not_lt hj)]
        exact List.Pairwise.nil
    have hq1 : job1.intermediateVectors = [] := by rw [h1]; exact inv.queue_nil
    have hspec := shuffle_spec job1 (pendingPairs job1 + 1) (by rw [hc1]; exact hswo)
      (by rw [h1]; exact hlog.number_eq.trans hlog.length_eq.symm)
      (by rw [h1]; exact inv.fault_none)
      (groupsInv_initial job1 hq1 hsorted) (Nat.lt_succ_self _)
    rw [← h2] at hspec
    obtain ⟨_, hgi, _, hperm⟩ := hspec
    obtain ⟨e, _⟩ := shuffle_frame (pendingPairs job1 + 1) job1
    rw [← h2] at e
    obtain ⟨g1, g2, g3, g4, g5, g6, g7, g8, g9, g10⟩ := fields_of_outsideShuffle_eq e
    have hbp1 : bufferedPairs job1 = bufferedPairs job := by rw [h1]; rfl
    have hpo := pendingOuts_of_mapPhase job
      (fun j hj => inv.pcs_pre j (by rw [← hlog.length_eq]; exact hj))
    have hr2 : job2.reduceLog = [] := by
      rw [g10, h1]; exact inv.rlog_nil
    have hm2 : job2.mapLog = job.mapLog := by rw [g9, h1]; rfl
    refine Or.inr (Or.inr (reducePhaseInv_setPc client input out0 N job
      (job2.storeState (reduceWord job2.intermediateVectors.length)) i Pc.barrier2 hil
      (by show job2.client = client; rw [g1]; exact hc1) hf2
      (by
        show job2.threadsArray.length = job.threadsArray.length
        rw [length_of_outsideShuffle_eq e, h1]; rfl)
      (by
        show pcs job2 = pcs job
        rw [pcs_of_outsideShuffle_eq e, h1]; rfl)
      (fun j => by
        show (job2.thread j).pc = (job.thread j).pc
        rw [(thread_of_outsideShuffle_eq e j).1, h1]; rfl)
      hlog.length_eq ?_ (fun h => absurd hi0 h) ⟨rfl, fun h => Pc.noConfusion h⟩
      (fun _ => rfl) ?_ ?_ ?_ (fun h => Pc.noConfusion h) ?_))
    · intro j hj _
      have h1' := hopen j (by rw [hlog.length_eq]; exact hj)
      refine ⟨h1', ?_⟩
      intro hs
      have := inv.pcs_pre j hj
      rw [hs] at this
      exact absurd this Bool.false_ne_true
    · show DescGroups client.lt (job2.intermediateVectors ++ (job2.reduceLog.map Prod.snd).reverse)
      rw [hr2]
      simp only [List.map_nil, List.reverse_nil, List.append_nil]
      rw [← hc1]
      exact hgi.2.1
    · show ((job2.intermediateVectors ++ (job2.reduceLog.map Prod.snd).reverse).flatten).Perm
        (emittedBy client input job2.mapLog)
      rw [hr2, hm2]
      simp only [List.map_nil, List.reverse_nil, List.append_nil]
      rw [hq1, hbp1] at hperm
      exact hperm.trans inv.bufs
    · intro A B hAB
      rw [hpo] at hAB
      have hA : A = [] := by
        cases A with
        | nil => rfl
        | cons a as => simp at hAB
      have hB : B = [] := by
        cases B with
        | nil => rfl
        | cons b bs => simp at hAB
      show (job2.outputVector ++ (A ++ Pc.pendingOut (Pc.barrier2 : Pc O) ++ B)).Perm
        (out0 ++ reducedOut client job2.reduceLog)
      rw [hA, hB, hr2, g3, h1]
      show (job.outputVector ++ ([] ++ [] ++ [])).Perm (out0 ++ [])
      rw [inv.out_eq]
      simp
    · intro j hj _ hd
      have := inv.pcs_pre j hj
      rw [hd] at this
      exact absurd this Bool.false_ne_true
  · intro _ _ _ job1 job2 h1 h2 hf2
    obtain ⟨e, _⟩ := shuffle_frame (pendingPairs job1 + 1) job1
    rw [← h2] at e
    refine Or.inr (Or.inl ⟨hf2, i, hi, ?_⟩)
    rw [pc_setPc, if_pos ⟨rfl, by rw [length_of_outsideShuffle_eq e, h1]; exact hil⟩]
    rfl
  · intro _ _
    exact Or.inl inv
  · intro _ ho
    have := (barrier2Open_iff job).mp ho 0 (Nat.lt_of_le_of_lt (Nat.zero_le _) hil)
    rw [inv.zero_pre] at this
    exact absurd this Bool.false_ne_true
  · intro h _; exact habs h rfl
  · intro h _ _ _ _ _; exact habs h rfl
  · intro h; exact habs h rfl
  · intro _ _ h; exact habs h rfl
  · intro h
    rcases h with h | h
    · exact habs h rfl
    · exact habs h rfl

theorem reducePhase_stepThread (client : MapReduceClient I K V O) (input : InputVec I)
    (out0 : List O) (N : Nat) (job : JobContext I K V O) (i : Nat)
    (hlog : LogInv input N job) (hil : i < job.threadsArray.length)
    (inv : ReducePhaseInv client input out0 N job) :
    ReducePhaseInv client input out0 N (stepThread i job) := by
  have hi : i < N := by rw [← hlog.length_eq]; exact hil
  have hpci := (inv.pcs_post i hi).1
  have habs : ∀ {p : Pc O} {R : Prop}, (job.thread i).pc = p → p.arrived1 = false → R := by
    intro p R h1 h2
    rw [h1, h2] at hpci
    exact absurd hpci Bool.false_ne_true
  have hzero : ∀ {R : Prop}, (job.thread i).pc = Pc.barrier1 →
      ((job.thread i).threadId == 0) = true → R := by
    intro R hpc hid
    have h0 : i = 0 := by
      have := hlog.ids i hi
      rw [this] at hid
      simpa using hid
    have := inv.zero_post
    rw [← h0, hpc] at this
    exact absurd this Bool.false_ne_true
  have hset := reducePhaseInv_setPc client input out0 N job
  have hout : ∀ pc : Pc O, (job.thread i).pc.pendingOut = [] → pc.pendingOut = [] →
      ∀ A B, pendingOuts job = A ++ (job.thread i).pc.pendingOut ++ B →
      (job.outputVector ++ (A ++ pc.pendingOut ++ B)).Perm
        (out0 ++ reducedOut client job.reduceLog) := by
    intro pc h1 h2 A B hAB
    have := inv.output
    rw [hAB, h1] at this
    rw [h2]
    exact this
  refine stepThread_cases job i (ReducePhaseInv client input out0 N) inv.fault_none hil
    ?_ ?_ ?_ ?_ ?_ ?_ ?_ ?_ ?_ ?_ ?_ ?_ ?_ ?_ ?_ ?_
  · intro h; exact habs h rfl
  · intro h; exact habs h rfl
  · intro h; exact habs h rfl
  · intro h; exact habs h rfl
  · intro num h; exact habs h rfl
  · intro _ _; exact inv
  · intro hpc _ hid
    have hi0 : i ≠ 0 := by
      intro h0
      have := hlog.ids i hi
      rw [this, h0] at hid
      simp at hid
    exact hset job i Pc.barrier2 hil inv.client_eq inv.fault_none rfl rfl (fun _ => rfl)
      hlog.length_eq (fun j hj _ => inv.pcs_post j hj) (fun _ => inv.zero_post)
      ⟨rfl, fun h => Pc.noConfusion h⟩ (fun _ => rfl) inv.groups inv.groups_perm
      (hout _ (by rw [hpc]; rfl) rfl) (fun h => Pc.noConfusion h)
      (fun j hj _ hd => inv.done_empty j hj hd)
  · intro hpc _ hid; exact hzero hpc hid
  · intro hpc _ hid; exact hzero hpc hid
  · intro _ _; exact inv
  · intro hpc _
    exact hset job i Pc.reduceLoop hil inv.client_eq inv.fault_none rfl rfl (fun _ => rfl)
      hlog.length_eq (fun j hj _ => inv.pcs_post j hj) (fun _ => inv.zero_post)
      ⟨rfl, fun h => Pc.noConfusion h⟩ (fun _ => rfl) inv.groups inv.groups_perm
      (hout _ (by rw [hpc]; rfl) rfl) (fun h => Pc.noConfusion h)
      (fun j hj _ hd => inv.done_empty j hj hd)
  · intro hpc hq
    exact hset job i Pc.done hil inv.client_eq inv.fault_none rfl rfl (fun _ => rfl)
      hlog.length_eq (fun j hj _ => inv.pcs_post j hj) (fun _ => inv.zero_post)
      ⟨rfl, fun h => Pc.noConfusion h⟩ (fun _ => rfl) inv.groups inv.groups_perm
      (hout _ (by rw [hpc]; rfl) rfl) (fun _ => hq)
      (fun j hj _ hd => inv.done_empty j hj hd)
  · intro hpc rest g hq job1 h1
    subst h1
    have hgl : rest ++ ((job.reduceLog ++ [(i, g)]).map Prod.snd).reverse =
        job.intermediateVectors ++ (job.reduceLog.map Prod.snd).reverse := by
      rw [hq]; simp
    refine hset _ i _ hil inv.client_eq inv.fault_none rfl rfl (fun _ => rfl)
      hlog.length_eq (fun j hj _ => inv.pcs_post j hj) (fun _ => inv.zero_post)
      ⟨rfl, fun h => Pc.noConfusion h⟩ (fun _ => rfl) ?_ ?_ ?_ (fun h => Pc.noConfusion h) ?_
    · show DescGroups client.lt (rest ++ ((job.reduceLog ++ [(i, g)]).map Prod.snd).reverse)
      rw [hgl]; exact inv.groups
    · show ((rest ++ ((job.reduceLog ++ [(i, g)]).map Prod.snd).reverse).flatten).Perm
        (emittedBy client input job.mapLog)
      rw [hgl]; exact inv.groups_perm
    · intro A B hAB
      have := inv.output
      rw [hAB, hpc] at this
      show (job.outputVector ++ (A ++ job.client.reduce g ++ B)).Perm
        (out0 ++ reducedOut client (job.reduceLog ++ [(i, g)]))
      have hro : reducedOut client (job.reduceLog ++ [(i, g)]) =
          reducedOut client job.reduceLog ++ job.client.reduce g := by
        rw [inv.client_eq]
        simp [reducedOut]
      rw [hro]
      simp only [Pc.pendingOut] at this
      rw [← Multiset.coe_eq_coe] at this ⊢
      simp only [← Multiset.coe_add, Multiset.coe_nil] at this ⊢
      have h2 : (↑job.outputVector : Multiset O) + ↑A + ↑B =
          ↑out0 + ↑(reducedOut client job.reduceLog) := by
        rw [← this]; abel
      rw [← add_assoc (↑out0 : Multiset O), ← h2]
      abel
    · intro j hj _ hd
      have := inv.done_empty j hj hd
      rw [hq] at this
      simp at this
  · intro hpc
    exact hset (job.storeState (incr64 job.stateCounter)) i Pc.reduceLoop hil inv.client_eq
      inv.fault_none rfl rfl (fun _ => rfl)
      hlog.length_eq (fun j hj _ => inv.pcs_post j hj) (fun _ => inv.zero_post)
      ⟨rfl, fun h => Pc.noConfusion h⟩ (fun _ => rfl) inv.groups inv.groups_perm
      (hout _ (by rw [hpc]; rfl) rfl) (fun h => Pc.noConfusion h)
      (fun j hj _ hd => inv.done_empty j hj hd)
  · intro o rest hpc
    refine hset (emit3 o job) i (Pc.emitting rest) hil inv.client_eq
      inv.fault_none rfl rfl (fun _ => rfl)
      hlog.length_eq (fun j hj _ => inv.pcs_post j hj) (fun _ => inv.zero_post)
      ⟨rfl, fun h => Pc.noConfusion h⟩ (fun _ => rfl) inv.groups inv.groups_perm
      ?_ (fun h => Pc.noConfusion h)
      (fun j hj _ hd => inv.done_empty j hj hd)
    intro A B hAB
    have := inv.output
    rw [hAB, hpc] at this
    show ((job.outputVector ++ [o]) ++ (A ++ rest ++ B)).Perm
      (out0 ++ reducedOut client job.reduceLog)
    simp only [Pc.pendingOut] at this
    rw [← Multiset.coe_eq_coe] at this ⊢
    simp only [← Multiset.coe_add, ← Multiset.cons_coe, ← Multiset.singleton_add,
      Multiset.coe_nil] at this ⊢
    rw [← this]
    abel
  · intro _; exact inv

theorem runInv_stepThread (client : MapReduceClient I K V O) (input : InputVec I)
    (out0 : List O) (N : Nat) (job : JobContext I K V O) (i : Nat)
    (hswo : StrictWeakOrder client.lt) (hlog : LogInv input N job)
    (inv : RunInv client input out0 N job) :
    RunInv client input out0 N (stepThread i job) := by
  by_cases hil : i < job.threadsArray.length
  · rcases inv with h | h | h
    · exact mapPhase_stepThread client input out0 N job i hswo hlog hil h
    · rw [stepThread_idle job i (Or.inl h.1)]
      exact Or.inr (Or.inl h)
    · exact Or.inr (Or.inr (reducePhase_stepThread client input out0 N job i hlog hil h))
  · rw [stepThread_idle job i (Or.inr (Nat.le_of_not_lt hil))]
    exact inv

theorem runInv_runSchedule (client : MapReduceClient I K V O) (input : InputVec I)
    (out0 : List O) (N : Nat) (schedule : List Nat) (job : JobContext I K V O)
    (hswo : StrictWeakOrder client.lt) (hN : N ≤ 2 ^ 31) (hsize : input.size < 2 ^ 64)
    (hlog : LogInv input N job) (inv : RunInv client input out0 N job) :
    RunInv client input out0 N (runSchedule schedule job) := by
  induction schedule generalizing job with
  | nil => exact inv
  | cons i rest ih =>
    exact ih _ (logInv_stepThread input N job i hN hsize hlog)
      (runInv_stepThread client input out0 N job i hswo hlog inv)

theorem runInv_start (client : MapReduceClient I K V O) (input : InputVec I)
    (out0 : List O) (N : Nat) (stdSort : List (K × V) → List (K × V))
    (hN1 : 1 ≤ N) (hsort : SortContract client.lt stdSort) :
    RunInv client input out0 N (startMapReduceJob client input out0 N stdSort) := by
  have hpc : ∀ j, j < N →
      ((createJobContext client input out0 N stdSort).thread j).pc = Pc.start :=
    fun j hj => by rw [thread_createJobContext _ _ _ _ _ _ hj]; rfl
  have hvec : ∀ j, (createJobContext client input out0 N stdSort).vec j = [] := by
    intro j
    by_cases hj : j < N
    · unfold JobContext.vec
      rw [thread_createJobContext _ _ _ _ _ _ hj]; rfl
    · exact vec_of_length_le _ j (by simp [createJobContext]; omega)
  have hbp : bufferedPairs (createJobContext client input out0 N stdSort) = [] := by
    unfold bufferedPairs
    rw [List.flatten_eq_nil_iff]
    intro l hl
    obtain ⟨j, _, rfl⟩ := List.mem_map.mp hl
    exact hvec j
  refine Or.inl ?_
  constructor
  · rfl
  · exact hsort
  · rfl
  · rfl
  · rfl
  · rfl
  · intro j hj
    show ((createJobContext client input out0 N stdSort).thread j).pc.beforeReduce = true
    rw [hpc j hj]; rfl
  · show ((createJobContext client input out0 N stdSort).thread 0).pc.arrived2 = false
    rw [hpc 0 hN1]; rfl
  · show (bufferedPairs (createJobContext client input out0 N stdSort)).Perm _
    rw [hbp]
    exact List.Perm.refl _
  · intro j hj ha
    show SortedAsc client.lt ((createJobContext client input out0 N stdSort).vec j)
    rw [hvec j]
    exact List.Pairwise.nil
  · show (0 : Int) = toInt32 ((bufferedPairs (createJobContext client input out0 N stdSort)).length : Int)
    rw [hbp]
    norm_num [toInt32]

/-! ## The queue of key groups is determined by the pairs -/

theorem StrictWeakOrder.asymm {lt : K → K → Bool} (h : StrictWeakOrder lt) (a b : K)
    (hab : lt a b = true) : lt b a = false := by
  cases hba : lt b a with
  | false => rfl
  | true =>
    have := h.trans a b a hab hba
    rw [h.irrefl a] at this
    exact absurd this Bool.false_ne_true

/-- The first group of a descending queue is the pairs with a greatest key. -/
theorem descGroups_head (lt : K → K → Bool) (hswo : StrictWeakOrder lt)
    (g : List (K × V)) (gs : List (List (K × V))) (h : DescGroups lt (g :: gs)) :
    ((g :: gs).flatten).filter (isTop lt ((g :: gs).flatten)) = g := by
  obtain ⟨hne, heq, hpw⟩ := h
  rw [List.pairwise_cons] at hpw
  rw [List.flatten_cons]
  have hg : g.filter (isTop lt (g ++ gs.flatten)) = g := by
    rw [List.filter_eq_self]
    intro x hx
    unfold isTop
    rw [List.all_eq_true]
    intro y hy
    rw [List.mem_append] at hy
    rcases hy with hy | hy
    · have := heq g (List.mem_cons_self _ _) x hx y hy
      unfold equivKeys at this
      simp only [Bool.and_eq_true] at this
      exact this.1
    · obtain ⟨h', hh', hyh⟩ := List.mem_flatten.mp hy
      have := hpw.1 h' hh' x hx y hyh
      rw [hswo.asymm _ _ this]
      rfl
  have hgs : (gs.flatten).filter (isTop lt (g ++ gs.flatten)) = [] := by
    rw [List.filter_eq_nil_iff]
    intro x hx htop
    obtain ⟨h', hh', hxh⟩ := List.mem_flatten.mp hx
    obtain ⟨p, hp⟩ := List.exists_mem_of_ne_nil g (hne g (List.mem_cons_self _ _))
    have hlt := hpw.1 h' hh' p hp x hxh
    unfold isTop at htop
    rw [List.all_eq_true] at htop
    have := htop p (List.mem_append_left _ hp)
    rw [hlt] at this
    exact absurd this (by decide)
  rw [List.filter_append, hg, hgs, List.append_nil]

theorem descGroups_tail (lt : K → K → Bool) (g : List (K × V)) (gs : List (List (K × V)))
    (h : DescGroups lt (g :: gs)) : DescGroups lt gs := by
  obtain ⟨hne, heq, hpw⟩ := h
  rw [List.pairwise_cons] at hpw
  exact ⟨fun x hx => hne x (List.mem_cons_of_mem _ hx),
    fun x hx => heq x (List.mem_cons_of_mem _ hx), hpw.2⟩

theorem isTop_congr (lt : K → K → Bool) (l1 l2 : List (K × V)) (h : l1.Perm l2) :
    isTop lt l1 = isTop lt l2 := by
  funext x
  unfold isTop
  rw [Bool.eq_iff_iff, List.all_eq_true, List.all_eq_true]
  constructor
  · intro hx y hy; exact hx y (h.mem_iff.mpr hy)
  · intro hx y hy; exact hx y (h.mem_iff.mp hy)

/-- Two descending queues of key groups over the same pairs have, position by position,
the same groups up to the order of the pairs inside a group. -/
theorem descGroups_unique (lt : K → K → Bool) (hswo : StrictWeakOrder lt)
    (q1 q2 : List (List (K × V))) (h1 : DescGroups lt q1) (h2 : DescGroups lt q2)
    (hp : (q1.flatten).Perm (q2.flatten)) : List.Forall₂ List.Perm q1 q2 := by
  induction q1 generalizing q2 with
  | nil =>
    cases q2 with
    | nil => exact List.Forall₂.nil
    | cons h hs =>
      exfalso
      have hne := h2.1 h (List.mem_cons_self _ _)
      have := hp.length_eq
      simp only [List.flatten_nil, List.length_nil, List.flatten_cons,
        List.length_append] at this
      have : h.length = 0 := by omega
      exact hne (List.length_eq_zero.mp this)
  | cons g gs ih =>
    cases q2 with
    | nil =>
      exfalso
      have hne := h1.1 g (List.mem_cons_self _ _)
      have := hp.length_eq
      simp only [List.flatten_nil, List.length_nil, List.flatten_cons,
        List.length_append] at this
      have : g.length = 0 := by omega
      exact hne (List.length_eq_zero.mp this)
    | cons h hs =>
      have e1 := descGroups_head lt hswo g gs h1
      have e2 := descGroups_head lt hswo h hs h2
      have hgh : g.Perm h := by
        rw [← e1, ← e2, isTop_congr lt _ _ hp]
        exact hp.filter _
      have htl : (gs.flatten).Perm (hs.flatten) := by
        simp only [List.flatten_cons] at hp
        rw [← Multiset.coe_eq_coe] at hp hgh ⊢
        simp only [← Multiset.coe_add] at hp
        rw [hgh] at hp
        exact add_left_cancel hp
      exact List.Forall₂.cons hgh
        (ih hs (descGroups_tail lt g gs h1) (descGroups_tail lt h hs h2) htl)

/-! ## The output does not depend on the number of workers -/

theorem pendingOuts_eq_nil (job : JobContext I K V O)
    (h : ∀ j, j < job.threadsArray.length → (job.thread j).pc.pendingOut = []) :
    pendingOuts job = [] := by
  unfold pendingOuts
  rw [List.flatten_eq_nil_iff]
  intro l hl
  obtain ⟨pc, hpc, rfl⟩ := List.mem_map.mp hl
  obtain ⟨j, hj, rfl⟩ := List.getElem_of_mem hpc
  have hj' : j < job.threadsArray.length := by simpa [pcs] using hj
  have h1 := pcs_getElem? job j hj'
  rw [List.getElem?_eq_getElem hj] at h1
  rw [Option.some.inj h1]
  exact h j hj'

/-- A run that every worker has left: nothing failed, the queue is empty, the groups
reduced form, last first, a descending queue of key groups over exactly the pairs that
map emits on the handled inputs, and the output holds the initial output and what the
reduce calls emitted. -/
theorem completed_run (client : MapReduceClient I K V O) (input : InputVec I)
    (out0 : List O) (N : Nat) (stdSort : List (K × V) → List (K × V)) (schedule : List Nat)
    (hswo : StrictWeakOrder client.lt) (hsort : SortContract client.lt stdSort)
    (hN1 : 1 ≤ N) (hN : N ≤ 2 ^ 31) (hsize : input.size < 2 ^ 64)
    (hall : allDone (runSchedule schedule
      (startMapReduceJob client input out0 N stdSort)) = true) :
    (runSchedule schedule (startMapReduceJob client input out0 N stdSort)).fault = none ∧
    (runSchedule schedule
      (startMapReduceJob client input out0 N stdSort)).intermediateVectors = [] ∧
    DescGroups client.lt ((runSchedule schedule
      (startMapReduceJob client input out0 N stdSort)).reduceLog.map Prod.snd).reverse ∧
    ((((runSchedule schedule
      (startMapReduceJob client input out0 N stdSort)).reduceLog.map
        Prod.snd).reverse).flatten).Perm
      (((List.range (mappedBound input.size)).map
        (fun i => client.map (input.elem i))).flatten) ∧
    ((runSchedule schedule
      (startMapReduceJob client input out0 N stdSort)).outputVector).Perm
      (out0 ++ reducedOut client (runSchedule schedule
        (startMapReduceJob client input out0 N stdSort)).reduceLog) := by
  have hlog := logInv_runSchedule input N schedule _ hN hsize
    (logInv_start client input out0 N stdSort)
  have hrun := runInv_runSchedule client input out0 N schedule _ hswo hN hsize
    (logInv_start client input out0 N stdSort)
    (runInv_start client input out0 N stdSort hN1 hsort)
  generalize runSchedule schedule (startMapReduceJob client input out0 N stdSort) = r
    at hall hlog hrun ⊢
  have hdone := (allDone_iff r).mp hall
  rw [hlog.length_eq] at hdone
  rcases hrun with h | h | h
  · have := h.zero_pre
    rw [hdone 0 hN1] at this
    exact Bool.noConfusion this
  · obtain ⟨_, j, hj, hnd⟩ := h
    rw [hdone j hj] at hnd
    exact Bool.noConfusion hnd
  · have hq := h.done_empty 0 hN1 (hdone 0 hN1)
    have hg := h.groups
    have hgp := h.groups_perm
    have hout := h.output
    rw [hq, List.nil_append] at hg hgp
    have hpo : pendingOuts r = [] := by
      apply pendingOuts_eq_nil
      intro j hj
      rw [hdone j (by rw [← hlog.length_eq]; exact hj)]
      rfl
    rw [hpo, List.append_nil] at hout
    have hopen : barrier1Open r = true := by
      rw [barrier1Open_iff]
      intro j hj
      rw [hdone j (by rw [← hlog.length_eq]; exact hj)]
      rfl
    obtain ⟨hpn, hac⟩ := pendingNums_of_open r hopen
    have hcl := hlog.claimed
    rw [hpn, List.append_nil] at hcl
    have hfull := hlog.full (by rw [hac, hlog.length_eq]; exact hN1)
    rw [hfull] at hcl
    exact ⟨h.fault_none, hq, hg, hgp.trans (emittedBy_perm client input r.mapLog _ hcl), hout⟩

theorem reducedOut_congr (client : MapReduceClient I K V O)
    (hred : OrderInsensitive client)
    (l1 l2 : List (List (K × V))) (h : List.Forall₂ List.Perm l1 l2)
    (hk : ∀ g ∈ l1, ∀ p ∈ g, ∀ q ∈ g, equivKeys client.lt p.1 q.1 = true) :
    ((l1.map client.reduce).flatten).Perm ((l2.map client.reduce).flatten) := by
  induction h with
  | nil => exact List.Perm.refl _
  | cons hab _ ih =>
    simp only [List.map_cons, List.flatten_cons]
    exact List.Perm.append (hred _ _ hab (hk _ (List.mem_cons_self _ _)))
      (ih (fun g hg => hk g (List.mem_cons_of_mem _ hg)))

theorem reducedOut_eq (client : MapReduceClient I K V O)
    (log : List (Nat × List (K × V))) :
    reducedOut client log = ((log.map Prod.snd).map client.reduce).flatten := by
  unfold reducedOut
  simp [List.map_map, Function.comp_def]

/-- C2 (amended): the multiset of output pairs does not depend on the number of workers.
For a strict weak key order, a library sort keeping its contract and a reduce whose
output on a key group does not depend on the order of the pairs inside the group, any two
completed runs on the same input, with `N` and with `M` workers and under any schedules,
leave the same output up to order. -/
theorem output_independent_of_workers (client : MapReduceClient I K V O)
    (input : InputVec I) (out0 : List O) (N M : Nat)
    (sortN sortM : List (K × V) → List (K × V)) (scheduleN scheduleM : List Nat)
    (hswo : StrictWeakOrder client.lt)
    (hsortN : SortContract client.lt sortN) (hsortM : SortContract client.lt sortM)
    (hred : OrderInsensitive client)
    (hN1 : 1 ≤ N) (hN : N ≤ 2 ^ 31) (hM1 : 1 ≤ M) (hM : M ≤ 2 ^ 31)
    (hsize : input.size < 2 ^ 64)
    (hdoneN : allDone (runSchedule scheduleN
      (startMapReduceJob client input out0 N sortN)) = true)
    (hdoneM : allDone (runSchedule scheduleM
      (startMapReduceJob client input out0 M sortM)) = true) :
    ((runSchedule scheduleN (startMapReduceJob client input out0 N sortN)).outputVector).Perm
      (runSchedule scheduleM (startMapReduceJob client input out0 M sortM)).outputVector := by
  obtain ⟨_, _, g1, p1, o1⟩ := completed_run client input out0 N sortN scheduleN hswo hsortN
    hN1 hN hsize hdoneN
  obtain ⟨_, _, g2, p2, o2⟩ := completed_run client input out0 M sortM scheduleM hswo hsortM
    hM1 hM hsize hdoneM
  have hu := descGroups_unique client.lt hswo _ _ g1 g2 (p1.trans p2.symm)
  rw [List.forall₂_reverse_iff] at hu
  have hk : ∀ g ∈ (runSchedule scheduleN
      (startMapReduceJob client input out0 N sortN)).reduceLog.map Prod.snd,
      ∀ p ∈ g, ∀ q ∈ g, equivKeys client.lt p.1 q.1 = true :=
    fun g hg => g1.2.1 g (List.mem_reverse.mpr hg)
  have hr := reducedOut_congr client hred _ _ hu hk
  rw [← reducedOut_eq, ← reducedOut_eq] at hr
  exact o1.trans ((List.Perm.append_left out0 hr).trans o2.symm)

set_option maxRecDepth 20000 in
/-- C2 as stated fails: with a reduce that emits the first pair of its group, the job on
two pairs with the same key outputs `(1, b)` when run by one worker and `(1, a)` when run
by two workers (each mapping one pair). -/
theorem output_depends_on_group_order :
    allDone (runSchedule soloSchedule
      (startMapReduceJob firstClient twinInput [] 1 sortByKey)) = true ∧
    allDone (runSchedule duoSchedule
      (startMapReduceJob firstClient twinInput [] 2 sortByKey)) = true ∧
    (runSchedule soloSchedule
      (startMapReduceJob firstClient twinInput [] 1 sortByKey)).outputVector = [(1, 'b')] ∧
    (runSchedule duoSchedule
      (startMapReduceJob firstClient twinInput [] 2 sortByKey)).outputVector = [(1, 'a')] ∧
    ¬ ((runSchedule soloSchedule
      (startMapReduceJob firstClient twinInput [] 1 sortByKey)).outputVector).Perm
      (runSchedule duoSchedule
        (startMapReduceJob firstClient twinInput [] 2 sortByKey)).outputVector := by
  have h1 : (runSchedule soloSchedule
      (startMapReduceJob firstClient twinInput [] 1 sortByKey)).outputVector = [(1, 'b')] := by
    decide
  have h2 : (runSchedule duoSchedule
      (startMapReduceJob firstClient twinInput [] 2 sortByKey)).outputVector = [(1, 'a')] := by
    decide
  refine ⟨by decide, by decide, h1, h2, ?_⟩
  rw [h1, h2]
  decide

theorem sortByKey_contract : SortContract (fun a b : Nat => decide (a < b)) sortByKey := by
  intro l
  refine ⟨List.perm_insertionSort _ l, ?_⟩
  haveI : IsTotal (Nat × Char) (fun a b => a.1 ≤ b.1) := ⟨fun a b => Nat.le_total a.1 b.1⟩
  haveI : IsTrans (Nat × Char) (fun a b => a.1 ≤ b.1) :=
    ⟨fun a b c hab hbc => Nat.le_trans hab hbc⟩
  have hs := List.sorted_insertionSort (fun a b : Nat × Char => a.1 ≤ b.1) l
  unfold SortedAsc sortByKey
  exact hs.imp (fun h => by simpa using h)

theorem countClient_orderInsensitive : OrderInsensitive countClient := by
  intro g g' hp hk
  cases g with
  | nil =>
    rw [List.Perm.nil_eq hp]
  | cons p ps =>
    cases g' with
    | nil => exact absurd hp.symm.nil_eq (List.cons_ne_nil _ _).symm
    | cons q qs =>
      have hq : q ∈ p :: ps := hp.mem_iff.mpr (List.mem_cons_self _ _)
      have he := hk p (List.mem_cons_self _ _) q hq
      have hkey : p.1 = q.1 := by
        simp only [equivKeys, countClient, Bool.and_eq_true, Bool.not_eq_true',
          decide_eq_false_iff_not] at he
        omega
      have hlen := hp.length_eq
      show ([(p.1, (p :: ps).length)] : List (Nat × Nat)).Perm [(q.1, (q :: qs).length)]
      rw [hkey, hlen]

set_option maxRecDepth 20000 in
/-- C2 on a job with two pairs of the same key and the counting reduce: run by one worker
and run by two workers it outputs the same single pair. -/
theorem output_independent_of_workers_witness :
    ((runSchedule soloSchedule
      (startMapReduceJob countClient twinInput [] 1 sortByKey)).outputVector).Perm
      (runSchedule duoSchedule
        (startMapReduceJob countClient twinInput [] 2 sortByKey)).outputVector ∧
    (runSchedule duoSchedule
      (startMapReduceJob countClient twinInput [] 2 sortByKey)).outputVector = [(1, 2)] :=
  ⟨output_independent_of_workers countClient twinInput [] 1 2 sortByKey sortByKey
    soloSchedule duoSchedule natLt_strictWeakOrder sortByKey_contract sortByKey_contract
    countClient_orderInsensitive (by decide) (by decide) (by decide) (by decide) (by decide)
    (by decide) (by decide), by decide⟩

/-! ## Arithmetic of the progress word along a run -/

theorem or_stage_bit (x : Nat) (hx : x < 2 ^ 62) :
    x ||| 2 ^ 62 = 2 ^ 62 + x ∧ (2 ^ 62 + x) ||| 2 ^ 62 = 2 ^ 62 + x := by
  have h1 : 2 ^ 62 * 1 + x = 2 ^ 62 * 1 ||| x := Nat.mul_add_lt_is_or hx 1
  rw [Nat.mul_one] at h1
  constructor
  · rw [Nat.lor_comm, ← h1]
  · rw [h1, Nat.lor_comm, ← Nat.lor_assoc, Nat.or_self]

theorem mapWord_shape (b n k : Nat) (hb : b ≤ 1) (hn : n < 2 ^ 31) (hk : k < 2 ^ 31) :
    mapWord (b * 2 ^ 62 + n * 2 ^ 31 + k) = 1 * 2 ^ 62 + n * 2 ^ 31 + k := by
  have hx : n * 2 ^ 31 + k < 2 ^ 62 := by
    norm_num at hn hk ⊢
    omega
  obtain ⟨h1, h2⟩ := or_stage_bit (n * 2 ^ 31 + k) hx
  unfold mapWord MAP_STAGE
  have hs : (1 <<< 62 : Nat) = 2 ^ 62 := by decide
  rw [hs]
  interval_cases b
  · rw [Nat.zero_mul, Nat.zero_add, h1, Nat.one_mul, Nat.add_assoc]
  · rw [Nat.one_mul, Nat.add_assoc, h2]

theorem reduceWord_shape (g : Nat) (hg : g < 2 ^ 31) :
    reduceWord g = 3 * 2 ^ 62 + g * 2 ^ 31 + 0 := by
  unfold reduceWord REDUCE_STAGE
  rw [Nat.shiftLeft_eq, Nat.shiftLeft_eq]
  have hlt : g * 2 ^ 31 < 2 ^ 62 := by
    norm_num at hg ⊢
    omega
  rw [Nat.mod_eq_of_lt (by norm_num at hlt ⊢; omega)]
  have h2 : 3 * 2 ^ 62 = 2 ^ 62 * 3 := by norm_num
  have := Nat.mul_add_lt_is_or hlt 3
  rw [Nat.lor_comm, h2, ← this]
  omega

theorem incr64_iterate (w j : Nat) (h : w + j < 2 ^ 64) : incr64^[j] w = w + j := by
  induction j generalizing w with
  | zero => rfl
  | succ j ih =>
    rw [Function.iterate_succ_apply]
    have h1 : incr64 w = w + 1 := by
      unfold incr64
      exact Nat.mod_eq_of_lt (by omega)
    rw [h1, ih (w + 1) (by omega)]
    omega

theorem shuffle_words (c : Int) (j : Nat) (hj : j < 2 ^ 31) :
    incr64^[j] (shuffleWord c) = shuffleWord c + j ∧
    2 ≤ stageOf (shuffleWord c + j) ∧ stageOf (shuffleWord c + j) ≤ 3 ∧
    stageOf (shuffleWord c + j) = stageOf (shuffleWord c) ∧
    stateProgress (shuffleWord c + j) = j ∧
    (totalProgress (shuffleWord c + j) = 0 ∨ totalProgress (shuffleWord c + j) = 2 ^ 31 - 1) := by
  rcases shuffleWord_cases c with h | h
  · rw [h]
    refine ⟨incr64_iterate _ _ (by norm_num at hj ⊢; omega), ?_⟩
    rw [stageOf_eq, stageOf_eq, stateProgress_eq, totalProgress_eq]
    norm_num at hj ⊢
    omega
  · rw [h]
    refine ⟨incr64_iterate _ _ (by norm_num at hj ⊢; omega), ?_⟩
    rw [stageOf_eq, stageOf_eq, stateProgress_eq, totalProgress_eq]
    norm_num at hj ⊢
    omega

theorem emittingCount_setPc (job j' : JobContext I K V O) (i : Nat) (pc : Pc O)
    (hi : i < job.threadsArray.length) (hpcs : pcs j' = pcs job) :
    ∃ c, emittingCount job = c + (if (job.thread i).pc.isEmitting then 1 else 0) ∧
      emittingCount (j'.setPc i pc) = c + (if pc.isEmitting then 1 else 0) := by
  obtain ⟨a, b, h1, _, h3⟩ := pcs_split job i hi
  refine ⟨a.countP Pc.isEmitting + b.countP Pc.isEmitting, ?_, ?_⟩
  · unfold emittingCount
    rw [h1, List.countP_append, List.countP_cons]
    omega
  · unfold emittingCount
    rw [pcs_setPc, h3 _ hpcs pc, List.countP_append, List.countP_cons]
    omega

theorem emittingCount_eq_zero (job : JobContext I K V O)
    (h : ∀ j, j < job.threadsArray.length → (job.thread j).pc.isEmitting = false) :
    emittingCount job = 0 := by
  unfold emittingCount
  rw [List.countP_eq_zero]
  intro pc hpc
  obtain ⟨j, hj, rfl⟩ := List.getElem_of_mem hpc
  have hj' : j < job.threadsArray.length := by simpa [pcs] using hj
  have h1 := pcs_getElem? job j hj'
  rw [List.getElem?_eq_getElem hj] at h1
  rw [Option.some.inj h1, h j hj']
  exact Bool.false_ne_true

theorem mappedBound_le (size : Nat) : mappedBound size ≤ size := by
  unfold mappedBound toInt32
  omega

theorem pairs_bound (client : MapReduceClient I K V O) (input : InputVec I) (N : Nat)
    (job : JobContext I K V O) (hlog : LogInv input N job) :
    (emittedBy client input job.mapLog).length ≤ totalPairs client input := by
  rw [length_emittedBy]
  unfold totalPairs
  apply sum_map_le_range
  · have := hlog.claimed.nodup_iff.mpr (List.nodup_range _)
    exact (List.nodup_append.mp this).1
  · intro x hx
    obtain ⟨e, he, rfl⟩ := List.mem_map.mp hx
    have h1 := mem_mapLog_lt input N job hlog e he
    have h2 := hlog.bound
    have h3 := mappedBound_le input.size
    omega

theorem words_append (H ws : List Nat) (s s' : Nat)
    (hgood : ∀ w ∈ H, totalProgress w = 0 ∨ stateProgress w ≤ totalProgress w)
    (hmono : (H.map stageOf).Pairwise (· ≤ ·))
    (htop : ∀ w ∈ H, stageOf w ≤ stageOf s)
    (hws_good : ∀ w ∈ ws, totalProgress w = 0 ∨ stateProgress w ≤ totalProgress w)
    (hws_mono : (ws.map stageOf).Pairwise (· ≤ ·))
    (hws_low : ∀ w ∈ ws, stageOf s ≤ stageOf w)
    (hws_top : ∀ w ∈ ws, stageOf w ≤ stageOf s') (hne : ws ≠ []) :
    (∀ w ∈ H ++ ws, totalProgress w = 0 ∨ stateProgress w ≤ totalProgress w) ∧
    ((H ++ ws).map stageOf).Pairwise (· ≤ ·) ∧
    (∀ w ∈ H ++ ws, stageOf w ≤ stageOf s') := by
  refine ⟨?_, ?_, ?_⟩
  · intro w hw
    rcases List.mem_append.mp hw with h | h
    · exact hgood w h
    · exact hws_good w h
  · rw [List.map_append, List.pairwise_append]
    refine ⟨hmono, hws_mono, ?_⟩
    intro a ha b hb
    obtain ⟨x, hx, rfl⟩ := List.mem_map.mp ha
    obtain ⟨y, hy, rfl⟩ := List.mem_map.mp hb
    exact Nat.le_trans (htop x hx) (hws_low y hy)
  · intro w hw
    rcases List.mem_append.mp hw with h | h
    · rcases ws with _ | ⟨y, ys⟩
      · exact absurd rfl hne
      · exact Nat.le_trans (htop w h)
          (Nat.le_trans (hws_low y (List.mem_cons_self _ _)) (hws_top y (List.mem_cons_self _ _)))
    · exact hws_top w h

theorem shuffle_segment (c : Int) (k : Nat) (hk : k < 2 ^ 31) :
    ∀ w ∈ shuffleWord c :: countUp (shuffleWord c) k,
      (totalProgress w = 0 ∨ stateProgress w ≤ totalProgress w) ∧
      stageOf w = stageOf (shuffleWord c) ∧ 2 ≤ stageOf w ∧ stageOf w ≤ 3 := by
  have hone : ∀ j, j < 2 ^ 31 →
      (totalProgress (shuffleWord c + j) = 0 ∨
        stateProgress (shuffleWord c + j) ≤ totalProgress (shuffleWord c + j)) ∧
      stageOf (shuffleWord c + j) = stageOf (shuffleWord c) ∧
      2 ≤ stageOf (shuffleWord c + j) ∧ stageOf (shuffleWord c + j) ≤ 3 := by
    intro j hj
    obtain ⟨_, h2, h3, h4, h5, h6⟩ := shuffle_words c j hj
    refine ⟨?_, h4, h2, h3⟩
    rcases h6 with h6 | h6
    · exact Or.inl h6
    · right
      rw [h5, h6]
      omega
  intro w hw
  rcases List.mem_cons.mp hw with h | h
  · rw [h]
    exact hone 0 (by norm_num)
  · unfold countUp at h
    obtain ⟨j, hj, rfl⟩ := List.mem_map.mp h
    have hjk := List.mem_range.mp hj
    rw [(shuffle_words c (j + 1) (by omega)).1]
    exact hone (j + 1) (by omega)

theorem iterate_mem_segment (w k : Nat) : incr64^[k] w ∈ w :: countUp w k := by
  cases k with
  | zero => exact List.mem_cons_self _ _
  | succ k =>
    apply List.mem_cons_of_mem
    unfold countUp
    exact List.mem_map.mpr ⟨k, List.mem_range.mpr (Nat.lt_succ_self k), rfl⟩

theorem groups_bound (client : MapReduceClient I K V O) (input : InputVec I)
    (out0 : List O) (N : Nat) (job : JobContext I K V O) (hlog : LogInv input N job)
    (h : ReducePhaseInv client input out0 N job) :
    job.intermediateVectors.length + job.reduceLog.length ≤ totalPairs client input := by
  have h1 := length_le_flatten _ h.groups.1
  have h2 := h.groups_perm.length_eq
  have h3 := pairs_bound client input N job hlog
  simp only [List.length_append, List.length_reverse, List.length_map] at h1
  omega

theorem runInv_cases (client : MapReduceClient I K V O) (input : InputVec I)
    (out0 : List O) (N : Nat) (job : JobContext I K V O)
    (h : RunInv client input out0 N job) (hf : job.fault = none) :
    MapPhaseInv client input out0 N job ∨ ReducePhaseInv client input out0 N job := by
  rcases h with h | h | h
  · exact Or.inl h
  · exact absurd hf h.1
  · exact Or.inr h

theorem wordsOk_append (H ws : List Nat) (s s' : Nat) (h : WordsOk H s)
    (hws_good : ∀ w ∈ ws, totalProgress w = 0 ∨ stateProgress w ≤ totalProgress w)
    (hws_mono : (ws.map stageOf).Pairwise (· ≤ ·))
    (hws_low : ∀ w ∈ ws, stageOf s ≤ stageOf w)
    (hws_top : ∀ w ∈ ws, stageOf w ≤ stageOf s') (hmem : s' ∈ ws) :
    WordsOk (H ++ ws) s' := by
  obtain ⟨h1, h2, h3⟩ := words_append H ws s s' h.1 h.2.1 h.2.2.1 hws_good hws_mono hws_low
    hws_top (List.ne_nil_of_mem hmem)
  exact ⟨h1, h2, h3, List.mem_append_right _ hmem⟩

theorem wordsOk_store (H : List Nat) (s s' : Nat) (h : WordsOk H s)
    (hgood : totalProgress s' = 0 ∨ stateProgress s' ≤ totalProgress s')
    (hstage : stageOf s ≤ stageOf s') : WordsOk (H ++ [s']) s' := by
  apply wordsOk_append H [s'] s s' h
  · intro w hw
    rw [List.mem_singleton.mp hw]; exact hgood
  · simp
  · intro w hw
    rw [List.mem_singleton.mp hw]; exact hstage
  · intro w hw
    rw [List.mem_singleton.mp hw]
  · exact List.mem_singleton.mpr rfl

theorem wordsOk_shuffle (H : List Nat) (s : Nat) (c : Int) (k : Nat) (h : WordsOk H s)
    (hs : stageOf s ≤ 2) (hk : k < 2 ^ 31) :
    WordsOk (H ++ [shuffleWord c] ++ countUp (shuffleWord c) k) (incr64^[k] (shuffleWord c)) ∧
    2 ≤ stageOf (incr64^[k] (shuffleWord c)) ∧ stageOf (incr64^[k] (shuffleWord c)) ≤ 3 := by
  have hseg := shuffle_segment c k hk
  have hlast := hseg _ (iterate_mem_segment (shuffleWord c) k)
  refine ⟨?_, hlast.2.2.1, hlast.2.2.2⟩
  rw [List.append_assoc]
  apply wordsOk_append H _ s _ h
  · intro w hw; exact (hseg w hw).1
  · apply List.pairwise_of_forall_mem_list
    intro a ha b hb
    obtain ⟨x, hx, rfl⟩ := List.mem_map.mp ha
    obtain ⟨y, hy, rfl⟩ := List.mem_map.mp hb
    rw [(hseg x hx).2.1, (hseg y hy).2.1]
  · intro w hw
    exact Nat.le_trans hs (hseg w hw).2.2.1
  · intro w hw
    rw [(hseg w hw).2.1, hlast.2.1]
  · exact iterate_mem_segment _ _

theorem wordInv_mapPhase_step (client : MapReduceClient I K V O) (input : InputVec I)
    (out0 : List O) (N : Nat) (job : JobContext I K V O) (i : Nat)
    (hn : input.size < 2 ^ 31) (hP : totalPairs client input < 2 ^ 31)
    (hlog : LogInv input N job) (hil : i < job.threadsArray.length)
    (hmp : MapPhaseInv client input out0 N job)
    (inv : WordInv input.size job) :
    LogInv input N (stepThread i job) → RunInv client input out0 N (stepThread i job) →
    WordInv input.size (stepThread i job) := by
  have hi : i < N := by rw [← hlog.length_eq]; exact hil
  have hpci := hmp.pcs_pre i hi
  have habs : ∀ {p : Pc O} {R : Prop}, (job.thread i).pc = p → p.beforeReduce = false → R := by
    intro p R h1 h2
    rw [h1, h2] at hpci
    exact absurd hpci Bool.false_ne_true
  obtain ⟨b, hb, hw⟩ := inv.map_shape hmp.fault_none hmp.zero_pre
  have hL : job.mapLog.length ≤ input.size := by
    have h1 := hlog.bound
    have h2 := mappedBound_le input.size
    unfold claimedCount at h1
    omega
  have hstage : stageOf job.stateCounter = b := by
    rw [hw]
    exact (fields_pack b input.size job.mapLog.length hn (by omega)).1
  have hkeep : ∀ (j' : JobContext I K V O) (pc : Pc O),
      (∀ j, (j'.thread j).pc = (job.thread j).pc) →
      j'.threadsArray.length = job.threadsArray.length →
      (pc.arrived2 = false ∨ i ≠ 0) →
      WordsOk j'.history j'.stateCounter →
      (∃ b, b ≤ 1 ∧ j'.stateCounter = b * 2 ^ 62 + input.size * 2 ^ 31 + j'.mapLog.length) →
      WordInv input.size (j'.setPc i pc) := by
    intro j' pc h1 h2 h3 h4 h5
    have hz : ((j'.setPc i pc).thread 0).pc.arrived2 = false := by
      rw [pc_setPc]
      split
      · rename_i hc
        rcases h3 with h3 | h3
        · exact h3
        · exact absurd hc.1 h3
      · rw [h1]; exact hmp.zero_pre
    refine ⟨h4, fun _ _ => h5, ?_⟩
    intro _ ht
    rw [hz] at ht
    exact Bool.noConfusion ht
  intro hlog' hrun'
  revert hlog' hrun'
  refine stepThread_cases job i (fun j' => LogInv input N j' → RunInv client input out0 N j' →
    WordInv input.size j') hmp.fault_none hil
    ?_ ?_ ?_ ?_ ?_ ?_ ?_ ?_ ?_ ?_ ?_ ?_ ?_ ?_ ?_ ?_
  · intro _ _ _
    have hm := mapWord_shape b input.size job.mapLog.length hb hn (by omega)
    rw [← hw] at hm
    have hf := fields_pack 1 input.size job.mapLog.length hn (by omega)
    rw [← hm] at hf
    refine hkeep (job.storeState (mapWord job.stateCounter)) Pc.fetch (fun _ => rfl) rfl
      (Or.inl rfl) ?_ ⟨1, Nat.le_refl _, hm⟩
    exact wordsOk_store _ _ _ inv.words (Or.inr (by rw [hf.2.1, hf.2.2]; exact hL))
      (by rw [hstage, hf.1]; exact hb)
  · intro _ _ _ job1 h1 _ _
    subst h1
    exact hkeep _ _ (fun _ => rfl) rfl (Or.inl rfl) inv.words ⟨b, hb, hw⟩
  · intro _ _ _ job1 h1 _ _
    subst h1
    refine ⟨inv.words, ?_, ?_⟩
    · intro hf; simp [JobContext.fail] at hf
    · intro hf; simp [JobContext.fail] at hf
  · intro _ _ job1 h1 _ _
    subst h1
    exact hkeep _ _ (fun j => pc_setVec _ i j _) (by simp [JobContext.setVec, JobContext.setThread])
      (Or.inl rfl) inv.words ⟨b, hb, hw⟩
  · intro num hpc job1 h1 _ _
    subst h1
    obtain ⟨e1, _, _⟩ := callMap_frame i num job
    obtain ⟨g1, g2, g3, g4, g5, g6, g7, g8, g9, g10, g11, g12, g13⟩ :=
      fields_of_outsideEmit_eq e1
    have g5' : (callMap i num job).stateCounter = job.stateCounter := g5
    have g10' : (callMap i num job).history = job.history := g10
    have g11' : (callMap i num job).mapLog = job.mapLog ++ [(i, num)] := g11
    have hl : (callMap i num job).threadsArray.length = job.threadsArray.length := by
      have := congrArg List.length (pcs_of_outsideEmit_eq e1)
      simpa [pcs] using this
    have hpn := pendingNums_pos job i num hil hpc
    have hL1 : job.mapLog.length + 1 ≤ input.size := by
      have h1 := hlog.bound
      have h2 := mappedBound_le input.size
      unfold claimedCount at h1
      omega
    have hinc : incr64 job.stateCounter =
        b * 2 ^ 62 + input.size * 2 ^ 31 + (job.mapLog.length + 1) := by
      unfold incr64
      rw [Nat.mod_eq_of_lt (by rw [hw]; norm_num at hn ⊢; omega), hw]
      omega
    have hf := fields_pack b input.size (job.mapLog.length + 1) hn (by omega)
    rw [← hinc] at hf
    refine hkeep ((callMap i num job).storeState (incr64 (callMap i num job).stateCounter))
      Pc.fetch (fun j => (thread_of_outsideEmit_eq e1 j).1) hl (Or.inl rfl) ?_ ⟨b, hb, ?_⟩
    · show WordsOk ((callMap i num job).history ++ [incr64 (callMap i num job).stateCounter])
        (incr64 (callMap i num job).stateCounter)
      rw [g5', g10']
      exact wordsOk_store _ _ _ inv.words (Or.inr (by rw [hf.2.1, hf.2.2]; exact hL1))
        (by rw [hstage, hf.1])
    · show incr64 (callMap i num job).stateCounter =
        b * 2 ^ 62 + input.size * 2 ^ 31 + (callMap i num job).mapLog.length
      rw [g5', g11', hinc]
      simp
  · intro _ _ _ _
    exact inv
  · intro hpc _ hid _ _
    have hi0 : i ≠ 0 := by
      intro h0
      have := hlog.ids i hi
      rw [this, h0] at hid
      simp at hid
    exact hkeep job Pc.barrier2 (fun _ => rfl) rfl (Or.inr hi0) inv.words ⟨b, hb, hw⟩
  · intro hpc ho hid job1 job2 h1 h2 hf2 hlog' hrun'
    have hi0 : i = 0 := by
      have := hlog.ids i hi
      rw [this] at hid
      simpa using hid
    obtain ⟨e, k, hk1, hk2, hk3⟩ := shuffle_frame (pendingPairs job1 + 1) job1
    rw [← h2] at e hk1 hk2 hk3
    obtain ⟨g1, g2, g3, g4, g5, g6, g7, g8, g9, g10⟩ := fields_of_outsideShuffle_eq e
    have hl2 : job2.threadsArray.length = job.threadsArray.length := by
      rw [length_of_outsideShuffle_eq e, h1]; rfl
    have hpend : pendingPairs job1 < 2 ^ 31 := by
      have h3 : pendingPairs job1 = pendingPairs job := by rw [h1]; rfl
      rw [h3, pendingPairs_eq, hmp.bufs.length_eq]
      exact Nat.lt_of_le_of_lt (pairs_bound client input N job hlog) hP
    have hk : k < 2 ^ 31 := by omega
    have hs1 : job1.stateCounter = shuffleWord job.intermediateCounter := by rw [h1]; rfl
    have hh1 : job1.history = job.history ++ [shuffleWord job.intermediateCounter] := by
      rw [h1]; rfl
    rw [hs1] at hk2 hk3
    rw [hh1] at hk2
    obtain ⟨hwo, _, hst3⟩ := wordsOk_shuffle job.history job.stateCounter
      job.intermediateCounter k inv.words (by rw [hstage]; omega) hk
    rw [← hk2, ← hk3] at hwo
    rw [← hk3] at hst3
    have hz' : (((job2.storeState (reduceWord job2.intermediateVectors.length)).setPc i
        Pc.barrier2).thread 0).pc.arrived2 = true := by
      rw [pc_setPc, if_pos ⟨hi0, by show i < job2.threadsArray.length; rw [hl2]; exact hil⟩]
      rfl
    have hred := runInv_cases client input out0 N _ hrun' hf2
    have hrp : ReducePhaseInv client input out0 N
        ((job2.storeState (reduceWord job2.intermediateVectors.length)).setPc i Pc.barrier2) := by
      rcases hred with h | h
      · have := h.zero_pre
        rw [hz'] at this
        exact Bool.noConfusion this
      · exact h
    have hG := groups_bound client input out0 N _ hlog' hrp
    have hG' : job2.intermediateVectors.length < 2 ^ 31 := by
      have : job2.intermediateVectors.length ≤ totalPairs client input :=
        Nat.le_trans (Nat.le_add_right _ _) hG
      omega
    have hrw := reduceWord_shape job2.intermediateVectors.length hG'
    have hf := fields_pack 3 job2.intermediateVectors.length 0 hG' (by norm_num)
    rw [← hrw] at hf
    have hr2 : job2.reduceLog = [] := by
      rw [g10, h1]; exact hmp.rlog_nil
    have hE : emittingCount ((job2.storeState
        (reduceWord job2.intermediateVectors.length)).setPc i Pc.barrier2) = 0 := by
      apply emittingCount_eq_zero
      intro j hj
      rw [pc_setPc]
      split
      · rfl
      · have hj' : j < N := by
          have : j < job2.threadsArray.length := by
            simpa [JobContext.setPc, JobContext.setThread, JobContext.storeState] using hj
          rw [hl2, hlog.length_eq] at this
          exact this
        have h3 : (job2.thread j).pc = (job.thread j).pc := by
          rw [(thread_of_outsideShuffle_eq e j).1, h1]; rfl
        show (job2.thread j).pc.isEmitting = false
        rw [h3]
        have := hmp.pcs_pre j hj'
        cases hpcj : (job.thread j).pc <;> rw [hpcj] at this <;>
          first | rfl | exact Bool.noConfusion this
    refine ⟨?_, ?_, ?_⟩
    · show WordsOk (job2.history ++ [reduceWord job2.intermediateVectors.length])
        (reduceWord job2.intermediateVectors.length)
      exact wordsOk_store _ _ _ hwo (Or.inr (by rw [hf.2.1, hf.2.2]; omega))
        (by rw [hf.1]; exact hst3)
    · intro _ ht
      rw [hz'] at ht
      exact Bool.noConfusion ht
    · intro _ _
      refine ⟨0, ?_, ?_⟩
      · rw [hE]
        show 0 + 0 = job2.reduceLog.length
        rw [hr2]; rfl
      · show reduceWord job2.intermediateVectors.length =
          3 * 2 ^ 62 + (job2.intermediateVectors.length + job2.reduceLog.length) * 2 ^ 31 + 0
        rw [hr2, hrw]
        simp
  · intro hpc ho hid job1 job2 h1 h2 hf2 _ _
    obtain ⟨e, k, hk1, hk2, hk3⟩ := shuffle_frame (pendingPairs job1 + 1) job1
    rw [← h2] at e hk1 hk2 hk3
    have hpend : pendingPairs job1 < 2 ^ 31 := by
      have h3 : pendingPairs job1 = pendingPairs job := by rw [h1]; rfl
      rw [h3, pendingPairs_eq, hmp.bufs.length_eq]
      exact Nat.lt_of_le_of_lt (pairs_bound client input N job hlog) hP
    have hk : k < 2 ^ 31 := by omega
    have hs1 : job1.stateCounter = shuffleWord job.intermediateCounter := by rw [h1]; rfl
    have hh1 : job1.history = job.history ++ [shuffleWord job.intermediateCounter] := by
      rw [h1]; rfl
    rw [hs1] at hk2 hk3
    rw [hh1] at hk2
    obtain ⟨hwo, _, _⟩ := wordsOk_shuffle job.history job.stateCounter
      job.intermediateCounter k inv.words (by rw [hstage]; omega) hk
    rw [← hk2, ← hk3] at hwo
    refine ⟨hwo, ?_, ?_⟩
    · intro hf; exact absurd hf hf2
    · intro hf; exact absurd hf hf2
  · intro _ _ _ _
    exact inv
  · intro _ ho
    have := (barrier2Open_iff job).mp ho 0 (Nat.lt_of_le_of_lt (Nat.zero_le _) hil)
    rw [hmp.zero_pre] at this
    exact absurd this Bool.false_ne_true
  · intro h _; exact habs h rfl
  · intro h _ _ _ _ _; exact habs h rfl
  · intro h; exact habs h rfl
  · intro _ _ h; exact habs h rfl
  · intro h
    rcases h with h | h
    · exact habs h rfl
    · exact habs h rfl

theorem wordInv_reducePhase_step (client : MapReduceClient I K V O) (input : InputVec I)
    (out0 : List O) (N : Nat) (job : JobContext I K V O) (i : Nat)
    (hP : totalPairs client input < 2 ^ 31)
    (hlog : LogInv input N job) (hil : i < job.threadsArray.length)
    (hrp : ReducePhaseInv client input out0 N job)
    (inv : WordInv input.size job) : WordInv input.size (stepThread i job) := by
  have hi : i < N := by rw [← hlog.length_eq]; exact hil
  have hpci := (hrp.pcs_post i hi).1
  have habs : ∀ {p : Pc O} {R : Prop}, (job.thread i).pc = p → p.arrived1 = false → R := by
    intro p R h1 h2
    rw [h1, h2] at hpci
    exact absurd hpci Bool.false_ne_true
  have hzero : ∀ {R : Prop}, (job.thread i).pc = Pc.barrier1 →
      ((job.thread i).threadId == 0) = true → R := by
    intro R hpc hid
    have h0 : i = 0 := by
      have := hlog.ids i hi
      rw [this] at hid
      simpa using hid
    have := hrp.zero_post
    rw [← h0, hpc] at this
    exact absurd this Bool.false_ne_true
  obtain ⟨c, hc, hw⟩ := inv.reduce_shape hrp.fault_none hrp.zero_post
  have hG := groups_bound client input out0 N job hlog hrp
  have hstage : stageOf job.stateCounter = 3 := by
    rw [hw]
    exact (fields_pack 3 _ c (by omega) (by omega)).1
  have hset : ∀ (j' : JobContext I K V O) (pc : Pc O),
      (∀ j, (j'.thread j).pc = (job.thread j).pc) →
      j'.threadsArray.length = job.threadsArray.length →
      (pc.arrived2 = true ∨ i ≠ 0) →
      WordsOk j'.history j'.stateCounter →
      (∃ c', c' + emittingCount (j'.setPc i pc) = j'.reduceLog.length ∧
        j'.stateCounter = 3 * 2 ^ 62 +
          (j'.intermediateVectors.length + j'.reduceLog.length) * 2 ^ 31 + c') →
      WordInv input.size (j'.setPc i pc) := by
    intro j' pc h1 h2 h3 h4 h5
    have hz : ((j'.setPc i pc).thread 0).pc.arrived2 = true := by
      rw [pc_setPc]
      split
      · rename_i hcnd
        rcases h3 with h3 | h3
        · exact h3
        · exact absurd hcnd.1 h3
      · rw [h1]; exact hrp.zero_post
    refine ⟨h4, ?_, fun _ _ => h5⟩
    intro _ ht
    rw [hz] at ht
    exact Bool.noConfusion ht
  have hE := fun (j' : JobContext I K V O) (pc : Pc O) (h : pcs j' = pcs job) =>
    emittingCount_setPc job j' i pc hil h
  refine stepThread_cases job i (WordInv input.size) hrp.fault_none hil
    ?_ ?_ ?_ ?_ ?_ ?_ ?_ ?_ ?_ ?_ ?_ ?_ ?_ ?_ ?_ ?_
  · intro h; exact habs h rfl
  · intro h; exact habs h rfl
  · intro h; exact habs h rfl
  · intro h; exact habs h rfl
  · intro num h; exact habs h rfl
  · intro _ _; exact inv
  · intro hpc _ hid
    have hi0 : i ≠ 0 := by
      intro h0
      have := hlog.ids i hi
      rw [this, h0] at hid
      simp at hid
    obtain ⟨c0, e1, e2⟩ := hE job Pc.barrier2 rfl
    rw [hpc] at e1
    simp only [Pc.isEmitting, Bool.false_eq_true, if_false] at e1 e2
    exact hset job _ (fun _ => rfl) rfl (Or.inr hi0) inv.words
      ⟨c, by rw [e2, ← e1]; exact hc, hw⟩
  · intro hpc _ hid; exact hzero hpc hid
  · intro hpc _ hid; exact hzero hpc hid
  · intro _ _; exact inv
  · intro hpc _
    obtain ⟨c0, e1, e2⟩ := hE job Pc.reduceLoop rfl
    rw [hpc] at e1
    simp only [Pc.isEmitting, Bool.false_eq_true, if_false] at e1 e2
    exact hset job _ (fun _ => rfl) rfl (Or.inl rfl) inv.words
      ⟨c, by rw [e2, ← e1]; exact hc, hw⟩
  · intro hpc _
    obtain ⟨c0, e1, e2⟩ := hE job Pc.done rfl
    rw [hpc] at e1
    simp only [Pc.isEmitting, Bool.false_eq_true, if_false] at e1 e2
    exact hset job _ (fun _ => rfl) rfl (Or.inl rfl) inv.words
      ⟨c, by rw [e2, ← e1]; exact hc, hw⟩
  · intro hpc rest g hq job1 h1
    subst h1
    obtain ⟨c0, e1, e2⟩ := hE _ (Pc.emitting (job.client.reduce g))
      (show pcs ({ job with
        intermediateVectors := rest
        reduceLog := job.reduceLog ++ [(i, g)] } : JobContext I K V O) = pcs job from rfl)
    rw [hpc] at e1
    simp only [Pc.isEmitting, Bool.false_eq_true, if_false, if_true] at e1 e2
    refine hset _ _ (fun _ => rfl) rfl (Or.inl rfl) inv.words ⟨c, ?_, ?_⟩
    · rw [e2]
      show c + (c0 + 1) = (job.reduceLog ++ [(i, g)]).length
      rw [List.length_append, List.length_singleton]
      omega
    · show job.stateCounter = 3 * 2 ^ 62 +
        (rest.length + (job.reduceLog ++ [(i, g)]).length) * 2 ^ 31 + c
      rw [hw, hq]
      simp only [List.length_append, List.length_singleton]
      omega
  · intro hpc
    obtain ⟨c0, e1, e2⟩ := hE (job.storeState (incr64 job.stateCounter)) Pc.reduceLoop rfl
    rw [hpc] at e1
    simp only [Pc.isEmitting, Bool.false_eq_true, if_false, if_true] at e1 e2
    have hinc : incr64 job.stateCounter = 3 * 2 ^ 62 +
        (job.intermediateVectors.length + job.reduceLog.length) * 2 ^ 31 + (c + 1) := by
      unfold incr64
      rw [Nat.mod_eq_of_lt (by rw [hw]; norm_num at hP ⊢; omega), hw]
      omega
    have hf := fields_pack 3 (job.intermediateVectors.length + job.reduceLog.length) (c + 1)
      (by omega) (by omega)
    rw [← hinc] at hf
    refine hset _ _ (fun _ => rfl) rfl (Or.inl rfl) ?_ ⟨c + 1, ?_, hinc⟩
    · exact wordsOk_store _ _ _ inv.words (Or.inr (by rw [hf.2.1, hf.2.2]; omega))
        (by rw [hstage, hf.1])
    · rw [e2]
      show c + 1 + (c0 + 0) = job.reduceLog.length
      omega
  · intro o rest hpc
    obtain ⟨c0, e1, e2⟩ := hE (emit3 o job) (Pc.emitting rest) rfl
    rw [hpc] at e1
    simp only [Pc.isEmitting, Bool.false_eq_true, if_false, if_true] at e1 e2
    exact hset (emit3 o job) _ (fun _ => rfl) rfl (Or.inl rfl) inv.words
      ⟨c, by rw [e2, ← e1]; exact hc, hw⟩
  · intro _; exact inv

theorem wordInv_stepThread (client : MapReduceClient I K V O) (input : InputVec I)
    (out0 : List O) (N : Nat) (job : JobContext I K V O) (i : Nat)
    (hn : input.size < 2 ^ 31) (hP : totalPairs client input < 2 ^ 31)
    (hlog : LogInv input N job) (hrun : RunInv client input out0 N job)
    (hlog' : LogInv input N (stepThread i job))
    (hrun' : RunInv client input out0 N (stepThread i job))
    (inv : WordInv input.size job) : WordInv input.size (stepThread i job) := by
  by_cases hil : i < job.threadsArray.length
  · rcases hrun with h | h | h
    · exact wordInv_mapPhase_step client input out0 N job i hn hP hlog hil h inv hlog' hrun'
    · rw [stepThread_idle job i (Or.inl h.1)]
      exact inv
    · exact wordInv_reducePhase_step client input out0 N job i hP hlog hil h inv
  · rw [stepThread_idle job i (Or.inr (Nat.le_of_not_lt hil))]
    exact inv

theorem initialWord_eq (n : Nat) (hn : n < 2 ^ 31) : initialWord n = 0 * 2 ^ 62 + n * 2 ^ 31 + 0 := by
  unfold initialWord toUInt64
  norm_num at hn ⊢
  omega

theorem wordInv_start (client : MapReduceClient I K V O) (input : InputVec I)
    (out0 : List O) (N : Nat) (stdSort : List (K × V) → List (K × V))
    (hN1 : 1 ≤ N) (hn : input.size < 2 ^ 31) :
    WordInv input.size (startMapReduceJob client input out0 N stdSort) := by
  have hw := initialWord_eq input.size hn
  have hf := fields_pack 0 input.size 0 hn (by norm_num)
  rw [← hw] at hf
  refine ⟨?_, ?_, ?_⟩
  · show WordsOk [initialWord input.size] (initialWord input.size)
    refine ⟨?_, by simp, ?_, List.mem_singleton.mpr rfl⟩
    · intro w hw'
      rw [List.mem_singleton.mp hw', hf.2.1, hf.2.2]
      exact Or.inr (Nat.zero_le _)
    · intro w hw'
      rw [List.mem_singleton.mp hw']
  · intro _ _
    exact ⟨0, Nat.zero_le _, hw⟩
  · intro _ ht
    have : ((createJobContext client input out0 N stdSort).thread 0).pc = Pc.start := by
      rw [thread_createJobContext _ _ _ _ _ _ hN1]; rfl
    change ((createJobContext client input out0 N stdSort).thread 0).pc.arrived2 = true at ht
    rw [this] at ht
    exact Bool.noConfusion ht

theorem invariants_runSchedule (client : MapReduceClient I K V O) (input : InputVec I)
    (out0 : List O) (N : Nat) (schedule : List Nat) (job : JobContext I K V O)
    (hswo : StrictWeakOrder client.lt) (hN : N ≤ 2 ^ 31)
    (hn : input.size < 2 ^ 31) (hP : totalPairs client input < 2 ^ 31)
    (hlog : LogInv input N job) (hrun : RunInv client input out0 N job)
    (hword : WordInv input.size job) :
    LogInv input N (runSchedule schedule job) ∧
    RunInv client input out0 N (runSchedule schedule job) ∧
    WordInv input.size (runSchedule schedule job) := by
  induction schedule generalizing job with
  | nil => exact ⟨hlog, hrun, hword⟩
  | cons i rest ih =>
    have hlog' := logInv_stepThread input N job i hN
      (Nat.lt_trans hn (by norm_num)) hlog
    have hrun' := runInv_stepThread client input out0 N job i hswo hlog hrun
    exact ih _ hlog' hrun'
      (wordInv_stepThread client input out0 N job i hn hP hlog hrun hlog' hrun' hword)

theorem invariants_run (client : MapReduceClient I K V O) (input : InputVec I)
    (out0 : List O) (N : Nat) (stdSort : List (K × V) → List (K × V)) (schedule : List Nat)
    (hswo : StrictWeakOrder client.lt) (hsort : SortContract client.lt stdSort)
    (hN1 : 1 ≤ N) (hN : N ≤ 2 ^ 31)
    (hn : input.size < 2 ^ 31) (hP : totalPairs client input < 2 ^ 31) :
    LogInv input N (runSchedule schedule (startMapReduceJob client input out0 N stdSort)) ∧
    RunInv client input out0 N
      (runSchedule schedule (startMapReduceJob client input out0 N stdSort)) ∧
    WordInv input.size
      (runSchedule schedule (startMapReduceJob client input out0 N stdSort)) :=
  invariants_runSchedule client input out0 N schedule _ hswo hN hn hP
    (logInv_start client input out0 N stdSort)
    (runInv_start client input out0 N stdSort hN1 hsort)
    (wordInv_start client input out0 N stdSort hN1 hn)

theorem percentage_of_good (w : Nat)
    (h : totalProgress w = 0 ∨ stateProgress w ≤ totalProgress w) :
    0 ≤ (decodeState w).percentage ∧ (decodeState w).percentage ≤ 100 := by
  rw [decodeState_percentage]
  by_cases h0 : totalProgress w = 0
  · rw [if_pos h0]
    norm_num
  · rw [if_neg h0]
    have hle : stateProgress w ≤ totalProgress w := by
      rcases h with h | h
      · exact absurd h h0
      · exact h
    have hpos : (0 : ℚ) < (totalProgress w : ℚ) := by
      exact_mod_cast Nat.pos_of_ne_zero h0
    have hle' : (stateProgress w : ℚ) ≤ (totalProgress w : ℚ) := by exact_mod_cast hle
    constructor
    · positivity
    · rw [div_mul_eq_mul_div, div_le_iff₀ hpos]
      nlinarith

/-! ## The percentage and the stage reported along a run -/

/-- C4: every progress word stored during a run, and the word the job holds, is reported
by `getJobState` with a percentage between 0 and 100. The run starts from
`startMapReduceJob` with `N >= 1` workers (a count in the range of `int`) and follows any
schedule; the input size and the number of intermediate pairs are below `2 ^ 31`; the key
order is a strict weak order and the library sort keeps its contract. -/
theorem percentage_within_bounds (client : MapReduceClient I K V O) (input : InputVec I)
    (out0 : List O) (N : Nat) (stdSort : List (K × V) → List (K × V)) (schedule : List Nat)
    (hswo : StrictWeakOrder client.lt) (hsort : SortContract client.lt stdSort)
    (hN1 : 1 ≤ N) (hN : N ≤ 2 ^ 31)
    (hn : input.size < 2 ^ 31) (hP : totalPairs client input < 2 ^ 31) :
    (∀ w ∈ (runSchedule schedule (startMapReduceJob client input out0 N stdSort)).history,
      0 ≤ (decodeState w).percentage ∧ (decodeState w).percentage ≤ 100) ∧
    (runSchedule schedule (startMapReduceJob client input out0 N stdSort)).stateCounter ∈
      (runSchedule schedule (startMapReduceJob client input out0 N stdSort)).history ∧
    0 ≤ (getJobState
      (runSchedule schedule (startMapReduceJob client input out0 N stdSort))).percentage ∧
    (getJobState
      (runSchedule schedule (startMapReduceJob client input out0 N stdSort))).percentage
        ≤ 100 := by
  obtain ⟨_, _, hword⟩ := invariants_run client input out0 N stdSort schedule hswo hsort
    hN1 hN hn hP
  obtain ⟨hgood, _, _, hcur⟩ := hword.words
  exact ⟨fun w hw => percentage_of_good w (hgood w hw), hcur,
    percentage_of_good _ (hgood _ hcur)⟩

set_option maxRecDepth 20000 in
/-- C4 on the scenario: the fifteen words the three workers store are all reported within
0 and 100, the last one as stage Reduce. -/
theorem percentage_within_bounds_witness :
    (∀ w ∈ (runSchedule roundRobin3 abcJob).history,
      0 ≤ (decodeState w).percentage ∧ (decodeState w).percentage ≤ 100) ∧
    (runSchedule roundRobin3 abcJob).history.length = 15 ∧
    (getJobState (runSchedule roundRobin3 abcJob)).stage = REDUCE_STAGE := by
  have h := percentage_within_bounds countClient abcInput [] 3 sortByKey roundRobin3
    natLt_strictWeakOrder sortByKey_contract (by decide) (by decide) (by decide) (by decide)
  exact ⟨h.1, by decide, by decide⟩

/-- C5 (amended): along a run on fewer than `2 ^ 31` inputs that emit fewer than `2 ^ 31`
intermediate pairs, the stages decoded from the stored progress words, in the order in
which the words were stored, never decrease. -/
theorem stage_never_decreases (client : MapReduceClient I K V O) (input : InputVec I)
    (out0 : List O) (N : Nat) (stdSort : List (K × V) → List (K × V)) (schedule : List Nat)
    (hswo : StrictWeakOrder client.lt) (hsort : SortContract client.lt stdSort)
    (hN1 : 1 ≤ N) (hN : N ≤ 2 ^ 31)
    (hn : input.size < 2 ^ 31) (hP : totalPairs client input < 2 ^ 31) :
    ((runSchedule schedule (startMapReduceJob client input out0 N stdSort)).history.map
      (fun w => (decodeState w).stage)).Pairwise (· ≤ ·) ∧
    (∀ w ∈ (runSchedule schedule (startMapReduceJob client input out0 N stdSort)).history,
      (decodeState w).stage ≤ (getJobState
        (runSchedule schedule (startMapReduceJob client input out0 N stdSort))).stage) := by
  obtain ⟨_, _, hword⟩ := invariants_run client input out0 N stdSort schedule hswo hsort
    hN1 hN hn hP
  obtain ⟨_, hmono, htop, _⟩ := hword.words
  have he : (fun w => (decodeState w).stage) = stageOf := by
    funext w
    exact decodeState_stage w
  refine ⟨by rw [he]; exact hmono, ?_⟩
  intro w hw
  unfold getJobState
  rw [decodeState_stage, decodeState_stage]
  exact htop w hw

set_option maxRecDepth 20000 in
/-- C5 as stated fails: on an input vector of `2 ^ 32` items the word installed by
`createJobContext` already decodes to stage 2, the first worker raises it to stage 3, and
the Shuffle word brings it back to stage 2. -/
theorem stage_decreases_on_wide_input :
    (runSchedule [0, 0, 0]
      (startMapReduceJob countClient wideInput [] 1 sortByKey)).history.map
        (fun w => (decodeState w).stage) = [2, 3, 2, 3] ∧
    ¬ ((runSchedule [0, 0, 0]
      (startMapReduceJob countClient wideInput [] 1 sortByKey)).history.map
        (fun w => (decodeState w).stage)).Pairwise (· ≤ ·) := by
  have h : (runSchedule [0, 0, 0]
      (startMapReduceJob countClient wideInput [] 1 sortByKey)).history =
      [2 ^ 63, 2 ^ 63 + 2 ^ 62, 2 ^ 63, 2 ^ 63 + 2 ^ 62] := by decide
  have hs : ([2 ^ 63, 2 ^ 63 + 2 ^ 62, 2 ^ 63, 2 ^ 63 + 2 ^ 62] : List Nat).map
      (fun w => (decodeState w).stage) = [2, 3, 2, 3] := by
    simp only [List.map_cons, List.map_nil, decodeState_stage, stageOf_eq]
    norm_num
  rw [h, hs]
  exact ⟨rfl, by decide⟩

set_option maxRecDepth 20000 in
/-- C5 on the scenario: the stages of the fifteen words stored are 0, then 1 six times,
then 3 eight times. -/
theorem stage_never_decreases_witness :
    ((runSchedule roundRobin3 abcJob).history.map
      (fun w => (decodeState w).stage)).Pairwise (· ≤ ·) ∧
    (runSchedule roundRobin3 abcJob).history.map stageOf =
      [0, 1, 1, 1, 1, 1, 1, 3, 3, 3, 3, 3, 3, 3, 3] := by
  have h := stage_never_decreases countClient abcInput [] 3 sortByKey roundRobin3
    natLt_strictWeakOrder sortByKey_contract (by decide) (by decide) (by decide) (by decide)
  exact ⟨h.1, by decide⟩

set_option maxRecDepth 20000 in
/-- C13 at a job that emits two intermediate pairs, run by one worker: the Shuffle word
decodes to total 0, and the words stored while `updatePairs` moves the two pairs decode
to stage Shuffle with completed 1 and 2, above the total. -/
theorem shuffle_completed_exceeds_total :
    (runSchedule soloSchedule
      (startMapReduceJob countClient twinInput [] 1 sortByKey)).history.map
        (fun w => (stageOf w, totalProgress w, stateProgress w)) =
      [(0, 2, 0), (1, 2, 0), (1, 2, 1), (1, 2, 2), (2, 0, 0), (2, 0, 1), (2, 0, 2),
        (3, 1, 0), (3, 1, 1)] ∧
    ∃ w ∈ (runSchedule soloSchedule
      (startMapReduceJob countClient twinInput [] 1 sortByKey)).history,
      stageOf w = SHUFFLE_STAGE ∧ totalProgress w < stateProgress w := by
  have h : (runSchedule soloSchedule
      (startMapReduceJob countClient twinInput [] 1 sortByKey)).history =
      [2 * 2 ^ 31, 2 ^ 62 + 2 * 2 ^ 31, 2 ^ 62 + 2 * 2 ^ 31 + 1, 2 ^ 62 + 2 * 2 ^ 31 + 2,
        2 ^ 63, 2 ^ 63 + 1, 2 ^ 63 + 2, 3 * 2 ^ 62 + 2 ^ 31, 3 * 2 ^ 62 + 2 ^ 31 + 1] := by
    decide
  rw [h]
  refine ⟨?_, 2 ^ 63 + 1, by simp, ?_, ?_⟩
  · simp only [List.map_cons, List.map_nil, stageOf_eq, totalProgress_eq, stateProgress_eq]
    norm_num
  · rw [stageOf_eq]; norm_num [SHUFFLE_STAGE]
  · rw [totalProgress_eq, stateProgress_eq]; norm_num

/-- C11 (amended): for an input of size `n < 2 ^ 31` the word installed by
`startMapReduceJob`, before any worker has run, decodes to the stage before Map (stage 0),
total `n`, completed 0 and percentage 0; the first action of whichever worker runs first
sets the stage to Map and leaves total `n` and completed 0. -/
theorem initial_word_decodes (client : MapReduceClient I K V O) (input : InputVec I)
    (out0 : List O) (N : Nat) (stdSort : List (K × V) → List (K × V)) (i : Nat)
    (hn : input.size < 2 ^ 31) (hi : i < N) :
    (getJobState (startMapReduceJob client input out0 N stdSort)).stage = UNDEFINED_STAGE ∧
    totalProgress (startMapReduceJob client input out0 N stdSort).stateCounter = input.size ∧
    stateProgress (startMapReduceJob client input out0 N stdSort).stateCounter = 0 ∧
    (getJobState (startMapReduceJob client input out0 N stdSort)).percentage = 0 ∧
    (getJobState (stepThread i (startMapReduceJob client input out0 N stdSort))).stage =
      MAP_STAGE ∧
    totalProgress (stepThread i (startMapReduceJob client input out0 N stdSort)).stateCounter =
      input.size ∧
    stateProgress (stepThread i (startMapReduceJob client input out0 N stdSort)).stateCounter =
      0 := by
  have hw := initialWord_eq input.size hn
  have hf := fields_pack 0 input.size 0 hn (by norm_num)
  rw [← hw] at hf
  have hm := mapWord_shape 0 input.size 0 (Nat.zero_le _) hn (by norm_num)
  rw [← hw] at hm
  have hf1 := fields_pack 1 input.size 0 hn (by norm_num)
  rw [← hm] at hf1
  have hstep : (stepThread i (startMapReduceJob client input out0 N stdSort)).stateCounter =
      mapWord (initialWord input.size) := by
    have hact := stepThread_active (createJobContext client input out0 N stdSort) i rfl
      (by simp [createJobContext]; exact hi)
    have hpc : ((createJobContext client input out0 N stdSort).thread i).pc = Pc.start := by
      rw [thread_createJobContext _ _ _ _ _ _ hi]; rfl
    rw [hpc] at hact
    show (stepThread i (createJobContext client input out0 N stdSort)).stateCounter = _
    rw [hact]
    rfl
  have hs0 : (startMapReduceJob client input out0 N stdSort).stateCounter =
      initialWord input.size := rfl
  unfold getJobState
  rw [hstep, hs0, decodeState_stage, decodeState_stage, decodeState_percentage]
  refine ⟨hf.1, hf.2.1, hf.2.2, ?_, hf1.1, hf1.2.1, hf1.2.2⟩
  rw [hf.2.2]
  split <;> simp

set_option maxRecDepth 20000 in
/-- C11 as stated fails: on the scenario's input the word installed by
`startMapReduceJob` decodes to stage 0, not to the stage Map. -/
theorem initial_stage_is_undefined :
    (getJobState abcJob).stage = 0 ∧ (getJobState abcJob).stage ≠ MAP_STAGE ∧
    totalProgress abcJob.stateCounter = 3 ∧ stateProgress abcJob.stateCounter = 0 := by
  decide

set_option maxRecDepth 20000 in
/-- C11 on the scenario: three inputs, stage 0 at submission, stage Map after the first
action of worker 1. -/
theorem initial_word_decodes_witness :
    (getJobState abcJob).stage = UNDEFINED_STAGE ∧
    totalProgress abcJob.stateCounter = 3 ∧
    (getJobState (stepThread 1 abcJob)).stage = MAP_STAGE ∧
    totalProgress (stepThread 1 abcJob).stateCounter = 3 := by
  have h := initial_word_decodes countClient abcInput [] 3 sortByKey 1 (by decide) (by decide)
  exact ⟨h.1, h.2.1, h.2.2.2.2.1, h.2.2.2.2.2.1⟩

/-! ## The completed field counts the units of work -/

theorem mappedBound_eq (size : Nat) (h : size < 2 ^ 31) : mappedBound size = size := by
  unfold mappedBound toInt32
  norm_num at h ⊢
  omega

theorem pendingPairs_eq_zero (job : JobContext I K V O)
    (h : ∀ t ∈ job.threadsArray, t.intermediateVec = []) : pendingPairs job = 0 := by
  unfold pendingPairs
  apply List.sum_eq_zero
  intro x hx
  obtain ⟨t, ht, rfl⟩ := List.mem_map.mp hx
  rw [h t ht]
  rfl

/-- When the first barrier opens, the buffers hold exactly the pairs that map emits over
the whole input. -/
theorem pendingPairs_at_barrier (client : MapReduceClient I K V O) (input : InputVec I)
    (out0 : List O) (N : Nat) (job : JobContext I K V O) (hn : input.size < 2 ^ 31)
    (hN1 : 1 ≤ N) (hlog : LogInv input N job) (hmp : MapPhaseInv client input out0 N job)
    (ho : barrier1Open job = true) :
    job.mapLog.length = input.size ∧ pendingPairs job = totalPairs client input := by
  obtain ⟨hpn, hac⟩ := pendingNums_of_open job ho
  have hcl := hlog.claimed
  rw [hpn, List.append_nil] at hcl
  have hfull := hlog.full (by rw [hac, hlog.length_eq]; exact hN1)
  rw [hfull, mappedBound_eq _ hn] at hcl
  have hlen : job.mapLog.length = input.size := by
    have := hcl.length_eq
    simpa using this
  refine ⟨hlen, ?_⟩
  rw [pendingPairs_eq, hmp.bufs.length_eq, length_emittedBy]
  unfold totalPairs
  exact (hcl.map _).sum_eq

/-- What the shuffle of worker 0 does to the word: started on the Shuffle word with `P`
buffered pairs, `P < 2 ^ 31`, it leaves a word whose completed field is `P`. -/
theorem shuffle_counts_pairs (job : JobContext I K V O) (c : Int)
    (hirr : ∀ a, job.client.lt a a = false)
    (hN : job.threadsNumber = job.threadsArray.length) (hf : job.fault = none)
    (hP : pendingPairs job < 2 ^ 31) :
    (shuffle (pendingPairs (job.storeState (shuffleWord c)) + 1)
      (job.storeState (shuffleWord c))).fault = none ∧
    stateProgress (shuffle (pendingPairs (job.storeState (shuffleWord c)) + 1)
      (job.storeState (shuffleWord c))).stateCounter = pendingPairs job := by
  have hp1 : pendingPairs (job.storeState (shuffleWord c)) = pendingPairs job := rfl
  obtain ⟨h1, h2, _⟩ := shuffle_permutation (job.storeState (shuffleWord c))
    (pendingPairs (job.storeState (shuffleWord c)) + 1) hirr hN hf (Nat.lt_succ_self _)
  obtain ⟨_, k, hk1, _, hk3⟩ := shuffle_frame
    (pendingPairs (job.storeState (shuffleWord c)) + 1) (job.storeState (shuffleWord c))
  rw [pendingPairs_eq_zero _ h2, hp1] at hk1
  have hk : k = pendingPairs job := by omega
  refine ⟨h1, ?_⟩
  rw [hk3, hk]
  show stateProgress (incr64^[pendingPairs job] (shuffleWord c)) = pendingPairs job
  obtain ⟨e1, _, _, _, e5, _⟩ := shuffle_words c (pendingPairs job) hP
  rw [e1, e5]

/-- C14: the completed field counts units exactly. At every point `r` of a run (input
size and number of intermediate pairs below `2 ^ 31`): the Shuffle word and the Reduce
word start with completed 0; before worker 0 has shuffled, completed is the number of map
calls made, and it is the input size once every worker has left the Map loop; the shuffle
that worker 0 then runs leaves completed equal to the number of intermediate pairs;
afterwards completed is the number of reduce calls that have returned, and once every
worker has returned it is the number of key groups, which is also the total. -/
theorem completed_counts_units (client : MapReduceClient I K V O) (input : InputVec I)
    (out0 : List O) (N : Nat) (stdSort : List (K × V) → List (K × V)) (schedule : List Nat)
    (r : JobContext I K V O)
    (hswo : StrictWeakOrder client.lt) (hsort : SortContract client.lt stdSort)
    (hN1 : 1 ≤ N) (hN : N ≤ 2 ^ 31)
    (hn : input.size < 2 ^ 31) (hP : totalPairs client input < 2 ^ 31)
    (hr : r = runSchedule schedule (startMapReduceJob client input out0 N stdSort)) :
    (∀ c : Int, stateProgress (shuffleWord c) = 0) ∧
    (∀ g, g < 2 ^ 31 → stateProgress (reduceWord g) = 0) ∧
    (r.fault = none → (r.thread 0).pc.arrived2 = false →
      stateProgress r.stateCounter = r.mapLog.length ∧
      (barrier1Open r = true → stateProgress r.stateCounter = input.size)) ∧
    (r.fault = none → (r.thread 0).pc = Pc.barrier1 → barrier1Open r = true →
      pendingPairs r = totalPairs client input ∧
      stateProgress (shuffle (pendingPairs (r.storeState (shuffleWord r.intermediateCounter)) + 1)
        (r.storeState (shuffleWord r.intermediateCounter))).stateCounter =
          totalPairs client input) ∧
    (r.fault = none → (r.thread 0).pc.arrived2 = true →
      stateProgress r.stateCounter + emittingCount r = r.reduceLog.length) ∧
    (allDone r = true →
      stateProgress r.stateCounter = r.reduceLog.length ∧
      totalProgress r.stateCounter = r.reduceLog.length ∧
      r.intermediateVectors = []) := by
  obtain ⟨hlog, hrun, hword⟩ := invariants_run client input out0 N stdSort schedule hswo
    hsort hN1 hN hn hP
  rw [← hr] at hlog hrun hword
  have hL : r.mapLog.length ≤ input.size := by
    have h1 := hlog.bound
    have h2 := mappedBound_le input.size
    unfold claimedCount at h1
    omega
  have hreduce : ∀ (hf : r.fault = none) (ht : (r.thread 0).pc.arrived2 = true),
      ReducePhaseInv client input out0 N r := by
    intro hf ht
    rcases runInv_cases client input out0 N r hrun hf with h | h
    · have := h.zero_pre
      rw [ht] at this
      exact Bool.noConfusion this
    · exact h
  have hshape : ∀ (hf : r.fault = none) (ht : (r.thread 0).pc.arrived2 = true),
      stateProgress r.stateCounter + emittingCount r = r.reduceLog.length ∧
      totalProgress r.stateCounter = r.intermediateVectors.length + r.reduceLog.length := by
    intro hf ht
    obtain ⟨c, hc, hw⟩ := hword.reduce_shape hf ht
    have hG := groups_bound client input out0 N r hlog (hreduce hf ht)
    have hfp := fields_pack 3 (r.intermediateVectors.length + r.reduceLog.length) c
      (by omega) (by omega)
    rw [← hw] at hfp
    rw [hfp.2.2, hfp.2.1]
    exact ⟨hc, rfl⟩
  refine ⟨?_, ?_, ?_, ?_, ?_, ?_⟩
  · intro c
    have := (shuffle_words c 0 (by norm_num)).2.2.2.2.1
    simpa using this
  · intro g hg
    rw [reduceWord_shape g hg]
    exact (fields_pack 3 g 0 hg (by norm_num)).2.2
  · intro hf ht
    obtain ⟨b, hb, hw⟩ := hword.map_shape hf ht
    have hfp := fields_pack b input.size r.mapLog.length hn (by omega)
    rw [← hw] at hfp
    refine ⟨hfp.2.2, ?_⟩
    intro ho
    rcases runInv_cases client input out0 N r hrun hf with h | h
    · rw [hfp.2.2]
      exact (pendingPairs_at_barrier client input out0 N r hn hN1 hlog h ho).1
    · have := h.zero_post
      rw [ht] at this
      exact Bool.noConfusion this
  · intro hf hpc ho
    rcases runInv_cases client input out0 N r hrun hf with h | h
    · obtain ⟨_, hpp⟩ := pendingPairs_at_barrier client input out0 N r hn hN1 hlog h ho
      refine ⟨hpp, ?_⟩
      have := (shuffle_counts_pairs r r.intermediateCounter
        (by rw [h.client_eq]; exact hswo.irrefl)
        (hlog.number_eq.trans hlog.length_eq.symm) hf (by rw [hpp]; exact hP)).2
      rw [this, hpp]
    · have := h.zero_post
      rw [hpc] at this
      exact Bool.noConfusion this
  · intro hf ht
    exact (hshape hf ht).1
  · intro hall
    have hdone := (allDone_iff r).mp hall
    rw [hlog.length_eq] at hdone
    have hf : r.fault = none := by
      rcases hrun with h | h | h
      · exact h.fault_none
      · obtain ⟨_, j, hj, hnd⟩ := h
        rw [hdone j hj] at hnd
        exact Bool.noConfusion hnd
      · exact h.fault_none
    have ht : (r.thread 0).pc.arrived2 = true := by rw [hdone 0 hN1]; rfl
    have hq := (hreduce hf ht).done_empty 0 hN1 (hdone 0 hN1)
    have hE : emittingCount r = 0 := by
      apply emittingCount_eq_zero
      intro j hj
      rw [hdone j (by rw [← hlog.length_eq]; exact hj)]
      rfl
    obtain ⟨h1, h2⟩ := hshape hf ht
    rw [hE] at h1
    rw [hq] at h2
    exact ⟨h1, by simpa using h2, hq⟩

set_option maxRecDepth 20000 in
/-- C14 on the scenario: when the three workers have returned, completed and total are
both 3, the number of key groups reduced. -/
theorem completed_counts_units_witness :
    allDone (runSchedule roundRobin3 abcJob) = true ∧
    stateProgress (runSchedule roundRobin3 abcJob).stateCounter = 3 ∧
    totalProgress (runSchedule roundRobin3 abcJob).stateCounter = 3 ∧
    (runSchedule roundRobin3 abcJob).reduceLog.length = 3 := by
  have h := completed_counts_units countClient abcInput [] 3 sortByKey roundRobin3
    (runSchedule roundRobin3 abcJob)
    natLt_strictWeakOrder sortByKey_contract (by decide) (by decide) (by decide) (by decide)
    rfl
  have hall : allDone (runSchedule roundRobin3 abcJob) = true := by decide
  have hlen : (runSchedule roundRobin3 abcJob).reduceLog.length = 3 := by decide
  obtain ⟨h1, h2, _⟩ := h.2.2.2.2.2 hall
  rw [hlen] at h1 h2
  exact ⟨hall, h1, h2, hlen⟩

/-! ## Shuffle terminates -/

/-- C16: shuffle terminates. For an irreflexive key order and any buffers: every iteration
of the outer loop (taken with the maximum key `k` that `getMaxKey` found at the tail of a
non-empty buffer) builds a non-empty group and strictly lowers the number of buffered
pairs; so with as many iterations allowed as there are pairs the loop ends without running
out, all buffers are empty, and the groups appended are non-empty and at most as many as
there were pairs. -/
theorem shuffle_terminates (job : JobContext I K V O)
    (hirr : ∀ a, job.client.lt a a = false)
    (hN : job.threadsNumber = job.threadsArray.length) (hf : job.fault = none) :
    (∀ (j : JobContext I K V O) (k : K), j.fault = none → j.client = job.client →
      (∃ i ∈ hasDataOf j, ∃ p, (j.vec i).getLast? = some p ∧ k = p.1) →
      groupOf j k ≠ [] ∧ pendingPairs (afterIteration j k) < pendingPairs j) ∧
    (shuffle (pendingPairs job + 1) job).fault = none ∧
    pendingPairs (shuffle (pendingPairs job + 1) job) = 0 ∧
    ∃ groups, (shuffle (pendingPairs job + 1) job).intermediateVectors =
        job.intermediateVectors ++ groups ∧
      (∀ g ∈ groups, g ≠ []) ∧ groups.length ≤ pendingPairs job := by
  have hiter : ∀ (j : JobContext I K V O) (k : K), j.fault = none → j.client = job.client →
      (∃ i ∈ hasDataOf j, ∃ p, (j.vec i).getLast? = some p ∧ k = p.1) →
      groupOf j k ≠ [] ∧ pendingPairs (afterIteration j k) < pendingPairs j := by
    intro j k hjf hjc hback
    exact ⟨groupOf_ne_nil j k (by rw [hjc]; exact hirr) hback,
      pendingPairs_afterIteration j k hjf (by rw [hjc]; exact hirr) hback⟩
  refine ⟨hiter, ?_⟩
  rw [shuffle_eq_loop _ job hN]
  have h := shuffleLoop_invariant
    (fun j => ∃ groups, j.intermediateVectors = job.intermediateVectors ++ groups ∧
      (∀ g ∈ groups, g ≠ []) ∧ groups.length + pendingPairs j ≤ pendingPairs job)
    job.client hirr
    (by
      intro j k hjf hjc ⟨groups, hg, hne, hle⟩ _ hback
      obtain ⟨_, _, _, _, hqueue, _⟩ := afterIteration_spec j k hjf
      obtain ⟨h1, h2⟩ := hiter j k hjf hjc hback
      refine ⟨groups ++ [groupOf j k], ?_, ?_, ?_⟩
      · rw [hqueue, hg, List.append_assoc]
      · intro g hg'
        rcases List.mem_append.mp hg' with h | h
        · exact hne g h
        · rw [List.mem_singleton.mp h]; exact h1
      · rw [List.length_append, List.length_singleton]
        omega)
    (pendingPairs job + 1) job hf rfl ⟨[], by simp, by simp, by simp⟩ (Nat.lt_succ_self _)
  obtain ⟨h1, ⟨groups, hg, hne, hle⟩, h4⟩ := h
  refine ⟨h1, ?_, groups, hg, hne, by omega⟩
  rw [pendingPairs_eq_sum]
  apply List.sum_eq_zero
  intro x hx
  obtain ⟨i, _, rfl⟩ := List.mem_map.mp hx
  rw [h4 i]
  rfl

/-- C16 on the scenario: three buffered pairs, three iterations, three non-empty
groups. -/
theorem shuffle_terminates_witness :
    (shuffle (pendingPairs abcMapped + 1) abcMapped).fault = none ∧
    pendingPairs (shuffle (pendingPairs abcMapped + 1) abcMapped) = 0 ∧
    (shuffle (pendingPairs abcMapped + 1) abcMapped).intermediateVectors.length = 3 ∧
    pendingPairs abcMapped = 3 := by
  have h := shuffle_terminates abcMapped (by intro a; simp [abcMapped, abcJob,
    startMapReduceJob, createJobContext, countClient]) rfl rfl
  exact ⟨h.2.1, h.2.2.1, by decide, by decide⟩

/-! ## Shuffle never reads the tail of an empty buffer -/

theorem shuffleLoop_fault (fuel : Nat) (job : JobContext I K V O) (hf : job.fault = none) :
    (shuffleLoop fuel job (hasDataOf job)).fault = none ∨
    (shuffleLoop fuel job (hasDataOf job)).fault = some Fault.outOfFuel := by
  induction fuel generalizing job with
  | zero =>
    unfold shuffleLoop
    split
    · exact Or.inl hf
    · exact Or.inr rfl
  | succ fuel ih =>
    by_cases hd : hasDataOf job = []
    · rw [shuffleLoop_done job _ hd]
      exact Or.inl hf
    · obtain ⟨k, _, _, hstep⟩ := shuffleLoop_step job hf hd
      rw [hstep fuel]
      exact ih _ (afterIteration_spec job k hf).1

/-- C20: shuffle never reads the tail of an empty buffer. `hasData` starts as the list of
the indices of the non-empty buffers, each once and in range; in every iteration that
starts so, `getMaxKey` finds `hasData[0]` and the tails it reads and returns a key,
`updatePairs` raises no fault, and the `hasData` it leaves is again the list of the
indices of the non-empty buffers; so whatever the number of iterations allowed, shuffle
never ends with the fault of reading an empty buffer or a missing index. -/
theorem shuffle_never_reads_empty (job : JobContext I K V O)
    (hN : job.threadsNumber = job.threadsArray.length) (hf : job.fault = none) :
    updateIntermediates job [] = hasDataOf job ∧
    (∀ j : JobContext I K V O, (hasDataOf j).Nodup ∧
      ∀ i, i ∈ hasDataOf j ↔ i < j.threadsArray.length ∧ j.vec i ≠ []) ∧
    (∀ j : JobContext I K V O, j.fault = none → hasDataOf j ≠ [] →
      ∃ k, getMaxKey j (hasDataOf j) = Except.ok k ∧
        (updatePairs j k (hasDataOf j) []).job.fault = none ∧
        (updatePairs j k (hasDataOf j) []).indicesToRemove = hasDataOf (afterIteration j k) ∧
        ∀ fuel, shuffleLoop (fuel + 1) j (hasDataOf j) =
          shuffleLoop fuel (afterIteration j k) (hasDataOf (afterIteration j k))) ∧
    (∀ fuel, (shuffle fuel job).fault ≠ some Fault.backOfEmpty ∧
      (shuffle fuel job).fault ≠ some Fault.badIndex) := by
  refine ⟨?_, ?_, ?_, ?_⟩
  · rw [updateIntermediates_eq, hN]
    rfl
  · intro j
    refine ⟨?_, mem_hasDataOf j⟩
    unfold hasDataOf
    exact (List.nodup_range _).filter _
  · intro j hjf hne
    obtain ⟨k, hk, _, hstep⟩ := shuffleLoop_step j hjf hne
    refine ⟨k, hk, (updatePairs_spec j k (hasDataOf j) hjf rfl).1,
      (afterIteration_spec j k hjf).2.2.2.2.2, hstep⟩
  · intro fuel
    rw [shuffle_eq_loop fuel job hN]
    rcases shuffleLoop_fault fuel job hf with h | h
    · rw [h]
      exact ⟨fun e => Option.noConfusion e, fun e => Option.noConfusion e⟩
    · rw [h]
      exact ⟨fun e => Fault.noConfusion (Option.some.inj e),
        fun e => Fault.noConfusion (Option.some.inj e)⟩

/-- C20 on the scenario: `hasData` starts as the three workers, and the shuffle ends
without a fault. -/
theorem shuffle_never_reads_empty_witness :
    updateIntermediates abcMapped [] = [0, 1, 2] ∧
    (shuffle 4 abcMapped).fault ≠ some Fault.backOfEmpty ∧
    (shuffle 4 abcMapped).fault = none := by
  have h := shuffle_never_reads_empty abcMapped rfl rfl
  exact ⟨by decide, (h.2.2.2 4).1, by decide⟩

/-! ## A job without intermediate pairs -/

theorem shuffle_of_empty (fuel : Nat) (job : JobContext I K V O)
    (hN : job.threadsNumber = job.threadsArray.length) (hv : ∀ j, job.vec j = []) :
    shuffle fuel job = job := by
  rw [shuffle_eq_loop fuel job hN]
  exact shuffleLoop_done job fuel ((hasDataOf_eq_nil job).mpr hv)

theorem arrived1_of_arrived2 (pc : Pc O) (h : pc.arrived2 = true) : pc.arrived1 = true := by
  cases pc <;> first | rfl | exact Bool.noConfusion h

theorem zero_cases (job j' : JobContext I K V O) (i : Nat) (pc : Pc O)
    (hil : i < j'.threadsArray.length)
    (hpc : ∀ j, (j'.thread j).pc = (job.thread j).pc)
    (h : ((j'.setPc i pc).thread 0).pc.arrived2 = true) :
    (i = 0 ∧ pc.arrived2 = true) ∨ (i ≠ 0 ∧ (job.thread 0).pc.arrived2 = true) := by
  rw [pc_setPc] at h
  by_cases h0 : i = 0
  · rw [if_pos ⟨h0, hil⟩] at h
    exact Or.inl ⟨h0, h⟩
  · rw [if_neg (fun hc => h0 hc.1), hpc] at h
    exact Or.inr ⟨h0, h⟩

theorem emptyInv_setPc (client : MapReduceClient I K V O) (input : InputVec I)
    (out0 : List O) (N : Nat) (job j' : JobContext I K V O) (i : Nat) (pc : Pc O)
    (inv : EmptyInv client input out0 N job) (hi : i < N)
    (hlen : j'.threadsArray.length = N) (hnum : j'.threadsNumber = N)
    (hids : ∀ j, (j'.thread j).threadId = (job.thread j).threadId)
    (hclient : j'.client = client) (hinput : j'.inputVector = input)
    (hsort : j'.stdSort [] = []) (hvecs : ∀ j, j'.vec j = [])
    (hq : j'.intermediateVectors = []) (hr : j'.reduceLog = []) (ho : j'.outputVector = out0)
    (hpc : ∀ j, (j'.thread j).pc = (job.thread j).pc)
    (hf : j'.fault = none)
    (hemit : pc.isEmitting = false)
    (hfetched : ∀ num, pc = Pc.mapped num → num < input.size)
    (hA : i = 0 → pc.arrived2 = true → ∀ j, j < N → (job.thread j).pc.arrived1 = true)
    (hB : pc.arrived1 = true ∨ (i ≠ 0 ∧ (job.thread 0).pc.arrived2 = false) ∨
      (i = 0 ∧ pc.arrived2 = false))
    (hW : ((j'.setPc i pc).thread 0).pc.arrived2 = true → j'.stateCounter = 3 * 2 ^ 62) :
    EmptyInv client input out0 N (j'.setPc i pc) := by
  have hil : i < j'.threadsArray.length := by rw [hlen]; exact hi
  have hpcs : ∀ j, ((j'.setPc i pc).thread j).pc = if j = i then pc else (job.thread j).pc := by
    intro j
    rw [pc_setPc]
    by_cases hji : j = i
    · subst hji
      rw [if_pos ⟨rfl, hil⟩, if_pos rfl]
    · rw [if_neg (fun h => hji h.1.symm), if_neg hji, hpc]
  constructor
  · simp [JobContext.setPc, JobContext.setThread, hlen]
  · exact hnum
  · intro j hj
    rw [threadId_setPc, hids]
    exact inv.ids j hj
  · exact hclient
  · exact hinput
  · exact hsort
  · intro j
    rw [vec_setPc]; exact hvecs j
  · exact hq
  · exact hr
  · exact ho
  · intro j hj
    rw [hpcs]
    split
    · exact hemit
    · exact inv.noemit j hj
  · intro j num hj hm
    rw [hpcs] at hm
    split at hm
    · exact hfetched num hm
    · exact inv.fetched j num hj hm
  · intro h
    exact absurd hf h
  · intro h0 j hj
    rcases zero_cases job j' i pc hil hpc h0 with ⟨hi0, hp2⟩ | ⟨hi0, hz⟩
    · rw [hpcs]
      split
      · exact arrived1_of_arrived2 pc hp2
      · exact hA hi0 hp2 j hj
    · rw [hpcs]
      split
      · rcases hB with hB | hB | hB
        · exact hB
        · rw [hz] at hB
          exact Bool.noConfusion hB.2
        · exact absurd hB.1 hi0
      · exact inv.after hz j hj
  · intro _ h0
    exact hW h0

theorem emptyInv_stepThread (client : MapReduceClient I K V O) (input : InputVec I)
    (out0 : List O) (N : Nat) (job : JobContext I K V O) (i : Nat)
    (hmap : ∀ k, k < input.size → client.map (input.elem k) = [])
    (inv : EmptyInv client input out0 N job) :
    EmptyInv client input out0 N (stepThread i job) := by
  by_cases hidle : job.fault ≠ none ∨ job.threadsArray.length ≤ i
  · rw [stepThread_idle job i hidle]
    exact inv
  push_neg at hidle
  obtain ⟨hf, hil⟩ := hidle
  have hi : i < N := by rw [← inv.length_eq]; exact hil
  have hset := emptyInv_setPc client input out0 N job
  -- a worker still in the Map loop: worker 0 has not passed the first barrier
  have hearly : (job.thread i).pc.arrived1 = false → (job.thread 0).pc.arrived2 = false := by
    intro h1
    cases h0 : (job.thread 0).pc.arrived2 with
    | false => rfl
    | true =>
      have := inv.after h0 i hi
      rw [h1] at this
      exact Bool.noConfusion this
  have hBearly : ∀ pc : Pc O, (job.thread i).pc.arrived1 = false → pc.arrived2 = false →
      pc.arrived1 = true ∨ (i ≠ 0 ∧ (job.thread 0).pc.arrived2 = false) ∨
        (i = 0 ∧ pc.arrived2 = false) := by
    intro pc h1 h2
    by_cases h0 : i = 0
    · exact Or.inr (Or.inr ⟨h0, h2⟩)
    · exact Or.inr (Or.inl ⟨h0, hearly h1⟩)
  have hWearly : ∀ (j' : JobContext I K V O) (pc : Pc O) (w : Nat),
      j'.threadsArray.length = N → (∀ j, (j'.thread j).pc = (job.thread j).pc) →
      (job.thread i).pc.arrived1 = false → pc.arrived2 = false →
      ((j'.setPc i pc).thread 0).pc.arrived2 = true → w = 3 * 2 ^ 62 := by
    intro j' pc w hl hpc h1 h2 h0
    rcases zero_cases job j' i pc (by rw [hl]; exact hi) hpc h0 with ⟨_, h⟩ | ⟨_, h⟩
    · rw [h2] at h; exact Bool.noConfusion h
    · rw [hearly h1] at h; exact Bool.noConfusion h
  have hWlate : ∀ (pc : Pc O), (job.thread i).pc.arrived2 = true ∨ i ≠ 0 →
      ((job.setPc i pc).thread 0).pc.arrived2 = true → job.stateCounter = 3 * 2 ^ 62 := by
    intro pc h1 h0
    rcases zero_cases job job i pc hil (fun _ => rfl) h0 with ⟨hi0, _⟩ | ⟨_, h⟩
    · rcases h1 with h1 | h1
      · rw [hi0] at h1
        exact inv.word hf h1
      · exact absurd hi0 h1
    · exact inv.word hf h
  refine stepThread_cases job i (EmptyInv client input out0 N) hf hil
    ?_ ?_ ?_ ?_ ?_ ?_ ?_ ?_ ?_ ?_ ?_ ?_ ?_ ?_ ?_ ?_
  · intro hpc
    have h1 : (job.thread i).pc.arrived1 = false := by rw [hpc]; rfl
    exact hset (job.storeState (mapWord job.stateCounter)) i Pc.fetch inv hi inv.length_eq
      inv.number_eq (fun _ => rfl) inv.client_eq inv.input_eq inv.sort_nil inv.vecs inv.queue
      inv.rlog inv.out (fun _ => rfl) hf rfl (fun _ h => Pc.noConfusion h)
      (fun _ h => Bool.noConfusion h) (hBearly _ h1 rfl)
      (hWearly _ _ _ inv.length_eq (fun _ => rfl) h1 rfl)
  · intro hpc _ c2 job1 h1'
    subst h1'
    have h1 : (job.thread i).pc.arrived1 = false := by rw [hpc]; rfl
    refine hset _ i _ inv hi inv.length_eq
      inv.number_eq (fun _ => rfl) inv.client_eq inv.input_eq inv.sort_nil inv.vecs inv.queue
      inv.rlog inv.out (fun _ => rfl) hf rfl ?_
      (fun _ h => Bool.noConfusion h) (hBearly _ h1 rfl)
      (hWearly _ _ _ inv.length_eq (fun _ => rfl) h1 rfl)
    intro num hnum
    have : num = toUInt64 job.inputCounter := (Pc.mapped.inj hnum).symm
    rw [this, ← inv.input_eq]
    exact c2
  · intro hpc _ _ job1 h1'
    subst h1'
    refine ⟨inv.length_eq, inv.number_eq, inv.ids, inv.client_eq, inv.input_eq, inv.sort_nil,
      inv.vecs, inv.queue, inv.rlog, inv.out, inv.noemit, inv.fetched, ?_, inv.after, ?_⟩
    · intro _
      refine ⟨i, hi, ?_⟩
      show (job.thread i).pc.isDone = false
      rw [hpc]; rfl
    · intro h
      simp [JobContext.fail] at h
  · intro hpc _ job1 h1'
    subst h1'
    have h1 : (job.thread i).pc.arrived1 = false := by rw [hpc]; rfl
    refine hset _ i Pc.barrier1 inv hi ?_
      inv.number_eq (fun j => threadId_setVec _ i j _) inv.client_eq inv.input_eq inv.sort_nil
      ?_ inv.queue inv.rlog inv.out (fun j => pc_setVec _ i j _) hf rfl
      (fun _ h => Pc.noConfusion h) (fun _ h => Bool.noConfusion h) (Or.inl rfl)
      (hWearly _ _ _ ?_ (fun j => pc_setVec _ i j _) h1 rfl)
    · simp [JobContext.setVec, JobContext.setThread, inv.length_eq]
    · intro j
      rw [vec_setVec]
      split
      · rw [inv.vecs i]; exact inv.sort_nil
      · exact inv.vecs j
    · simp [JobContext.setVec, JobContext.setThread, inv.length_eq]
  · intro num hpc job1 h1'
    subst h1'
    have h1 : (job.thread i).pc.arrived1 = false := by rw [hpc]; rfl
    obtain ⟨e1, e2, _⟩ := callMap_frame i num job
    obtain ⟨g1, g2, g3, g4, g5, g6, g7, g8, g9, g10, g11, g12, g13⟩ :=
      fields_of_outsideEmit_eq e1
    have hl : (callMap i num job).threadsArray.length = N := by
      have := congrArg List.length (pcs_of_outsideEmit_eq e1)
      simp only [pcs, List.length_map] at this
      rw [this]; exact inv.length_eq
    have hemp : job.client.map (job.inputVector.elem num) = [] := by
      rw [inv.client_eq, inv.input_eq]
      exact hmap num (inv.fetched i num hi hpc)
    refine hset ((callMap i num job).storeState (incr64 (callMap i num job).stateCounter)) i
      Pc.fetch inv hi hl (g8.trans inv.number_eq)
      (fun j => (thread_of_outsideEmit_eq e1 j).2) (g1.trans inv.client_eq)
      (g2.trans inv.input_eq) ?_ ?_ (g3.trans inv.queue) (g12.trans inv.rlog)
      (g4.trans inv.out) (fun j => (thread_of_outsideEmit_eq e1 j).1) (g13.trans hf) rfl
      (fun _ h => Pc.noConfusion h) (fun _ h => Bool.noConfusion h) (hBearly _ h1 rfl)
      (hWearly _ _ _ hl (fun j => (thread_of_outsideEmit_eq e1 j).1) h1 rfl)
    · show (callMap i num job).stdSort [] = []
      rw [g9]; exact inv.sort_nil
    · intro j
      show (callMap i num job).vec j = []
      rw [e2 j, hemp, List.append_nil]
      split <;> exact inv.vecs j
  · intro _ _; exact inv
  · intro hpc _ hid
    have hi0 : i ≠ 0 := by
      intro h0
      have := inv.ids i hi
      rw [this, h0] at hid
      simp at hid
    exact hset job i Pc.barrier2 inv hi inv.length_eq
      inv.number_eq (fun _ => rfl) inv.client_eq inv.input_eq inv.sort_nil inv.vecs inv.queue
      inv.rlog inv.out (fun _ => rfl) hf rfl (fun _ h => Pc.noConfusion h)
      (fun h => absurd h hi0) (Or.inl rfl) (hWlate _ (Or.inr hi0))
  · intro hpc ho hid job1 job2 h1' h2' hf2
    have hsh : job2 = job1 := by
      rw [h2']
      apply shuffle_of_empty
      · rw [h1']; exact inv.number_eq.trans inv.length_eq.symm
      · intro j; rw [h1']; exact inv.vecs j
    rw [hsh, h1']
    have hopen := (barrier1Open_iff job).mp ho
    refine hset _ i Pc.barrier2 inv hi inv.length_eq
      inv.number_eq (fun _ => rfl) inv.client_eq inv.input_eq inv.sort_nil inv.vecs inv.queue
      inv.rlog inv.out (fun _ => rfl) hf rfl (fun _ h => Pc.noConfusion h)
      (fun _ _ j hj => hopen j (by rw [inv.length_eq]; exact hj)) (Or.inl rfl) ?_
    intro _
    show reduceWord job.intermediateVectors.length = 3 * 2 ^ 62
    rw [inv.queue, List.length_nil, reduceWord_shape 0 (by norm_num)]
    norm_num
  · intro hpc ho hid job1 job2 h1' h2' hf2
    have hsh : job2 = job1 := by
      rw [h2']
      apply shuffle_of_empty
      · rw [h1']; exact inv.number_eq.trans inv.length_eq.symm
      · intro j; rw [h1']; exact inv.vecs j
    rw [hsh, h1'] at hf2
    exact absurd hf hf2
  · intro _ _; exact inv
  · intro hpc ho
    have hopen := (barrier2Open_iff job).mp ho
    exact hset job i Pc.reduceLoop inv hi inv.length_eq
      inv.number_eq (fun _ => rfl) inv.client_eq inv.input_eq inv.sort_nil inv.vecs inv.queue
      inv.rlog inv.out (fun _ => rfl) hf rfl (fun _ h => Pc.noConfusion h)
      (fun _ _ j hj => arrived1_of_arrived2 _ (hopen j (by rw [inv.length_eq]; exact hj)))
      (Or.inl rfl) (hWlate _ (Or.inl (by rw [hpc]; rfl)))
  · intro hpc _
    exact hset job i Pc.done inv hi inv.length_eq
      inv.number_eq (fun _ => rfl) inv.client_eq inv.input_eq inv.sort_nil inv.vecs inv.queue
      inv.rlog inv.out (fun _ => rfl) hf rfl (fun _ h => Pc.noConfusion h)
      (fun h0 _ j hj => inv.after (by rw [← h0, hpc]; rfl) j hj)
      (Or.inl rfl) (hWlate _ (Or.inl (by rw [hpc]; rfl)))
  · intro _ rest g hq _ _
    have := inv.queue
    rw [hq] at this
    simp at this
  · intro hpc
    have := inv.noemit i hi
    rw [hpc] at this
    exact Bool.noConfusion this
  · intro o rest hpc
    have := inv.noemit i hi
    rw [hpc] at this
    exact Bool.noConfusion this
  · intro _; exact inv

theorem emptyInv_start (client : MapReduceClient I K V O) (input : InputVec I)
    (out0 : List O) (N : Nat) (stdSort : List (K × V) → List (K × V))
    (hN1 : 1 ≤ N) (hsort : stdSort [] = []) :
    EmptyInv client input out0 N (startMapReduceJob client input out0 N stdSort) := by
  have hth : ∀ j, j < N →
      (createJobContext client input out0 N stdSort).thread j = initializeThreadData j :=
    fun j hj => thread_createJobContext _ _ _ _ _ _ hj
  have h0 : ((createJobContext client input out0 N stdSort).thread 0).pc.arrived2 = false := by
    rw [hth 0 hN1]; rfl
  refine ⟨by simp [startMapReduceJob, createJobContext], rfl, ?_, rfl, rfl, hsort, ?_, rfl, rfl,
    rfl, ?_, ?_, ?_, ?_, ?_⟩
  · intro j hj
    show ((createJobContext client input out0 N stdSort).thread j).threadId = j
    rw [hth j hj]; rfl
  · intro j
    show (createJobContext client input out0 N stdSort).vec j = []
    by_cases hj : j < N
    · unfold JobContext.vec
      rw [hth j hj]; rfl
    · exact vec_of_length_le _ j (by simp [createJobContext]; omega)
  · intro j hj
    show ((createJobContext client input out0 N stdSort).thread j).pc.isEmitting = false
    rw [hth j hj]; rfl
  · intro j num hj hm
    change ((createJobContext client input out0 N stdSort).thread j).pc = Pc.mapped num at hm
    rw [hth j hj] at hm
    exact Pc.noConfusion hm
  · intro h
    exact absurd rfl h
  · intro h
    change ((createJobContext client input out0 N stdSort).thread 0).pc.arrived2 = true at h
    rw [h0] at h
    exact Bool.noConfusion h
  · intro _ h
    change ((createJobContext client input out0 N stdSort).thread 0).pc.arrived2 = true at h
    rw [h0] at h
    exact Bool.noConfusion h

theorem emptyInv_runSchedule (client : MapReduceClient I K V O) (input : InputVec I)
    (out0 : List O) (N : Nat) (schedule : List Nat) (job : JobContext I K V O)
    (hmap : ∀ k, k < input.size → client.map (input.elem k) = [])
    (inv : EmptyInv client input out0 N job) :
    EmptyInv client input out0 N (runSchedule schedule job) := by
  induction schedule generalizing job with
  | nil => exact inv
  | cons i rest ih => exact ih _ (emptyInv_stepThread client input out0 N job i hmap inv)

/-- C12: empty work is handled without any reduce. If the input is empty, or map emits no
pair for any input, then at every point `r` of a run with `N >= 1` workers (the library
sort returning the empty buffer for the empty buffer): every worker buffer is empty, the
queue holds no key group, reduce has not been invoked, the output is what it was at
submission; once worker 0 has passed the first barrier, and so when every worker has
returned, the progress word is the Reduce word with total 0, reported as stage Reduce
with percentage 0. -/
theorem empty_work_no_reduce (client : MapReduceClient I K V O) (input : InputVec I)
    (out0 : List O) (N : Nat) (stdSort : List (K × V) → List (K × V)) (schedule : List Nat)
    (r : JobContext I K V O) (hN1 : 1 ≤ N) (hsort : stdSort [] = [])
    (hwork : input.size = 0 ∨ ∀ k, k < input.size → client.map (input.elem k) = [])
    (hr : r = runSchedule schedule (startMapReduceJob client input out0 N stdSort)) :
    (∀ j, r.vec j = []) ∧ r.intermediateVectors = [] ∧ r.reduceLog = [] ∧
    r.outputVector = out0 ∧
    (r.fault = none → (r.thread 0).pc.arrived2 = true →
      r.stateCounter = reduceWord 0 ∧ (getJobState r).stage = REDUCE_STAGE ∧
      totalProgress r.stateCounter = 0 ∧ (getJobState r).percentage = 0) ∧
    (allDone r = true →
      r.fault = none ∧ (getJobState r).stage = REDUCE_STAGE ∧
      totalProgress r.stateCounter = 0 ∧ (getJobState r).percentage = 0) := by
  have hmap : ∀ k, k < input.size → client.map (input.elem k) = [] := by
    rcases hwork with h | h
    · intro k hk
      rw [h] at hk
      exact absurd hk (Nat.not_lt_zero k)
    · exact h
  have inv := emptyInv_runSchedule client input out0 N schedule _ hmap
    (emptyInv_start client input out0 N stdSort hN1 hsort)
  rw [← hr] at inv
  have hrw : reduceWord 0 = 3 * 2 ^ 62 := by
    rw [reduceWord_shape 0 (by norm_num)]
    norm_num
  have hfp := fields_pack 3 0 0 (by norm_num) (by norm_num)
  have hdec : ∀ w, w = 3 * 2 ^ 62 →
      w = reduceWord 0 ∧ (decodeState w).stage = REDUCE_STAGE ∧
      totalProgress w = 0 ∧ (decodeState w).percentage = 0 := by
    intro w hw
    have h3 : w = 3 * 2 ^ 62 + 0 * 2 ^ 31 + 0 := by rw [hw]; norm_num
    refine ⟨by rw [hrw, hw], ?_, by rw [h3]; exact hfp.2.1, ?_⟩
    all_goals rw [h3]
    · rw [decodeState_stage, hfp.1]; rfl
    · rw [decodeState_percentage, if_pos hfp.2.1]
  refine ⟨inv.vecs, inv.queue, inv.rlog, inv.out, ?_, ?_⟩
  · intro hf ht
    exact hdec _ (inv.word hf ht)
  · intro hall
    have hdone := (allDone_iff r).mp hall
    rw [inv.length_eq] at hdone
    have hf : r.fault = none := by
      by_contra hne
      obtain ⟨j, hj, hnd⟩ := inv.failed hne
      rw [hdone j hj] at hnd
      exact Bool.noConfusion hnd
    have ht : (r.thread 0).pc.arrived2 = true := by rw [hdone 0 hN1]; rfl
    exact ⟨hf, (hdec _ (inv.word hf ht)).2⟩

set_option maxRecDepth 20000 in
/-- C12 on the empty input with two workers taking turns: both return, no reduce call was
made, the output is empty and the word is the Reduce word for zero groups. -/
theorem empty_work_no_reduce_witness :
    allDone (runSchedule duoShort
      (startMapReduceJob countClient emptyInput [] 2 sortByKey)) = true ∧
    (runSchedule duoShort
      (startMapReduceJob countClient emptyInput [] 2 sortByKey)).reduceLog = [] ∧
    (runSchedule duoShort
      (startMapReduceJob countClient emptyInput [] 2 sortByKey)).outputVector = [] ∧
    (getJobState (runSchedule duoShort
      (startMapReduceJob countClient emptyInput [] 2 sortByKey))).percentage = 0 := by
  have h := empty_work_no_reduce countClient emptyInput [] 2 sortByKey duoShort
    (runSchedule duoShort (startMapReduceJob countClient emptyInput [] 2 sortByKey))
    (by decide) rfl (Or.inl rfl) rfl
  have hall : allDone (runSchedule duoShort
      (startMapReduceJob countClient emptyInput [] 2 sortByKey)) = true := by decide
  exact ⟨hall, h.2.2.1, h.2.2.2.1, (h.2.2.2.2.2 hall).2.2.2⟩

/-! ## The buffer a worker leaves when its Map loop ends -/

theorem cons_set_perm {α : Type} (h y : α) :
    ∀ (t : List α) (j : Nat), t[j]? = some y → (y :: t.set j h).Perm (h :: t) := by
  intro t
  induction t with
  | nil => intro j hj; simp at hj
  | cons u t ih =>
    intro j hj
    cases j with
    | zero =>
      simp only [List.getElem?_cons_zero, Option.some.injEq] at hj
      rw [hj, List.set_cons_zero]
      exact List.Perm.swap h y t
    | succ k =>
      simp only [List.getElem?_cons_succ] at hj
      rw [List.set_cons_succ]
      exact ((List.Perm.swap u y _).trans ((ih k hj).cons u)).trans (List.Perm.swap h u t)

theorem set_set_perm {α : Type} :
    ∀ (a : List α) (i j : Nat) (x y : α), a[i]? = some x → a[j]? = some y →
      ((a.set i y).set j x).Perm a := by
  intro a
  induction a with
  | nil => intro i j x y hi; simp at hi
  | cons h t ih =>
    intro i j x y hi hj
    cases i with
    | zero =>
      simp only [List.getElem?_cons_zero, Option.some.injEq] at hi
      subst hi
      cases j with
      | zero =>
        simp only [List.getElem?_cons_zero, Option.some.injEq] at hj
        subst hj
        simp
      | succ k =>
        simp only [List.getElem?_cons_succ] at hj
        rw [List.set_cons_zero, List.set_cons_succ]
        exact cons_set_perm h y t k hj
    | succ m =>
      simp only [List.getElem?_cons_succ] at hi
      cases j with
      | zero =>
        simp only [List.getElem?_cons_zero, Option.some.injEq] at hj
        subst hj
        rw [List.set_cons_succ, List.set_cons_zero]
        exact cons_set_perm h x t m hi
      | succ k =>
        simp only [List.getElem?_cons_succ] at hj
        rw [List.set_cons_succ, List.set_cons_succ]
        exact (ih m k x y hi hj).cons h

theorem iterSwap_perm {α : Type} (a : List α) (i j : Nat) : (iterSwap a i j).Perm a := by
  unfold iterSwap
  cases hi : a[i]? with
  | none => exact List.Perm.refl _
  | some x =>
    cases hj : a[j]? with
    | none => exact List.Perm.refl _
    | some y => exact set_set_perm a i j x y hi hj

theorem moveMedianToFirst_perm {α : Type} (comp : α → α → Bool) (a : List α)
    (result x y z : Nat) : (moveMedianToFirst comp a result x y z).Perm a := by
  unfold moveMedianToFirst
  split_ifs <;> exact iterSwap_perm _ _ _

theorem unguardedPartition_perm {α : Type} (comp : α → α → Bool) (pivot : Nat) (fuel : Nat) :
    ∀ (a : List α) (first last : Nat),
      (unguardedPartition comp pivot fuel a first last).2.Perm a := by
  induction fuel with
  | zero => intro a first last; exact List.Perm.refl _
  | succ fuel ih =>
    intro a first last
    simp only [unguardedPartition]
    split_ifs
    · exact (ih _ _ _).trans (iterSwap_perm _ _ _)
    · exact List.Perm.refl _

theorem unguardedPartitionPivot_perm {α : Type} (comp : α → α → Bool) (a : List α)
    (first last : Nat) : (unguardedPartitionPivot comp a first last).2.Perm a := by
  unfold unguardedPartitionPivot
  exact (unguardedPartition_perm comp _ _ _ _ _).trans (moveMedianToFirst_perm comp a _ _ _ _)

theorem pushHeap_perm {α : Type} (comp : α → α → Bool) (first topIndex : Nat) (fuel : Nat) :
    ∀ (a : List α) (holeIndex : Nat),
      (pushHeap comp first topIndex fuel a holeIndex).Perm a := by
  induction fuel with
  | zero => intro a holeIndex; exact List.Perm.refl _
  | succ fuel ih =>
    intro a holeIndex
    simp only [pushHeap]
    split_ifs
    · exact (ih _ _).trans (iterSwap_perm _ _ _)
    · exact List.Perm.refl _

theorem siftDown_perm {α : Type} (comp : α → α → Bool) (first len : Nat) (fuel : Nat) :
    ∀ (a : List α) (holeIndex : Nat),
      (siftDown comp first len fuel a holeIndex).2.Perm a := by
  induction fuel with
  | zero => intro a holeIndex; exact List.Perm.refl _
  | succ fuel ih =>
    intro a holeIndex
    simp only [siftDown]
    split_ifs
    · exact (ih _ _).trans (iterSwap_perm _ _ _)
    · exact (ih _ _).trans (iterSwap_perm _ _ _)
    · exact List.Perm.refl _

theorem adjustHeap_perm {α : Type} (comp : α → α → Bool) (a : List α)
    (first holeIndex len : Nat) : (adjustHeap comp a first holeIndex len).Perm a := by
  unfold adjustHeap
  simp only []
  refine (pushHeap_perm comp first holeIndex len _ _).trans ?_
  split_ifs
  · exact (iterSwap_perm _ _ _).trans (siftDown_perm comp first len len a holeIndex)
  · exact siftDown_perm comp first len len a holeIndex

theorem popHeap_perm {α : Type} (comp : α → α → Bool) (a : List α)
    (first last result : Nat) : (popHeap comp a first last result).Perm a := by
  unfold popHeap
  exact (adjustHeap_perm comp _ _ _ _).trans (iterSwap_perm _ _ _)

theorem makeHeapFrom_perm {α : Type} (comp : α → α → Bool) (first len : Nat) (parent : Nat) :
    ∀ a : List α, (makeHeapFrom comp first len parent a).Perm a := by
  induction parent with
  | zero => intro a; exact adjustHeap_perm comp a first 0 len
  | succ parent ih =>
    intro a
    simp only [makeHeapFrom]
    exact (ih _).trans (adjustHeap_perm comp a first (parent + 1) len)

theorem makeHeap_perm {α : Type} (comp : α → α → Bool) (a : List α) (first last : Nat) :
    (makeHeap comp a first last).Perm a := by
  unfold makeHeap
  split_ifs
  · exact List.Perm.refl _
  · exact makeHeapFrom_perm comp _ _ _ a

theorem sortHeap_perm {α : Type} (comp : α → α → Bool) (first : Nat) (n : Nat) :
    ∀ a : List α, (sortHeap comp first n a).Perm a := by
  induction n with
  | zero => intro a; exact List.Perm.refl _
  | succ n ih =>
    intro a
    simp only [sortHeap]
    split_ifs
    · exact (ih _).trans (popHeap_perm comp a _ _ _)
    · exact List.Perm.refl _

theorem partialSort_perm {α : Type} (comp : α → α → Bool) (a : List α) (first last : Nat) :
    (partialSort comp a first last).Perm a := by
  unfold partialSort
  exact (sortHeap_perm comp first _ _).trans (makeHeap_perm comp a first last)

theorem introsortLoop_perm {α : Type} (comp : α → α → Bool) (depthLimit : Nat) :
    ∀ (a : List α) (first last : Nat),
      (introsortLoop comp depthLimit a first last).Perm a := by
  induction depthLimit with
  | zero =>
    intro a first last
    simp only [introsortLoop]
    split_ifs
    · exact partialSort_perm comp a first last
    · exact List.Perm.refl _
  | succ depthLimit ih =>
    intro a first last
    simp only [introsortLoop]
    split_ifs
    · exact ((ih _ _ _).trans (ih _ _ _)).trans (unguardedPartitionPivot_perm comp a first last)
    · exact List.Perm.refl _

theorem unguardedLinearInsert_perm {α : Type} (comp : α → α → Bool) (next : Nat) :
    ∀ a : List α, (unguardedLinearInsert comp next a).Perm a := by
  induction next with
  | zero => intro a; exact List.Perm.refl _
  | succ next ih =>
    intro a
    simp only [unguardedLinearInsert]
    split_ifs
    · exact (ih _).trans (iterSwap_perm _ _ _)
    · exact List.Perm.refl _

theorem moveToFirst_perm {α : Type} (first : Nat) (i : Nat) :
    ∀ a : List α, (moveToFirst first i a).Perm a := by
  induction i with
  | zero => intro a; exact List.Perm.refl _
  | succ i ih =>
    intro a
    simp only [moveToFirst]
    split_ifs
    · exact (ih _).trans (iterSwap_perm _ _ _)
    · exact List.Perm.refl _

theorem foldl_perm {α β : Type} (f : List α → β → List α)
    (hf : ∀ a i, (f a i).Perm a) (l : List β) : ∀ a : List α, (l.foldl f a).Perm a := by
  induction l with
  | nil => intro a; exact List.Perm.refl _
  | cons i rest ih =>
    intro a
    exact (ih _).trans (hf a i)

theorem insertionSort_perm {α : Type} (comp : α → α → Bool) (a : List α) (first last : Nat) :
    (insertionSort comp a first last).Perm a := by
  unfold insertionSort
  split_ifs
  · exact List.Perm.refl _
  · apply foldl_perm
    intro b i
    show (if compAt comp b i first then moveToFirst first i b
      else unguardedLinearInsert comp i b).Perm b
    split_ifs
    · exact moveToFirst_perm first i b
    · exact unguardedLinearInsert_perm comp i b

theorem unguardedInsertionSort_perm {α : Type} (comp : α → α → Bool) (a : List α)
    (first last : Nat) : (unguardedInsertionSort comp a first last).Perm a := by
  unfold unguardedInsertionSort
  apply foldl_perm
  intro b i
  exact unguardedLinearInsert_perm comp i b

theorem finalInsertionSort_perm {α : Type} (comp : α → α → Bool) (a : List α)
    (first last : Nat) : (finalInsertionSort comp a first last).Perm a := by
  unfold finalInsertionSort
  split_ifs
  · exact (unguardedInsertionSort_perm comp _ _ _).trans (insertionSort_perm comp a _ _)
  · exact insertionSort_perm comp a first last

/-- The library sort returns a permutation of the array. -/
theorem stlSort_perm {α : Type} (comp : α → α → Bool) (a : List α) :
    (stlSort comp a).Perm a := by
  unfold stlSort
  split_ifs
  · exact List.Perm.refl _
  · exact (finalInsertionSort_perm comp _ _ _).trans (introsortLoop_perm comp _ a _ _)

/-! ## The library sort returns an ascending array -/

theorem iterSwap_cons_succ {α : Type} (p : α) (a : List α) (i j : Nat) :
    iterSwap (p :: a) (i + 1) (j + 1) = p :: iterSwap a i j := by
  unfold iterSwap
  simp only [List.getElem?_cons_succ]
  cases a[i]? with
  | none => rfl
  | some x =>
    cases a[j]? with
    | none => rfl
    | some y => simp only [List.set_cons_succ]

theorem iterSwap_adjacent {α : Type} (P : List α) (x v : α) (S : List α) :
    iterSwap (P ++ x :: v :: S) P.length (P.length + 1) = P ++ v :: x :: S := by
  induction P with
  | nil => simp [iterSwap]
  | cons p P ih =>
    simp only [List.cons_append, List.length_cons]
    rw [iterSwap_cons_succ, ih]

theorem compAt_adjacent {α : Type} (comp : α → α → Bool) (P : List α) (x v : α)
    (S : List α) :
    compAt comp (P ++ x :: v :: S) (P.length + 1) P.length = comp v x := by
  unfold compAt
  have h1 : (P ++ x :: v :: S)[P.length + 1]? = some v := by
    rw [List.getElem?_append_right (by omega)]
    simp
  have h0 : (P ++ x :: v :: S)[P.length]? = some x := by
    rw [List.getElem?_append_right (by omega)]
    simp
  rw [h1, h0]

/-- The library's `__unguarded_linear_insert` on an element that follows a prefix: it
moves the element before the elements of the prefix that it precedes in the order, and
stops at the first element (from the back) that it does not precede. -/
theorem unguardedLinearInsert_spec {α : Type} (comp : α → α → Bool) :
    ∀ (P : List α) (v : α) (S : List α), ∃ A B, P = A ++ B ∧
      unguardedLinearInsert comp P.length (P ++ v :: S) = A ++ v :: (B ++ S) ∧
      (∀ b ∈ B, comp v b = true) ∧ (∀ x, A.getLast? = some x → comp v x = false) := by
  intro P
  induction P using List.reverseRecOn with
  | nil =>
    intro v S
    exact ⟨[], [], rfl, by simp [unguardedLinearInsert], by simp, by simp⟩
  | append_singleton P x ih =>
    intro v S
    have hlen : (P ++ [x]).length = P.length + 1 := by simp
    have hl : (P ++ [x]) ++ v :: S = P ++ x :: v :: S := by simp
    rw [hlen, hl]
    simp only [unguardedLinearInsert]
    rw [compAt_adjacent]
    cases hvx : comp v x with
    | false =>
      refine ⟨P ++ [x], [], by simp, by simp, by simp, ?_⟩
      intro y hy
      have hy1 : y = x := by simpa using hy.symm
      rw [hy1]
      exact hvx
    | true =>
      rw [if_pos rfl, iterSwap_adjacent]
      obtain ⟨A, B, hP, hres, hB, hA⟩ := ih v (x :: S)
      refine ⟨A, B ++ [x], by rw [hP]; simp, by rw [hres]; simp, ?_, hA⟩
      intro b hb
      rcases List.mem_append.1 hb with h | h
      · exact hB b h
      · rw [List.mem_singleton.1 h]
        exact hvx

/-- The library's `std::move_backward` of the prefix with the store at the front (lines
1804-1808 of `__insertion_sort`): the element comes first and the prefix follows in its
order. -/
theorem moveToFirst_spec {α : Type} :
    ∀ (P : List α) (v : α) (S : List α),
      moveToFirst 0 P.length (P ++ v :: S) = v :: (P ++ S) := by
  intro P
  induction P using List.reverseRecOn with
  | nil => intro v S; simp [moveToFirst]
  | append_singleton P x ih =>
    intro v S
    have hlen : (P ++ [x]).length = P.length + 1 := by simp
    have hl : (P ++ [x]) ++ v :: S = P ++ x :: v :: S := by simp
    rw [hlen, hl]
    simp only [moveToFirst]
    rw [if_pos (Nat.succ_pos _), iterSwap_adjacent, ih v (x :: S)]
    simp

theorem pairwise_insert {α : Type} (comp : α → α → Bool)
    (hneg : ∀ a b c, comp a b = false → comp b c = false → comp a c = false)
    (hasym : ∀ a b, comp a b = true → comp b a = false)
    (A B : List α) (v : α)
    (hs : (A ++ B).Pairwise (fun a b => comp b a = false))
    (hB : ∀ b ∈ B, comp v b = true) (hA : ∀ x, A.getLast? = some x → comp v x = false) :
    (A ++ v :: B).Pairwise (fun a b => comp b a = false) := by
  rw [List.pairwise_append] at hs
  obtain ⟨hsA, hsB, hAB⟩ := hs
  have hvA : ∀ a ∈ A, comp v a = false := by
    intro a ha
    rcases List.eq_nil_or_concat A with h | ⟨L, x, h⟩
    · rw [h] at ha; simp at ha
    · rw [List.concat_eq_append] at h
      have hx : comp v x = false := hA x (by rw [h]; simp)
      rw [h] at ha hsA
      rcases List.mem_append.1 ha with h1 | h1
      · rw [List.pairwise_append] at hsA
        exact hneg v x a hx (hsA.2.2 a h1 x (by simp))
      · rw [List.mem_singleton.1 h1]
        exact hx
  rw [List.pairwise_append]
  refine ⟨hsA, ?_, ?_⟩
  · rw [List.pairwise_cons]
    exact ⟨fun b hb => hasym v b (hB b hb), hsB⟩
  · intro a ha b hb
    rcases List.mem_cons.1 hb with h | h
    · rw [h]; exact hvA a ha
    · exact hAB a ha b h

/-- A pass that inserts the elements of a suffix one at a time into an ascending prefix
leaves an ascending prefix that has grown by the elements inserted. -/
theorem foldl_insert_sorted {α : Type} (comp : α → α → Bool) (f : List α → Nat → List α)
    (lo : Nat)
    (hf : ∀ (P : List α) (v : α) (S : List α), lo ≤ P.length →
      P.Pairwise (fun a b => comp b a = false) →
      ∃ P', f (P ++ v :: S) P.length = P' ++ S ∧
        P'.Pairwise (fun a b => comp b a = false) ∧ P'.length = P.length + 1) :
    ∀ (n : Nat) (P S : List α), lo ≤ P.length →
      P.Pairwise (fun a b => comp b a = false) → n ≤ S.length →
      ∃ P', (List.range' P.length n).foldl f (P ++ S) = P' ++ S.drop n ∧
        P'.Pairwise (fun a b => comp b a = false) ∧ P'.length = P.length + n := by
  intro n
  induction n with
  | zero =>
    intro P S _ hs _
    exact ⟨P, by simp, hs, rfl⟩
  | succ n ih =>
    intro P S hlo hs hn
    cases S with
    | nil => simp at hn
    | cons v S =>
      obtain ⟨P1, h1, hs1, hl1⟩ := hf P v S hlo hs
      have hn1 : n ≤ S.length := by simpa using hn
      obtain ⟨P2, h2, hs2, hl2⟩ := ih P1 S (by omega) hs1 hn1
      refine ⟨P2, ?_, hs2, by omega⟩
      rw [List.range'_succ, List.foldl_cons, h1, ← hl1, h2]
      simp

theorem insertionSort_step {α : Type} (comp : α → α → Bool)
    (hneg : ∀ a b c, comp a b = false → comp b c = false → comp a c = false)
    (hasym : ∀ a b, comp a b = true → comp b a = false)
    (P : List α) (v : α) (S : List α) (hlo : 1 ≤ P.length)
    (hs : P.Pairwise (fun a b => comp b a = false)) :
    ∃ P', (if compAt comp (P ++ v :: S) P.length 0 then moveToFirst 0 P.length (P ++ v :: S)
        else unguardedLinearInsert comp P.length (P ++ v :: S)) = P' ++ S ∧
      P'.Pairwise (fun a b => comp b a = false) ∧ P'.length = P.length + 1 := by
  cases P with
  | nil => simp at hlo
  | cons p0 P0 =>
    have hc : compAt comp (p0 :: P0 ++ v :: S) (p0 :: P0).length 0 = comp v p0 := by
      unfold compAt
      have h1 : (p0 :: P0 ++ v :: S)[(p0 :: P0).length]? = some v := by
        rw [List.getElem?_append_right (by omega)]
        simp
      rw [h1]
      simp
    rw [hc]
    cases hv : comp v p0 with
    | true =>
      rw [if_pos rfl, moveToFirst_spec]
      refine ⟨v :: p0 :: P0, by simp, ?_, by simp⟩
      rw [List.pairwise_cons]
      refine ⟨?_, hs⟩
      intro b hb
      have hp : comp p0 v = false := hasym v p0 hv
      rcases List.mem_cons.1 hb with h | h
      · rw [h]; exact hp
      · rw [List.pairwise_cons] at hs
        exact hneg b p0 v (hs.1 b h) hp
    | false =>
      rw [if_neg (by simp)]
      obtain ⟨A, B, hP, hres, hB, hA⟩ := unguardedLinearInsert_spec comp (p0 :: P0) v S
      refine ⟨A ++ v :: B, by rw [hres]; simp, ?_, ?_⟩
      · exact pairwise_insert comp hneg hasym A B v (hP ▸ hs) hB hA
      · rw [hP]; simp; omega

theorem unguardedInsertionSort_step {α : Type} (comp : α → α → Bool)
    (hneg : ∀ a b c, comp a b = false → comp b c = false → comp a c = false)
    (hasym : ∀ a b, comp a b = true → comp b a = false)
    (P : List α) (v : α) (S : List α)
    (hs : P.Pairwise (fun a b => comp b a = false)) :
    ∃ P', unguardedLinearInsert comp P.length (P ++ v :: S) = P' ++ S ∧
      P'.Pairwise (fun a b => comp b a = false) ∧ P'.length = P.length + 1 := by
  obtain ⟨A, B, hP, hres, hB, hA⟩ := unguardedLinearInsert_spec comp P v S
  refine ⟨A ++ v :: B, by rw [hres]; simp, ?_, ?_⟩
  · exact pairwise_insert comp hneg hasym A B v (hP ▸ hs) hB hA
  · rw [hP]; simp; omega

/-- The library's `__insertion_sort` on a prefix of the array: the prefix comes out
ascending and the rest is untouched. -/
theorem insertionSort_sorted {α : Type} (comp : α → α → Bool)
    (hneg : ∀ a b c, comp a b = false → comp b c = false → comp a c = false)
    (hasym : ∀ a b, comp a b = true → comp b a = false)
    (a : List α) (last : Nat) (h0 : 0 < last) (hlast : last ≤ a.length) :
    ∃ P', insertionSort comp a 0 last = P' ++ a.drop last ∧
      P'.Pairwise (fun x y => comp y x = false) ∧ P'.length = last := by
  cases a with
  | nil => simp at hlast; omega
  | cons a0 S0 =>
    have hn : last - 1 ≤ S0.length := by simp at hlast; omega
    obtain ⟨P', h, hs, hl⟩ := foldl_insert_sorted comp
      (fun a i => if compAt comp a i 0 then moveToFirst 0 i a
        else unguardedLinearInsert comp i a) 1
      (fun P v S hlo hs => insertionSort_step comp hneg hasym P v S hlo hs)
      (last - 1) [a0] S0 (by simp) (by simp) hn
    refine ⟨P', ?_, hs, by simp at hl; omega⟩
    unfold insertionSort
    rw [if_neg (by omega)]
    have hd : (a0 :: S0).drop last = S0.drop (last - 1) := by
      obtain ⟨k, rfl⟩ : ∃ k, last = k + 1 := ⟨last - 1, by omega⟩
      simp
    rw [hd, ← h]
    simp

/-- The library's `__final_insertion_sort` on the whole array returns it ascending,
whatever the introsort loop has left. -/
theorem finalInsertionSort_sorted {α : Type} (comp : α → α → Bool)
    (hneg : ∀ a b c, comp a b = false → comp b c = false → comp a c = false)
    (hasym : ∀ a b, comp a b = true → comp b a = false)
    (a : List α) (n : Nat) (hn : n = a.length) :
    (finalInsertionSort comp a 0 n).Pairwise (fun x y => comp y x = false) := by
  unfold finalInsertionSort
  by_cases h16 : n - 0 > 16
  · rw [if_pos h16]
    obtain ⟨P1, h1, hs1, hl1⟩ := insertionSort_sorted comp hneg hasym a 16 (by omega)
      (by omega)
    obtain ⟨P2, h2, hs2, hl2⟩ := foldl_insert_sorted comp
      (fun a i => unguardedLinearInsert comp i a) 0
      (fun P v S _ hs => unguardedInsertionSort_step comp hneg hasym P v S hs)
      (n - 16) P1 (a.drop 16) (by omega) hs1 (by simp; omega)
    unfold unguardedInsertionSort
    have e : (a.drop 16).drop (n - 16) = [] := by
      rw [List.drop_drop]
      exact List.drop_eq_nil_of_le (by omega)
    rw [e, hl1] at h2
    simp only [Nat.zero_add, h1, h2, List.append_nil]
    exact hs2
  · rw [if_neg h16]
    by_cases h0 : 0 < n
    · obtain ⟨P1, h1, hs1, _⟩ := insertionSort_sorted comp hneg hasym a n h0 (by omega)
      rw [h1, List.drop_eq_nil_of_le (by omega), List.append_nil]
      exact hs1
    · have : a = [] := List.length_eq_zero.1 (by omega)
      subst this
      have hz : n = 0 := by omega
      subst hz
      simp [insertionSort]

/-- The library sort returns the array ascending in the comparator: no element precedes
an earlier one. -/
theorem stlSort_sorted {α : Type} (comp : α → α → Bool)
    (hneg : ∀ a b c, comp a b = false → comp b c = false → comp a c = false)
    (hasym : ∀ a b, comp a b = true → comp b a = false) (a : List α) :
    (stlSort comp a).Pairwise (fun x y => comp y x = false) := by
  unfold stlSort
  split_ifs with h
  · rw [List.length_eq_zero.1 h]
    exact List.Pairwise.nil
  · have hl : (introsortLoop comp (lg a.length * 2) a 0 a.length).length = a.length :=
      (introsortLoop_perm comp _ a 0 a.length).length_eq
    have := finalInsertionSort_sorted comp hneg hasym
      (introsortLoop comp (lg a.length * 2) a 0 a.length) a.length hl.symm
    exact this

/-! ## The buffer after the Map loop is the library sort of the emitted pairs -/

theorem comparePairs_notLt_trans (client : MapReduceClient I K V O)
    (hswo : StrictWeakOrder client.lt) (a b c : K × V)
    (hab : comparePairs client a b = false) (hbc : comparePairs client b c = false) :
    comparePairs client a c = false :=
  hswo.notLt_trans a.1 b.1 c.1 hab hbc

theorem comparePairs_asymm (client : MapReduceClient I K V O)
    (hswo : StrictWeakOrder client.lt) (a b : K × V)
    (hab : comparePairs client a b = true) : comparePairs client b a = false :=
  hswo.asymm a.1 b.1 hab

/-- The library sort at `comparePairs` keeps the contract of `std::sort` when the key
order is a strict weak order. -/
theorem stlSort_contract (client : MapReduceClient I K V O)
    (hswo : StrictWeakOrder client.lt) :
    SortContract client.lt (stlSort (comparePairs client)) := by
  intro l
  refine ⟨stlSort_perm (comparePairs client) l, ?_⟩
  exact stlSort_sorted (comparePairs client) (comparePairs_notLt_trans client hswo)
    (comparePairs_asymm client hswo) l

/-- During the Reduce phase the output vector and the pairs still to be emitted are, up
to order, the initial output and the pairs returned by the reduce calls made so far. -/
theorem reduceOut_stepThread (client : MapReduceClient I K V O) (out0 : List O)
    (queue0 : List (List (K × V))) (N : Nat) (job : JobContext I K V O) (i : Nat)
    (inv : ReduceInv queue0 N job) (hc : job.client = client)
    (hout : (job.outputVector ++ pendingOuts job).Perm
      (out0 ++ reducedOut client job.reduceLog)) :
    (stepThread i job).client = client ∧
    ((stepThread i job).outputVector ++ pendingOuts (stepThread i job)).Perm
      (out0 ++ reducedOut client (stepThread i job).reduceLog) := by
  by_cases hil : i < job.threadsArray.length
  · have hi : i < N := by rw [← inv.length_eq]; exact hil
    have hpci := inv.arrived i hi
    have habs : ∀ {p : Pc O} {R : Prop}, (job.thread i).pc = p → p.arrived2 = false → R := by
      intro p R h1 h2
      rw [h1, h2] at hpci
      exact absurd hpci Bool.false_ne_true
    have hsame : ∀ (j' : JobContext I K V O) (pc : Pc O), pcs j' = pcs job →
        j'.client = client → j'.outputVector = job.outputVector →
        j'.reduceLog = job.reduceLog →
        (job.thread i).pc.pendingOut = [] → pc.pendingOut = [] →
        (j'.setPc i pc).client = client ∧
        ((j'.setPc i pc).outputVector ++ pendingOuts (j'.setPc i pc)).Perm
          (out0 ++ reducedOut client (j'.setPc i pc).reduceLog) := by
      intro j' pc h1 h2 h3 h4 h5 h6
      obtain ⟨A, B, hA, hB⟩ := pendingOuts_setPc job j' i pc hil h1
      refine ⟨h2, ?_⟩
      show (j'.outputVector ++ pendingOuts (j'.setPc i pc)).Perm
        (out0 ++ reducedOut client j'.reduceLog)
      rw [hB, h3, h4, h6]
      rw [hA, h5] at hout
      exact hout
    refine stepThread_cases job i
      (fun j' => j'.client = client ∧
        (j'.outputVector ++ pendingOuts j').Perm (out0 ++ reducedOut client j'.reduceLog))
      inv.fault_none hil ?_ ?_ ?_ ?_ ?_ ?_ ?_ ?_ ?_ ?_ ?_ ?_ ?_ ?_ ?_ ?_
    · intro h; exact habs h rfl
    · intro h; exact habs h rfl
    · intro h; exact habs h rfl
    · intro h; exact habs h rfl
    · intro num h; exact habs h rfl
    · intro h; exact habs h rfl
    · intro h; exact habs h rfl
    · intro h; exact habs h rfl
    · intro h; exact habs h rfl
    · intro _ _; exact ⟨hc, hout⟩
    · intro hpc _
      exact hsame job _ rfl hc rfl rfl (by rw [hpc]; rfl) rfl
    · intro hpc _
      exact hsame job _ rfl hc rfl rfl (by rw [hpc]; rfl) rfl
    · intro hpc rest g hq job1 h1
      subst h1
      obtain ⟨A, B, hA, hB⟩ := pendingOuts_setPc job
        ({ job with intermediateVectors := rest,
                    reduceLog := job.reduceLog ++ [(i, g)] } : JobContext I K V O)
        i (Pc.emitting (job.client.reduce g)) hil rfl
      refine ⟨hc, ?_⟩
      rw [hB]
      rw [hA, hpc] at hout
      show (job.outputVector ++ (A ++ job.client.reduce g ++ B)).Perm
        (out0 ++ reducedOut client (job.reduceLog ++ [(i, g)]))
      have hro : reducedOut client (job.reduceLog ++ [(i, g)]) =
          reducedOut client job.reduceLog ++ job.client.reduce g := by
        rw [hc]
        simp [reducedOut]
      rw [hro]
      simp only [Pc.pendingOut] at hout
      rw [← Multiset.coe_eq_coe] at hout ⊢
      simp only [← Multiset.coe_add, Multiset.coe_nil] at hout ⊢
      have h2 : (↑job.outputVector : Multiset O) + ↑A + ↑B =
          ↑out0 + ↑(reducedOut client job.reduceLog) := by
        rw [← hout]; abel
      rw [← add_assoc (↑out0 : Multiset O), ← h2]
      abel
    · intro hpc
      exact hsame (job.storeState (incr64 job.stateCounter)) _ rfl hc rfl rfl
        (by rw [hpc]; rfl) rfl
    · intro o rest hpc
      obtain ⟨A, B, hA, hB⟩ := pendingOuts_setPc job (emit3 o job) i (Pc.emitting rest)
        hil rfl
      refine ⟨hc, ?_⟩
      rw [hB]
      rw [hA, hpc] at hout
      show ((job.outputVector ++ [o]) ++ (A ++ rest ++ B)).Perm
        (out0 ++ reducedOut client job.reduceLog)
      simp only [Pc.pendingOut] at hout
      rw [← Multiset.coe_eq_coe] at hout ⊢
      simp only [← Multiset.coe_add, ← Multiset.cons_coe, ← Multiset.singleton_add,
        Multiset.coe_nil] at hout ⊢
      rw [← hout]
      abel
    · intro _; exact ⟨hc, hout⟩
  · rw [stepThread_idle job i (Or.inr (Nat.le_of_not_lt hil))]
    exact ⟨hc, hout⟩

theorem reduceOut_runSchedule (client : MapReduceClient I K V O) (out0 : List O)
    (queue0 : List (List (K × V))) (N : Nat) (schedule : List Nat)
    (job : JobContext I K V O)
    (inv : ReduceInv queue0 N job) (hc : job.client = client)
    (hout : (job.outputVector ++ pendingOuts job).Perm
      (out0 ++ reducedOut client job.reduceLog)) :
    (runSchedule schedule job).client = client ∧
    ((runSchedule schedule job).outputVector ++ pendingOuts (runSchedule schedule job)).Perm
      (out0 ++ reducedOut client (runSchedule schedule job).reduceLog) := by
  induction schedule generalizing job with
  | nil => exact ⟨hc, hout⟩
  | cons i rest ih =>
    obtain ⟨h1, h2⟩ := reduceOut_stepThread client out0 queue0 N job i inv hc hout
    exact ih _ (reduceInv_stepThread queue0 N job i inv) h1 h2

/-- Each step of worker `w` in the Reduce phase uses up one unit of its potential until
it has returned, and no step of another worker adds to it. -/
theorem reducePotential_step (queue0 : List (List (K × V))) (N : Nat)
    (job : JobContext I K V O) (i w : Nat) (inv : ReduceInv queue0 N job) (hw : w < N)
    (hnot : ((stepThread i job).thread w).pc ≠ Pc.done) :
    reducePotential (stepThread i job) w + (if i = w then 1 else 0) ≤
      reducePotential job w := by
  by_cases hil : i < job.threadsArray.length
  · have hi : i < N := by rw [← inv.length_eq]; exact hil
    have hpci := inv.arrived i hi
    have habs : ∀ {p : Pc O} {R : Prop}, (job.thread i).pc = p → p.arrived2 = false → R := by
      intro p R h1 h2
      rw [h1, h2] at hpci
      exact absurd hpci Bool.false_ne_true
    have hopen : barrier2Open job = true := by
      rw [barrier2Open_iff]
      intro j hj
      exact inv.arrived j (by rw [← inv.length_eq]; exact hj)
    have hset : ∀ (j' : JobContext I K V O) (pc : Pc O),
        j'.threadsArray = job.threadsArray → j'.client = job.client →
        (pc ≠ Pc.done →
          pc.reduceCost + queueCost job.client j'.intermediateVectors + 1 ≤
            (job.thread i).pc.reduceCost + queueCost job.client job.intermediateVectors) →
        queueCost job.client j'.intermediateVectors ≤
          queueCost job.client job.intermediateVectors →
        (((j'.setPc i pc).thread w).pc ≠ Pc.done →
          reducePotential (j'.setPc i pc) w + (if i = w then 1 else 0) ≤
            reducePotential job w) := by
      intro j' pc h1 h2 h3 h4 hnd
      have hpc := pc_setPc j' i w pc
      have hth : (j'.thread w).pc = (job.thread w).pc := by
        unfold JobContext.thread
        rw [h1]
      unfold reducePotential
      have hcl : (j'.setPc i pc).client = job.client := h2
      have hq : (j'.setPc i pc).intermediateVectors = j'.intermediateVectors := rfl
      rw [hcl, hq]
      by_cases hiw : i = w
      · subst hiw
        rw [if_pos ⟨rfl, by rw [h1]; exact hil⟩] at hpc
        rw [hpc] at hnd ⊢
        rw [if_pos rfl]
        exact h3 hnd
      · rw [if_neg (fun h => hiw h.1)] at hpc
        rw [hpc, hth, if_neg hiw]
        omega
    refine stepThread_cases job i
      (fun j' => (j'.thread w).pc ≠ Pc.done →
        reducePotential j' w + (if i = w then 1 else 0) ≤ reducePotential job w)
      inv.fault_none hil ?_ ?_ ?_ ?_ ?_ ?_ ?_ ?_ ?_ ?_ ?_ ?_ ?_ ?_ ?_ ?_ hnot
    · intro h; exact habs h rfl
    · intro h; exact habs h rfl
    · intro h; exact habs h rfl
    · intro h; exact habs h rfl
    · intro num h; exact habs h rfl
    · intro h; exact habs h rfl
    · intro h; exact habs h rfl
    · intro h; exact habs h rfl
    · intro h; exact habs h rfl
    · intro _ hclosed
      rw [hopen] at hclosed
      exact Bool.noConfusion hclosed
    · intro hpc _
      exact hset job _ rfl rfl (fun _ => by rw [hpc]; simp only [Pc.reduceCost]; omega) (Nat.le_refl _)
    · intro hpc _
      exact hset job _ rfl rfl (fun h => absurd rfl h) (Nat.le_refl _)
    · intro hpc rest g hq job1 h1
      subst h1
      have hcost : queueCost job.client job.intermediateVectors =
          queueCost job.client rest + ((job.client.reduce g).length + 2) := by
        rw [hq]
        simp [queueCost]
      refine hset _ _ rfl rfl ?_ ?_
      · intro _
        show (Pc.emitting (job.client.reduce g)).reduceCost + queueCost job.client rest + 1 ≤ _
        rw [hpc, hcost]
        simp only [Pc.reduceCost]
        omega
      · show queueCost job.client rest ≤ _
        rw [hcost]
        omega
    · intro hpc
      exact hset (job.storeState (incr64 job.stateCounter)) _ rfl rfl
        (fun _ => by
          show Pc.reduceCost Pc.reduceLoop + queueCost job.client job.intermediateVectors + 1 ≤ _
          rw [hpc]; simp only [Pc.reduceCost, List.length_cons, List.length_nil]; omega)
        (Nat.le_refl _)
    · intro o rest hpc
      exact hset (emit3 o job) _ rfl rfl
        (fun _ => by
          show (Pc.emitting rest).reduceCost + queueCost job.client job.intermediateVectors + 1 ≤ _
          rw [hpc]; simp only [Pc.reduceCost, List.length_cons, List.length_nil]; omega)
        (Nat.le_refl _)
    · intro hpc hnd
      rcases hpc with h | h
      · by_cases hiw : i = w
        · subst hiw
          exact absurd h hnd
        · rw [if_neg hiw]
          exact Nat.le_refl _
      · exact habs h rfl
  · rw [stepThread_idle job i (Or.inr (Nat.le_of_not_lt hil))]
    have hiw : i ≠ w := by
      intro h
      rw [inv.length_eq, h] at hil
      exact hil hw
    rw [if_neg hiw]
    exact Nat.le_refl _

theorem done_stepThread (job : JobContext I K V O) (i w : Nat)
    (h : (job.thread w).pc = Pc.done) : ((stepThread i job).thread w).pc = Pc.done := by
  by_cases hidle : job.fault ≠ none ∨ job.threadsArray.length ≤ i
  · rw [stepThread_idle job i hidle]; exact h
  · push_neg at hidle
    by_cases hwi : w = i
    · subst hwi
      rw [stepThread_active job w hidle.1 hidle.2, h]
      exact h
    · rw [(stepThread_others job i).2.1 w hwi]; exact h

theorem done_runSchedule (schedule : List Nat) (job : JobContext I K V O) (w : Nat)
    (h : (job.thread w).pc = Pc.done) : ((runSchedule schedule job).thread w).pc = Pc.done := by
  induction schedule generalizing job with
  | nil => exact h
  | cons i rest ih => exact ih _ (done_stepThread job i w h)

/-- A worker that has not returned after a schedule has taken fewer steps in the Reduce
phase than its potential allowed. -/
theorem reducePotential_run (queue0 : List (List (K × V))) (N : Nat) (schedule : List Nat)
    (job : JobContext I K V O) (w : Nat) (inv : ReduceInv queue0 N job) (hw : w < N)
    (hnot : ((runSchedule schedule job).thread w).pc ≠ Pc.done) :
    reducePotential (runSchedule schedule job) w + schedule.count w ≤
      reducePotential job w := by
  induction schedule generalizing job with
  | nil => simp [runSchedule]
  | cons i rest ih =>
    have inv1 := reduceInv_stepThread queue0 N job i inv
    have h1 := ih (stepThread i job) inv1 hnot
    have hnot1 : ((stepThread i job).thread w).pc ≠ Pc.done := by
      intro h
      exact hnot (done_runSchedule rest (stepThread i job) w h)
    have h2 := reducePotential_step queue0 N job i w inv hw hnot1
    have hcount : (i :: rest).count w = rest.count w + (if i = w then 1 else 0) := by
      rw [List.count_cons]
      by_cases h : i = w <;> simp [h]
    rw [hcount]
    show reducePotential (runSchedule rest (stepThread i job)) w + _ ≤ _
    omega

/-- C9: Reduce is invoked once per key group. From the point where all `N >= 1` workers
stand at the second barrier with a queue of key groups, along every schedule: nothing
fails; the groups popped so far (each pop is one call of `client.reduce` on the group
popped, logged with its worker) are, last first, exactly the tail of the original queue,
so no group is popped twice and nothing is popped from an empty queue; the output vector
and the pairs still to be emitted are, up to order, the initial output and the pairs that
`client.reduce` returned on the groups popped; a worker that was scheduled two times plus
the steps of the iterations on all groups has returned; and once every worker has
returned the queue is empty, every group of the original queue has been popped exactly
once, and the output holds, up to order, the initial output and the pairs of
`client.reduce` on each group of the queue. -/
theorem reduce_once_per_group (job : JobContext I K V O) (schedule : List Nat)
    (hN : 1 ≤ job.threadsArray.length) (hf : job.fault = none)
    (hstart : ∀ j, j < job.threadsArray.length → (job.thread j).pc = Pc.barrier2)
    (hlog : job.reduceLog = []) :
    (runSchedule schedule job).fault = none ∧
    job.intermediateVectors =
      (runSchedule schedule job).intermediateVectors ++
        ((runSchedule schedule job).reduceLog.map Prod.snd).reverse ∧
    (∀ e ∈ (runSchedule schedule job).reduceLog, e.1 < job.threadsArray.length) ∧
    ((runSchedule schedule job).outputVector ++ pendingOuts (runSchedule schedule job)).Perm
      (job.outputVector ++ reducedOut job.client (runSchedule schedule job).reduceLog) ∧
    (∀ w, w < job.threadsArray.length →
      2 + queueCost job.client job.intermediateVectors ≤ schedule.count w →
      ((runSchedule schedule job).thread w).pc = Pc.done) ∧
    (allDone (runSchedule schedule job) = true →
      (runSchedule schedule job).intermediateVectors = [] ∧
      (runSchedule schedule job).reduceLog.map Prod.snd = job.intermediateVectors.reverse ∧
      (runSchedule schedule job).reduceLog.length = job.intermediateVectors.length ∧
      (runSchedule schedule job).outputVector.Perm
        (job.outputVector ++
          (job.intermediateVectors.reverse.map job.client.reduce).flatten)) := by
  have inv0 : ReduceInv job.intermediateVectors job.threadsArray.length job := by
    constructor
    · rfl
    · exact hf
    · intro j hj; rw [hstart j hj]; rfl
    · rw [hlog]; simp
    · rw [hlog]; intro e he; exact absurd he (List.not_mem_nil _)
    · intro j hj hd; rw [hstart j hj] at hd; exact Pc.noConfusion hd
  have inv := reduceInv_runSchedule job.intermediateVectors job.threadsArray.length schedule
    job inv0
  have hp0 : pendingOuts job = [] := by
    apply pendingOuts_eq_nil
    intro j hj
    rw [hstart j hj]
    rfl
  have hout := (reduceOut_runSchedule job.client job.outputVector job.intermediateVectors
    job.threadsArray.length schedule job inv0 rfl
    (by rw [hp0, hlog]; simp [reducedOut])).2
  refine ⟨inv.fault_none, inv.popped, inv.workers, hout, ?_, ?_⟩
  · intro w hw hcount
    by_contra hnot
    have h1 := reducePotential_run job.intermediateVectors job.threadsArray.length schedule
      job w inv0 hw hnot
    have h2 : reducePotential job w = 2 + queueCost job.client job.intermediateVectors := by
      unfold reducePotential
      rw [hstart w hw]
      rfl
    have h3 : 1 ≤ reducePotential (runSchedule schedule job) w := by
      have ha := inv.arrived w hw
      unfold reducePotential
      cases hpc : ((runSchedule schedule job).thread w).pc with
      | done => exact absurd hpc hnot
      | barrier2 => simp only [Pc.reduceCost]; omega
      | reduceLoop => simp only [Pc.reduceCost]; omega
      | emitting p => simp only [Pc.reduceCost]; omega
      | start => rw [hpc] at ha; exact absurd ha (by simp [Pc.arrived2])
      | fetch => rw [hpc] at ha; exact absurd ha (by simp [Pc.arrived2])
      | mapped num => rw [hpc] at ha; exact absurd ha (by simp [Pc.arrived2])
      | barrier1 => rw [hpc] at ha; exact absurd ha (by simp [Pc.arrived2])
      | stuck => rw [hpc] at ha; exact absurd ha (by simp [Pc.arrived2])
    omega
  · intro hall
    have hdone := (allDone_iff _).mp hall
    have h0 := hdone 0 (by rw [inv.length_eq]; exact hN)
    have hq := inv.done_empty 0 hN h0
    have hp := inv.popped
    rw [hq, List.nil_append] at hp
    have hrev : (runSchedule schedule job).reduceLog.map Prod.snd =
        job.intermediateVectors.reverse := by
      rw [hp, List.reverse_reverse]
    refine ⟨hq, hrev, ?_, ?_⟩
    · have := congrArg List.length hrev
      simpa using this
    · have hpn : pendingOuts (runSchedule schedule job) = [] := by
        apply pendingOuts_eq_nil
        intro j hj
        rw [hdone j hj]
        rfl
      rw [hpn, List.append_nil] at hout
      have hro : reducedOut job.client (runSchedule schedule job).reduceLog =
          (job.intermediateVectors.reverse.map job.client.reduce).flatten := by
        rw [← hrev]
        unfold reducedOut
        rw [List.map_map]
        rfl
      rw [hro] at hout
      exact hout

set_option maxRecDepth 20000 in
/-- C9 on the scenario: three workers taking turns, eleven steps each, pop the three
groups, one each, emit the pair that `client.reduce` returns on each, and return with the
queue empty. -/
theorem reduce_once_per_group_witness :
    (∀ w, w < 3 → ((runSchedule roundRobin3Long abcShuffled).thread w).pc = Pc.done) ∧
    allDone (runSchedule roundRobin3Long abcShuffled) = true ∧
    (runSchedule roundRobin3Long abcShuffled).reduceLog =
      [(0, [(1, 'a')]), (1, [(2, 'b')]), (2, [(3, 'c')])] ∧
    (runSchedule roundRobin3Long abcShuffled).intermediateVectors = [] ∧
    (runSchedule roundRobin3Long abcShuffled).outputVector = [(1, 1), (2, 1), (3, 1)] ∧
    (runSchedule roundRobin3Long abcShuffled).outputVector.Perm
      (countClient.reduce [(1, 'a')] ++ countClient.reduce [(2, 'b')] ++
        countClient.reduce [(3, 'c')]) := by
  have h := reduce_once_per_group abcShuffled roundRobin3Long (by decide) rfl
    (by
      intro j hj
      have hj' : j < 3 := hj
      interval_cases j <;> rfl)
    rfl
  have hall : allDone (runSchedule roundRobin3Long abcShuffled) = true := by decide
  refine ⟨?_, hall, by decide, (h.2.2.2.2.2 hall).1, by decide, ?_⟩
  · intro w hw
    exact h.2.2.2.2.1 w hw (by interval_cases w <;> decide)
  · have := (h.2.2.2.2.2 hall).2.2.2
    simpa [abcShuffled, abcJob, startMapReduceJob, createJobContext] using this

end MapReduce

namespace VirtualMemory

open MapReduce (toInt32 toUInt64)

/-! ## The walk of `addPageToTree` -/

/-- The frames below entry `i` of a table. -/
theorem nodes_succ (c : MemoryConstants) (m : PhysicalMemory) (levels : Nat)
    (pageIndex frame parent offset : Int) :
    nodes c m (levels + 1) pageIndex frame parent offset =
      { frame := frame, parent := parent, offset := offset, pageIndex := pageIndex,
        levels := levels + 1 } ::
      (List.range c.PAGE_SIZE).flatMap (fun (i : Nat) =>
        if PMread m (cell c frame i) ≠ 0 then
          nodes c m levels (pageIndex * 2 ^ c.OFFSET_WIDTH + i) (PMread m (cell c frame i))
            frame i
        else []) := rfl

/-- What the walk computes, in terms of the frames it meets: it counts them, folds
`updateMaxPageInfo` over the pages among them in order, and leaves in `frameInfo` an empty
table off the path when it met one, and what it held before otherwise. -/
theorem addPageToTree_spec (c : MemoryConstants) (m : PhysicalMemory) (pageTable : Nat → Int)
    (q : Int) (levels : Nat) :
    ∀ (pageIndex frame parent offset : Int) (w : Walk),
    (addPageToTree c m pageTable q levels pageIndex frame parent offset w).frameIndex =
      w.frameIndex + (nodes c m levels pageIndex frame parent offset).length ∧
    (addPageToTree c m pageTable q levels pageIndex frame parent offset w).maxPageInfo =
      maxOver c q ((nodes c m levels pageIndex frame parent offset).filter Node.isPage)
        w.maxPageInfo ∧
    (((∀ n ∈ nodes c m levels pageIndex frame parent offset,
        ¬ (emptyTable c m n = true ∧ onPath c pageTable n.frame = false)) ∧
      (addPageToTree c m pageTable q levels pageIndex frame parent offset w).frameInfo =
        w.frameInfo) ∨
     ∃ n ∈ nodes c m levels pageIndex frame parent offset,
       emptyTable c m n = true ∧ onPath c pageTable n.frame = false ∧
       (addPageToTree c m pageTable q levels pageIndex frame parent offset w).frameInfo =
         { frame := n.frame, parentFrame := n.parent, offset := n.offset }) := by
  induction levels with
  | zero =>
    intro pageIndex frame parent offset w
    refine ⟨?_, ?_, Or.inl ⟨?_, rfl⟩⟩
    · simp [addPageToTree, nodes]
    · simp [addPageToTree, nodes, maxOver, Node.isPage]
    · intro n hn
      simp only [nodes, List.mem_singleton] at hn
      rw [hn]
      simp [emptyTable, Node.isPage]
  | succ levels ih =>
    intro pageIndex frame parent offset w
    -- the children of entry `i`
    let kids : Nat → List Node := fun i =>
      if PMread m (cell c frame i) ≠ 0 then
        nodes c m levels (pageIndex * 2 ^ c.OFFSET_WIDTH + i) (PMread m (cell c frame i))
          frame i
      else []
    let step : Bool × Walk → Nat → Bool × Walk := fun acc i =>
      if PMread m (cell c frame i) ≠ 0 then
        (false, addPageToTree c m pageTable q levels
          (pageIndex * 2 ^ c.OFFSET_WIDTH + i) (PMread m (cell c frame i)) frame i acc.2)
      else acc
    have hfold : ∀ (l : List Nat) (b : Bool) (w0 : Walk),
        (l.foldl step (b, w0)).1 =
          (b && l.all (fun (i : Nat) => PMread m (cell c frame i) == 0)) ∧
        (l.foldl step (b, w0)).2.frameIndex = w0.frameIndex + (l.flatMap kids).length ∧
        (l.foldl step (b, w0)).2.maxPageInfo =
          maxOver c q ((l.flatMap kids).filter Node.isPage) w0.maxPageInfo ∧
        (((∀ n ∈ l.flatMap kids,
            ¬ (emptyTable c m n = true ∧ onPath c pageTable n.frame = false)) ∧
          (l.foldl step (b, w0)).2.frameInfo = w0.frameInfo) ∨
         ∃ n ∈ l.flatMap kids, emptyTable c m n = true ∧ onPath c pageTable n.frame = false ∧
           (l.foldl step (b, w0)).2.frameInfo =
             { frame := n.frame, parentFrame := n.parent, offset := n.offset }) := by
      intro l
      induction l with
      | nil =>
        intro b w0
        refine ⟨by simp, by simp, by simp [maxOver], Or.inl ⟨by simp, rfl⟩⟩
      | cons i rest ihl =>
        intro b w0
        rw [List.foldl_cons]
        by_cases ha : PMread m (cell c frame i) ≠ 0
        · have hstep : step (b, w0) i = (false, addPageToTree c m pageTable q levels
              (pageIndex * 2 ^ c.OFFSET_WIDTH + i) (PMread m (cell c frame i)) frame i w0) := by
            show (if PMread m (cell c frame i) ≠ 0 then _ else _) = _
            rw [if_pos ha]
          have hkids : kids i = nodes c m levels (pageIndex * 2 ^ c.OFFSET_WIDTH + i)
              (PMread m (cell c frame i)) frame i := by
            show (if PMread m (cell c frame i) ≠ 0 then _ else _) = _
            rw [if_pos ha]
          rw [hstep]
          obtain ⟨h1, h2, h3, h4⟩ := ihl false (addPageToTree c m pageTable q levels
            (pageIndex * 2 ^ c.OFFSET_WIDTH + i) (PMread m (cell c frame i)) frame i w0)
          obtain ⟨k1, k2, k3⟩ := ih (pageIndex * 2 ^ c.OFFSET_WIDTH + i)
            (PMread m (cell c frame i)) frame i w0
          rw [← hkids] at k1 k2 k3
          refine ⟨?_, ?_, ?_, ?_⟩
          · rw [h1]
            have : (PMread m (cell c frame i) == 0) = false := by
              simpa using ha
            simp [this]
          · rw [h2, k1, List.flatMap_cons, List.length_append]
            omega
          · rw [h3, k2, List.flatMap_cons, List.filter_append]
            simp [maxOver, List.foldl_append]
          · rw [List.flatMap_cons]
            rcases h4 with ⟨h4a, h4b⟩ | ⟨n, hn, h4a, h4b, h4c⟩
            · rcases k3 with ⟨k3a, k3b⟩ | ⟨n, hn, k3a, k3b, k3c⟩
              · left
                refine ⟨?_, h4b.trans k3b⟩
                intro n hn
                rcases List.mem_append.mp hn with h | h
                · exact k3a n h
                · exact h4a n h
              · right
                exact ⟨n, List.mem_append_left _ hn, k3a, k3b, h4b.trans k3c⟩
            · right
              exact ⟨n, List.mem_append_right _ hn, h4a, h4b, h4c⟩
        · have ha' : PMread m (cell c frame i) = 0 := not_not.mp ha
          have hstep : step (b, w0) i = (b, w0) := by
            show (if PMread m (cell c frame i) ≠ 0 then _ else _) = _
            rw [if_neg ha]
          have hkids : kids i = [] := by
            show (if PMread m (cell c frame i) ≠ 0 then _ else _) = _
            rw [if_neg ha]
          rw [hstep]
          obtain ⟨h1, h2, h3, h4⟩ := ihl b w0
          refine ⟨?_, ?_, ?_, ?_⟩
          · rw [h1]
            simp [ha']
          · rw [h2, List.flatMap_cons, hkids, List.nil_append]
          · rw [h3, List.flatMap_cons, hkids, List.nil_append]
          · rw [List.flatMap_cons, hkids, List.nil_append]
            exact h4
    obtain ⟨h1, h2, h3, h4⟩ := hfold (List.range c.PAGE_SIZE) true
      { w with frameIndex := w.frameIndex + 1 }
    have hnodes : nodes c m (levels + 1) pageIndex frame parent offset =
        Node.mk frame parent offset pageIndex (levels + 1) ::
          (List.range c.PAGE_SIZE).flatMap kids := rfl
    have hself : emptyTable c m (Node.mk frame parent offset pageIndex (levels + 1)) =
        (List.range c.PAGE_SIZE).all (fun (i : Nat) => PMread m (cell c frame i) == 0) := by
      simp [emptyTable, Node.isPage]
    have hunf : addPageToTree c m pageTable q (levels + 1) pageIndex frame parent offset w =
        if ((List.range c.PAGE_SIZE).foldl step
            (true, { w with frameIndex := w.frameIndex + 1 })).1 then
          if (List.range c.TABLES_DEPTH).any (fun i => pageTable i == frame) then
            ((List.range c.PAGE_SIZE).foldl step
              (true, { w with frameIndex := w.frameIndex + 1 })).2
          else { ((List.range c.PAGE_SIZE).foldl step
              (true, { w with frameIndex := w.frameIndex + 1 })).2 with
            frameInfo := { frame := frame, parentFrame := parent, offset := offset } }
        else ((List.range c.PAGE_SIZE).foldl step
            (true, { w with frameIndex := w.frameIndex + 1 })).2 := by
      rw [addPageToTree]
    rw [hunf, hnodes]
    simp only [Bool.true_and] at h1
    have hfilter : (Node.mk frame parent offset pageIndex (levels + 1) ::
        (List.range c.PAGE_SIZE).flatMap kids).filter Node.isPage =
        ((List.range c.PAGE_SIZE).flatMap kids).filter Node.isPage := by
      rw [List.filter_cons_of_neg]
      simp [Node.isPage]
    rw [List.length_cons, hfilter]
    generalize (List.range c.PAGE_SIZE).foldl step
      (true, { w with frameIndex := w.frameIndex + 1 }) = res at h1 h2 h3 h4 ⊢
    have hpath : onPath c pageTable frame =
        (List.range c.TABLES_DEPTH).any (fun i => pageTable i == frame) := rfl
    by_cases hemp : res.1 = true
    · rw [if_pos hemp]
      rw [hemp] at h1
      -- no child at all
      have hnokids : (List.range c.PAGE_SIZE).flatMap kids = [] := by
        rw [List.flatMap_eq_nil_iff]
        intro i hi
        have := (List.all_eq_true.mp h1.symm) i hi
        show (if PMread m (cell c frame i) ≠ 0 then _ else _) = _
        rw [if_neg (by simpa using this)]
      by_cases hp : (List.range c.TABLES_DEPTH).any (fun i => pageTable i == frame) = true
      · rw [if_pos hp]
        refine ⟨by rw [h2]; push_cast; ring, h3, Or.inl ⟨?_, ?_⟩⟩
        · intro n hn
          rw [hnokids] at hn
          rw [List.mem_singleton.mp hn]
          intro hc
          rw [hpath, hp] at hc
          exact Bool.noConfusion hc.2
        · rcases h4 with ⟨_, h4b⟩ | ⟨n, hn, _⟩
          · exact h4b
          · rw [hnokids] at hn
            exact absurd hn (List.not_mem_nil _)
      · rw [if_neg hp]
        refine ⟨by rw [h2]; push_cast; ring, h3, Or.inr ⟨_, List.mem_cons_self _ _, ?_, ?_, rfl⟩⟩
        · rw [hself]; exact h1.symm
        · rw [hpath]
          simpa using hp
    · rw [if_neg hemp]
      have hemp' : res.1 = false := by simpa using hemp
      rw [hemp'] at h1
      refine ⟨by rw [h2]; push_cast; ring, h3, ?_⟩
      rcases h4 with ⟨h4a, h4b⟩ | ⟨n, hn, h4a, h4b, h4c⟩
      · left
        refine ⟨?_, h4b⟩
        intro n hn
        rcases List.mem_cons.mp hn with h | h
        · rw [h, hself, ← h1]
          intro hc
          exact Bool.noConfusion hc.1
        · exact h4a n h
      · right
        exact ⟨n, List.mem_cons_of_mem _ hn, h4a, h4b, h4c⟩

/-- The information that `updateMaxPageInfo` records for a page. -/
theorem updateMaxPageInfo_eq (c : MemoryConstants) (q : Int) (n : Node) (mp : MaxPageInfo) :
    updateMaxPageInfo c q n.pageIndex n.frame n.parent n.offset mp =
      if distance c q n.pageIndex > mp.distance then
        { frame := n.frame, distance := distance c q n.pageIndex, pageNumber := n.pageIndex,
          parentFrame := n.parent, offset := n.offset }
      else mp := rfl

/-- The candidate kept by the walk: the first page, in the order of the walk, among those
of greatest distance, when some page has a greater distance than the initial one. -/
theorem maxOver_spec (c : MemoryConstants) (q : Int) (pages : List Node) :
    ∀ mp0 : MaxPageInfo,
    ((∀ n ∈ pages, distance c q n.pageIndex ≤ mp0.distance) ∧ maxOver c q pages mp0 = mp0) ∨
    ∃ before n after, pages = before ++ n :: after ∧
      (∀ x ∈ before, distance c q x.pageIndex < distance c q n.pageIndex) ∧
      (∀ x ∈ after, distance c q x.pageIndex ≤ distance c q n.pageIndex) ∧
      mp0.distance < distance c q n.pageIndex ∧
      maxOver c q pages mp0 =
        { frame := n.frame, distance := distance c q n.pageIndex, pageNumber := n.pageIndex,
          parentFrame := n.parent, offset := n.offset } := by
  induction pages with
  | nil =>
    intro mp0
    exact Or.inl ⟨fun n hn => absurd hn (List.not_mem_nil _), rfl⟩
  | cons n rest ih =>
    intro mp0
    have hunf : maxOver c q (n :: rest) mp0 =
        maxOver c q rest (updateMaxPageInfo c q n.pageIndex n.frame n.parent n.offset mp0) := rfl
    rw [hunf, updateMaxPageInfo_eq]
    by_cases hd : distance c q n.pageIndex > mp0.distance
    · rw [if_pos hd]
      rcases ih (MaxPageInfo.mk n.frame (distance c q n.pageIndex) n.pageIndex n.parent
        n.offset) with ⟨h1, h2⟩ | ⟨before, x, after, h1, h2, h3, h4, h5⟩
      · right
        exact ⟨[], n, rest, rfl, fun x hx => absurd hx (List.not_mem_nil _), h1, hd, h2⟩
      · right
        refine ⟨n :: before, x, after, by rw [h1]; rfl, ?_, h3, lt_trans hd h4, h5⟩
        intro y hy
        rcases List.mem_cons.mp hy with h | h
        · rw [h]; exact h4
        · exact h2 y h
    · rw [if_neg hd]
      rcases ih mp0 with ⟨h1, h2⟩ | ⟨before, x, after, h1, h2, h3, h4, h5⟩
      · left
        refine ⟨?_, h2⟩
        intro y hy
        rcases List.mem_cons.mp hy with h | h
        · rw [h]; exact not_lt.mp hd
        · exact h1 y h
      · right
        refine ⟨n :: before, x, after, by rw [h1]; rfl, ?_, h3, h4, h5⟩
        intro y hy
        rcases List.mem_cons.mp hy with h | h
        · rw [h]; exact lt_of_le_of_lt (not_lt.mp hd) h4
        · exact h2 y h

/-- Below a frame other than 0, the walk meets no frame 0. -/
theorem nodes_frame_ne_zero (c : MemoryConstants) (m : PhysicalMemory) (levels : Nat) :
    ∀ (pageIndex frame parent offset : Int), frame ≠ 0 →
      ∀ n ∈ nodes c m levels pageIndex frame parent offset, n.frame ≠ 0 := by
  induction levels with
  | zero =>
    intro pageIndex frame parent offset hf n hn
    simp only [nodes, List.mem_singleton] at hn
    rw [hn]; exact hf
  | succ levels ih =>
    intro pageIndex frame parent offset hf n hn
    rw [nodes_succ] at hn
    rcases List.mem_cons.mp hn with h | h
    · rw [h]; exact hf
    · obtain ⟨i, _, hi⟩ := List.mem_flatMap.mp h
      by_cases ha : PMread m (cell c frame i) ≠ 0
      · rw [if_pos ha] at hi
        exact ih _ _ _ _ ha n hi
      · rw [if_neg ha] at hi
        exact absurd hi (List.not_mem_nil _)

/-- In the tree, only the root has frame 0, and the root is a table when there is at
least one level. -/
theorem treeNodes_frame (c : MemoryConstants) (m : PhysicalMemory) (hTD : 1 ≤ c.TABLES_DEPTH) :
    ∀ n ∈ treeNodes c m, n.frame = 0 → n.isPage = false := by
  intro n hn h0
  unfold treeNodes at hn
  obtain ⟨levels, hl⟩ : ∃ levels, c.TABLES_DEPTH = levels + 1 := ⟨c.TABLES_DEPTH - 1, by omega⟩
  rw [hl, nodes_succ] at hn
  rcases List.mem_cons.mp hn with h | h
  · rw [h]; rfl
  · obtain ⟨i, _, hi⟩ := List.mem_flatMap.mp h
    by_cases ha : PMread m (cell c 0 i) ≠ 0
    · rw [if_pos ha] at hi
      exact absurd h0 (nodes_frame_ne_zero c m levels _ _ _ _ ha n hi)
    · rw [if_neg ha] at hi
      exact absurd hi (List.not_mem_nil _)

theorem toUInt64_small (x : Int) (h0 : 0 ≤ x) (h1 : x < 2 ^ 31) : toUInt64 x = x.toNat := by
  unfold toUInt64
  rw [Int.emod_eq_of_lt h0 (by omega)]

theorem toInt32_small (x : Int) (h0 : 0 ≤ x) (h1 : x < 2 ^ 31) : toInt32 x = x := by
  unfold toInt32
  rw [Int.emod_eq_of_lt (by omega) (by omega)]
  omega

/-- With `NUM_PAGES` in the range of `int`, the distance of the code is the cyclic
distance between the two page numbers. -/
theorem distance_eq (c : MemoryConstants) (hN : c.NUM_PAGES < 2 ^ 31) (q p : Int) :
    distance c q p = min ((c.NUM_PAGES : Int) - absolute (q - p)) (absolute (q - p)) := by
  unfold distance
  rw [toInt32_small _ (Int.natCast_nonneg _) (by exact_mod_cast hN)]

theorem distance_nonneg (c : MemoryConstants) (hN : c.NUM_PAGES < 2 ^ 31) (q p : Int)
    (hq : 0 ≤ q ∧ q < c.NUM_PAGES) (hp : 0 ≤ p ∧ p < c.NUM_PAGES) : 0 ≤ distance c q p := by
  rw [distance_eq c hN]
  unfold min absolute
  split <;> split <;> omega

theorem walkTree_spec (c : MemoryConstants) (m : PhysicalMemory) (pageTable : Nat → Int)
    (q : Int) :
    (walkTree c m pageTable q).frameIndex = (treeNodes c m).length ∧
    (walkTree c m pageTable q).maxPageInfo =
      maxOver c q ((treeNodes c m).filter Node.isPage) initializeMaxPageInfo ∧
    (((∀ n ∈ treeNodes c m,
        ¬ (emptyTable c m n = true ∧ onPath c pageTable n.frame = false)) ∧
      (walkTree c m pageTable q).frameInfo = initializeFrameInfo) ∨
     ∃ n ∈ treeNodes c m, emptyTable c m n = true ∧ onPath c pageTable n.frame = false ∧
       (walkTree c m pageTable q).frameInfo =
         { frame := n.frame, parentFrame := n.parent, offset := n.offset }) := by
  obtain ⟨h1, h2, h3⟩ := addPageToTree_spec c m pageTable q c.TABLES_DEPTH 0 0 0 0
    { frameInfo := initializeFrameInfo, frameIndex := 0, maxPageInfo := initializeMaxPageInfo }
  refine ⟨?_, h2, h3⟩
  unfold walkTree treeNodes
  rw [h1]
  simp

/-! ## Frame selection -/

theorem PMread_PMwrite (m : PhysicalMemory) (a b : Nat) (v : Int) :
    PMread (PMwrite m a v) b = if b = a then v else PMread m b := rfl

theorem swap_PMwrite (m : PhysicalMemory) (a : Nat) (v : Int) :
    (PMwrite m a v).swap = m.swap := rfl

theorem ram_lt (c : MemoryConstants) (hc : Sized c) :
    c.NUM_FRAMES * c.PAGE_SIZE < 2 ^ 64 := by
  have h1 := hc.frames_int
  have h2 := hc.words_int
  have h3 : c.NUM_FRAMES * c.PAGE_SIZE ≤ 2 ^ 31 * 2 ^ 31 :=
    Nat.mul_le_mul (Nat.le_of_lt h1) (Nat.le_of_lt h2)
  omega

theorem cell_eq (c : MemoryConstants) (hc : Sized c) (f : Int) (i : Nat)
    (hf : 0 ≤ f ∧ f < c.NUM_FRAMES) (hi : i < c.PAGE_SIZE) :
    cell c f i = f.toNat * c.PAGE_SIZE + i ∧ cell c f i < c.NUM_FRAMES * c.PAGE_SIZE := by
  obtain ⟨g, rfl⟩ := Int.eq_ofNat_of_zero_le hf.1
  have hg : g < c.NUM_FRAMES := by exact_mod_cast hf.2
  have h1 : g * c.PAGE_SIZE + i < c.NUM_FRAMES * c.PAGE_SIZE := by
    calc g * c.PAGE_SIZE + i < g * c.PAGE_SIZE + c.PAGE_SIZE := by omega
      _ = (g + 1) * c.PAGE_SIZE := by ring
      _ ≤ c.NUM_FRAMES * c.PAGE_SIZE := Nat.mul_le_mul_right _ hg
  have h2 := ram_lt c hc
  unfold cell toUInt64
  have h3 : ((g : Int) * (c.PAGE_SIZE : Int) + (i : Int)) = ((g * c.PAGE_SIZE + i : Nat) : Int) := by
    push_cast; ring
  rw [h3, Int.toNat_ofNat]
  have h4 : (((g * c.PAGE_SIZE + i : Nat) : Int) % 2 ^ 64) = ((g * c.PAGE_SIZE + i : Nat) : Int) := by
    apply Int.emod_eq_of_lt
    · exact Int.ofNat_nonneg _
    · have : g * c.PAGE_SIZE + i < 2 ^ 64 := by omega
      exact_mod_cast this
  rw [h4, Int.toNat_ofNat]
  exact ⟨rfl, h1⟩

theorem cell_inj (c : MemoryConstants) (hc : Sized c) (f g : Int) (i j : Nat)
    (hf : 0 ≤ f ∧ f < c.NUM_FRAMES) (hg : 0 ≤ g ∧ g < c.NUM_FRAMES)
    (hi : i < c.PAGE_SIZE) (hj : j < c.PAGE_SIZE) (h : cell c f i = cell c g j) :
    f = g ∧ i = j := by
  rw [(cell_eq c hc f i hf hi).1, (cell_eq c hc g j hg hj).1] at h
  have hps : 0 < c.PAGE_SIZE := by omega
  have h1 : (f.toNat * c.PAGE_SIZE + i) / c.PAGE_SIZE = (g.toNat * c.PAGE_SIZE + j) / c.PAGE_SIZE := by
    rw [h]
  have h2 : (f.toNat * c.PAGE_SIZE + i) % c.PAGE_SIZE = (g.toNat * c.PAGE_SIZE + j) % c.PAGE_SIZE := by
    rw [h]
  rw [Nat.mul_comm f.toNat, Nat.mul_comm g.toNat, Nat.mul_add_div hps, Nat.mul_add_div hps,
    Nat.div_eq_of_lt hi, Nat.div_eq_of_lt hj] at h1
  rw [Nat.mul_comm f.toNat, Nat.mul_comm g.toNat, Nat.mul_add_mod, Nat.mul_add_mod,
    Nat.mod_eq_of_lt hi, Nat.mod_eq_of_lt hj] at h2
  refine ⟨?_, h2⟩
  have : f.toNat = g.toNat := by omega
  omega

/-! ## The tree under a change of one table entry -/

theorem nodes_succ_kids (c : MemoryConstants) (m : PhysicalMemory) (levels : Nat)
    (pageIndex frame parent offset : Int) :
    nodes c m (levels + 1) pageIndex frame parent offset =
      Node.mk frame parent offset pageIndex (levels + 1) ::
        (List.range c.PAGE_SIZE).flatMap (kidsAt c m levels pageIndex frame) := rfl

theorem mem_kidsAt (c : MemoryConstants) (m : PhysicalMemory) (levels : Nat)
    (pageIndex frame parent offset : Int) (i : Nat) (hi : i < c.PAGE_SIZE) :
    ∀ n ∈ kidsAt c m levels pageIndex frame i,
      n ∈ nodes c m (levels + 1) pageIndex frame parent offset := by
  intro n hn
  rw [nodes_succ_kids]
  exact List.mem_cons_of_mem _ (List.mem_flatMap.mpr ⟨i, List.mem_range.mpr hi, hn⟩)

theorem nodes_levels_le (c : MemoryConstants) (m : PhysicalMemory) (levels : Nat) :
    ∀ (pageIndex frame parent offset : Int),
      ∀ n ∈ nodes c m levels pageIndex frame parent offset, n.levels ≤ levels := by
  induction levels with
  | zero =>
    intro pageIndex frame parent offset n hn
    simp only [nodes, List.mem_singleton] at hn
    rw [hn]
  | succ levels ih =>
    intro pageIndex frame parent offset n hn
    rw [nodes_succ_kids] at hn
    rcases List.mem_cons.mp hn with h | h
    · rw [h]
    · obtain ⟨i, _, hi⟩ := List.mem_flatMap.mp h
      unfold kidsAt at hi
      split at hi
      · exact Nat.le_succ_of_le (ih _ _ _ _ n hi)
      · exact absurd hi (List.not_mem_nil _)

theorem kidsAt_levels_le (c : MemoryConstants) (m : PhysicalMemory) (levels : Nat)
    (pageIndex frame : Int) (i : Nat) :
    ∀ n ∈ kidsAt c m levels pageIndex frame i, n.levels ≤ levels := by
  intro n hn
  unfold kidsAt at hn
  split at hn
  · exact nodes_levels_le c m levels _ _ _ _ n hn
  · exact absurd hn (List.not_mem_nil _)

/-- Copies of a list, one after the other. -/
theorem replicate_flatten_add {α : Type} (a b : Nat) (K : List α) :
    (List.replicate (a + b) K).flatten =
      (List.replicate a K).flatten ++ (List.replicate b K).flatten := by
  rw [List.replicate_add, List.flatten_append]

theorem perm_flatMap_replicate {α : Type} (K K' : List α) (g g' : Nat → List α)
    (κ : Nat → Nat) (l : List Nat)
    (h : ∀ i ∈ l, (g' i ++ (List.replicate (κ i) K).flatten).Perm
      (g i ++ (List.replicate (κ i) K').flatten)) :
    (l.flatMap g' ++ (List.replicate (l.map κ).sum K).flatten).Perm
      (l.flatMap g ++ (List.replicate (l.map κ).sum K').flatten) := by
  induction l with
  | nil => simp
  | cons i rest ih =>
    have h1 := h i (List.mem_cons_self _ _)
    have h2 := ih (fun j hj => h j (List.mem_cons_of_mem _ hj))
    simp only [List.flatMap_cons, List.map_cons, List.sum_cons, replicate_flatten_add]
    rw [← Multiset.coe_eq_coe] at h1 h2 ⊢
    simp only [← Multiset.coe_add] at h1 h2 ⊢
    calc (↑(g' i) : Multiset α) + ↑(rest.flatMap g') +
          (↑(List.replicate (κ i) K).flatten + ↑(List.replicate (rest.map κ).sum K).flatten)
        = (↑(g' i) + ↑(List.replicate (κ i) K).flatten) +
          (↑(rest.flatMap g') + ↑(List.replicate (rest.map κ).sum K).flatten) := by abel
      _ = (↑(g i) + ↑(List.replicate (κ i) K').flatten) +
          (↑(rest.flatMap g) + ↑(List.replicate (rest.map κ).sum K').flatten) := by rw [h1, h2]
      _ = _ := by abel

theorem tableCount_cons (f0 : Int) (n : Node) (l : List Node) :
    tableCount f0 (n :: l) = (if !n.isPage && n.frame == f0 then 1 else 0) + tableCount f0 l := by
  unfold tableCount
  rw [List.countP_cons]
  omega

theorem tableCount_flatMap (f0 : Int) (g : Nat → List Node) (l : List Nat) :
    tableCount f0 (l.flatMap g) = (l.map (fun i => tableCount f0 (g i))).sum := by
  unfold tableCount
  induction l with
  | nil => rfl
  | cons i rest ih =>
    rw [List.flatMap_cons, List.countP_append, ih]
    rfl

theorem sum_indicator (n o0 : Nat) (ho : o0 < n) (b : Prop) [Decidable b] :
    ((List.range n).map (fun i => if b ∧ i = o0 then 1 else 0)).sum = if b then 1 else 0 := by
  by_cases hb : b
  · simp only [hb, true_and, if_true]
    induction n with
    | zero => omega
    | succ n ih =>
      rw [List.range_succ, List.map_append, List.sum_append]
      by_cases h : o0 < n
      · rw [ih h]
        simp
        omega
      · have he : o0 = n := by omega
        have hz : ((List.range n).map (fun i => if i = o0 then 1 else 0)).sum = 0 := by
          apply List.sum_eq_zero
          intro x hx
          obtain ⟨i, hi, rfl⟩ := List.mem_map.mp hx
          have := List.mem_range.mp hi
          rw [if_neg (by omega)]
        rw [hz, he]
        simp
  · simp [hb]

/-- The four ways out of `selectFrameForPage`. -/
theorem selectFrameForPage_cases (c : MemoryConstants) (m : PhysicalMemory)
    (pageTable : Nat → Int) (q : Int) (hN : c.NUM_PAGES < 2 ^ 31)
    (hroot : onPath c pageTable 0 = true) (hq : 0 ≤ q ∧ q < c.NUM_PAGES)
    (hpages : ∀ n ∈ treeNodes c m, n.isPage = true →
      0 ≤ n.pageIndex ∧ n.pageIndex < c.NUM_PAGES) :
    (∃ n ∈ treeNodes c m, emptyTable c m n = true ∧ onPath c pageTable n.frame = false ∧
        selectFrameForPage c m pageTable q =
          (n.frame, PMwrite m (cell c n.parent n.offset) 0)) ∨
    ((∀ n ∈ treeNodes c m,
        ¬ (emptyTable c m n = true ∧ onPath c pageTable n.frame = false)) ∧
      ((treeNodes c m).length : Int) < c.NUM_FRAMES ∧
      selectFrameForPage c m pageTable q = (((treeNodes c m).length : Int), m)) ∨
    ((∀ n ∈ treeNodes c m,
        ¬ (emptyTable c m n = true ∧ onPath c pageTable n.frame = false)) ∧
      ¬ ((treeNodes c m).length : Int) < c.NUM_FRAMES ∧
      ∃ n ∈ treeNodes c m, n.isPage = true ∧
        selectFrameForPage c m pageTable q =
          (n.frame,
            PMwrite (PMevict c m (toUInt64 n.frame) (toUInt64 n.pageIndex))
              (cell c n.parent n.offset) 0)) ∨
    ((∀ n ∈ treeNodes c m,
        ¬ (emptyTable c m n = true ∧ onPath c pageTable n.frame = false)) ∧
      ¬ ((treeNodes c m).length : Int) < c.NUM_FRAMES ∧
      (∀ n ∈ treeNodes c m, n.isPage = false) ∧
      selectFrameForPage c m pageTable q = (-1, m)) := by
  obtain ⟨h1, h2, h3⟩ := walkTree_spec c m pageTable q
  have hTD : 1 ≤ c.TABLES_DEPTH := by
    unfold onPath at hroot
    obtain ⟨i, hi, _⟩ := List.any_eq_true.mp hroot
    have := List.mem_range.mp hi
    omega
  rcases h3 with ⟨h3a, h3b⟩ | ⟨n, hn, h3a, h3b, h3c⟩
  · right
    have hfi : (walkTree c m pageTable q).frameInfo.frame = 0 := by rw [h3b]; rfl
    by_cases hlt : ((treeNodes c m).length : Int) < c.NUM_FRAMES
    · left
      refine ⟨h3a, hlt, ?_⟩
      unfold selectFrameForPage
      simp only []
      rw [if_neg (by rw [hfi]; simp), if_pos (by rw [h1]; exact hlt), h1]
    · right
      rcases maxOver_spec c q ((treeNodes c m).filter Node.isPage) initializeMaxPageInfo with
        ⟨h4, h5⟩ | ⟨before, n, after, h4, _, _, _, h8⟩
      · right
        refine ⟨h3a, hlt, ?_, ?_⟩
        · intro x hx
          by_contra hp
          have hp' : x.isPage = true := by simpa using hp
          have hxf : x ∈ (treeNodes c m).filter Node.isPage := List.mem_filter.mpr ⟨hx, hp'⟩
          have := distance_nonneg c hN q x.pageIndex hq (hpages x hx hp')
          have h9 := h4 x hxf
          have h10 : initializeMaxPageInfo.distance = -1 := rfl
          omega
        · unfold selectFrameForPage
          simp only []
          rw [if_neg (by rw [hfi]; simp), if_neg (by rw [h1]; exact hlt), h2, h5]
          rfl
      · left
        have hn : n ∈ (treeNodes c m).filter Node.isPage := by
          rw [h4]; exact List.mem_append_right _ (List.mem_cons_self _ _)
        have hn' := List.mem_filter.mp hn
        have hne0 : n.frame ≠ 0 := by
          intro h0
          have := treeNodes_frame c m hTD n hn'.1 h0
          rw [hn'.2] at this
          exact Bool.noConfusion this
        refine ⟨h3a, hlt, n, hn'.1, hn'.2, ?_⟩
        unfold selectFrameForPage
        simp only []
        rw [if_neg (by rw [hfi]; simp), if_neg (by rw [h1]; exact hlt), h2, h8, if_pos hne0]
        rfl
  · left
    refine ⟨n, hn, h3a, h3b, ?_⟩
    have hne : n.frame ≠ 0 := by
      intro h0
      rw [h0, hroot] at h3b
      exact Bool.noConfusion h3b
    unfold selectFrameForPage
    simp only []
    rw [if_pos (by rw [h3c]; exact hne), h3c]
    rfl

theorem nodes_root_mem (c : MemoryConstants) (m : PhysicalMemory) (levels : Nat)
    (pageIndex frame parent offset : Int) :
    Node.mk frame parent offset pageIndex levels ∈
      nodes c m levels pageIndex frame parent offset := by
  cases levels with
  | zero => simp [nodes]
  | succ levels => rw [nodes_succ_kids]; exact List.mem_cons_self _ _

/-- Every frame of the tree but the first is the target of a non-zero entry of a table of
the tree one level above it. -/
theorem nodes_parent (c : MemoryConstants) (m : PhysicalMemory) (levels : Nat) :
    ∀ (pageIndex frame parent offset : Int),
      ∀ n ∈ nodes c m levels pageIndex frame parent offset,
        n = Node.mk frame parent offset pageIndex levels ∨
        ∃ q ∈ nodes c m levels pageIndex frame parent offset, ∃ i : Nat, i < c.PAGE_SIZE ∧
          q.levels = n.levels + 1 ∧ n.parent = q.frame ∧ n.offset = (i : Int) ∧
          n.pageIndex = q.pageIndex * 2 ^ c.OFFSET_WIDTH + i ∧
          PMread m (cell c q.frame i) = n.frame ∧ n.frame ≠ 0 := by
  induction levels with
  | zero =>
    intro pageIndex frame parent offset n hn
    simp only [nodes, List.mem_singleton] at hn
    exact Or.inl hn
  | succ levels ih =>
    intro pageIndex frame parent offset n hn
    rw [nodes_succ_kids] at hn
    rcases List.mem_cons.mp hn with h | h
    · exact Or.inl h
    · right
      obtain ⟨i, hi, hin⟩ := List.mem_flatMap.mp h
      have hi' := List.mem_range.mp hi
      have hsub := mem_kidsAt c m levels pageIndex frame parent offset i hi'
      unfold kidsAt at hin hsub
      by_cases ha : PMread m (cell c frame i) ≠ 0
      · rw [if_pos ha] at hin hsub
        rcases ih _ _ _ _ n hin with h1 | ⟨q, hq, j, hj, h2⟩
        · refine ⟨Node.mk frame parent offset pageIndex (levels + 1),
            nodes_root_mem c m _ _ _ _ _, i, hi', ?_⟩
          rw [h1]
          exact ⟨rfl, rfl, rfl, rfl, rfl, ha⟩
        · exact ⟨q, hsub q hq, j, hj, h2⟩
      · rw [if_neg ha] at hin
        exact absurd hin (List.not_mem_nil _)

/-- The frames below an entry of a table of the tree are in the tree. -/
theorem nodes_kids (c : MemoryConstants) (m : PhysicalMemory) (levels : Nat) :
    ∀ (pageIndex frame parent offset : Int),
      ∀ q ∈ nodes c m levels pageIndex frame parent offset, ∀ l : Nat, q.levels = l + 1 →
        ∀ i : Nat, i < c.PAGE_SIZE → ∀ x ∈ kidsAt c m l q.pageIndex q.frame i,
          x ∈ nodes c m levels pageIndex frame parent offset := by
  induction levels with
  | zero =>
    intro pageIndex frame parent offset q hq l hl
    simp only [nodes, List.mem_singleton] at hq
    rw [hq] at hl
    simp at hl
  | succ levels ih =>
    intro pageIndex frame parent offset q hq l hl i hi x hx
    have hq' := hq
    rw [nodes_succ_kids] at hq'
    rcases List.mem_cons.mp hq' with h | h
    · rw [h] at hl hx
      have hl' : levels = l := by simpa using hl
      subst hl'
      exact mem_kidsAt c m levels pageIndex frame parent offset i hi x hx
    · obtain ⟨j, hj, hjn⟩ := List.mem_flatMap.mp h
      have hj' := List.mem_range.mp hj
      have hsub := mem_kidsAt c m levels pageIndex frame parent offset j hj'
      unfold kidsAt at hjn hsub
      by_cases ha : PMread m (cell c frame j) ≠ 0
      · rw [if_pos ha] at hjn hsub
        exact hsub x (ih _ _ _ _ q hjn l hl i hi x hx)
      · rw [if_neg ha] at hjn
        exact absurd hjn (List.not_mem_nil _)

theorem flatMap_congr_mem {α β : Type} (l : List α) (g g' : α → List β)
    (h : ∀ i ∈ l, g i = g' i) : l.flatMap g = l.flatMap g' := by
  induction l with
  | nil => rfl
  | cons a rest ih =>
    rw [List.flatMap_cons, List.flatMap_cons, h a (List.mem_cons_self _ _),
      ih (fun i hi => h i (List.mem_cons_of_mem _ hi))]

/-- The tree depends only on the entries of its tables. -/
theorem nodes_congr (c : MemoryConstants) (m m' : PhysicalMemory) (levels : Nat) :
    ∀ (pageIndex frame parent offset : Int),
      (∀ n ∈ nodes c m levels pageIndex frame parent offset, n.isPage = false →
        ∀ i : Nat, i < c.PAGE_SIZE →
          PMread m' (cell c n.frame i) = PMread m (cell c n.frame i)) →
      nodes c m' levels pageIndex frame parent offset =
        nodes c m levels pageIndex frame parent offset := by
  induction levels with
  | zero => intro pageIndex frame parent offset _; rfl
  | succ levels ih =>
    intro pageIndex frame parent offset h
    rw [nodes_succ_kids, nodes_succ_kids]
    congr 1
    apply flatMap_congr_mem
    intro i hi
    have hi' := List.mem_range.mp hi
    have hroot : PMread m' (cell c frame i) = PMread m (cell c frame i) :=
      h _ (nodes_root_mem c m _ _ _ _ _) rfl i hi'
    have hsub := mem_kidsAt c m levels pageIndex frame parent offset i hi'
    unfold kidsAt at hsub ⊢
    rw [hroot]
    by_cases ha : PMread m (cell c frame i) ≠ 0
    · rw [if_pos ha] at hsub
      rw [if_pos ha, if_pos ha]
      exact ih _ _ _ _ (fun n hn => h n (hsub n hn))
    · rw [if_neg ha, if_neg ha]

/-- The tree after a change of the entry `o0` of the table `f0`, the other entries of the
tables of the tree being as before: for each occurrence of the table `f0` in the tree, the
frames below the entry before the change are replaced by the frames below it after the
change. -/
theorem nodes_update (c : MemoryConstants) (m m' : PhysicalMemory) (f0 : Int) (o0 r0 : Nat)
    (idx0 : Int) (ho0 : o0 < c.PAGE_SIZE) (levels : Nat) :
    ∀ (pageIndex frame parent offset : Int),
      (∀ n ∈ nodes c m levels pageIndex frame parent offset, n.isPage = false →
        ∀ i : Nat, i < c.PAGE_SIZE → ¬ (n.frame = f0 ∧ i = o0) →
          PMread m' (cell c n.frame i) = PMread m (cell c n.frame i)) →
      (∀ n ∈ nodes c m levels pageIndex frame parent offset, n.isPage = false →
        n.frame = f0 → n.levels = r0 + 1 ∧ n.pageIndex = idx0) →
      (nodes c m' levels pageIndex frame parent offset ++
        (List.replicate (tableCount f0 (nodes c m levels pageIndex frame parent offset))
          (kidsAt c m r0 idx0 f0 o0)).flatten).Perm
      (nodes c m levels pageIndex frame parent offset ++
        (List.replicate (tableCount f0 (nodes c m levels pageIndex frame parent offset))
          (kidsAt c m' r0 idx0 f0 o0)).flatten) := by
  induction levels with
  | zero =>
    intro pageIndex frame parent offset _ _
    have h0 : tableCount f0 (nodes c m 0 pageIndex frame parent offset) = 0 := by
      simp [tableCount, nodes, Node.isPage]
    rw [h0]
    exact List.Perm.refl _
  | succ levels ih =>
    intro pageIndex frame parent offset hagree huniq
    have hroot := nodes_root_mem c m (levels + 1) pageIndex frame parent offset
    have hstep : ∀ i ∈ List.range c.PAGE_SIZE,
        (kidsAt c m' levels pageIndex frame i ++
          (List.replicate (tableCount f0 (kidsAt c m levels pageIndex frame i) +
            (if frame = f0 ∧ i = o0 then 1 else 0)) (kidsAt c m r0 idx0 f0 o0)).flatten).Perm
        (kidsAt c m levels pageIndex frame i ++
          (List.replicate (tableCount f0 (kidsAt c m levels pageIndex frame i) +
            (if frame = f0 ∧ i = o0 then 1 else 0)) (kidsAt c m' r0 idx0 f0 o0)).flatten) := by
      intro i hi
      have hi' := List.mem_range.mp hi
      have hsub := mem_kidsAt c m levels pageIndex frame parent offset i hi'
      by_cases hfi : frame = f0 ∧ i = o0
      · obtain ⟨hr, hidx⟩ := huniq _ hroot rfl hfi.1
        have hr' : levels = r0 := by simpa using hr
        have hidx' : pageIndex = idx0 := hidx
        subst hr' hidx'
        have hsub0 : ∀ n ∈ kidsAt c m levels pageIndex f0 o0,
            n ∈ nodes c m (levels + 1) pageIndex frame parent offset := by
          rw [← hfi.1, ← hfi.2]; exact hsub
        rw [hfi.1, hfi.2]
        have hz : tableCount f0 (kidsAt c m levels pageIndex f0 o0) = 0 := by
          unfold tableCount
          rw [List.countP_eq_zero]
          intro n hn
          have hl := kidsAt_levels_le c m levels pageIndex f0 o0 n hn
          intro hcond
          simp only [Bool.and_eq_true, Bool.not_eq_true', beq_iff_eq] at hcond
          have := (huniq n (hsub0 n hn) hcond.1 hcond.2).1
          omega
        rw [hz, if_pos ⟨rfl, rfl⟩]
        simp only [Nat.zero_add, List.replicate_one, List.flatten_cons, List.flatten_nil,
          List.append_nil]
        exact List.perm_append_comm
      · rw [if_neg hfi, Nat.add_zero]
        have hentry : PMread m' (cell c frame i) = PMread m (cell c frame i) :=
          hagree _ hroot rfl i hi' hfi
        unfold kidsAt at hsub
        by_cases ha : PMread m (cell c frame i) ≠ 0
        · rw [if_pos ha] at hsub
          have hk : kidsAt c m levels pageIndex frame i =
              nodes c m levels (pageIndex * 2 ^ c.OFFSET_WIDTH + i)
                (PMread m (cell c frame i)) frame i := by
            unfold kidsAt; rw [if_pos ha]
          have hk' : kidsAt c m' levels pageIndex frame i =
              nodes c m' levels (pageIndex * 2 ^ c.OFFSET_WIDTH + i)
                (PMread m (cell c frame i)) frame i := by
            unfold kidsAt; rw [hentry, if_pos ha]
          rw [hk, hk']
          exact ih _ _ _ _ (fun n hn => hagree n (hsub n hn))
            (fun n hn => huniq n (hsub n hn))
        · have hk : kidsAt c m levels pageIndex frame i = [] := by
            unfold kidsAt; rw [if_neg ha]
          have hk' : kidsAt c m' levels pageIndex frame i = [] := by
            unfold kidsAt; rw [hentry, if_neg ha]
          rw [hk, hk']
          simp [tableCount]
    have hfold := perm_flatMap_replicate (kidsAt c m r0 idx0 f0 o0) (kidsAt c m' r0 idx0 f0 o0)
      (kidsAt c m levels pageIndex frame) (kidsAt c m' levels pageIndex frame)
      (fun i => tableCount f0 (kidsAt c m levels pageIndex frame i) +
        (if frame = f0 ∧ i = o0 then 1 else 0)) (List.range c.PAGE_SIZE) hstep
    have hcount : tableCount f0 (nodes c m (levels + 1) pageIndex frame parent offset) =
        ((List.range c.PAGE_SIZE).map
          (fun i => tableCount f0 (kidsAt c m levels pageIndex frame i) +
            (if frame = f0 ∧ i = o0 then 1 else 0))).sum := by
      rw [nodes_succ_kids, tableCount_cons, tableCount_flatMap, List.sum_map_add,
        sum_indicator c.PAGE_SIZE o0 ho0 (frame = f0)]
      have : (if (!(Node.mk frame parent offset pageIndex (levels + 1)).isPage &&
          (Node.mk frame parent offset pageIndex (levels + 1)).frame == f0) = true
          then 1 else 0) = (if frame = f0 then 1 else 0) := by
        simp [Node.isPage]
      rw [this]
      omega
    rw [hcount, nodes_succ_kids, nodes_succ_kids]
    exact List.Perm.cons _ hfold

/-! ## Detaching and attaching a frame -/

theorem nodes_childless (c : MemoryConstants) (m : PhysicalMemory) (levels : Nat)
    (pageIndex frame parent offset : Int)
    (h : levels = 0 ∨ ∀ i : Nat, i < c.PAGE_SIZE → PMread m (cell c frame i) = 0) :
    nodes c m levels pageIndex frame parent offset =
      [Node.mk frame parent offset pageIndex levels] := by
  cases levels with
  | zero => rfl
  | succ levels =>
    rcases h with h | h
    · exact absurd h (Nat.succ_ne_zero _)
    · rw [nodes_succ_kids]
      congr 1
      rw [List.flatMap_eq_nil_iff]
      intro i hi
      unfold kidsAt
      rw [if_neg (by rw [h i (List.mem_range.mp hi)]; simp)]

theorem emptyTable_iff (c : MemoryConstants) (m : PhysicalMemory) (n : Node) :
    emptyTable c m n = true ↔
      n.isPage = false ∧ ∀ i : Nat, i < c.PAGE_SIZE → PMread m (cell c n.frame i) = 0 := by
  unfold emptyTable
  simp only [Bool.and_eq_true, Bool.not_eq_true', List.all_eq_true, List.mem_range,
    beq_iff_eq]

theorem tableCount_le_one (f0 : Int) (l : List Node) (h : (l.map Node.frame).Nodup) :
    tableCount f0 l ≤ 1 := by
  induction l with
  | nil => simp [tableCount]
  | cons x rest ih =>
    rw [List.map_cons, List.nodup_cons] at h
    rw [tableCount_cons]
    by_cases hx : x.frame = f0
    · have hz : tableCount f0 rest = 0 := by
        unfold tableCount
        rw [List.countP_eq_zero]
        intro y hy hcond
        simp only [Bool.and_eq_true, Bool.not_eq_true', beq_iff_eq] at hcond
        exact h.1 (List.mem_map.mpr ⟨y, hy, by rw [hcond.2, hx]⟩)
      rw [hz]
      split <;> omega
    · have := ih h.2
      rw [if_neg (by simp [hx])]
      omega

theorem tableCount_eq_one (l : List Node) (h : (l.map Node.frame).Nodup) (q : Node)
    (hq : q ∈ l) (ht : q.isPage = false) : tableCount q.frame l = 1 := by
  have h1 := tableCount_le_one q.frame l h
  have h2 : 0 < tableCount q.frame l := by
    unfold tableCount
    rw [List.countP_pos_iff]
    exact ⟨q, hq, by simp [ht]⟩
  omega

theorem digit_unique (P a b i j : Int) (hi : 0 ≤ i ∧ i < P) (hj : 0 ≤ j ∧ j < P)
    (h : a * P + i = b * P + j) : a = b ∧ i = j := by
  have hab : a = b := by
    by_contra hne
    rcases lt_or_gt_of_ne hne with hlt | hgt
    · have : (a + 1) * P ≤ b * P := by
        apply mul_le_mul_of_nonneg_right (by omega) (by omega)
      nlinarith
    · have : (b + 1) * P ≤ a * P := by
        apply mul_le_mul_of_nonneg_right (by omega) (by omega)
      nlinarith
  subst hab
  exact ⟨rfl, by omega⟩

theorem ram_initializeFrame (c : MemoryConstants) (m : PhysicalMemory) (t : Int) (a : Nat) :
    PMread (initializeFrame c m t) a =
      if ∃ i : Nat, i < c.PAGE_SIZE ∧ a = cell c t i then 0 else PMread m a := by
  unfold initializeFrame
  generalize c.PAGE_SIZE = n
  induction n with
  | zero => simp
  | succ n ih =>
    rw [List.range_succ, List.foldl_append, List.foldl_cons, List.foldl_nil, PMread_PMwrite, ih]
    by_cases h1 : a = cell c t n
    · rw [if_pos h1, if_pos ⟨n, by omega, h1⟩]
    · rw [if_neg h1]
      by_cases h2 : ∃ i : Nat, i < n ∧ a = cell c t i
      · obtain ⟨i, hi, hia⟩ := h2
        rw [if_pos ⟨i, hi, hia⟩, if_pos ⟨i, by omega, hia⟩]
      · rw [if_neg h2, if_neg]
        rintro ⟨i, hi, hia⟩
        by_cases hin : i = n
        · rw [hin] at hia; exact h1 hia
        · exact h2 ⟨i, by omega, hia⟩

theorem swap_initializeFrame (c : MemoryConstants) (m : PhysicalMemory) (t : Int) :
    (initializeFrame c m t).swap = m.swap := by
  unfold initializeFrame
  generalize c.PAGE_SIZE = n
  induction n with
  | zero => rfl
  | succ n ih =>
    rw [List.range_succ, List.foldl_append, List.foldl_cons, List.foldl_nil, swap_PMwrite, ih]

theorem calculateOffset_lt (c : MemoryConstants) (hc : Sized c) (va depth : Nat) :
    calculateOffset c va depth < c.PAGE_SIZE := by
  unfold calculateOffset
  simp only []
  rw [Nat.one_shiftLeft, Nat.and_pow_two_sub_one_eq_mod, hc.page_size]
  exact Nat.mod_lt _ (by positivity)

theorem pathIndex_succ (c : MemoryConstants) (va depth : Nat) (hd : depth < c.TABLES_DEPTH) :
    pathIndex c va (depth + 1) =
      pathIndex c va depth * 2 ^ c.OFFSET_WIDTH + calculateOffset c va depth := by
  unfold pathIndex calculateOffset
  simp only []
  rw [Nat.one_shiftLeft, Nat.and_pow_two_sub_one_eq_mod]
  have h1 : (c.TABLES_DEPTH - depth) * c.OFFSET_WIDTH =
      (c.TABLES_DEPTH - (depth + 1)) * c.OFFSET_WIDTH + c.OFFSET_WIDTH := by
    have : c.TABLES_DEPTH - depth = (c.TABLES_DEPTH - (depth + 1)) + 1 := by omega
    rw [this, Nat.add_mul, Nat.one_mul]
  have h2 : va >>> ((c.TABLES_DEPTH - depth) * c.OFFSET_WIDTH) =
      (va >>> c.OFFSET_WIDTH) >>> ((c.TABLES_DEPTH - (depth + 1)) * c.OFFSET_WIDTH) := by
    rw [h1, Nat.add_comm, Nat.shiftRight_add]
  rw [h2, h1, Nat.shiftRight_add]
  generalize (va >>> c.OFFSET_WIDTH) >>> ((c.TABLES_DEPTH - (depth + 1)) * c.OFFSET_WIDTH) = x
  rw [Nat.shiftRight_eq_div_pow]
  have := Nat.div_add_mod x (2 ^ c.OFFSET_WIDTH)
  push_cast
  have h3 : ((x / 2 ^ c.OFFSET_WIDTH * 2 ^ c.OFFSET_WIDTH + x % 2 ^ c.OFFSET_WIDTH : Nat) : Int)
      = (x : Int) := by
    rw [Nat.mul_comm, this]
  push_cast at h3
  linarith

theorem pathIndex_zero (c : MemoryConstants) (hc : Sized c) (va : Nat)
    (hva : va < c.VIRTUAL_MEMORY_SIZE) : pathIndex c va 0 = 0 := by
  unfold pathIndex
  rw [Nat.sub_zero, Nat.shiftRight_eq_div_pow, Nat.shiftRight_eq_div_pow]
  have h1 : va / 2 ^ c.OFFSET_WIDTH < c.NUM_PAGES := by
    rw [Nat.div_lt_iff_lt_mul (by positivity), ← hc.page_size, ← hc.vm_size]
    exact hva
  have h2 : c.PAGE_SIZE ^ c.TABLES_DEPTH = 2 ^ (c.TABLES_DEPTH * c.OFFSET_WIDTH) := by
    rw [hc.page_size, ← pow_mul, Nat.mul_comm]
  have h3 := hc.pages_fit
  rw [Nat.div_eq_of_lt (by omega)]
  rfl

theorem pathIndex_depth (c : MemoryConstants) (va : Nat) :
    pathIndex c va c.TABLES_DEPTH = ((va >>> c.OFFSET_WIDTH : Nat) : Int) := by
  unfold pathIndex
  rw [Nat.sub_self, Nat.zero_mul, Nat.shiftRight_zero]

theorem page_lt (c : MemoryConstants) (hc : Sized c) (va : Nat)
    (hva : va < c.VIRTUAL_MEMORY_SIZE) : va >>> c.OFFSET_WIDTH < c.NUM_PAGES := by
  rw [Nat.shiftRight_eq_div_pow, Nat.div_lt_iff_lt_mul (by positivity), ← hc.page_size,
    ← hc.vm_size]
  exact hva

theorem node_unique_frame (l : List Node) (h : (l.map Node.frame).Nodup) (x y : Node)
    (hx : x ∈ l) (hy : y ∈ l) (hxy : x.frame = y.frame) : x = y :=
  List.inj_on_of_nodup_map h hx hy hxy

theorem node_unique_key (l : List Node)
    (h : (l.map (fun n => (n.levels, n.pageIndex))).Nodup) (x y : Node)
    (hx : x ∈ l) (hy : y ∈ l) (hl : x.levels = y.levels) (hp : x.pageIndex = y.pageIndex) :
    x = y :=
  List.inj_on_of_nodup_map h hx hy (by simp only [hl, hp])

/-- Zeroing the entry of the parent that leads to a frame without frames below it removes
that frame from the tree and leaves the rest. -/
theorem detach_perm (c : MemoryConstants) (hc : Sized c) (m m1 : PhysicalMemory)
    (inv : TreeInv c m) (n : Node) (hn : n ∈ treeNodes c m) (hne : n.frame ≠ 0)
    (hchildless : n.isPage = true ∨ emptyTable c m n = true)
    (hsame : ∀ a : Nat, a ≠ cell c n.parent n.offset → PMread m1 a = PMread m a)
    (hz : PMread m1 (cell c n.parent n.offset) = 0) :
    (treeNodes c m1 ++ [n]).Perm (treeNodes c m) := by
  have hrange : ∀ x ∈ treeNodes c m, 0 ≤ x.frame ∧ x.frame < c.NUM_FRAMES := by
    intro x hx
    have h1 := inv.range x hx
    have h2 := inv.bound
    omega
  rcases nodes_parent c m c.TABLES_DEPTH 0 0 0 0 n hn with h | ⟨q, hq, i, hi, h1, h2, h3, h4, h5, h6⟩
  · rw [h] at hne
    exact absurd rfl hne
  · have hqt : q.isPage = false := by simp [Node.isPage, h1]
    have hupd := nodes_update c m m1 q.frame i n.levels q.pageIndex hi c.TABLES_DEPTH 0 0 0 0
      (by
        intro x hx hxt j hj hne2
        apply hsame
        rw [h2, h3]
        intro heq
        have := cell_inj c hc x.frame q.frame j i (hrange x hx) (hrange q hq) hj hi heq
        exact hne2 this)
      (by
        intro x hx _ hxf
        have := node_unique_frame _ inv.nodup x q hx hq hxf
        rw [this]
        exact ⟨h1, rfl⟩)
    have hcount : tableCount q.frame (nodes c m c.TABLES_DEPTH 0 0 0 0) = 1 :=
      tableCount_eq_one _ inv.nodup q hq hqt
    have hK : kidsAt c m n.levels q.pageIndex q.frame i = [n] := by
      unfold kidsAt
      rw [h5, if_pos h6, ← h4, ← h2, ← h3]
      apply nodes_childless
      rcases hchildless with hp | he
      · left; simpa [Node.isPage] using hp
      · right; exact ((emptyTable_iff c m n).mp he).2
    have hK' : kidsAt c m1 n.levels q.pageIndex q.frame i = [] := by
      unfold kidsAt
      rw [h2, h3] at hz
      rw [hz]
      simp
    rw [hcount, hK, hK'] at hupd
    simpa [treeNodes] using hupd

/-- Writing a free frame into a zero entry of a table of the tree adds that frame to the
tree, as a page or as a table without entries, and leaves the rest. -/
theorem attach_perm (c : MemoryConstants) (m1 m2 : PhysicalMemory)
    (hnodup : ((treeNodes c m1).map Node.frame).Nodup) (q : Node) (hq : q ∈ treeNodes c m1)
    (l : Nat) (hl : q.levels = l + 1) (i : Nat) (hi : i < c.PAGE_SIZE) (t : Int) (ht : t ≠ 0)
    (hw : PMread m2 (cell c q.frame i) = t) (hz : PMread m1 (cell c q.frame i) = 0)
    (hsame : ∀ x ∈ treeNodes c m1, x.isPage = false → ∀ j : Nat, j < c.PAGE_SIZE →
      ¬ (x.frame = q.frame ∧ j = i) → PMread m2 (cell c x.frame j) = PMread m1 (cell c x.frame j))
    (hnew : l = 0 ∨ ∀ j : Nat, j < c.PAGE_SIZE → PMread m2 (cell c t j) = 0) :
    (treeNodes c m2).Perm
      (treeNodes c m1 ++ [Node.mk t q.frame i (q.pageIndex * 2 ^ c.OFFSET_WIDTH + i) l]) := by
  have hqt : q.isPage = false := by simp [Node.isPage, hl]
  have hupd := nodes_update c m1 m2 q.frame i l q.pageIndex hi c.TABLES_DEPTH 0 0 0 0
    hsame
    (by
      intro x hx _ hxf
      have := node_unique_frame _ hnodup x q hx hq hxf
      rw [this]
      exact ⟨hl, rfl⟩)
  have hcount : tableCount q.frame (nodes c m1 c.TABLES_DEPTH 0 0 0 0) = 1 :=
    tableCount_eq_one _ hnodup q hq hqt
  have hK : kidsAt c m1 l q.pageIndex q.frame i = [] := by
    unfold kidsAt
    rw [hz]
    simp
  have hK' : kidsAt c m2 l q.pageIndex q.frame i =
      [Node.mk t q.frame i (q.pageIndex * 2 ^ c.OFFSET_WIDTH + i) l] := by
    unfold kidsAt
    rw [hw, if_pos ht]
    exact nodes_childless c m2 l _ t q.frame i hnew
  rw [hcount, hK, hK'] at hupd
  simpa [treeNodes] using hupd

/-! ## The translation path -/

theorem onPath_iff (c : MemoryConstants) (pt : Nat → Int) (f : Int) :
    onPath c pt f = true ↔ ∃ j : Nat, j < c.TABLES_DEPTH ∧ pt j = f := by
  unfold onPath
  simp only [List.any_eq_true, List.mem_range, beq_iff_eq]

theorem onPath_eq_false (c : MemoryConstants) (pt : Nat → Int) (f : Int) :
    onPath c pt f = false ↔ ∀ j : Nat, j < c.TABLES_DEPTH → pt j ≠ f := by
  rw [← Bool.not_eq_true, onPath_iff]
  simp

theorem frames_lt (c : MemoryConstants) (hc : Sized c) : (c.NUM_FRAMES : Int) < 2 ^ 31 := by
  exact_mod_cast hc.frames_int

theorem root_mem_treeNodes (c : MemoryConstants) (m : PhysicalMemory) :
    Node.mk 0 0 0 0 c.TABLES_DEPTH ∈ treeNodes c m :=
  nodes_root_mem c m c.TABLES_DEPTH 0 0 0 0

theorem treeNodes_levels_le (c : MemoryConstants) (m : PhysicalMemory) :
    ∀ n ∈ treeNodes c m, n.levels ≤ c.TABLES_DEPTH :=
  nodes_levels_le c m c.TABLES_DEPTH 0 0 0 0

theorem pathNode_table (c : MemoryConstants) (va : Nat) (pt : Nat → Int) (j : Nat)
    (hj : j < c.TABLES_DEPTH) : (pathNode c va pt j).isPage = false := by
  unfold pathNode Node.isPage
  simp only [beq_eq_false_iff_ne]
  omega

/-- A frame of the tree that is on the path is the frame of the path at some depth. -/
theorem onPath_pathNode (c : MemoryConstants) (va : Nat) (m : PhysicalMemory)
    (pt : Nat → Int) (d : Nat) (hnodup : ((treeNodes c m).map Node.frame).Nodup)
    (path : PathInv c va m pt d) (x : Node) (hx : x ∈ treeNodes c m)
    (hon : onPath c pt x.frame = true) : ∃ j : Nat, j ≤ d ∧ x = pathNode c va pt j := by
  obtain ⟨j, _, hj⟩ := (onPath_iff c pt x.frame).mp hon
  by_cases hjd : j ≤ d
  · exact ⟨j, hjd, node_unique_frame _ hnodup x _ hx (path.onTree j hjd) hj.symm⟩
  · refine ⟨0, Nat.zero_le _, node_unique_frame _ hnodup x _ hx (path.onTree 0 (Nat.zero_le _)) ?_⟩
    have h1 := path.zeros j (by omega)
    have h2 : (pathNode c va pt 0).frame = 0 := path.root
    rw [h2, ← hj, h1]

/-- When no page is in the tree and every table without entries is on the path, every
frame of the tree is on the path. -/
theorem all_onPath (c : MemoryConstants) (va : Nat) (m : PhysicalMemory)
    (pt : Nat → Int) (d : Nat) (hd : d < c.TABLES_DEPTH)
    (hnodup : ((treeNodes c m).map Node.frame).Nodup) (path : PathInv c va m pt d)
    (hno : ∀ n ∈ treeNodes c m,
      ¬ (emptyTable c m n = true ∧ onPath c pt n.frame = false))
    (htables : ∀ n ∈ treeNodes c m, n.isPage = false) :
    ∀ l : Nat, ∀ x ∈ treeNodes c m, x.levels = l → onPath c pt x.frame = true := by
  intro l
  induction l with
  | zero =>
    intro x hx hl
    have := htables x hx
    simp [Node.isPage, hl] at this
  | succ l ih =>
    intro x hx hl
    by_cases hempty : ∀ i : Nat, i < c.PAGE_SIZE → PMread m (cell c x.frame i) = 0
    · by_contra hoff
      exact hno x hx ⟨(emptyTable_iff c m x).mpr ⟨htables x hx, hempty⟩, by simpa using hoff⟩
    · push_neg at hempty
      obtain ⟨i, hi, ha⟩ := hempty
      have hy : Node.mk (PMread m (cell c x.frame i)) x.frame i
          (x.pageIndex * 2 ^ c.OFFSET_WIDTH + i) l ∈ treeNodes c m := by
        apply nodes_kids c m c.TABLES_DEPTH 0 0 0 0 x hx l hl i hi
        unfold kidsAt
        rw [if_pos ha]
        exact nodes_root_mem c m _ _ _ _ _
      have hony := ih _ hy rfl
      obtain ⟨j, hjd, hj⟩ := onPath_pathNode c va m pt d hnodup path _ hy hony
      have hj0 : j ≠ 0 := by
        intro h0
        have hf := congrArg Node.frame hj
        rw [h0] at hf
        have h2 : (pathNode c va pt 0).frame = 0 := path.root
        rw [h2] at hf
        exact ha hf
      have hp := congrArg Node.parent hj
      have hp2 : (pathNode c va pt j).parent = pt (j - 1) := by
        unfold pathNode
        simp only [if_neg hj0]
      rw [hp2] at hp
      rw [onPath_iff]
      exact ⟨j - 1, by omega, hp.symm⟩

theorem length_le_of_all_onPath (c : MemoryConstants) (m : PhysicalMemory) (pt : Nat → Int)
    (hnodup : ((treeNodes c m).map Node.frame).Nodup)
    (h : ∀ x ∈ treeNodes c m, onPath c pt x.frame = true) :
    (treeNodes c m).length ≤ c.TABLES_DEPTH := by
  have hsub : (treeNodes c m).map Node.frame ⊆ (List.range c.TABLES_DEPTH).map pt := by
    intro f hf
    obtain ⟨x, hx, hxf⟩ := List.mem_map.mp hf
    obtain ⟨j, hj, hjf⟩ := (onPath_iff c pt x.frame).mp (h x hx)
    exact List.mem_map.mpr ⟨j, List.mem_range.mpr hj, by rw [hjf, hxf]⟩
  have := (List.subperm_of_subset hnodup hsub).length_le
  simpa using this

/-- What the removal of a frame without frames below it leaves: a well-formed tree in
which that frame is free, with the other frames of the tree, and with every word that was
held still held, the page removed being held by its copy in the swap store. -/
theorem detach_spec (c : MemoryConstants) (hc : Sized c) (m m1 : PhysicalMemory)
    (inv : TreeInv c m) (n : Node) (hn : n ∈ treeNodes c m) (hne : n.frame ≠ 0)
    (hchildless : n.isPage = true ∨ emptyTable c m n = true)
    (hsame : ∀ a : Nat, a ≠ cell c n.parent n.offset → PMread m1 a = PMread m a)
    (hz : PMread m1 (cell c n.parent n.offset) = 0)
    (hswap : ∀ p : Nat, (n.isPage = true → (p : Int) ≠ n.pageIndex) → m1.swap p = m.swap p)
    (hsaved : n.isPage = true → ∃ saved, m1.swap n.pageIndex.toNat = some saved ∧
      ∀ i : Nat, i < c.PAGE_SIZE → saved i = PMread m (cell c n.frame i)) :
    FreeFrame c m1 n.frame ∧
    (∀ x ∈ treeNodes c m, x ≠ n → x ∈ treeNodes c m1) ∧
    (∀ x ∈ treeNodes c m1, x ∈ treeNodes c m) ∧
    (∀ (p i : Nat) (v : Int), i < c.PAGE_SIZE → Holds c m p i v → Holds c m1 p i v) := by
  have hperm := detach_perm c hc m m1 inv n hn hne hchildless hsame hz
  have hrange : ∀ x ∈ treeNodes c m, 0 ≤ x.frame ∧ x.frame < c.NUM_FRAMES := by
    intro x hx
    have h1 := inv.range x hx
    have h2 := inv.bound
    omega
  have hlen : (treeNodes c m1).length + 1 = (treeNodes c m).length := by
    have := hperm.length_eq
    simpa using this
  have hsub : ∀ x ∈ treeNodes c m1, x ∈ treeNodes c m := by
    intro x hx
    exact hperm.subset (List.mem_append_left _ hx)
  have hkeep : ∀ x ∈ treeNodes c m, x ≠ n → x ∈ treeNodes c m1 := by
    intro x hx hxn
    rcases List.mem_append.mp (hperm.symm.subset hx) with h | h
    · exact h
    · exact absurd (List.mem_singleton.mp h) hxn
  have hnd : ((treeNodes c m1 ++ [n]).map Node.frame).Nodup :=
    (hperm.map Node.frame).nodup_iff.mpr inv.nodup
  have hkd : ((treeNodes c m1 ++ [n]).map (fun n => (n.levels, n.pageIndex))).Nodup :=
    (hperm.map _).nodup_iff.mpr inv.keys
  rw [List.map_append] at hnd hkd
  have hfresh : ∀ x ∈ treeNodes c m1, x.frame ≠ n.frame := by
    intro x hx hxf
    have := (List.nodup_append.mp hnd).2.2
    exact this (List.mem_map.mpr ⟨x, hx, rfl⟩) (by simp [hxf])
  have hgone : n ∉ treeNodes c m1 := fun h => hfresh n h rfl
  have hfree : FreeFrame c m1 n.frame := by
    refine ⟨hnd.of_append_left, hkd.of_append_left, ?_, ?_, ?_, hfresh, ?_⟩
    · intro x hx
      have := inv.range x (hsub x hx)
      omega
    · have := inv.bound
      omega
    · intro x hx
      exact inv.pages x (hsub x hx)
    · have := inv.range n hn
      omega
  refine ⟨hfree, hkeep, hsub, ?_⟩
  intro p i v hi hold
  rcases nodes_parent c m c.TABLES_DEPTH 0 0 0 0 n hn with hr | ⟨q, hq, k, hk, h1, h2, h3, _, _, _⟩
  · rw [hr] at hne
    exact absurd rfl hne
  have hqt : q.isPage = false := by simp [Node.isPage, h1]
  rcases hold with ⟨x, hx, hxp, hxi, hxv⟩ | ⟨hnot, saved, hs, hsv⟩
  · by_cases hxn : x = n
    · right
      rw [hxn] at hxp hxi hxv
      refine ⟨?_, ?_⟩
      · intro y hy hyp hyi
        have : y = n := node_unique_key _ inv.keys y n (hsub y hy) hn
          (by
            have a1 : y.levels = 0 := by simpa [Node.isPage] using hyp
            have a2 : n.levels = 0 := by simpa [Node.isPage] using hxp
            rw [a1, a2])
          (by rw [hyi, hxi])
        rw [this] at hy
        exact hgone hy
      · obtain ⟨saved, hs, hsv⟩ := hsaved hxp
        rw [hxi, Int.toNat_ofNat] at hs
        exact ⟨saved, hs, by rw [hsv i hi, hxv]⟩
    · left
      refine ⟨x, hkeep x hx hxn, hxp, hxi, ?_⟩
      rw [hsame _ ?_]
      · exact hxv
      · rw [h2, h3]
        intro heq
        have := cell_inj c hc x.frame q.frame i k (hrange x hx) (hrange q hq) hi hk heq
        have hxq := node_unique_frame _ inv.nodup x q hx hq this.1
        rw [hxq, hqt] at hxp
        exact Bool.noConfusion hxp
  · right
    refine ⟨fun y hy => hnot y (hsub y hy), saved, ?_, hsv⟩
    rw [hswap p (fun hp heq => hnot n hn hp heq.symm)]
    exact hs

/-- During a translation `selectFrameForPage` returns a frame other than -1 and 0 that
is not on the path, and leaves a well-formed tree in which that frame is free, with the
frames of the path and with every word that was held. -/
theorem selectFrameForPage_spec (c : MemoryConstants) (hc : Sized c) (va : Nat)
    (hva : va < c.VIRTUAL_MEMORY_SIZE) (m : PhysicalMemory) (pt : Nat → Int) (d : Nat)
    (hd : d < c.TABLES_DEPTH) (inv : TreeInv c m) (path : PathInv c va m pt d) :
    FreeFrame c (selectFrameForPage c m pt (toInt32 (va >>> c.OFFSET_WIDTH))).2
      (selectFrameForPage c m pt (toInt32 (va >>> c.OFFSET_WIDTH))).1 ∧
    onPath c pt (selectFrameForPage c m pt (toInt32 (va >>> c.OFFSET_WIDTH))).1 = false ∧
    (∀ j : Nat, j ≤ d → pathNode c va pt j ∈
      treeNodes c (selectFrameForPage c m pt (toInt32 (va >>> c.OFFSET_WIDTH))).2) ∧
    (∀ a : Nat, PMread m a = 0 →
      PMread (selectFrameForPage c m pt (toInt32 (va >>> c.OFFSET_WIDTH))).2 a = 0) ∧
    (∀ (p i : Nat) (v : Int), i < c.PAGE_SIZE → Holds c m p i v →
      Holds c (selectFrameForPage c m pt (toInt32 (va >>> c.OFFSET_WIDTH))).2 p i v) := by
  have hpage := page_lt c hc va hva
  have hq : toInt32 (va >>> c.OFFSET_WIDTH) = ((va >>> c.OFFSET_WIDTH : Nat) : Int) := by
    apply toInt32_small
    · exact Int.natCast_nonneg _
    · have := hc.pages_int
      exact_mod_cast (by omega : va >>> c.OFFSET_WIDTH < 2 ^ 31)
  have hroot : onPath c pt 0 = true := (onPath_iff c pt 0).mpr ⟨0, by omega, path.root⟩
  have hpathOn : ∀ j : Nat, j ≤ d → onPath c pt (pathNode c va pt j).frame = true := by
    intro j hj
    exact (onPath_iff c pt _).mpr ⟨j, by omega, rfl⟩
  have hpathTable : ∀ j : Nat, j ≤ d → (pathNode c va pt j).isPage = false := by
    intro j hj
    exact pathNode_table c va pt j (by omega)
  have hNF := frames_lt c hc
  have hrange : ∀ x ∈ treeNodes c m, 0 ≤ x.frame ∧ x.frame < c.NUM_FRAMES := by
    intro x hx
    have h1 := inv.range x hx
    have h2 := inv.bound
    omega
  rcases selectFrameForPage_cases c m pt (toInt32 (va >>> c.OFFSET_WIDTH)) hc.pages_int
      hroot
      (by rw [hq]; exact ⟨Int.natCast_nonneg _, by exact_mod_cast hpage⟩) inv.pages with
    ⟨n, hn, hempty, hoff, hsel⟩ | ⟨_, hlt, hsel⟩ | ⟨_, _, n, hn, hnp, hsel⟩ |
    ⟨hno, hge, htables, _⟩
  · -- a table without entries, off the path
    rw [hsel]
    dsimp only
    have hne : n.frame ≠ 0 := by
      intro h0
      rw [h0, hroot] at hoff
      exact Bool.noConfusion hoff
    obtain ⟨h1, h2, _, h4⟩ := detach_spec c hc m (PMwrite m (cell c n.parent n.offset) 0)
      inv n hn hne (Or.inr hempty)
      (by intro a ha; rw [PMread_PMwrite, if_neg ha])
      (by rw [PMread_PMwrite, if_pos rfl])
      (by intro p _; rw [swap_PMwrite])
      (by
        intro hp
        rw [((emptyTable_iff c m n).mp hempty).1] at hp
        exact Bool.noConfusion hp)
    refine ⟨h1, hoff, ?_, ?_, h4⟩
    · intro j hj
      apply h2 _ (path.onTree j hj)
      intro heq
      have := hpathOn j hj
      rw [heq, hoff] at this
      exact Bool.noConfusion this
    · intro a ha
      rw [PMread_PMwrite]
      split
      · rfl
      · exact ha
  · -- the first index not in the tree
    rw [hsel]
    dsimp only
    have hpos : 0 < (treeNodes c m).length :=
      List.length_pos_of_mem (root_mem_treeNodes c m)
    refine ⟨⟨inv.nodup, inv.keys, ?_, ?_, inv.pages, ?_, ?_⟩, ?_, path.onTree,
      fun a ha => ha, fun p i v _ h => h⟩
    · intro x hx
      have := inv.range x hx
      omega
    · omega
    · intro x hx
      have := inv.range x hx
      omega
    · omega
    · rw [onPath_eq_false]
      intro j hj heq
      by_cases hjd : j ≤ d
      · have := inv.range _ (path.onTree j hjd)
        have hf : (pathNode c va pt j).frame = pt j := rfl
        omega
      · have := path.zeros j (by omega)
        omega
  · -- the page to evict
    rw [hsel]
    dsimp only
    have hne : n.frame ≠ 0 := by
      intro h0
      have := treeNodes_frame c m (by omega) n hn h0
      rw [hnp] at this
      exact Bool.noConfusion this
    have hfr := hrange n hn
    have hpg := inv.pages n hn hnp
    have hF : toUInt64 n.frame = n.frame.toNat := toUInt64_small _ hfr.1 (by omega)
    have hP : toUInt64 n.pageIndex = n.pageIndex.toNat :=
      toUInt64_small _ hpg.1 (by have := hc.pages_int; omega)
    obtain ⟨h1, h2, _, h4⟩ := detach_spec c hc m
      (PMwrite (PMevict c m (toUInt64 n.frame) (toUInt64 n.pageIndex))
        (cell c n.parent n.offset) 0)
      inv n hn hne (Or.inl hnp)
      (by intro a ha; rw [PMread_PMwrite, if_neg ha]; rfl)
      (by rw [PMread_PMwrite, if_pos rfl])
      (by
        intro p hp
        rw [swap_PMwrite, hP]
        show (if p = n.pageIndex.toNat then _ else m.swap p) = m.swap p
        rw [if_neg]
        intro heq
        apply hp hnp
        rw [heq, Int.toNat_of_nonneg hpg.1])
      (by
        intro _
        refine ⟨fun i => m.ram (n.frame.toNat * c.PAGE_SIZE + i), ?_, ?_⟩
        · rw [swap_PMwrite, hP, hF]
          show (if n.pageIndex.toNat = n.pageIndex.toNat then _ else _) = _
          rw [if_pos rfl]
        · intro i hi
          rw [(cell_eq c hc n.frame i hfr hi).1]
          rfl)
    have hoff : onPath c pt n.frame = false := by
      by_contra hon
      have hon' : onPath c pt n.frame = true := by simpa using hon
      obtain ⟨j, hj, hnj⟩ := onPath_pathNode c va m pt d inv.nodup path n hn hon'
      have := hpathTable j hj
      rw [← hnj, hnp] at this
      exact Bool.noConfusion this
    refine ⟨h1, hoff, ?_, ?_, h4⟩
    · intro j hj
      apply h2 _ (path.onTree j hj)
      intro heq
      have := hpathOn j hj
      rw [heq, hoff] at this
      exact Bool.noConfusion this
    · intro a ha
      rw [PMread_PMwrite]
      split
      · rfl
      · exact ha
  · -- no frame to take: impossible with more frames than levels
    exfalso
    have hall : ∀ x ∈ treeNodes c m, onPath c pt x.frame = true := by
      intro x hx
      exact all_onPath c va m pt d hd inv.nodup path hno htables x.levels x hx rfl
    have := length_le_of_all_onPath c m pt inv.nodup hall
    have := hc.frames
    apply hge
    exact_mod_cast (by omega : (treeNodes c m).length < c.NUM_FRAMES)

theorem pathNode_update_le (c : MemoryConstants) (va : Nat) (pt : Nat → Int) (d : Nat)
    (t : Int) (j : Nat) (hj : j ≤ d) :
    pathNode c va (updatePageTableAddresses pt d t) j = pathNode c va pt j := by
  unfold pathNode updatePageTableAddresses
  have h1 : ¬ j = d + 1 := by omega
  have h2 : ¬ j - 1 = d + 1 := by omega
  simp only [if_neg h1, if_neg h2]

theorem pathNode_update_succ (c : MemoryConstants) (va : Nat) (pt : Nat → Int) (d : Nat)
    (t : Int) (hd : d < c.TABLES_DEPTH) :
    pathNode c va (updatePageTableAddresses pt d t) (d + 1) =
      Node.mk t (pathNode c va pt d).frame (calculateOffset c va d)
        ((pathNode c va pt d).pageIndex * 2 ^ c.OFFSET_WIDTH + calculateOffset c va d)
        (c.TABLES_DEPTH - d - 1) := by
  unfold pathNode updatePageTableAddresses
  have h1 : ¬ d + 1 = 0 := by omega
  have h2 : ¬ d = d + 1 := by omega
  simp only [if_neg h1, Nat.add_sub_cancel, if_neg h2, if_true, pathIndex_succ c va d hd]
  congr 1

/-- What the writing of a free frame into the zero entry that the translation has reached
leaves: a well-formed tree with the path one frame longer, and every word that was held
still held, the page of the translation being held by its frame when it was held by its
copy in the swap store. -/
theorem attach_spec (c : MemoryConstants) (hc : Sized c) (va : Nat)
    (hva : va < c.VIRTUAL_MEMORY_SIZE) (m1 m2 : PhysicalMemory) (pt : Nat → Int) (d : Nat)
    (hd : d < c.TABLES_DEPTH) (t : Int) (free : FreeFrame c m1 t)
    (hroot : pt 0 = 0) (hzeros : ∀ j : Nat, d < j → pt j = 0)
    (hpath : ∀ j : Nat, j ≤ d → pathNode c va pt j ∈ treeNodes c m1)
    (hz : PMread m1 (cell c (pt d) (calculateOffset c va d)) = 0)
    (hw : PMread m2 (cell c (pt d) (calculateOffset c va d)) = t)
    (hram : ∀ a : Nat, a ≠ cell c (pt d) (calculateOffset c va d) →
      (∀ j : Nat, j < c.PAGE_SIZE → a ≠ cell c t j) → PMread m2 a = PMread m1 a)
    (hnew : d + 1 = c.TABLES_DEPTH ∨ ∀ j : Nat, j < c.PAGE_SIZE → PMread m2 (cell c t j) = 0)
    (hswap : ∀ p : Nat, ¬ (d + 1 = c.TABLES_DEPTH ∧ p = va >>> c.OFFSET_WIDTH) →
      m2.swap p = m1.swap p)
    (hrest : d + 1 = c.TABLES_DEPTH → ∀ saved, m1.swap (va >>> c.OFFSET_WIDTH) = some saved →
      ∀ i : Nat, i < c.PAGE_SIZE → PMread m2 (cell c t i) = saved i) :
    TreeInv c m2 ∧ PathInv c va m2 (updatePageTableAddresses pt d t) (d + 1) ∧
    (∀ (p i : Nat) (v : Int), i < c.PAGE_SIZE → Holds c m1 p i v → Holds c m2 p i v) := by
  have hoff := calculateOffset_lt c hc va d
  have hq := hpath d (Nat.le_refl _)
  have hqf : (pathNode c va pt d).frame = pt d := rfl
  have hql : (pathNode c va pt d).levels = (c.TABLES_DEPTH - d - 1) + 1 := by
    show c.TABLES_DEPTH - d = _
    omega
  have hqt : (pathNode c va pt d).isPage = false := pathNode_table c va pt d hd
  have hrange : ∀ x ∈ treeNodes c m1, 0 ≤ x.frame ∧ x.frame < c.NUM_FRAMES := by
    intro x hx
    have h1 := free.range x hx
    have h2 := free.bound
    omega
  have htr : 0 ≤ t ∧ t < c.NUM_FRAMES := by
    have h1 := free.inside
    have h2 := free.bound
    omega
  have hmove : ∀ x ∈ treeNodes c m1, ∀ j : Nat, j < c.PAGE_SIZE →
      ¬ (x.frame = pt d ∧ j = calculateOffset c va d) →
      PMread m2 (cell c x.frame j) = PMread m1 (cell c x.frame j) := by
    intro x hx j hj hne
    apply hram
    · intro heq
      exact hne (cell_inj c hc x.frame (pt d) j _ (hrange x hx) (hrange _ hq) hj hoff heq)
    · intro k hk heq
      exact free.fresh x hx (cell_inj c hc x.frame t j k (hrange x hx) htr hj hk heq).1
  have hperm := attach_perm c m1 m2 free.nodup (pathNode c va pt d) hq _ hql
    (calculateOffset c va d) hoff t (by have := free.inside; omega) hw hz
    (fun x hx _ j hj hne => hmove x hx j hj hne)
    (by
      rcases hnew with h | h
      · left; omega
      · right; exact h)
  rw [← pathNode_update_succ c va pt d t hd] at hperm
  have hnewf : (pathNode c va (updatePageTableAddresses pt d t) (d + 1)).frame = t := by
    rw [pathNode_update_succ c va pt d t hd]
  have hnewl : (pathNode c va (updatePageTableAddresses pt d t) (d + 1)).levels =
      c.TABLES_DEPTH - d - 1 := by
    rw [pathNode_update_succ c va pt d t hd]
  have hnewp : (pathNode c va (updatePageTableAddresses pt d t) (d + 1)).pageIndex =
      (pathNode c va pt d).pageIndex * 2 ^ c.OFFSET_WIDTH + calculateOffset c va d := by
    rw [pathNode_update_succ c va pt d t hd]
  have hnewpage : (pathNode c va (updatePageTableAddresses pt d t) (d + 1)).isPage = true →
      d + 1 = c.TABLES_DEPTH ∧
      (pathNode c va (updatePageTableAddresses pt d t) (d + 1)).pageIndex =
        ((va >>> c.OFFSET_WIDTH : Nat) : Int) := by
    intro hp
    have h1 : d + 1 = c.TABLES_DEPTH := by
      have : (pathNode c va (updatePageTableAddresses pt d t) (d + 1)).levels = 0 := by
        simpa [Node.isPage] using hp
      omega
    refine ⟨h1, ?_⟩
    show pathIndex c va (d + 1) = _
    rw [h1, pathIndex_depth]
  have hlen : (treeNodes c m2).length = (treeNodes c m1).length + 1 := by
    have := hperm.length_eq
    simpa using this
  have hmem : ∀ x, x ∈ treeNodes c m2 ↔
      (x ∈ treeNodes c m1 ∨ x = pathNode c va (updatePageTableAddresses pt d t) (d + 1)) := by
    intro x
    rw [hperm.mem_iff, List.mem_append, List.mem_singleton]
  have hkeyfresh : ∀ x ∈ treeNodes c m1,
      ¬ (x.levels = c.TABLES_DEPTH - d - 1 ∧
        x.pageIndex = (pathNode c va pt d).pageIndex * 2 ^ c.OFFSET_WIDTH +
          calculateOffset c va d) := by
    intro x hx ⟨hxl, hxp⟩
    rcases nodes_parent c m1 c.TABLES_DEPTH 0 0 0 0 x hx with hr | ⟨y, hy, k, hk, h1, _, _, h4, h5, h6⟩
    · rw [hr] at hxl
      simp only [] at hxl
      omega
    · have hP : (c.PAGE_SIZE : Int) = 2 ^ c.OFFSET_WIDTH := by
        rw [hc.page_size]; push_cast; rfl
      rw [hxp] at h4
      have hdig := digit_unique (2 ^ c.OFFSET_WIDTH) (pathNode c va pt d).pageIndex y.pageIndex
        (calculateOffset c va d) k
        ⟨Int.natCast_nonneg _, by rw [← hP]; exact_mod_cast hoff⟩
        ⟨Int.natCast_nonneg _, by rw [← hP]; exact_mod_cast hk⟩ h4
      have hyq : y = pathNode c va pt d :=
        node_unique_key _ free.keys y _ hy hq (by rw [h1, hxl, hql]) hdig.1.symm
      have hk' : k = calculateOffset c va d := by exact_mod_cast hdig.2.symm
      rw [hyq, hk', hqf, hz] at h5
      exact h6 h5.symm
  have inv2 : TreeInv c m2 := by
    refine ⟨?_, ?_, ?_, ?_, ?_⟩
    · rw [(hperm.map Node.frame).nodup_iff, List.map_append, List.nodup_append]
      refine ⟨free.nodup, by simp, ?_⟩
      intro f hf1 hf2
      obtain ⟨x, hx, hxf⟩ := List.mem_map.mp hf1
      simp only [List.map_cons, List.map_nil, List.mem_singleton] at hf2
      rw [hf2, hnewf] at hxf
      exact free.fresh x hx hxf
    · rw [(hperm.map _).nodup_iff, List.map_append, List.nodup_append]
      refine ⟨free.keys, by simp, ?_⟩
      intro k hk1 hk2
      obtain ⟨x, hx, hxk⟩ := List.mem_map.mp hk1
      simp only [List.map_cons, List.map_nil, List.mem_singleton] at hk2
      rw [hk2] at hxk
      simp only [Prod.mk.injEq] at hxk
      exact hkeyfresh x hx ⟨by rw [hxk.1, hnewl], by rw [hxk.2, hnewp]⟩
    · intro x hx
      rw [hlen]
      rcases (hmem x).mp hx with h | h
      · have := free.range x h
        push_cast
        omega
      · rw [h, hnewf]
        have := free.inside
        push_cast
        omega
    · rw [hlen]
      exact free.bound
    · intro x hx hp
      rcases (hmem x).mp hx with h | h
      · exact free.pages x h hp
      · rw [h] at hp ⊢
        rw [(hnewpage hp).2]
        exact ⟨Int.natCast_nonneg _, by exact_mod_cast page_lt c hc va hva⟩
  refine ⟨inv2, ⟨?_, ?_, ?_⟩, ?_⟩
  · show (if 0 = d + 1 then t else pt 0) = 0
    rw [if_neg (by omega), hroot]
  · intro j hj
    show (if j = d + 1 then t else pt j) = 0
    rw [if_neg (by omega), hzeros j (by omega)]
  · intro j hj
    by_cases hjd : j ≤ d
    · rw [pathNode_update_le c va pt d t j hjd]
      exact (hmem _).mpr (Or.inl (hpath j hjd))
    · have : j = d + 1 := by omega
      rw [this]
      exact (hmem _).mpr (Or.inr rfl)
  · intro p i v hi hold
    rcases hold with ⟨x, hx, hxp, hxi, hxv⟩ | ⟨hnot, saved, hs, hsv⟩
    · left
      refine ⟨x, (hmem x).mpr (Or.inl hx), hxp, hxi, ?_⟩
      rw [hmove x hx i hi ?_]
      · exact hxv
      · intro ⟨hxf, _⟩
        have := node_unique_frame _ free.nodup x _ hx hq (by rw [hxf, hqf])
        rw [this, hqt] at hxp
        exact Bool.noConfusion hxp
    · by_cases hcase : d + 1 = c.TABLES_DEPTH ∧ p = va >>> c.OFFSET_WIDTH
      · left
        refine ⟨_, (hmem _).mpr (Or.inr rfl), ?_, ?_, ?_⟩
        · unfold Node.isPage
          rw [hnewl]
          simp only [beq_iff_eq]
          omega
        · show pathIndex c va (d + 1) = _
          rw [hcase.1, pathIndex_depth, hcase.2]
        · rw [hnewf, hrest hcase.1 saved (by rw [← hcase.2]; exact hs) i hi]
          exact hsv
      · right
        refine ⟨?_, saved, by rw [hswap p hcase]; exact hs, hsv⟩
        intro y hy hyp hyi
        rcases (hmem y).mp hy with h | h
        · exact hnot y h hyp hyi
        · rw [h] at hyp hyi
          obtain ⟨h1, h2⟩ := hnewpage hyp
          rw [h2] at hyi
          exact hcase ⟨h1, by exact_mod_cast hyi.symm⟩

theorem swap_PMrestore (c : MemoryConstants) (m : PhysicalMemory) (T P p : Nat) :
    (PMrestore c m T P).swap p = if p = P then none else m.swap p := by
  unfold PMrestore
  cases h : m.swap P with
  | none =>
    simp only []
    by_cases hp : p = P
    · rw [if_pos hp, hp, h]
    · rw [if_neg hp]
  | some saved => rfl

theorem ram_PMrestore_none (c : MemoryConstants) (m : PhysicalMemory) (T P : Nat)
    (h : m.swap P = none) (a : Nat) : PMread (PMrestore c m T P) a = PMread m a := by
  unfold PMrestore
  rw [h]

theorem ram_PMrestore_some (c : MemoryConstants) (m : PhysicalMemory) (T P : Nat)
    (saved : Nat → Int) (h : m.swap P = some saved) (a : Nat) :
    PMread (PMrestore c m T P) a =
      if T * c.PAGE_SIZE ≤ a ∧ a < T * c.PAGE_SIZE + c.PAGE_SIZE then
        saved (a - T * c.PAGE_SIZE) else PMread m a := by
  unfold PMrestore
  rw [h]
  rfl

/-- The address that the translation reads and writes at the frame `pt d`. -/
theorem address_eq (c : MemoryConstants) (hc : Sized c) (f : Int) (pa i : Nat)
    (hf : 0 ≤ f ∧ f < c.NUM_FRAMES) (hpa : (pa : Int) = f) (hi : i < c.PAGE_SIZE) :
    (pa * c.PAGE_SIZE + i) % 2 ^ 64 = cell c f i := by
  obtain ⟨h1, h2⟩ := cell_eq c hc f i hf hi
  have h3 : f.toNat = pa := by omega
  rw [h1, h3] at h2 ⊢
  have := ram_lt c hc
  exact Nat.mod_eq_of_lt (by omega)

/-- The translation step at a zero entry: `handleEmptyAddress` returns a frame other than
-1 and 0 that was not on the path, and leaves a well-formed tree with the path one frame
longer and every word that was held. -/
theorem handleEmptyAddress_spec (c : MemoryConstants) (hc : Sized c) (va : Nat)
    (hva : va < c.VIRTUAL_MEMORY_SIZE) (m : PhysicalMemory) (pt : Nat → Int) (d : Nat)
    (hd : d < c.TABLES_DEPTH) (inv : TreeInv c m) (path : PathInv c va m pt d) (pa : Nat)
    (hpa : (pa : Int) = pt d)
    (hzero : PMread m (cell c (pt d) (calculateOffset c va d)) = 0) :
    (handleEmptyAddress c m pa (calculateOffset c va d) va d pt).1 ≠ -1 ∧
    (handleEmptyAddress c m pa (calculateOffset c va d) va d pt).1 ≠ 0 ∧
    onPath c pt (handleEmptyAddress c m pa (calculateOffset c va d) va d pt).1 = false ∧
    (0 ≤ (handleEmptyAddress c m pa (calculateOffset c va d) va d pt).1 ∧
      (handleEmptyAddress c m pa (calculateOffset c va d) va d pt).1 < c.NUM_FRAMES) ∧
    TreeInv c (handleEmptyAddress c m pa (calculateOffset c va d) va d pt).2 ∧
    PathInv c va (handleEmptyAddress c m pa (calculateOffset c va d) va d pt).2
      (updatePageTableAddresses pt d
        (handleEmptyAddress c m pa (calculateOffset c va d) va d pt).1) (d + 1) ∧
    (∀ (p i : Nat) (v : Int), i < c.PAGE_SIZE → Holds c m p i v →
      Holds c (handleEmptyAddress c m pa (calculateOffset c va d) va d pt).2 p i v) := by
  obtain ⟨free, hoffp, hpath, hkeep, hholds⟩ :=
    selectFrameForPage_spec c hc va hva m pt d hd inv path
  generalize hsel : selectFrameForPage c m pt (toInt32 (va >>> c.OFFSET_WIDTH)) = r at *
  obtain ⟨t, m1⟩ := r
  dsimp only at free hoffp hpath hkeep hholds
  have hoff := calculateOffset_lt c hc va d
  have hNF := frames_lt c hc
  have htr : 0 ≤ t ∧ t < c.NUM_FRAMES := by
    have h1 := free.inside
    have h2 := free.bound
    omega
  have hfr : 0 ≤ pt d ∧ pt d < c.NUM_FRAMES := by
    have h1 := inv.range _ (path.onTree d (Nat.le_refl _))
    have h2 := inv.bound
    have h3 : (pathNode c va pt d).frame = pt d := rfl
    omega
  have hne1 : t ≠ -1 := by omega
  have hne0 : t ≠ 0 := by have := free.inside; omega
  have hptd : pt d ≠ t := by
    have := free.fresh _ (hpath d (Nat.le_refl _))
    exact this
  have haddr := address_eq c hc (pt d) pa (calculateOffset c va d) hfr hpa hoff
  have hT : toUInt64 t = t.toNat := toUInt64_small t htr.1 (by omega)
  have hnotin : ∀ j : Nat, j < c.PAGE_SIZE →
      cell c (pt d) (calculateOffset c va d) ≠ cell c t j := by
    intro j hj heq
    exact hptd (cell_inj c hc _ _ _ _ hfr htr hoff hj heq).1
  have hz1 := hkeep _ hzero
  by_cases hleaf : d + 1 = c.TABLES_DEPTH
  · have hres : handleEmptyAddress c m pa (calculateOffset c va d) va d pt =
        (t, PMrestore c (PMwrite m1 (cell c (pt d) (calculateOffset c va d)) t) t.toNat
          (va >>> c.OFFSET_WIDTH)) := by
      unfold handleEmptyAddress
      simp only [hsel, if_neg hne1, if_pos hleaf, haddr, hT]
    rw [hres]
    dsimp only
    have hrange : ∀ a : Nat,
        (t.toNat * c.PAGE_SIZE ≤ a ∧ a < t.toNat * c.PAGE_SIZE + c.PAGE_SIZE) ↔
          ∃ j : Nat, j < c.PAGE_SIZE ∧ a = cell c t j := by
      intro a
      constructor
      · intro ⟨h1, h2⟩
        refine ⟨a - t.toNat * c.PAGE_SIZE, by omega, ?_⟩
        rw [(cell_eq c hc t _ htr (by omega)).1]
        omega
      · rintro ⟨j, hj, rfl⟩
        rw [(cell_eq c hc t j htr hj).1]
        omega
    have hread : ∀ a : Nat, (∀ j : Nat, j < c.PAGE_SIZE → a ≠ cell c t j) →
        PMread (PMrestore c (PMwrite m1 (cell c (pt d) (calculateOffset c va d)) t) t.toNat
          (va >>> c.OFFSET_WIDTH)) a =
        PMread (PMwrite m1 (cell c (pt d) (calculateOffset c va d)) t) a := by
      intro a ha
      cases hs : (PMwrite m1 (cell c (pt d) (calculateOffset c va d)) t).swap
          (va >>> c.OFFSET_WIDTH) with
      | none => exact ram_PMrestore_none c _ _ _ hs a
      | some saved =>
        rw [ram_PMrestore_some c _ _ _ saved hs a, if_neg]
        rw [hrange]
        rintro ⟨j, hj, hja⟩
        exact ha j hj hja
    obtain ⟨h1, h2, h3⟩ := attach_spec c hc va hva m1
      (PMrestore c (PMwrite m1 (cell c (pt d) (calculateOffset c va d)) t) t.toNat
        (va >>> c.OFFSET_WIDTH)) pt d hd t free path.root path.zeros
      hpath hz1
      (by rw [hread _ hnotin, PMread_PMwrite, if_pos rfl])
      (by
        intro a ha1 ha2
        rw [hread a ha2, PMread_PMwrite, if_neg ha1])
      (Or.inl hleaf)
      (by
        intro p hp
        rw [swap_PMrestore, swap_PMwrite, if_neg]
        intro heq
        exact hp ⟨hleaf, heq⟩)
      (by
        intro _ saved hs i hi
        rw [ram_PMrestore_some c _ _ _ saved (by rw [swap_PMwrite]; exact hs),
          if_pos ((hrange _).mpr ⟨i, hi, rfl⟩), (cell_eq c hc t i htr hi).1]
        congr 1
        omega)
    exact ⟨hne1, hne0, hoffp, htr, h1, h2, fun p i v hi h => h3 p i v hi (hholds p i v hi h)⟩
  · have hres : handleEmptyAddress c m pa (calculateOffset c va d) va d pt =
        (t, initializeFrame c (PMwrite m1 (cell c (pt d) (calculateOffset c va d)) t) t) := by
      unfold handleEmptyAddress
      simp only [hsel, if_neg hne1, if_neg hleaf, haddr]
    rw [hres]
    dsimp only
    obtain ⟨h1, h2, h3⟩ := attach_spec c hc va hva m1
      (initializeFrame c (PMwrite m1 (cell c (pt d) (calculateOffset c va d)) t) t)
      pt d hd t free path.root path.zeros
      hpath hz1
      (by
        rw [ram_initializeFrame, if_neg, PMread_PMwrite, if_pos rfl]
        rintro ⟨j, hj, hja⟩
        exact hnotin j hj hja)
      (by
        intro a ha1 ha2
        rw [ram_initializeFrame, if_neg, PMread_PMwrite, if_neg ha1]
        rintro ⟨j, hj, hja⟩
        exact ha2 j hj hja)
      (Or.inr (by
        intro j hj
        rw [ram_initializeFrame, if_pos ⟨j, hj, rfl⟩]))
      (by
        intro p _
        rw [swap_initializeFrame, swap_PMwrite])
      (by intro h; exact absurd h hleaf)
    exact ⟨hne1, hne0, hoffp, htr, h1, h2, fun p i v hi h => h3 p i v hi (hholds p i v hi h)⟩

/-! ## The translation -/

theorem pathInv_congr (c : MemoryConstants) (va : Nat) (m : PhysicalMemory)
    (pt pt1 : Nat → Int) (d : Nat) (h : ∀ j : Nat, pt1 j = pt j)
    (path : PathInv c va m pt d) : PathInv c va m pt1 d := by
  have hnode : ∀ j : Nat, pathNode c va pt1 j = pathNode c va pt j := by
    intro j
    unfold pathNode
    rw [h j, h (j - 1)]
  refine ⟨by rw [h 0]; exact path.root, ?_, ?_⟩
  · intro j hj
    rw [h j]
    exact path.zeros j hj
  · intro j hj
    rw [hnode j]
    exact path.onTree j hj

/-- The translation step at a non-zero entry: the path is one frame longer. -/
theorem pathInv_next (c : MemoryConstants) (va : Nat) (m : PhysicalMemory)
    (pt : Nat → Int) (d : Nat) (hd : d < c.TABLES_DEPTH) (hoff : calculateOffset c va d < c.PAGE_SIZE)
    (path : PathInv c va m pt d)
    (hne : PMread m (cell c (pt d) (calculateOffset c va d)) ≠ 0) :
    PathInv c va m
      (updatePageTableAddresses pt d (PMread m (cell c (pt d) (calculateOffset c va d))))
      (d + 1) := by
  refine ⟨?_, ?_, ?_⟩
  · show (if 0 = d + 1 then _ else pt 0) = 0
    rw [if_neg (by omega), path.root]
  · intro j hj
    show (if j = d + 1 then _ else pt j) = 0
    rw [if_neg (by omega), path.zeros j (by omega)]
  · intro j hj
    by_cases hjd : j ≤ d
    · rw [pathNode_update_le c va pt d _ j hjd]
      exact path.onTree j hjd
    · have hj' : j = d + 1 := by omega
      rw [hj', pathNode_update_succ c va pt d _ hd]
      have hq := path.onTree d (Nat.le_refl _)
      apply nodes_kids c m c.TABLES_DEPTH 0 0 0 0 _ hq (c.TABLES_DEPTH - d - 1)
        (by show c.TABLES_DEPTH - d = _; omega) (calculateOffset c va d) hoff
      have hqf : (pathNode c va pt d).frame = pt d := rfl
      unfold kidsAt
      rw [hqf, if_pos hne]
      exact nodes_root_mem c m _ _ _ _ _

/-- The loop of the translation, from a state of the path at depth
`TABLES_DEPTH - levels`: it ends with the path at depth `TABLES_DEPTH`, in a well-formed
tree, at the frame it returns; each frame that `selectFrameForPage` returned on the way
is other than -1 and 0 and was not on the path; and every word that was held is still
held. -/
theorem traverseLoop_spec (c : MemoryConstants) (hc : Sized c) (va : Nat)
    (hva : va < c.VIRTUAL_MEMORY_SIZE) (levels : Nat) :
    levels ≤ c.TABLES_DEPTH → ∀ (pa : Nat) (pt : Nat → Int) (m : PhysicalMemory),
      TreeInv c m → PathInv c va m pt (c.TABLES_DEPTH - levels) →
      (pa : Int) = pt (c.TABLES_DEPTH - levels) →
      TreeInv c (traverseLoop c va levels pa pt m).memory ∧
      (∃ pt1 : Nat → Int,
        PathInv c va (traverseLoop c va levels pa pt m).memory pt1 c.TABLES_DEPTH ∧
        ((traverseLoop c va levels pa pt m).physicalAddress : Int) = pt1 c.TABLES_DEPTH) ∧
      (∀ s ∈ (traverseLoop c va levels pa pt m).selected,
        s.1 ≠ -1 ∧ s.1 ≠ 0 ∧ s.2 = false) ∧
      (∀ (p i : Nat) (v : Int), i < c.PAGE_SIZE → Holds c m p i v →
        Holds c (traverseLoop c va levels pa pt m).memory p i v) := by
  induction levels with
  | zero =>
    intro _ pa pt m inv path hpa
    simp only [traverseLoop]
    exact ⟨inv, ⟨pt, path, hpa⟩, by simp, fun p i v _ h => h⟩
  | succ levels ih =>
    intro hle pa pt m inv path hpa
    have hd : c.TABLES_DEPTH - (levels + 1) < c.TABLES_DEPTH := by omega
    have hd1 : c.TABLES_DEPTH - levels = c.TABLES_DEPTH - (levels + 1) + 1 := by omega
    rw [hd1] at ih
    generalize hdef : c.TABLES_DEPTH - (levels + 1) = d at *
    have hoff := calculateOffset_lt c hc va d
    have hNF := frames_lt c hc
    have hfr : 0 ≤ pt d ∧ pt d < c.NUM_FRAMES := by
      have h1 := inv.range _ (path.onTree d (Nat.le_refl _))
      have h2 := inv.bound
      have h3 : (pathNode c va pt d).frame = pt d := rfl
      omega
    have haddr := address_eq c hc (pt d) pa (calculateOffset c va d) hfr hpa hoff
    by_cases hopt : PMread m (cell c (pt d) (calculateOffset c va d)) = 0
    · have hpt1 : ∀ j : Nat, updatePageTableAddresses pt d 0 j = pt j := by
        intro j
        show (if j = d + 1 then 0 else pt j) = pt j
        split
        · rename_i h; rw [h, path.zeros (d + 1) (by omega)]
        · rfl
      have path1 := pathInv_congr c va m pt _ d hpt1 path
      obtain ⟨h1, h2, h3, h4, h5, h6, h7⟩ := handleEmptyAddress_spec c hc va hva m
        (updatePageTableAddresses pt d 0) d hd inv path1 pa (by rw [hpt1 d]; exact hpa)
        (by rw [hpt1 d]; exact hopt)
      have hstep : traverseLoop c va (levels + 1) pa pt m =
          { traverseLoop c va levels
              (toUInt64 (handleEmptyAddress c m pa (calculateOffset c va d) va d
                (updatePageTableAddresses pt d 0)).1)
              (updatePageTableAddresses (updatePageTableAddresses pt d 0) d
                (handleEmptyAddress c m pa (calculateOffset c va d) va d
                  (updatePageTableAddresses pt d 0)).1)
              (handleEmptyAddress c m pa (calculateOffset c va d) va d
                (updatePageTableAddresses pt d 0)).2 with
            selected :=
              ((handleEmptyAddress c m pa (calculateOffset c va d) va d
                  (updatePageTableAddresses pt d 0)).1,
                onPath c (updatePageTableAddresses pt d 0)
                  (handleEmptyAddress c m pa (calculateOffset c va d) va d
                    (updatePageTableAddresses pt d 0)).1) ::
              (traverseLoop c va levels
                (toUInt64 (handleEmptyAddress c m pa (calculateOffset c va d) va d
                  (updatePageTableAddresses pt d 0)).1)
                (updatePageTableAddresses (updatePageTableAddresses pt d 0) d
                  (handleEmptyAddress c m pa (calculateOffset c va d) va d
                    (updatePageTableAddresses pt d 0)).1)
                (handleEmptyAddress c m pa (calculateOffset c va d) va d
                  (updatePageTableAddresses pt d 0)).2).selected } := by
        rw [traverseLoop]
        simp only [hdef, haddr, hopt, if_true, if_neg h1]
      rw [hstep]
      generalize handleEmptyAddress c m pa (calculateOffset c va d) va d
        (updatePageTableAddresses pt d 0) = r at *
      obtain ⟨i1, i2, i3, i4⟩ := ih (by omega) (toUInt64 r.1)
        (updatePageTableAddresses (updatePageTableAddresses pt d 0) d r.1) r.2 h5 h6
        (by
          rw [toUInt64_small r.1 h4.1 (by omega), Int.toNat_of_nonneg h4.1]
          show r.1 = (if d + 1 = d + 1 then r.1 else _)
          rw [if_pos rfl])
      refine ⟨i1, i2, ?_, fun p i v hi h => i4 p i v hi (h7 p i v hi h)⟩
      intro s hs
      rcases List.mem_cons.mp hs with h | h
      · rw [h]
        exact ⟨h1, h2, h3⟩
      · exact i3 s h
    · have hstep : traverseLoop c va (levels + 1) pa pt m =
          traverseLoop c va levels
            (toUInt64 (PMread m (cell c (pt d) (calculateOffset c va d))))
            (updatePageTableAddresses
              (updatePageTableAddresses pt d (PMread m (cell c (pt d) (calculateOffset c va d))))
              d (PMread m (cell c (pt d) (calculateOffset c va d)))) m := by
        rw [traverseLoop]
        simp only [hdef, haddr, if_neg hopt]
      rw [hstep]
      have path1 := pathInv_next c va m pt d hd hoff path hopt
      have hpt2 : ∀ j : Nat,
          updatePageTableAddresses
            (updatePageTableAddresses pt d (PMread m (cell c (pt d) (calculateOffset c va d))))
            d (PMread m (cell c (pt d) (calculateOffset c va d))) j =
          updatePageTableAddresses pt d (PMread m (cell c (pt d) (calculateOffset c va d))) j := by
        intro j
        show (if j = d + 1 then _ else (if j = d + 1 then _ else pt j)) =
          (if j = d + 1 then _ else pt j)
        split <;> rfl
      have path2 := pathInv_congr c va m _ _ (d + 1) hpt2 path1
      have hnew := inv.range _ (path1.onTree (d + 1) (Nat.le_refl _))
      have hnewf : (pathNode c va
          (updatePageTableAddresses pt d (PMread m (cell c (pt d) (calculateOffset c va d))))
          (d + 1)).frame = PMread m (cell c (pt d) (calculateOffset c va d)) := by
        show (if d + 1 = d + 1 then _ else _) = _
        rw [if_pos rfl]
      rw [hnewf] at hnew
      have hb := inv.bound
      exact ih (by omega) _ _ m inv path2
        (by
          rw [toUInt64_small _ hnew.1 (by omega), Int.toNat_of_nonneg hnew.1, hpt2]
          show _ = (if d + 1 = d + 1 then _ else _)
          rw [if_pos rfl])

theorem treeNodes_VMinitialize (c : MemoryConstants) (m0 : PhysicalMemory) :
    treeNodes c ( VMinitialize c m0) = [Node.mk 0 0 0 0 c.TABLES_DEPTH] := by
  unfold treeNodes VMinitialize
  apply nodes_childless
  right
  intro i hi
  rw [ram_initializeFrame, if_pos ⟨i, hi, rfl⟩]

/-- After `VMinitialize` the tree is the root table alone. -/
theorem treeInv_VMinitialize (c : MemoryConstants) (hc : Sized c) (m0 : PhysicalMemory) :
    TreeInv c ( VMinitialize c m0) := by
  have h := treeNodes_VMinitialize c m0
  have hTD := hc.depth_pos
  have hNF := hc.frames
  refine ⟨?_, ?_, ?_, ?_, ?_⟩
  · rw [h]; simp
  · rw [h]; simp
  · intro n hn
    rw [h] at hn ⊢
    rw [List.mem_singleton.mp hn]
    simp
  · rw [h]
    simp only [List.length_singleton]
    omega
  · intro n hn hp
    rw [h] at hn
    rw [List.mem_singleton.mp hn] at hp
    simp only [Node.isPage, beq_iff_eq] at hp
    omega

/-- The translation of an address in range: it ends in a well-formed tree at the frame of
the page of the address, each frame that `selectFrameForPage` returned on the way is
other than -1 and 0 and was not on the path, and every word that was held is still
held. -/
theorem traverseVirtualAddress_spec (c : MemoryConstants) (hc : Sized c) (va : Nat)
    (hva : va < c.VIRTUAL_MEMORY_SIZE) (m : PhysicalMemory) (inv : TreeInv c m) :
    TreeInv c (traverseVirtualAddress c m va).memory ∧
    (∃ leaf ∈ treeNodes c (traverseVirtualAddress c m va).memory, leaf.isPage = true ∧
      leaf.pageIndex = ((va >>> c.OFFSET_WIDTH : Nat) : Int) ∧
      ((traverseVirtualAddress c m va).physicalAddress : Int) = leaf.frame) ∧
    (∀ s ∈ (traverseVirtualAddress c m va).selected, s.1 ≠ -1 ∧ s.1 ≠ 0 ∧ s.2 = false) ∧
    (∀ (p i : Nat) (v : Int), i < c.PAGE_SIZE → Holds c m p i v →
      Holds c (traverseVirtualAddress c m va).memory p i v) := by
  have path : PathInv c va m (fun _ => 0) (c.TABLES_DEPTH - c.TABLES_DEPTH) := by
    rw [Nat.sub_self]
    refine ⟨rfl, fun _ _ => rfl, ?_⟩
    intro j hj
    have hj0 : j = 0 := by omega
    rw [hj0]
    have : pathNode c va (fun _ => 0) 0 = Node.mk 0 0 0 0 c.TABLES_DEPTH := by
      unfold pathNode
      simp only [if_true, pathIndex_zero c hc va hva, Nat.sub_zero]
    rw [this]
    exact root_mem_treeNodes c m
  obtain ⟨h1, ⟨pt1, h2, h3⟩, h4, h5⟩ := traverseLoop_spec c hc va hva c.TABLES_DEPTH
    (Nat.le_refl _) 0 (fun _ => 0) m inv path (by rw [Nat.sub_self]; rfl)
  refine ⟨h1, ⟨pathNode c va pt1 c.TABLES_DEPTH, h2.onTree _ (Nat.le_refl _), ?_, ?_, h3⟩,
    h4, h5⟩
  · unfold pathNode Node.isPage
    simp
  · exact pathIndex_depth c va

theorem offset_eq (c : MemoryConstants) (hc : Sized c) (va : Nat) :
    va % (1 <<< c.OFFSET_WIDTH) = va % c.PAGE_SIZE := by
  rw [Nat.one_shiftLeft, hc.page_size]

theorem toInt32_frame (c : MemoryConstants) (hc : Sized c) (pa : Nat) (f : Int)
    (hf : 0 ≤ f ∧ f < c.NUM_FRAMES) (hpa : (pa : Int) = f) : toInt32 pa ≠ -1 := by
  have := frames_lt c hc
  rw [toInt32_small _ (by omega) (by omega)]
  omega

/-- `VMread` of an address in range returns 1 with the word of the frame of the page. -/
theorem VMread_spec (c : MemoryConstants) (hc : Sized c) (va : Nat)
    (hva : va < c.VIRTUAL_MEMORY_SIZE) (m : PhysicalMemory) (inv : TreeInv c m) :
    ∃ leaf ∈ treeNodes c (traverseVirtualAddress c m va).memory, leaf.isPage = true ∧
      leaf.pageIndex = ((va >>> c.OFFSET_WIDTH : Nat) : Int) ∧
      VMread c m va =
        (1, some (PMread (traverseVirtualAddress c m va).memory
          (cell c leaf.frame (va % c.PAGE_SIZE : Nat))),
          (traverseVirtualAddress c m va).memory) := by
  obtain ⟨h1, ⟨leaf, hl, hp, hi, hf⟩, _, _⟩ := traverseVirtualAddress_spec c hc va hva m inv
  have hfr : 0 ≤ leaf.frame ∧ leaf.frame < c.NUM_FRAMES := by
    have a1 := h1.range leaf hl
    have a2 := h1.bound
    omega
  refine ⟨leaf, hl, hp, hi, ?_⟩
  unfold VMread
  rw [if_pos hva]
  simp only []
  rw [if_pos (toInt32_frame c hc _ leaf.frame hfr hf), offset_eq c hc,
    address_eq c hc leaf.frame _ _ hfr hf (Nat.mod_lt _ (by rw [hc.page_size]; positivity))]

/-- `VMwrite` of an address in range returns 1 after writing the word of the frame of the
page. -/
theorem VMwrite_spec (c : MemoryConstants) (hc : Sized c) (va : Nat)
    (hva : va < c.VIRTUAL_MEMORY_SIZE) (m : PhysicalMemory) (inv : TreeInv c m) (value : Int) :
    ∃ leaf ∈ treeNodes c (traverseVirtualAddress c m va).memory, leaf.isPage = true ∧
      leaf.pageIndex = ((va >>> c.OFFSET_WIDTH : Nat) : Int) ∧
      VMwrite c m va value =
        (1, PMwrite (traverseVirtualAddress c m va).memory
          (cell c leaf.frame (va % c.PAGE_SIZE : Nat)) value) := by
  obtain ⟨h1, ⟨leaf, hl, hp, hi, hf⟩, _, _⟩ := traverseVirtualAddress_spec c hc va hva m inv
  have hfr : 0 ≤ leaf.frame ∧ leaf.frame < c.NUM_FRAMES := by
    have a1 := h1.range leaf hl
    have a2 := h1.bound
    omega
  refine ⟨leaf, hl, hp, hi, ?_⟩
  unfold VMwrite
  rw [if_pos hva]
  simp only []
  rw [if_pos (toInt32_frame c hc _ leaf.frame hfr hf), offset_eq c hc,
    address_eq c hc leaf.frame _ _ hfr hf (Nat.mod_lt _ (by rw [hc.page_size]; positivity))]

/-- A write into the frame of a page leaves the tree as it is. -/
theorem treeNodes_write_page (c : MemoryConstants) (hc : Sized c) (m : PhysicalMemory)
    (inv : TreeInv c m) (leaf : Node) (hl : leaf ∈ treeNodes c m) (hp : leaf.isPage = true)
    (i : Nat) (hi : i < c.PAGE_SIZE) (value : Int) :
    treeNodes c (PMwrite m (cell c leaf.frame i) value) = treeNodes c m := by
  have hrange : ∀ x ∈ treeNodes c m, 0 ≤ x.frame ∧ x.frame < c.NUM_FRAMES := by
    intro x hx
    have h1 := inv.range x hx
    have h2 := inv.bound
    omega
  apply nodes_congr
  intro n hn hnt j hj
  rw [PMread_PMwrite, if_neg]
  intro heq
  have := cell_inj c hc n.frame leaf.frame j i (hrange n hn) (hrange leaf hl) hj hi heq
  have hnl := node_unique_frame _ inv.nodup n leaf hn hl this.1
  rw [hnl, hp] at hnt
  exact Bool.noConfusion hnt

theorem treeInv_of_treeNodes_eq (c : MemoryConstants) (m m1 : PhysicalMemory)
    (h : treeNodes c m1 = treeNodes c m) (inv : TreeInv c m) : TreeInv c m1 := by
  refine ⟨?_, ?_, ?_, ?_, ?_⟩
  · rw [h]; exact inv.nodup
  · rw [h]; exact inv.keys
  · rw [h]; exact inv.range
  · rw [h]; exact inv.bound
  · rw [h]; exact inv.pages

/-! ## Sequences of calls -/

theorem runAccesses_append (c : MemoryConstants) (m : PhysicalMemory) (l : List Access)
    (op : Access) : runAccesses c m (l ++ [op]) = Access.apply c (runAccesses c m l) op := by
  unfold runAccesses
  rw [List.foldl_append]
  rfl

theorem lastWrite_append_read (a b : Nat) (l : List Access) :
    lastWrite a (l ++ [Access.read b]) = lastWrite a l := by
  induction l with
  | nil => rfl
  | cons x rest ih =>
    cases x with
    | read _ => exact ih
    | write b1 v1 =>
      show (match lastWrite a (rest ++ [Access.read b]) with
        | some v => some v
        | none => if b1 = a then some v1 else none) = _
      rw [ih]
      rfl

theorem lastWrite_append_write (a b : Nat) (v : Int) (l : List Access) :
    lastWrite a (l ++ [Access.write b v]) = if b = a then some v else lastWrite a l := by
  induction l with
  | nil => rfl
  | cons x rest ih =>
    cases x with
    | read _ => exact ih
    | write b1 v1 =>
      show (match lastWrite a (rest ++ [Access.write b v]) with
        | some v => some v
        | none => if b1 = a then some v1 else none) = _
      rw [ih]
      by_cases hb : b = a
      · rw [if_pos hb, if_pos hb]
      · rw [if_neg hb, if_neg hb]
        rfl

theorem address_split (c : MemoryConstants) (hc : Sized c) (a b : Nat)
    (h1 : a >>> c.OFFSET_WIDTH = b >>> c.OFFSET_WIDTH)
    (h2 : a % c.PAGE_SIZE = b % c.PAGE_SIZE) : a = b := by
  rw [Nat.shiftRight_eq_div_pow, Nat.shiftRight_eq_div_pow, ← hc.page_size] at h1
  rw [← Nat.div_add_mod a c.PAGE_SIZE, ← Nat.div_add_mod b c.PAGE_SIZE, h1, h2]

/-- After any sequence of calls from `VMinitialize` the tree is well formed, and every
address holds the value of the most recent `VMwrite` to it. -/
theorem accesses_spec (c : MemoryConstants) (hc : Sized c) (m0 : PhysicalMemory)
    (l : List Access) :
    TreeInv c (runAccesses c ( VMinitialize c m0) l) ∧
    ∀ (a : Nat) (v : Int), a < c.VIRTUAL_MEMORY_SIZE → lastWrite a l = some v →
      Holds c (runAccesses c ( VMinitialize c m0) l) (a >>> c.OFFSET_WIDTH)
        (a % c.PAGE_SIZE) v := by
  have hPS : 0 < c.PAGE_SIZE := by rw [hc.page_size]; positivity
  induction l using List.reverseRecOn with
  | nil =>
    refine ⟨ treeInv_VMinitialize c hc m0, ?_⟩
    intro a v _ h
    exact Option.noConfusion h
  | append_singleton l op ih =>
    obtain ⟨inv, hold⟩ := ih
    rw [runAccesses_append]
    generalize runAccesses c ( VMinitialize c m0) l = m at *
    cases op with
    | read b =>
      show TreeInv c (VMread c m b).2.2 ∧ _
      by_cases hb : b < c.VIRTUAL_MEMORY_SIZE
      · obtain ⟨_, _, _, _, hr⟩ := VMread_spec c hc b hb m inv
        obtain ⟨h1, _, _, h4⟩ := traverseVirtualAddress_spec c hc b hb m inv
        have hm : (VMread c m b).2.2 = (traverseVirtualAddress c m b).memory := by rw [hr]
        show TreeInv c (VMread c m b).2.2 ∧
          ∀ (a : Nat) (v : Int), a < c.VIRTUAL_MEMORY_SIZE →
            lastWrite a (l ++ [Access.read b]) = some v →
            Holds c (VMread c m b).2.2 (a >>> c.OFFSET_WIDTH) (a % c.PAGE_SIZE) v
        rw [hm]
        refine ⟨h1, ?_⟩
        intro a v ha hw
        rw [lastWrite_append_read] at hw
        exact h4 _ _ _ (Nat.mod_lt _ hPS) (hold a v ha hw)
      · have hm : (VMread c m b).2.2 = m := by
          unfold VMread
          rw [if_neg hb]
        show TreeInv c (VMread c m b).2.2 ∧
          ∀ (a : Nat) (v : Int), a < c.VIRTUAL_MEMORY_SIZE →
            lastWrite a (l ++ [Access.read b]) = some v →
            Holds c (VMread c m b).2.2 (a >>> c.OFFSET_WIDTH) (a % c.PAGE_SIZE) v
        rw [hm]
        refine ⟨inv, ?_⟩
        intro a v ha hw
        rw [lastWrite_append_read] at hw
        exact hold a v ha hw
    | write b value =>
      by_cases hb : b < c.VIRTUAL_MEMORY_SIZE
      · obtain ⟨leaf, hl, hp, hi, hr⟩ := VMwrite_spec c hc b hb m inv value
        obtain ⟨h1, _, _, h4⟩ := traverseVirtualAddress_spec c hc b hb m inv
        have hm : (VMwrite c m b value).2 =
            PMwrite (traverseVirtualAddress c m b).memory
              (cell c leaf.frame (b % c.PAGE_SIZE : Nat)) value := by rw [hr]
        show TreeInv c (VMwrite c m b value).2 ∧
          ∀ (a : Nat) (v : Int), a < c.VIRTUAL_MEMORY_SIZE →
            lastWrite a (l ++ [Access.write b value]) = some v →
            Holds c (VMwrite c m b value).2 (a >>> c.OFFSET_WIDTH) (a % c.PAGE_SIZE) v
        rw [hm]
        generalize (traverseVirtualAddress c m b).memory = m1 at *
        have htree := treeNodes_write_page c hc m1 h1 leaf hl hp (b % c.PAGE_SIZE)
          (Nat.mod_lt _ hPS) value
        have hrange : ∀ x ∈ treeNodes c m1, 0 ≤ x.frame ∧ x.frame < c.NUM_FRAMES := by
          intro x hx
          have a1 := h1.range x hx
          have a2 := h1.bound
          omega
        refine ⟨treeInv_of_treeNodes_eq c m1 _ htree h1, ?_⟩
        intro a v ha hw
        rw [lastWrite_append_write] at hw
        by_cases hba : b = a
        · rw [if_pos hba] at hw
          have hv : value = v := by simpa using hw
          left
          refine ⟨leaf, by rw [htree]; exact hl, hp, by rw [hi, hba], ?_⟩
          rw [← hba, PMread_PMwrite, if_pos rfl, hv]
        · rw [if_neg hba] at hw
          rcases h4 _ _ _ (Nat.mod_lt _ hPS) (hold a v ha hw) with
            ⟨x, hx, hxp, hxi, hxv⟩ | ⟨hnot, saved, hs, hsv⟩
          · left
            refine ⟨x, by rw [htree]; exact hx, hxp, hxi, ?_⟩
            rw [PMread_PMwrite, if_neg]
            · exact hxv
            · intro heq
              have hc1 := cell_inj c hc x.frame leaf.frame _ _ (hrange x hx) (hrange leaf hl)
                (Nat.mod_lt _ hPS) (Nat.mod_lt _ hPS) heq
              have hxl := node_unique_frame _ h1.nodup x leaf hx hl hc1.1
              rw [hxl, hi] at hxi
              exact hba (address_split c hc b a (by exact_mod_cast hxi) hc1.2.symm)
          · right
            refine ⟨?_, saved, by rw [swap_PMwrite]; exact hs, hsv⟩
            intro y hy
            rw [htree] at hy
            exact hnot y hy
      · have hm : (VMwrite c m b value).2 = m := by
          unfold VMwrite
          rw [if_neg hb]
        show TreeInv c (VMwrite c m b value).2 ∧
          ∀ (a : Nat) (v : Int), a < c.VIRTUAL_MEMORY_SIZE →
            lastWrite a (l ++ [Access.write b value]) = some v →
            Holds c (VMwrite c m b value).2 (a >>> c.OFFSET_WIDTH) (a % c.PAGE_SIZE) v
        rw [hm]
        refine ⟨inv, ?_⟩
        intro a v ha hw
        rw [lastWrite_append_write, if_neg (by omega)] at hw
        exact hold a v ha hw

theorem sized_tiny : Sized tiny := by
  refine ⟨?_, ?_, ?_, ?_, ?_, ?_, ?_, ?_⟩ <;> decide

/-! ## The calls of the library -/

/-- C18 (amended): with the numbers of pages, of frames and of words of a page below
2^31 (`Sized`), in every state reached from `VMinitialize` by calls of `VMread` and
`VMwrite`, with more frames than levels of tables, `VMread` and `VMwrite` of an address below
`VIRTUAL_MEMORY_SIZE` return 1, and every frame that `selectFrameForPage` returns during
the translation is other than -1 and 0 and is not on the translation path; for an address
that is not below `VIRTUAL_MEMORY_SIZE` they return 0 and leave the memory and the swap
store as they are. -/
theorem access_succeeds_in_range (c : MemoryConstants) (hc : Sized c) (m0 : PhysicalMemory)
    (l : List Access) (va : Nat) (value : Int) :
    (va < c.VIRTUAL_MEMORY_SIZE →
      (VMread c (runAccesses c ( VMinitialize c m0) l) va).1 = 1 ∧
      (VMwrite c (runAccesses c ( VMinitialize c m0) l) va value).1 = 1 ∧
      ∀ s ∈ (traverseVirtualAddress c (runAccesses c ( VMinitialize c m0) l) va).selected,
        s.1 ≠ -1 ∧ s.1 ≠ 0 ∧ s.2 = false) ∧
    (c.VIRTUAL_MEMORY_SIZE ≤ va →
      VMread c (runAccesses c ( VMinitialize c m0) l) va =
        (0, none, runAccesses c ( VMinitialize c m0) l) ∧
      VMwrite c (runAccesses c ( VMinitialize c m0) l) va value =
        (0, runAccesses c ( VMinitialize c m0) l)) := by
  obtain ⟨inv, _⟩ := accesses_spec c hc m0 l
  generalize runAccesses c ( VMinitialize c m0) l = m at *
  refine ⟨?_, ?_⟩
  · intro hva
    obtain ⟨_, _, _, _, hr⟩ := VMread_spec c hc va hva m inv
    obtain ⟨_, _, _, _, hw⟩ := VMwrite_spec c hc va hva m inv value
    obtain ⟨_, _, hs, _⟩ := traverseVirtualAddress_spec c hc va hva m inv
    exact ⟨by rw [hr], by rw [hw], hs⟩
  · intro hva
    unfold VMread VMwrite
    rw [if_neg (by omega), if_neg (by omega)]
    exact ⟨rfl, rfl⟩

/-- C18 in the configuration `tiny`, after the two writes of `sampleAccesses`: address 3
is in range, address 16 is not. -/
theorem access_succeeds_in_range_witness :
    ((VMread tiny (runAccesses tiny ( VMinitialize tiny blank) sampleAccesses) 3).1 = 1 ∧
      (VMwrite tiny (runAccesses tiny ( VMinitialize tiny blank) sampleAccesses) 3 8).1 = 1 ∧
      ∀ s ∈ (traverseVirtualAddress tiny
          (runAccesses tiny ( VMinitialize tiny blank) sampleAccesses) 3).selected,
        s.1 ≠ -1 ∧ s.1 ≠ 0 ∧ s.2 = false) ∧
    (VMread tiny (runAccesses tiny ( VMinitialize tiny blank) sampleAccesses) 16 =
        (0, none, runAccesses tiny ( VMinitialize tiny blank) sampleAccesses) ∧
      VMwrite tiny (runAccesses tiny ( VMinitialize tiny blank) sampleAccesses) 16 8 =
        (0, runAccesses tiny ( VMinitialize tiny blank) sampleAccesses)) ∧
    (traverseVirtualAddress tiny
      (runAccesses tiny ( VMinitialize tiny blank) sampleAccesses) 3).selected =
        [(2, false), (3, false)] :=
  ⟨(access_succeeds_in_range tiny sized_tiny blank sampleAccesses 3 8).1 (by decide),
    (access_succeeds_in_range tiny sized_tiny blank sampleAccesses 16 8).2 (by decide),
    by decide⟩

/-- C17 (amended): read after write. With more frames than levels of tables and the
numbers of pages, of frames and of words of a page below 2^31 (`Sized`), after `VMinitialize`
and any sequence of calls of `VMread` and `VMwrite`, `VMread` of an address below
`VIRTUAL_MEMORY_SIZE` returns 1 with the value of the most recent `VMwrite` to that
address, whatever evictions and restores of its page the calls in between have made. -/
theorem read_after_write (c : MemoryConstants) (hc : Sized c) (m0 : PhysicalMemory)
    (l : List Access) (a : Nat) (v : Int) (ha : a < c.VIRTUAL_MEMORY_SIZE)
    (hw : lastWrite a l = some v) :
    (VMread c (runAccesses c ( VMinitialize c m0) l) a).1 = 1 ∧
    (VMread c (runAccesses c ( VMinitialize c m0) l) a).2.1 = some v := by
  obtain ⟨inv, hold⟩ := accesses_spec c hc m0 l
  have hheld := hold a v ha hw
  generalize runAccesses c ( VMinitialize c m0) l = m at *
  have hPS : 0 < c.PAGE_SIZE := by rw [hc.page_size]; positivity
  obtain ⟨leaf, hl, hp, hi, hr⟩ := VMread_spec c hc a ha m inv
  obtain ⟨h1, _, _, h4⟩ := traverseVirtualAddress_spec c hc a ha m inv
  rw [hr]
  refine ⟨rfl, ?_⟩
  show some _ = some v
  congr 1
  rcases h4 _ _ _ (Nat.mod_lt _ hPS) hheld with ⟨x, hx, hxp, hxi, hxv⟩ | ⟨hnot, _⟩
  · have hxl : x = leaf := node_unique_key _ h1.keys x leaf hx hl
      (by
        have a1 : x.levels = 0 := by simpa [Node.isPage] using hxp
        have a2 : leaf.levels = 0 := by simpa [Node.isPage] using hp
        rw [a1, a2])
      (by rw [hxi, hi])
    rw [← hxl]
    exact hxv
  · exact absurd hi (hnot leaf hl hp)

/-- C17 in the configuration `tiny`: 5 is written to address 3 of page 1, the write to
address 12 evicts page 1 to the swap store, and the read of address 3 that follows
restores the page and returns 5. -/
theorem read_after_write_witness :
    ((VMread tiny (runAccesses tiny ( VMinitialize tiny blank) sampleAccesses) 3).1 = 1 ∧
      (VMread tiny (runAccesses tiny ( VMinitialize tiny blank) sampleAccesses) 3).2.1 =
        some 5) ∧
    ((runAccesses tiny ( VMinitialize tiny blank) sampleAccesses).swap 1).isSome = true ∧
    ((VMread tiny (runAccesses tiny ( VMinitialize tiny blank) sampleAccesses) 3).2.2.swap
      1).isSome = false :=
  ⟨read_after_write tiny sized_tiny blank sampleAccesses 3 5 (by decide) (by decide),
    by decide, by decide⟩

set_option maxRecDepth 100000 in
/-- C18 as stated fails when `NUM_PAGES` is beyond the range of `int`. In the configuration
`wide`, with more frames than levels, after `VMinitialize` and a write to address 0 the
nine frames are in the tree; the write to the address 2^32, below `VIRTUAL_MEMORY_SIZE`,
needs a frame, `selectFrameForPage` returns -1, and `VMwrite` returns 0. -/
theorem write_fails_on_wide_pages :
    wide.TABLES_DEPTH < wide.NUM_FRAMES ∧
    wide.PAGE_SIZE = 2 ^ wide.OFFSET_WIDTH ∧
    wide.VIRTUAL_MEMORY_SIZE = wide.NUM_PAGES * wide.PAGE_SIZE ∧
    wide.NUM_PAGES ≤ wide.PAGE_SIZE ^ wide.TABLES_DEPTH ∧
    2 ^ 32 < wide.VIRTUAL_MEMORY_SIZE ∧
    (VMwrite wide (runAccesses wide ( VMinitialize wide blank) [Access.write 0 5])
      (2 ^ 32) 22).1 = 0 ∧
    (traverseVirtualAddress wide (runAccesses wide ( VMinitialize wide blank)
      [Access.write 0 5]) (2 ^ 32)).selected = [(-1, false)] :=
  ⟨by decide, by decide, by decide, by decide, by decide, by decide, by decide⟩

set_option maxRecDepth 100000 in
/-- C17 as stated fails when `NUM_PAGES` is beyond the range of `int`. In the configuration
`wide`, after `VMinitialize`, a write to address 0 and a write of 22 to the address 2^32,
the most recent write to 2^32 is 22, but `VMread` of 2^32 returns 0 and no value: no frame
could be selected for the page of 2^32, in the write and again in the read. -/
theorem read_fails_on_wide_pages :
    wide.TABLES_DEPTH < wide.NUM_FRAMES ∧
    2 ^ 32 < wide.VIRTUAL_MEMORY_SIZE ∧
    lastWrite (2 ^ 32) wideAccesses = some 22 ∧
    (VMread wide (runAccesses wide ( VMinitialize wide blank) wideAccesses) (2 ^ 32)).1 = 0 ∧
    (VMread wide (runAccesses wide ( VMinitialize wide blank) wideAccesses) (2 ^ 32)).2.1 =
      none :=
  ⟨by decide, by decide, by decide, by decide, by decide⟩

end VirtualMemory
